import Mathlib

/-!
# BVH4 fast builder (`kernels/xeon/bvh4/bvh4_builder_fast.cpp`)

A shallow embedding of the recursion driver, the median fallback split, the
leaf emitters and the two build drivers of `BVH4BuilderFast`, followed by the
properties established about them.

Conventions of the embedding:

* `size_t` indices (`begin`, `end`, `numPrimitives`) are natural numbers; the
  only narrowing in the source, `const unsigned int center`, is modelled by
  an explicit `% 2 ^ 32`, and the unsigned subtraction in `size()` wraps
  modulo `2 ^ 64`.
* Floats that are only compared, or combined with `min` and `max`, are
  extended integers (`Flt`); a float that may be NaN is an `Option Flt`.
* Memory is explicit state: the primitive array, the node arena, the leaf
  arena, the root slot, the global heap and the per-thread stacks.
-/

set_option autoImplicit false

namespace embree

/-! ## Scalars, vectors and boxes -/

/-- Non-NaN floats, modelled as integers extended by the two infinities. -/
abbrev Flt := WithBot (WithTop Int)

/-- The float `neg_inf`. -/
def neg_inf : Flt := ⊥

/-- The float `pos_inf`. -/
def pos_inf : Flt := ((⊤ : WithTop Int) : Flt)

/-- Three float lanes (`Vec3fa` without its payload lane). -/
structure Vec3fa where
  x : Flt
  y : Flt
  z : Flt
deriving DecidableEq

/-- Lane-wise minimum. -/
def Vec3fa.min (a b : Vec3fa) : Vec3fa := ⟨Min.min a.x b.x, Min.min a.y b.y, Min.min a.z b.z⟩

/-- Lane-wise maximum. -/
def Vec3fa.max (a b : Vec3fa) : Vec3fa := ⟨Max.max a.x b.x, Max.max a.y b.y, Max.max a.z b.z⟩

/-- Lane-wise sum. -/
def Vec3fa.add (a b : Vec3fa) : Vec3fa := ⟨a.x + b.x, a.y + b.y, a.z + b.z⟩

/-- Lane-wise order. -/
def Vec3fa.le (a b : Vec3fa) : Prop := a.x ≤ b.x ∧ a.y ≤ b.y ∧ a.z ≤ b.z

instance (a b : Vec3fa) : Decidable (Vec3fa.le a b) := by
  unfold Vec3fa.le; infer_instance

/-- Axis-aligned box `BBox3fa`. -/
structure BBox3fa where
  lower : Vec3fa
  upper : Vec3fa
deriving DecidableEq

/-- The box `empty`: lower is `pos_inf`, upper is `neg_inf`. -/
def BBox3fa.empty : BBox3fa :=
  ⟨⟨pos_inf, pos_inf, pos_inf⟩, ⟨neg_inf, neg_inf, neg_inf⟩⟩

/-- `BBox3fa::extend` with a box: componentwise min of lower, max of upper. -/
def BBox3fa.extend (a b : BBox3fa) : BBox3fa :=
  ⟨a.lower.min b.lower, a.upper.max b.upper⟩

/-- `BBox3fa::extend` with a point. -/
def BBox3fa.extendPoint (a : BBox3fa) (p : Vec3fa) : BBox3fa :=
  ⟨a.lower.min p, a.upper.max p⟩

/-- Box `a` contains box `b`. -/
def BBox3fa.contains (a b : BBox3fa) : Prop :=
  Vec3fa.le a.lower b.lower ∧ Vec3fa.le b.upper a.upper

instance (a b : BBox3fa) : Decidable (BBox3fa.contains a b) := by
  unfold BBox3fa.contains; infer_instance

/-- The doubled centre `center2(b) = b.lower + b.upper`. -/
def center2 (b : BBox3fa) : Vec3fa := b.lower.add b.upper

/-- `CentGeomBBox3fa`: geometry bounds and centroid bounds kept together. -/
structure CentGeomBBox3fa where
  geomBounds : BBox3fa
  centBounds : BBox3fa
deriving DecidableEq

/-- `CentGeomBBox3fa::reset`: both boxes become empty. -/
def CentGeomBBox3fa.reset : CentGeomBBox3fa := ⟨BBox3fa.empty, BBox3fa.empty⟩

/-- `CentGeomBBox3fa::extend(b)`: grow the geometry bounds by the box and the
centroid bounds by its doubled centre. -/
def CentGeomBBox3fa.extend (c : CentGeomBBox3fa) (b : BBox3fa) : CentGeomBBox3fa :=
  ⟨c.geomBounds.extend b, c.centBounds.extendPoint (center2 b)⟩

/-! ## Primitive references and build records -/

/-- `PrimRef`: the box of one primitive with its `(geomID, primID)`. -/
structure PrimRef where
  lower : Vec3fa
  upper : Vec3fa
  geomID : Nat
  primID : Nat
deriving DecidableEq

/-- `PrimRef::bounds`. -/
def PrimRef.bounds (p : PrimRef) : BBox3fa := ⟨p.lower, p.upper⟩

/-- The zeroed `PrimRef` that `memset(prims,0,bytesPrims)` leaves behind. -/
def PrimRef.zero : PrimRef := ⟨⟨0, 0, 0⟩, ⟨0, 0, 0⟩, 0, 0⟩

/-- A write-back slot (`BVH4::NodeRef*`): the root of the BVH, child `i` of
the node at index `node` of the node arena, or the null pointer. -/
inductive Slot where
  | null : Slot
  | root : Slot
  | child (node : Nat) (i : Nat) : Slot
deriving DecidableEq

/-- `BuildRecord`: the range `[begin, end)` of `prims`, its bounds, its depth
and the slot its encoded pointer is written to. -/
structure BuildRecord where
  begin : Nat
  end_ : Nat
  geomBounds : BBox3fa
  centBounds : BBox3fa
  depth : Nat
  parent : Slot
deriving DecidableEq

/-- `BuildRecord::size() = end - begin` on `size_t`: the difference wraps
modulo `2 ^ 64` when `end < begin`. -/
def BuildRecord.size (r : BuildRecord) : Nat :=
  if r.begin ≤ r.end_ then r.end_ - r.begin else 2 ^ 64 - (r.begin - r.end_)

/-- A default-constructed record (`BuildRecord left, right;`). -/
def BuildRecord.blank : BuildRecord :=
  ⟨0, 0, BBox3fa.empty, BBox3fa.empty, 0, Slot.null⟩

/-- `BuildRecord::init(bounds, begin, end)`. -/
def BuildRecord.init (r : BuildRecord) (b : CentGeomBBox3fa) (begin end_ : Nat) :
    BuildRecord :=
  { r with geomBounds := b.geomBounds, centBounds := b.centBounds,
           begin := begin, end_ := end_ }

/-- `BuildRecord::init(depth)`. -/
def BuildRecord.initDepth (r : BuildRecord) (depth : Nat) : BuildRecord :=
  { r with depth := depth }

/-- `prims[i]`; a read outside the array yields the zeroed record. -/
def primAt (prims : List PrimRef) (i : Nat) : PrimRef := prims.getD i PrimRef.zero

/-- The scan `for (i = lo; i < hi; i++) box.extend(primref[i].bounds())`
started from a reset `CentGeomBBox3fa`. -/
def scanBounds (prims : List PrimRef) (lo hi : Nat) : CentGeomBBox3fa :=
  (List.range' lo (hi - lo)).foldl (fun acc i => acc.extend (primAt prims i).bounds)
    CentGeomBBox3fa.reset

/-- The local `const unsigned int center = (current.begin + current.end)/2`
of `splitFallback`: the sum and the halving are done in `size_t`, the result
is narrowed to 32 bits. -/
def splitFallback.center (current : BuildRecord) : Nat :=
  ((current.begin + current.end_) % 2 ^ 64 / 2) % 2 ^ 32

/-- `BVH4BuilderFast::splitFallback`: split at the median index; the two
children are initialised with the scanned bounds of `[begin, center)` and
`[center, end)`. The primitive array is only read. -/
def splitFallback (primref : List PrimRef) (current : BuildRecord) :
    BuildRecord × BuildRecord :=
  let center := splitFallback.center current
  let left := scanBounds primref current.begin center
  let leftChild := BuildRecord.blank.init left current.begin center
  let right := scanBounds primref center current.end_
  let rightChild := BuildRecord.blank.init right center current.end_
  (leftChild, rightChild)

/-! ## Nodes, encoded pointers and leaf records -/

/-- An encoded pointer (`BVH4::NodeRef`): the empty node, an interior node
(`encodeNode`), or a leaf block with its item count (`encodeLeaf(ptr, num)`).
Arena indices stand for addresses. -/
inductive NodeRef where
  | empty : NodeRef
  | node (idx : Nat) : NodeRef
  | leaf (ptr : Nat) (num : Nat) : NodeRef
deriving DecidableEq

/-- `bvh->encodeNode(node)`. -/
def encodeNode (idx : Nat) : NodeRef := NodeRef.node idx

/-- `bvh->encodeLeaf(ptr, num)`. -/
def encodeLeaf (ptr : Nat) (num : Nat) : NodeRef := NodeRef.leaf ptr num

/-- `BVH4::N`, the number of child slots of a node. -/
def BVH4.N : Nat := 4

/-- `BVH4::Node`: four child slots, each a box and an encoded pointer. -/
structure Node where
  bounds : List BBox3fa
  children : List NodeRef
deriving DecidableEq

/-- Modelled from the spec: `Node::clear` (declared in `bvh4.h`, not part of
this file) leaves every slot empty: the empty pointer with the box that
cannot be hit. -/
def Node.clear : Node :=
  ⟨List.replicate BVH4.N BBox3fa.empty, List.replicate BVH4.N NodeRef.empty⟩

/-- `Node::set(i, bounds)`: store the box of slot `i`. -/
def Node.set (n : Node) (i : Nat) (b : BBox3fa) : Node :=
  { n with bounds := n.bounds.set i b }

/-- Assignment through `node->child(i)`. -/
def Node.setChild (n : Node) (i : Nat) (r : NodeRef) : Node :=
  { n with children := n.children.set i r }

/-- The slots of a node as pairs of box and pointer. -/
def Node.slots (n : Node) : List (BBox3fa × NodeRef) := n.bounds.zip n.children

/-- Modelled from the spec: `BVH4::compact` (declared in `bvh4.h`, not part
of this file) moves the empty slots to the end; the filled slots keep their
order here. -/
def BVH4.compact (n : Node) : Node :=
  let filled := n.slots.filter (fun s => decide (s.2 ≠ NodeRef.empty))
  let holes := n.slots.filter (fun s => decide (s.2 = NodeRef.empty))
  ⟨(filled ++ holes).map Prod.fst, (filled ++ holes).map Prod.snd⟩

/-- Four lanes: three float lanes and the integer payload of the fourth
(`insert<3>`). Floats of vertices are modelled as integers. -/
structure Vec4 where
  x : Int
  y : Int
  z : Int
  a : Int
deriving DecidableEq

/-- The `ssef` arithmetic that the `Triangle1` emitter takes from the SIMD
headers, which are not part of this file: the lane-wise difference `a - b`
and `cross(a, b)`, both computed in single precision. -/
structure SimdOps where
  sub : Vec4 → Vec4 → Vec4
  cross : Vec4 → Vec4 → Vec4

/-- Three SoA float vectors (`sse3f`, `avx3f`): one list of lanes per axis. -/
structure SoA3f where
  x : List Int
  y : List Int
  z : List Int
deriving DecidableEq

/-- `sse3f v = zero` with `w` lanes. -/
def SoA3f.zero (w : Nat) : SoA3f :=
  ⟨List.replicate w 0, List.replicate w 0, List.replicate w 0⟩

/-- A `Triangle1` record as stored by the four `store4f_nt`. -/
structure Triangle1 where
  v0 : Vec4
  v1 : Vec4
  v2 : Vec4
  Ng : Vec4
deriving DecidableEq

/-- A `Triangle1v` record as stored by the three `store4f_nt`. -/
structure Triangle1v where
  v0 : Vec4
  v1 : Vec4
  v2 : Vec4
deriving DecidableEq

/-- The arguments handed to the `Triangle4`, `Triangle4v` and `Triangle8`
constructors: three SoA vertices and the id and mask lanes. -/
structure TriangleSoA where
  v0 : SoA3f
  v1 : SoA3f
  v2 : SoA3f
  geomID : List Int
  primID : List Int
  mask : List Int
deriving DecidableEq

/-- The arguments handed to the `Triangle4i` constructor: the addresses of
the first vertices, the `int` offsets to the two others, and the id lanes. -/
structure Triangle4i where
  v0 : List Int
  v1 : List Int
  v2 : List Int
  geomID : List Int
  primID : List Int
deriving DecidableEq

/-- One block of the primitive arena, as written by one `createSmallLeaf`. -/
inductive LeafBlock where
  | tri1 (recs : List Triangle1) : LeafBlock
  | tri4 (t : TriangleSoA) : LeafBlock
  | tri8 (t : TriangleSoA) : LeafBlock
  | tri1v (recs : List Triangle1v) : LeafBlock
  | tri4v (t : TriangleSoA) : LeafBlock
  | tri4i (t : Triangle4i) : LeafBlock
deriving DecidableEq

/-! ## The scene collaborator -/

/-- `TriangleMesh::Triangle`: three vertex indices. -/
structure Triangle where
  v0 : Nat
  v1 : Nat
  v2 : Nat
deriving DecidableEq

/-- A vertex of a mesh (`Vec3fa`); floats are modelled as integers. -/
structure Vertex where
  x : Int
  y : Int
  z : Int
deriving DecidableEq

/-- The part of `TriangleMesh` the builder reads. `vertexAddr` is the byte
address of the vertex array, whose elements are 16 bytes wide. -/
structure TriangleMesh where
  numTimeSteps : Nat
  numTriangles : Nat
  numVertices : Nat
  triangles : List Triangle
  vertices : List Vertex
  mask : Nat
  vertexAddr : Nat
deriving DecidableEq

/-- `mesh->triangle(i)`. -/
def TriangleMesh.triangle (m : TriangleMesh) (i : Nat) : Triangle :=
  m.triangles.getD i ⟨0, 0, 0⟩

/-- `mesh->vertex(i)`. -/
def TriangleMesh.vertex (m : TriangleMesh) (i : Nat) : Vertex :=
  m.vertices.getD i ⟨0, 0, 0⟩

/-- A geometry slot of the scene: a null pointer, a triangle mesh, or a
geometry of another type. -/
inductive Geometry where
  | null : Geometry
  | triangleMesh (m : TriangleMesh) : Geometry
  | other : Geometry
deriving DecidableEq

/-- The scene: its geometries by index. -/
abbrev Scene := List Geometry

/-- The mesh without triangles that stands for an invalid `geomID`. -/
def TriangleMesh.none : TriangleMesh := ⟨1, 0, 0, [], [], 0, 0⟩

/-- `scene->getTriangleMesh(geomID)`. -/
def Scene.getTriangleMesh (s : Scene) (geomID : Nat) : TriangleMesh :=
  match s.getD geomID Geometry.null with
  | Geometry.triangleMesh m => m
  | _ => TriangleMesh.none

/-! ## Builder parameters and build state -/

/-- The triangle layout a builder subclass emits (selects `createSmallLeaf`). -/
inductive Layout where
  | triangle1 : Layout
  | triangle4 : Layout
  | triangle8 : Layout
  | triangle1v : Layout
  | triangle4v : Layout
  | triangle4i : Layout
deriving DecidableEq

/-- The recursion modes of `recurse`. -/
inductive Mode where
  | BUILD_TOP_LEVEL : Mode
  | RECURSE_SEQUENTIAL : Mode
  | RECURSE_PARALLEL : Mode
deriving DecidableEq

/-- `THRESHOLD_FOR_SUBTREE_RECURSION`. -/
def THRESHOLD_FOR_SUBTREE_RECURSION : Nat := 128

/-- What a binner hands back after partitioning: the permuted primitive array
and, for each side, the arguments of `BuildRecord::init(bounds, begin, end)`. -/
structure SplitOut where
  prims : List PrimRef
  lbounds : CentGeomBBox3fa
  lbegin : Nat
  lend : Nat
  rbounds : CentGeomBBox3fa
  rbegin : Nat
  rend : Nat

/-- The signature of a binner: primitive array, `begin`, `end`, geometry
bounds and centroid bounds of the record; `none` when no split was found. -/
abbrev Binner := List PrimRef → Nat → Nat → BBox3fa → BBox3fa → Option SplitOut

/-- The builder with everything this file takes from elsewhere: the layout
and `minLeafSize` fixed by the subclass constructor, the constants
`BVH4::maxBuildDepth` and `BVH4::maxBuildDepthLeaf`, the scene, the float
function `area` behind `sceneArea()`, the sequential binner
(`ObjectPartition::find` followed by `Split::partition`; `none` stands for
`split.pos == -1`), the parallel binner (`none` stands for `sah == inf`), the
capacity of a thread stack, and the `ssef` arithmetic of the SIMD headers. -/
structure Env where
  layout : Layout
  minLeafSize : Nat
  maxBuildDepth : Nat
  maxBuildDepthLeaf : Nat
  scene : Scene
  area : BBox3fa → Option Flt
  objectSplit : Binner
  parallelSplit : Binner
  stackSize : Nat
  simd : SimdOps

/-- The memory the build works on. `leafCalls`, `writes` and `setLog` are
histories kept for the statements, in program order: the records
`createSmallLeaf` was called on, each with the primitives it read; the
stores made through parent slots; and the calls `node->set(i, bounds)` with
the child record whose bounds were stored. The allocators hand out fresh
arena cells and are taken not to run out of reserved memory. -/
structure State where
  prims : List PrimRef
  nodes : List Node
  leaves : List LeafBlock
  root : NodeRef
  bounds : BBox3fa
  heap : List BuildRecord
  threadStack : List (List BuildRecord)
  leafCalls : List (BuildRecord × List PrimRef)
  writes : List (Slot × NodeRef)
  setLog : List (Nat × Nat × BuildRecord)
deriving DecidableEq

/-- The errors a build can end with: the `runtime_error` of `createLeaf`, and
the exhaustion of the recursion budget of the embedding. -/
inductive Err where
  | depthLimit : Err
  | outOfFuel : Err
deriving DecidableEq

/-- How a call ends: normally, or by an exception, each with the memory it
leaves behind. -/
inductive Outcome where
  | done (s : State) : Outcome
  | fail (e : Err) (s : State) : Outcome
deriving DecidableEq

/-- The store `*slot = ref`. -/
def State.store (st : State) (slot : Slot) (ref : NodeRef) : State :=
  let st1 := { st with writes := st.writes ++ [(slot, ref)] }
  match slot with
  | Slot.null => st1
  | Slot.root => { st1 with root := ref }
  | Slot.child n i =>
    { st1 with nodes := st1.nodes.set n ((st1.nodes.getD n Node.clear).setChild i ref) }

/-- `node->set(i, children[i].geomBounds)` on the node at index `n` of the
arena, for the child record `c`. -/
def State.setBounds (st : State) (n i : Nat) (c : BuildRecord) : State :=
  { st with nodes := st.nodes.set n ((st.nodes.getD n Node.clear).set i c.geomBounds),
            setLog := st.setLog ++ [(n, i, c)] }

/-- `nodeAlloc.malloc(sizeof(Node)); node->clear()`: a fresh cleared node at
the end of the arena; returns its index. -/
def State.allocNode (st : State) : Nat × State :=
  (st.nodes.length, { st with nodes := st.nodes ++ [Node.clear] })

/-- `BVH4::compact(node)` on the node at index `n` of the arena. -/
def State.compact (st : State) (n : Nat) : State :=
  { st with nodes := st.nodes.set n (BVH4.compact (st.nodes.getD n Node.clear)) }

/-! ## Leaf emitters -/

/-- Narrowing of an unsigned value to a signed 32-bit lane. -/
def toInt32 (n : Nat) : Int := Int.ofNat ((n + 2 ^ 31) % 2 ^ 32) - 2 ^ 31

/-- `select(0x7, (ssef) vertex, zero)`: the three coordinates, fourth lane 0. -/
def selectXYZ (v : Vertex) : Vec4 := ⟨v.x, v.y, v.z, 0⟩

/-- `insert<3>(v, k)`: replace the fourth lane by the integer `k`. -/
def insert3 (v : Vec4) (k : Int) : Vec4 := { v with a := k }

/-- The body of the loop of `BVH4Triangle1BuilderFast::createSmallLeaf` for
the primitive `prims[start+i]`: the record stored into `accel[i]`. The
difference and the cross product are those of the SIMD headers. -/
def triangle1Record (ops : SimdOps) (scene : Scene) (p : PrimRef) : Triangle1 :=
  let geomID := p.geomID
  let primID := p.primID
  let mesh := scene.getTriangleMesh geomID
  let tri := mesh.triangle primID
  let v0 := selectXYZ (mesh.vertex tri.v0)
  let v1 := selectXYZ (mesh.vertex tri.v1)
  let v2 := selectXYZ (mesh.vertex tri.v2)
  let e1 := ops.sub v0 v1
  let e2 := ops.sub v2 v0
  let normal := ops.cross e1 e2
  ⟨insert3 v0 (toInt32 primID), insert3 v1 (toInt32 geomID),
   insert3 v2 (toInt32 mesh.mask), insert3 normal 0⟩

/-- The body of the loop of `BVH4Triangle1vBuilderFast::createSmallLeaf`. -/
def triangle1vRecord (scene : Scene) (p : PrimRef) : Triangle1v :=
  let geomID := p.geomID
  let primID := p.primID
  let mesh := scene.getTriangleMesh geomID
  let tri := mesh.triangle primID
  let v0 := selectXYZ (mesh.vertex tri.v0)
  let v1 := selectXYZ (mesh.vertex tri.v1)
  let v2 := selectXYZ (mesh.vertex tri.v2)
  ⟨insert3 v0 (toInt32 primID), insert3 v1 (toInt32 geomID),
   insert3 v2 (toInt32 mesh.mask)⟩

/-- Store lane `i` of an SoA vertex: `v.x[i] = p.x; v.y[i] = p.y; v.z[i] = p.z`. -/
def SoA3f.setLane (v : SoA3f) (i : Nat) (p : Vertex) : SoA3f :=
  ⟨v.x.set i p.x, v.y.set i p.y, v.z.set i p.z⟩

/-- The initial values `vgeomID = -1, vprimID = -1, vmask = -1` and
`v0 = v1 = v2 = zero` for `w` lanes. -/
def TriangleSoA.init (w : Nat) : TriangleSoA :=
  ⟨SoA3f.zero w, SoA3f.zero w, SoA3f.zero w,
   List.replicate w (-1), List.replicate w (-1), List.replicate w (-1)⟩

/-- One iteration of the lane-filling loop shared by the `Triangle4`,
`Triangle8` and `Triangle4v` emitters: write lane `i` from `prims[start+i]`. -/
def soaStep (scene : Scene) (prims : List PrimRef) (start : Nat) (t : TriangleSoA)
    (i : Nat) : TriangleSoA :=
  let geomID := (primAt prims (start + i)).geomID
  let primID := (primAt prims (start + i)).primID
  let mesh := scene.getTriangleMesh geomID
  let tri := mesh.triangle primID
  let p0 := mesh.vertex tri.v0
  let p1 := mesh.vertex tri.v1
  let p2 := mesh.vertex tri.v2
  { v0 := t.v0.setLane i p0, v1 := t.v1.setLane i p1, v2 := t.v2.setLane i p2,
    geomID := t.geomID.set i (toInt32 geomID),
    primID := t.primID.set i (toInt32 primID),
    mask := t.mask.set i (toInt32 mesh.mask) }

/-- The loop `for (i = 0; i < items; i++)` of the SoA emitters, for `w` lanes. -/
def soaFill (scene : Scene) (prims : List PrimRef) (start items w : Nat) : TriangleSoA :=
  (List.range items).foldl (soaStep scene prims start) (TriangleSoA.init w)

/-- Byte address of vertex `i` of a mesh (`&mesh->vertex(i)`). -/
def TriangleMesh.vertexPtr (m : TriangleMesh) (i : Nat) : Int :=
  Int.ofNat m.vertexAddr + 16 * Int.ofNat i

/-- Difference of two addresses in units of `int` (`(int*) p - (int*) q`),
narrowed to the 32-bit lane it is stored in. -/
def intOffset (p q : Int) : Int :=
  ((p - q) / 4 + 2 ^ 31) % 2 ^ 32 - 2 ^ 31

/-- The first loop of `BVH4Triangle4iBuilderFast::createSmallLeaf`. -/
def tri4iStep (scene : Scene) (prims : List PrimRef) (start : Nat) (t : Triangle4i)
    (i : Nat) : Triangle4i :=
  let prim := primAt prims (start + i)
  let mesh := scene.getTriangleMesh prim.geomID
  let tri := mesh.triangle prim.primID
  let a0 := mesh.vertexPtr tri.v0
  { geomID := t.geomID.set i (toInt32 prim.geomID),
    primID := t.primID.set i (toInt32 prim.primID),
    v0 := t.v0.set i a0,
    v1 := t.v1.set i (intOffset (mesh.vertexPtr tri.v1) a0),
    v2 := t.v2.set i (intOffset (mesh.vertexPtr tri.v2) a0) }

/-- The second loop of `BVH4Triangle4iBuilderFast::createSmallLeaf`: the
unused slots copy `v0[0]` and get zero offsets. -/
def tri4iPad (t : Triangle4i) (i : Nat) : Triangle4i :=
  { geomID := t.geomID.set i (-1),
    primID := t.primID.set i (-1),
    v0 := t.v0.set i (t.v0.getD 0 0),
    v1 := t.v1.set i 0,
    v2 := t.v2.set i 0 }

/-- Both loops of the `Triangle4i` emitter, from `geomID = primID = -1`,
`v0 = { NULL, .. }`, `v1 = v2 = zero`. -/
def tri4iFill (scene : Scene) (prims : List PrimRef) (start items : Nat) : Triangle4i :=
  let t0 : Triangle4i :=
    ⟨List.replicate 4 0, List.replicate 4 0, List.replicate 4 0,
     List.replicate 4 (-1), List.replicate 4 (-1)⟩
  let t1 := (List.range items).foldl (tri4iStep scene prims start) t0
  (List.range' items (4 - items)).foldl tri4iPad t1

/-- The primitives `prims[start+i]`, `i < items`, that an emitter reads. -/
def leafPrims (prims : List PrimRef) (current : BuildRecord) : List PrimRef :=
  (List.range current.size).map (fun i => primAt prims (current.begin + i))

/-- The block a layout writes for the record `current`, and the item count
it passes to `encodeLeaf`: `items` for `Triangle1` and `Triangle1v`, `1` for
the SoA layouts. -/
def leafBlock (env : Env) (prims : List PrimRef) (current : BuildRecord) :
    LeafBlock × Nat :=
  let items := current.size
  let start := current.begin
  match env.layout with
  | Layout.triangle1 =>
    (LeafBlock.tri1 ((List.range items).map
      (fun i => triangle1Record env.simd env.scene (primAt prims (start + i)))), items)
  | Layout.triangle4 => (LeafBlock.tri4 (soaFill env.scene prims start items 4), 1)
  | Layout.triangle8 => (LeafBlock.tri8 (soaFill env.scene prims start items 8), 1)
  | Layout.triangle1v =>
    (LeafBlock.tri1v ((List.range items).map
      (fun i => triangle1vRecord env.scene (primAt prims (start + i)))), items)
  | Layout.triangle4v => (LeafBlock.tri4v (soaFill env.scene prims start items 4), 1)
  | Layout.triangle4i => (LeafBlock.tri4i (tri4iFill env.scene prims start items), 1)

/-- The virtual `createSmallLeaf(This, current, leafAlloc, threadID)`: allocate
the block at the end of the primitive arena, store `encodeLeaf(accel, num)`
through `current.parent`, and fill the block from `prims[begin..end)`. -/
def createSmallLeaf (env : Env) (current : BuildRecord) (st : State) : State :=
  let accel := st.leaves.length
  let blk := leafBlock env st.prims current
  let st1 := { st with leafCalls := st.leafCalls ++ [(current, leafPrims st.prims current)] }
  let st2 := st1.store current.parent (encodeLeaf accel blk.2)
  { st2 with leaves := st2.leaves ++ [blk.1] }

/-! ## Splitting -/

/-- The two records a binner result initialises. -/
def SplitOut.records (o : SplitOut) : BuildRecord × BuildRecord :=
  (BuildRecord.blank.init o.lbounds o.lbegin o.lend,
   BuildRecord.blank.init o.rbounds o.rbegin o.rend)

/-- `BVH4BuilderFast::splitSequential`: the object binner, or the median
fallback when it finds no split. Returns the primitive array after the split
and the two children. -/
def splitSequential (env : Env) (prims : List PrimRef) (current : BuildRecord) :
    List PrimRef × BuildRecord × BuildRecord :=
  match env.objectSplit prims current.begin current.end_ current.geomBounds
      current.centBounds with
  | none => (prims, splitFallback prims current)
  | some o => (o.prims, o.records)

/-- `BVH4BuilderFast::splitParallel`: the parallel binner, or the median
fallback when it reports `inf`. -/
def splitParallel (env : Env) (prims : List PrimRef) (current : BuildRecord) :
    List PrimRef × BuildRecord × BuildRecord :=
  match env.parallelSplit prims current.begin current.end_ current.geomBounds
      current.centBounds with
  | none => (prims, splitFallback prims current)
  | some o => (o.prims, o.records)

/-- `BVH4BuilderFast::split`: dispatch on the mode. -/
def split (env : Env) (mode : Mode) (prims : List PrimRef) (current : BuildRecord) :
    List PrimRef × BuildRecord × BuildRecord :=
  if mode = Mode.BUILD_TOP_LEVEL then splitParallel env prims current
  else splitSequential env prims current

/-! ## Leaf creation at the depth limit -/

/-- Run `body i c` over the children in index order, starting at index `i`,
stopping at the first exception. -/
def forChildren (body : Nat → BuildRecord → State → Outcome) :
    Nat → List BuildRecord → State → Outcome
  | _, [], st => Outcome.done st
  | i, c :: cs, st =>
    match body i c st with
    | Outcome.done st1 => forChildren body (i + 1) cs st1
    | Outcome.fail e s => Outcome.fail e s

/-- `BVH4BuilderFast::createLeaf` with a recursion budget: throw above
`maxBuildDepthLeaf`; emit a small leaf for at most `minLeafSize` primitives;
otherwise split twice by the median fallback, allocate a node, publish it,
and call `createLeaf` on the four children at `depth + 1`; finally compact
the node. -/
def createLeafF (env : Env) : Nat → BuildRecord → State → Outcome
  | 0, _, st => Outcome.fail Err.outOfFuel st
  | fuel + 1, current, st =>
    if current.depth > env.maxBuildDepthLeaf then Outcome.fail Err.depthLimit st
    else if current.size ≤ env.minLeafSize then
      Outcome.done (createSmallLeaf env current st)
    else
      let s01 := splitFallback st.prims current
      let c01 := splitFallback st.prims s01.1
      let c23 := splitFallback st.prims s01.2
      let children := [c01.1, c01.2, c23.1, c23.2]
      let (node, st1) := st.allocNode
      let st2 := st1.store current.parent (encodeNode node)
      match forChildren (fun i c s =>
          createLeafF env fuel
            { c with parent := Slot.child node i, depth := current.depth + 1 }
            (s.setBounds node i c)) 0 children st2 with
      | Outcome.done st3 => Outcome.done (st3.compact node)
      | Outcome.fail e s => Outcome.fail e s

/-- `BVH4BuilderFast::createLeaf`: every nested call is one level deeper and
the call throws above `maxBuildDepthLeaf`, so this budget is never used up. -/
def createLeaf (env : Env) (current : BuildRecord) (st : State) : Outcome :=
  createLeafF env (env.maxBuildDepthLeaf + 1 - current.depth + 1) current st

/-! ## The recursion driver -/

/-- The float test `area > bestArea`; false when the area is NaN. -/
def areaGt (a : Option Flt) (best : Flt) : Bool :=
  match a with
  | some x => decide (best < x)
  | none => false

/-- `BuildRecord::sceneArea()`. -/
def sceneArea (env : Env) (r : BuildRecord) : Option Flt := env.area r.geomBounds

/-- One iteration of the search loop: the pair `(bestChild, bestArea)` after
looking at child `i`. -/
def bestStep (env : Env) (acc : Option Nat × Flt) (ic : Nat × BuildRecord) :
    Option Nat × Flt :=
  if ic.2.size ≤ env.minLeafSize then acc
  else
    match sceneArea env ic.2 with
    | some x => if acc.2 < x then (some ic.1, x) else acc
    | none => acc

/-- The search for the child with the largest area among those with more
than `minLeafSize` primitives; `none` stands for `bestChild == -1`. -/
def findBestChild (env : Env) (children : List BuildRecord) : Option Nat :=
  (children.enum.foldl (bestStep env) (none, neg_inf)).1

/-- The update of the children array after a split:
`children[bestChild] = children[numChildren-1]; children[numChildren-1] = left;
children[numChildren] = right; numChildren++`. -/
def placeChildren (children : List BuildRecord) (bestChild : Nat)
    (left right : BuildRecord) : List BuildRecord :=
  let numChildren := children.length
  let c1 := children.set bestChild (children.getD (numChildren - 1) BuildRecord.blank)
  let c2 := c1.set (numChildren - 1) left
  c2 ++ [right]

/-- The `do .. while (numChildren < BVH4::N)` loop of `recurse`; `k` bounds
the iterations left (`BVH4::N - numChildren`). Returns the children and the
primitive array. -/
def expandLoop (env : Env) (mode : Mode) (depth : Nat) :
    Nat → List BuildRecord → List PrimRef → List BuildRecord × List PrimRef
  | 0, children, prims => (children, prims)
  | k + 1, children, prims =>
    match findBestChild env children with
    | none => (children, prims)
    | some bestChild =>
      let r := split env mode prims (children.getD bestChild BuildRecord.blank)
      let left := r.2.1.initDepth (depth + 1)
      let right := r.2.2.initDepth (depth + 1)
      expandLoop env mode depth k (placeChildren children bestChild left right) r.1

/-- Modelled from the spec: `g_state->heap.push(current)` (the heap is declared
in the builder header, not part of this file) adds the record to the heap. -/
def State.heapPush (st : State) (r : BuildRecord) : State :=
  { st with heap := st.heap ++ [r] }

/-- Modelled from the spec: `g_state->threadStack[threadID].push(current)`
(the stacks are declared in the builder header, not part of this file) puts
the record on top of the stack of the thread, and fails when the stack, which
is bounded, already holds `stackSize` records. -/
def State.stackPush (env : Env) (st : State) (threadID : Nat) (r : BuildRecord) :
    Option State :=
  let stack := st.threadStack.getD threadID []
  if stack.length < env.stackSize then
    some { st with threadStack := st.threadStack.set threadID (r :: stack) }
  else none

/-- `BVH4BuilderFast::recurse_continue`: push on the heap at top level; in
parallel recursion push large children on the thread stack and recurse
sequentially when the push fails; recurse in the same mode otherwise.
`recurse` is the recursion driver to call. -/
def recurse_continue (env : Env) (recurse : Mode → BuildRecord → State → Outcome)
    (mode : Mode) (threadID : Nat) (current : BuildRecord) (st : State) : Outcome :=
  if mode = Mode.BUILD_TOP_LEVEL then Outcome.done (st.heapPush current)
  else if mode = Mode.RECURSE_PARALLEL ∧ current.size > THRESHOLD_FOR_SUBTREE_RECURSION then
    match st.stackPush env threadID current with
    | some st1 => Outcome.done st1
    | none => recurse Mode.RECURSE_SEQUENTIAL current st
  else recurse mode current st

/-- `BVH4BuilderFast::recurse` with a recursion budget. -/
def recurseF (env : Env) (threadID : Nat) : Nat → Mode → BuildRecord → State → Outcome
  | 0, _, _, st => Outcome.fail Err.outOfFuel st
  | fuel + 1, mode, current, st =>
    if current.depth ≥ env.maxBuildDepth ∨ current.size ≤ env.minLeafSize then
      createLeaf env current st
    else
      let e := expandLoop env mode current.depth (BVH4.N - 1) [current] st.prims
      let children := e.1
      let st0 := { st with prims := e.2 }
      if children.length = 1 then createLeaf env current st0
      else
        let (node, st1) := st0.allocNode
        let st2 := st1.store current.parent (encodeNode node)
        forChildren (fun i c s =>
          recurse_continue env (fun m r s1 => recurseF env threadID fuel m r s1) mode threadID
            { c with parent := Slot.child node i }
            (s.setBounds node i c)) 0 children st2

/-- `BVH4BuilderFast::recurse`: every nested call is one level deeper and the
driver hands over to `createLeaf` from `maxBuildDepth` on, so this budget is
never used up. -/
def recurse (env : Env) (threadID : Nat) (mode : Mode) (current : BuildRecord)
    (st : State) : Outcome :=
  recurseF env threadID (env.maxBuildDepth - current.depth + 1) mode current st

/-! ## The build drivers -/

/-- The initial build record: `br.init(pinfo, 0, numPrimitives); br.depth = 1;
br.parent = &bvh->root`. -/
def rootRecord (pinfo : CentGeomBBox3fa) (numPrimitives : Nat) : BuildRecord :=
  { BuildRecord.blank.init pinfo 0 numPrimitives with depth := 1, parent := Slot.root }

/-- The memory at the start of a build: `bvh->init(0)` has emptied the root,
both allocators are reset, the generator has filled `prims`, and
`bvh->bounds = pinfo.geomBounds`. -/
def initialState (prims : List PrimRef) (pinfo : CentGeomBBox3fa) : State :=
  { prims := prims, nodes := [], leaves := [], root := NodeRef.empty,
    bounds := pinfo.geomBounds, heap := [], threadStack := [],
    leafCalls := [], writes := [], setLog := [] }

/-- `BVH4BuilderFast::build_sequential`, given what the generator
`generate_sequential` produced: the filled primitive array and its `pinfo`. -/
def build_sequential (env : Env) (threadIndex : Nat) (numPrimitives : Nat)
    (prims : List PrimRef) (pinfo : CentGeomBBox3fa) : Outcome :=
  recurse env threadIndex Mode.RECURSE_SEQUENTIAL (rootRecord pinfo numPrimitives)
    (initialState prims pinfo)

/-- Modelled from the spec: `heap.pop` of the global work heap (declared in
the builder header, not part of this file) removes a record of largest
`size()`; among equally large records the one pushed first is taken here. -/
def heapPop : List BuildRecord → Option (BuildRecord × List BuildRecord)
  | [] => none
  | r :: rs =>
    match heapPop rs with
    | none => some (r, [])
    | some (m, rest) =>
      if r.size ≥ m.size then some (r, rs) else some (m, r :: rest)

/-- The loop `while (g_state->heap.size() < threadCount)` of `build_parallel`:
pop the largest record; stop when the heap is empty or the record has at most
`minLeafSize` primitives; otherwise expand it in `BUILD_TOP_LEVEL` mode.
`fuel` bounds the number of iterations. -/
def topLevelLoop (env : Env) (threadIndex threadCount : Nat) : Nat → State → Outcome
  | 0, st => Outcome.fail Err.outOfFuel st
  | fuel + 1, st =>
    if st.heap.length < threadCount then
      match heapPop st.heap with
      | none => Outcome.done st
      | some (br, rest) =>
        let st1 := { st with heap := rest }
        if br.size ≤ env.minLeafSize then Outcome.done st1
        else
          match recurse env threadIndex Mode.BUILD_TOP_LEVEL br st1 with
          | Outcome.done st2 => topLevelLoop env threadIndex threadCount fuel st2
          | Outcome.fail e s => Outcome.fail e s
    else Outcome.done st

/-- `BVH4BuilderFast::build_parallel` up to the dispatch of `buildSubTrees`:
reset the thread stacks and the heap, push the root record, and run the
top-level loop. -/
def build_parallel_toplevel (env : Env) (threadIndex threadCount : Nat)
    (numPrimitives : Nat) (prims : List PrimRef) (pinfo : CentGeomBBox3fa)
    (fuel : Nat) : Outcome :=
  let st0 := initialState prims pinfo
  let st1 := { st0 with threadStack := List.replicate threadCount [] }
  let st2 := { st1 with heap := [] }
  let st3 := st2.heapPush (rootRecord pinfo numPrimitives)
  topLevelLoop env threadIndex threadCount fuel st3

/-! ## Observations on a finished build -/

/-- The range `[begin, end)` of a record as the list of its indices. -/
def BuildRecord.indices (r : BuildRecord) : List Nat := List.range' r.begin (r.end_ - r.begin)

/-- The primitives of `prims[begin..end)` in array order. -/
def BuildRecord.primsOf (r : BuildRecord) (prims : List PrimRef) : List PrimRef :=
  r.indices.map (primAt prims)

/-- The `(geomID, primID)` pair of a primitive. -/
def PrimRef.ids (p : PrimRef) : Nat × Nat := (p.geomID, p.primID)

/-- Case test for a normal end. -/
def Outcome.isDone : Outcome → Bool
  | Outcome.done _ => true
  | Outcome.fail _ _ => false

/-- The memory an outcome leaves behind. -/
def Outcome.state : Outcome → State
  | Outcome.done s => s
  | Outcome.fail _ s => s

/-- The error of an outcome, if any. -/
def Outcome.error : Outcome → Option Err
  | Outcome.done _ => none
  | Outcome.fail e _ => some e

/-! ## Notions used in the statements -/

/-- The condition under which `createLeaf` at depth `d` on `n` primitives
runs into the depth limit. -/
def depthLimitHit (env : Env) (d n : Nat) : Prop :=
  d > env.maxBuildDepthLeaf ∨ n > env.minLeafSize * 4 ^ (env.maxBuildDepthLeaf - d)

/-- A point with three equal integer coordinates. -/
def diagPoint (a : Int) : Vec3fa := ⟨(a : Int), (a : Int), (a : Int)⟩

/-- A sample primitive: the unit cube at `(i, i, i)`, triangle `i` of mesh 0. -/
def samplePrim (i : Nat) : PrimRef := ⟨diagPoint i, diagPoint (i + 1), 0, i⟩

/-- The first `n` sample primitives. -/
def samplePrims (n : Nat) : List PrimRef := (List.range n).map samplePrim

/-- Rounding of an integer to the nearest integer that a single-precision
float holds (24-bit significand, ties to even); integers stand for
integer-valued floats, and overflow to infinity is left out. -/
def roundF32 (x : Int) : Int :=
  let a := x.natAbs
  let e := ((List.range 104).filter (fun k => decide (2 ^ (24 + k) ≤ a))).length
  let q := a / 2 ^ e
  let r := a % 2 ^ e
  let q1 := if 2 * r > 2 ^ e ∨ (2 * r = 2 ^ e ∧ q % 2 = 1) then q + 1 else q
  x.sign * ((q1 * 2 ^ e : Nat) : Int)

/-- A sample of the `ssef` arithmetic: IEEE single precision on
integer-valued floats, each difference and each product rounded on its own,
`cross(a, b) = (a.y b.z - a.z b.y, a.z b.x - a.x b.z, a.x b.y - a.y b.x, 0)`. -/
def ieeeSimd : SimdOps where
  sub := fun a b =>
    ⟨roundF32 (a.x - b.x), roundF32 (a.y - b.y), roundF32 (a.z - b.z), roundF32 (a.a - b.a)⟩
  cross := fun a b =>
    ⟨roundF32 (roundF32 (a.y * b.z) - roundF32 (a.z * b.y)),
     roundF32 (roundF32 (a.z * b.x) - roundF32 (a.x * b.z)),
     roundF32 (roundF32 (a.x * b.y) - roundF32 (a.y * b.x)), 0⟩

/-- A scene of one mesh with the vertices `(0,0,0)`, `(-4097,0,0)` and
`(0,4097,0)` and the triangle over them, whose normal `4097 * 4097` is not a
single-precision float. -/
def normalScene : Scene :=
  [Geometry.triangleMesh
    ⟨1, 1, 3, [⟨0, 1, 2⟩], [⟨0, 0, 0⟩, ⟨-4097, 0, 0⟩, ⟨0, 4097, 0⟩], 1, 0⟩]

/-- A builder whose binners never find a split, so that every split is the
median fallback; depth limits of 32 and 48, a constant area. -/
def fallbackEnv (layout : Layout) (minLeafSize : Nat) : Env where
  layout := layout
  minLeafSize := minLeafSize
  maxBuildDepth := 32
  maxBuildDepthLeaf := 48
  scene := []
  area := fun _ => some 1
  objectSplit := fun _ _ _ _ _ => none
  parallelSplit := fun _ _ _ _ _ => none
  stackSize := 64
  simd := ieeeSimd

/-- What one lane of an SoA leaf record holds. -/
structure SoALane where
  geomID : Int
  primID : Int
  mask : Int
  v0 : Vertex
  v1 : Vertex
  v2 : Vertex
deriving DecidableEq

/-- Lane `i` of an SoA vertex. -/
def SoA3f.lane (v : SoA3f) (i : Nat) : Vertex := ⟨v.x.getD i 0, v.y.getD i 0, v.z.getD i 0⟩

/-- Lane `i` of an SoA leaf record. -/
def TriangleSoA.lane (t : TriangleSoA) (i : Nat) : SoALane :=
  ⟨t.geomID.getD i 0, t.primID.getD i 0, t.mask.getD i 0, t.v0.lane i, t.v1.lane i, t.v2.lane i⟩

/-- The lane of a primitive: its ids and the mask of its mesh as 32-bit
lanes, and the three vertices of its triangle. -/
def laneOf (scene : Scene) (p : PrimRef) : SoALane :=
  let mesh := scene.getTriangleMesh p.geomID
  let tri := mesh.triangle p.primID
  ⟨toInt32 p.geomID, toInt32 p.primID, toInt32 mesh.mask,
   mesh.vertex tri.v0, mesh.vertex tri.v1, mesh.vertex tri.v2⟩

/-- An unused lane: ids and mask `-1`, vertices zero. -/
def unusedLane : SoALane := ⟨-1, -1, -1, ⟨0, 0, 0⟩, ⟨0, 0, 0⟩, ⟨0, 0, 0⟩⟩

/-- The lanes of an SoA record all have width `w`. -/
def TriangleSoA.width (t : TriangleSoA) (w : Nat) : Prop :=
  t.geomID.length = w ∧ t.primID.length = w ∧ t.mask.length = w ∧
  t.v0.x.length = w ∧ t.v0.y.length = w ∧ t.v0.z.length = w ∧
  t.v1.x.length = w ∧ t.v1.y.length = w ∧ t.v1.z.length = w ∧
  t.v2.x.length = w ∧ t.v2.y.length = w ∧ t.v2.z.length = w

/-- The SoA record inside a leaf block, if the block is of an SoA layout. -/
def LeafBlock.soa : LeafBlock → Option TriangleSoA
  | LeafBlock.tri4 t => some t
  | LeafBlock.tri8 t => some t
  | LeafBlock.tri4v t => some t
  | _ => none

/-- The lane count of an SoA layout. -/
def Layout.lanes : Layout → Option Nat
  | Layout.triangle4 => some 4
  | Layout.triangle4v => some 4
  | Layout.triangle8 => some 8
  | _ => none

/-- A binner that splits off the first primitive of the range without moving
anything: left is `[begin, begin+1)`, right is `[begin+1, end)`, each with
the scanned bounds of its range. -/
def peelBinner : Binner := fun prims begin end_ _ _ =>
  some { prims := prims,
         lbounds := scanBounds prims begin (begin + 1), lbegin := begin, lend := begin + 1,
         rbounds := scanBounds prims (begin + 1) end_, rbegin := begin + 1, rend := end_ }

/-- A builder whose binners peel one primitive per split, the most
unbalanced partition a binner can return; depth limits of 32 and 48. -/
def peelEnv (layout : Layout) (minLeafSize : Nat) : Env where
  layout := layout
  minLeafSize := minLeafSize
  maxBuildDepth := 32
  maxBuildDepthLeaf := 48
  scene := []
  area := fun _ => some 1
  objectSplit := peelBinner
  parallelSplit := peelBinner
  stackSize := 64
  simd := ieeeSimd

/-- The calls made by a children loop, as a relation: child `i` of the node
`node`, updated by `upd i`, is processed from the state after
`node->set(i, ..)` and `P` relates the record, that state and the state the
call leaves; the states are threaded through the children in index order. -/
def childChain (P : BuildRecord → State → State → Prop)
    (upd : Nat → BuildRecord → BuildRecord) (node : Nat) :
    Nat → List BuildRecord → State → State → Prop
  | _, [], s, s' => s' = s
  | i, c :: cs, s, s' =>
    ∃ s1, P (upd i c) (s.setBounds node i c) s1 ∧ childChain P upd node (i + 1) cs s1 s'

/-- The four children of the node `createLeaf` builds for `current`. -/
def fallbackChildren (prims : List PrimRef) (current : BuildRecord) : List BuildRecord :=
  [(splitFallback prims (splitFallback prims current).1).1,
   (splitFallback prims (splitFallback prims current).1).2,
   (splitFallback prims (splitFallback prims current).2).1,
   (splitFallback prims (splitFallback prims current).2).2]

/-- The array `P'` arises from `P` by permuting primitives inside `[b, e)`
only: it is a permutation of `P` and agrees with `P` at every index outside
the range. -/
def PermWithin (b e : Nat) (P P' : List PrimRef) : Prop :=
  P'.Perm P ∧ ∀ i, i < b ∨ e ≤ i → primAt P' i = primAt P i

/-- A record names a range of an array of `n` primitives. -/
def BuildRecord.within (r : BuildRecord) (n : Nat) : Prop :=
  r.begin ≤ r.end_ ∧ r.end_ ≤ n

/-- What processing the record `cur` adds to the memory, as far as coverage
goes: the primitive array is permuted inside the range of `cur` only; the
new `createSmallLeaf` calls are on well-formed ranges inside the range of
`cur` whose indices, taken together, are exactly the indices of `cur`, each
once; and each call has read the primitives that the final array holds in
its range. -/
def Covers (cur : BuildRecord) (st st' : State) : Prop :=
  PermWithin cur.begin cur.end_ st.prims st'.prims ∧
  ∃ new, st'.leafCalls = st.leafCalls ++ new ∧
    (new.flatMap (fun c => c.1.indices)).Perm cur.indices ∧
    ∀ c ∈ new, c.2 = c.1.primsOf st'.prims ∧
      cur.begin ≤ c.1.begin ∧ c.1.begin ≤ c.1.end_ ∧ c.1.end_ ≤ cur.end_

/-- The hypothesis on the sequential splitter: on an array of `n` primitives
and a well-formed record inside it that is large enough to be split (more
than `minLeafSize` primitives), it permutes primitives inside the range of
the record only and returns `left = [begin, mid)`, `right = [mid, end)` with
`begin ≤ mid ≤ end`. -/
def SplitsWithinRange (env : Env) (n : Nat) : Prop :=
  ∀ (P : List PrimRef) (r : BuildRecord), P.length = n → r.within n →
    env.minLeafSize < r.size →
    (splitSequential env P r).2.1.begin = r.begin ∧
    (splitSequential env P r).2.1.end_ = (splitSequential env P r).2.2.begin ∧
    (splitSequential env P r).2.2.end_ = r.end_ ∧
    r.begin ≤ (splitSequential env P r).2.1.end_ ∧
    (splitSequential env P r).2.1.end_ ≤ r.end_ ∧
    PermWithin r.begin r.end_ P (splitSequential env P r).1

/-- What processing the children `cs` one after another adds to the memory:
the primitive array is permuted, unchanged outside the ranges of the
children; the indices of the new leaf calls are those of the children; each
new call is on a well-formed range inside the range of some child and has
read the primitives that the final array holds in its range. -/
def CoversAll (cs : List BuildRecord) (st st' : State) : Prop :=
  st'.prims.Perm st.prims ∧
  (∀ i, (∀ c ∈ cs, ¬ (c.begin ≤ i ∧ i < c.end_)) → primAt st'.prims i = primAt st.prims i) ∧
  ∃ new, st'.leafCalls = st.leafCalls ++ new ∧
    (new.flatMap (fun c => c.1.indices)).Perm (cs.flatMap BuildRecord.indices) ∧
    ∀ l ∈ new, l.2 = l.1.primsOf st'.prims ∧ l.1.begin ≤ l.1.end_ ∧
      ∃ c ∈ cs, c.begin ≤ l.1.begin ∧ l.1.end_ ≤ c.end_

/-- The parent slots of the interior nodes, by node index: nodes are
published in the order they are allocated, so the stores of encoded node
pointers, in program order, name the slot of node 0, node 1, and so on. -/
def nodeSlots (writes : List (Slot × NodeRef)) : List Slot :=
  writes.filterMap (fun w =>
    match w.2 with
    | NodeRef.node _ => some w.1
    | _ => none)

/-- The number of interior nodes on the path from the root down to and
including the node a slot belongs to, given that number for every node:
0 for the root slot. -/
def slotLevel (levels : List Nat) : Slot → Nat
  | Slot.child k _ => levels.getD k 0
  | _ => 0

/-- The number of interior nodes on the path from the root down to and
including each node, by node index: one more than for the node its parent
slot belongs to (a parent is allocated before its children). -/
def nodeLevels (slots : List Slot) : List Nat :=
  slots.foldl (fun levels s => levels ++ [1 + slotLevel levels s]) []

/-- The number of interior nodes above a slot: the nodes on the path from the
root to the node the slot belongs to. -/
def nodesAbove (st : State) (slot : Slot) : Nat :=
  slotLevel (nodeLevels (nodeSlots st.writes)) slot

/-- Every interior node has been published exactly once. -/
def State.published (st : State) : Prop :=
  (nodeSlots st.writes).length = st.nodes.length

/-- A slot of the memory: the root, or a child slot of an allocated node. -/
def State.hasSlot (st : State) : Slot → Prop
  | Slot.child k _ => k < st.nodes.length
  | _ => True

/-- What processing a record adds to the memory, as far as depth goes: nodes
and stores are only added, every node is published once, and each new
`createSmallLeaf` call is on a record within the depth limit whose parent is
a slot of the memory and whose depth is one more than the number of interior
nodes above it. -/
def DepthPost (env : Env) (st st' : State) : Prop :=
  st'.published ∧ (∃ ws, st'.writes = st.writes ++ ws) ∧
  st.nodes.length ≤ st'.nodes.length ∧
  ∃ new, st'.leafCalls = st.leafCalls ++ new ∧
    ∀ c ∈ new, c.1.depth ≤ env.maxBuildDepthLeaf ∧ st'.hasSlot c.1.parent ∧
      c.1.depth = 1 + nodesAbove st' c.1.parent

/-- The depth invariant of a call: if every node is published, the parent of
the record is a slot of the memory and the depth of the record is one more
than the number of interior nodes above it, then `DepthPost` holds. -/
def DepthInv (env : Env) (cur : BuildRecord) (st st' : State) : Prop :=
  st.published → st.hasSlot cur.parent → cur.depth = 1 + nodesAbove st cur.parent →
  DepthPost env st st'

/-- Every `createSmallLeaf` call so far was on a record within the depth
limit `maxBuildDepthLeaf`. -/
def State.leafDepthsOK (env : Env) (st : State) : Prop :=
  ∀ c ∈ st.leafCalls, c.1.depth ≤ env.maxBuildDepthLeaf

/-- The node arena after the store `*slot = ref`. -/
def writeNodes (nodes : List Node) (slot : Slot) (ref : NodeRef) : List Node :=
  match slot with
  | Slot.child n i => nodes.set n ((nodes.getD n Node.clear).setChild i ref)
  | _ => nodes

/-- A node whose first `k` child slots are filled and whose other slots are
in the cleared state: the empty pointer and the empty box. -/
def Node.filledUpTo (nd : Node) (k : Nat) : Prop :=
  nd.bounds.length = BVH4.N ∧ nd.children.length = BVH4.N ∧
  (∀ i, i < k → nd.children.getD i NodeRef.empty ≠ NodeRef.empty) ∧
  (∀ i, k ≤ i → i < BVH4.N →
    nd.children.getD i NodeRef.empty = NodeRef.empty ∧
    nd.bounds.getD i BBox3fa.empty = BBox3fa.empty)

/-- A finished node: between 1 and 4 filled child slots, which come first,
the other slots cleared, and the node is its own compaction. -/
def Node.finished (nd : Node) : Prop :=
  ∃ k, 1 ≤ k ∧ k ≤ BVH4.N ∧ nd.filledUpTo k ∧ BVH4.compact nd = nd

/-- What processing a record does to the node arena: it fills the parent slot
of the record with a non-empty pointer, leaves the other slots of the nodes
that existed alone, and appends finished nodes. -/
def FillsSlot (cur : BuildRecord) (st st' : State) : Prop :=
  st.hasSlot cur.parent →
  ∃ ref extra, ref ≠ NodeRef.empty ∧
    st'.nodes = writeNodes st.nodes cur.parent ref ++ extra ∧
    ∀ nd ∈ extra, nd.finished

/-- The union of the boxes of `prims[lo..hi)`: the smallest box that contains
the box of each of these primitives. -/
def rangeUnion (prims : List PrimRef) (lo hi : Nat) : BBox3fa :=
  ((List.range' lo (hi - lo)).map (fun i => (primAt prims i).bounds)).foldl
    BBox3fa.extend BBox3fa.empty

/-- What processing the record `cur` adds to the log of `node->set` calls:
each new entry is for a child record on a well-formed range inside the range
of `cur`, and the box stored for it is the union of the boxes of the
primitives that the final array holds in the range of the child. -/
def BoundsExact (cur : BuildRecord) (st st' : State) : Prop :=
  ∃ log, st'.setLog = st.setLog ++ log ∧
    ∀ e ∈ log, e.2.2.begin ≤ e.2.2.end_ ∧ cur.begin ≤ e.2.2.begin ∧ e.2.2.end_ ≤ cur.end_ ∧
      e.2.2.geomBounds = rangeUnion st'.prims e.2.2.begin e.2.2.end_

/-- The same for a children loop: each new entry lies inside the range of one
of the children. -/
def BoundsExactAll (cs : List BuildRecord) (st st' : State) : Prop :=
  ∃ log, st'.setLog = st.setLog ++ log ∧
    ∀ e ∈ log, e.2.2.begin ≤ e.2.2.end_ ∧
      (∃ c ∈ cs, c.begin ≤ e.2.2.begin ∧ e.2.2.end_ ≤ c.end_) ∧
      e.2.2.geomBounds = rangeUnion st'.prims e.2.2.begin e.2.2.end_

/-- The hypothesis of bounds soundness on the sequential splitter: the
records it returns satisfy the `PrimInfo` invariant, their `geomBounds` is
the union of the boxes of the primitives of their range in the array the
splitter leaves. -/
def SplitsWithExactBounds (env : Env) (n : Nat) : Prop :=
  ∀ (P : List PrimRef) (r : BuildRecord), P.length = n → r.within n →
    env.minLeafSize < r.size →
    (splitSequential env P r).2.1.geomBounds =
      rangeUnion (splitSequential env P r).1 (splitSequential env P r).2.1.begin
        (splitSequential env P r).2.1.end_ ∧
    (splitSequential env P r).2.2.geomBounds =
      rangeUnion (splitSequential env P r).1 (splitSequential env P r).2.2.begin
        (splitSequential env P r).2.2.end_

/-- What the first loop of the `Triangle4i` emitter stores for one primitive:
the address of its first vertex, the two offsets, and its ids. -/
def tri4iSlot (scene : Scene) (p : PrimRef) : Int × Int × Int × Int × Int :=
  let mesh := scene.getTriangleMesh p.geomID
  let tri := mesh.triangle p.primID
  (mesh.vertexPtr tri.v0,
   intOffset (mesh.vertexPtr tri.v1) (mesh.vertexPtr tri.v0),
   intOffset (mesh.vertexPtr tri.v2) (mesh.vertexPtr tri.v0),
   toInt32 p.geomID, toInt32 p.primID)

/-- Slot `i` of the `Triangle4i` locals: address, offsets and ids. -/
def Triangle4i.slot (t : Triangle4i) (i : Nat) : Int × Int × Int × Int × Int :=
  (t.v0.getD i 0, t.v1.getD i 0, t.v2.getD i 0, t.geomID.getD i 0, t.primID.getD i 0)

/-- The five arrays of the `Triangle4i` locals have four slots each. -/
def Triangle4i.wide (t : Triangle4i) : Prop :=
  t.v0.length = 4 ∧ t.v1.length = 4 ∧ t.v2.length = 4 ∧ t.geomID.length = 4 ∧
  t.primID.length = 4

/-- The locals of the `Triangle4i` emitter after `n` rounds of the first loop. -/
def tri4iLoaded (scene : Scene) (prims : List PrimRef) (start n : Nat) : Triangle4i :=
  (List.range n).foldl (tri4iStep scene prims start)
    ⟨List.replicate 4 0, List.replicate 4 0, List.replicate 4 0,
     List.replicate 4 (-1), List.replicate 4 (-1)⟩

/-! ## The builder object, its constructors and `init` -/

/-- What this file takes from headers that are not part of it: the sizes of
the leaf records, of `PrimRef` and of `BVH4::Node`; the value `inf` takes as
a `size_t`; `Allocator::blockSize`; whether `__X86_64__` is defined; the
member function `blocks(N)`, as a function of `logBlockSize` and `N`; and the
three float products `size_t(0.6*n)`, `size_t(1.2*n)` and `1.5*n` of the
sizing code, converted back to `size_t`. -/
structure Host where
  sizeofTriangle : Layout → Nat
  sizeofPrimRef : Nat
  sizeofNode : Nat
  inf : Nat
  blockSize : Nat
  x86_64 : Bool
  blocks : Nat → Nat → Nat
  mul06 : Nat → Nat
  mul12 : Nat → Nat
  mul15 : Nat → Nat

/-- Arithmetic on `size_t` wraps modulo `2 ^ 64`. -/
def sizeT (n : Nat) : Nat := n % 2 ^ 64

/-- The arguments of a call `Allocator::init(bytesAllocate, bytesReserve)`. -/
structure AllocatorInit where
  bytesAllocated : Nat
  bytesReserved : Nat
deriving DecidableEq

/-- The members of `BVH4BuilderFast` set by its constructor and by `init`.
`layout` stands for the subclass (it selects `createSmallLeaf`), `mesh` is
`none` for the null pointer, `prims` is `none` for `NULL`, and an allocator is
`none` until `init` is called on it; it then holds the arguments of the
latest call. -/
structure BVH4BuilderFast where
  layout : Layout
  scene : Scene
  mesh : Option TriangleMesh
  numPrimitives : Nat
  prims : Option (List PrimRef)
  bytesPrims : Nat
  logBlockSize : Nat
  logSAHBlockSize : Nat
  needVertices : Bool
  primBytes : Nat
  minLeafSize : Nat
  maxLeafSize : Nat
  needAllThreads : Bool
  nodeAllocator : Option AllocatorInit
  primAllocator : Option AllocatorInit

/-- The constructor `BVH4BuilderFast::BVH4BuilderFast`: store the
configuration, start with no primitives, and use all threads unless the
builder is for a single mesh of at most 50000 triangles. -/
def BVH4BuilderFast.construct (layout : Layout) (scene : Scene)
    (mesh : Option TriangleMesh) (logBlockSize logSAHBlockSize : Nat) (needVertices : Bool)
    (primBytes minLeafSize maxLeafSize : Nat) : BVH4BuilderFast :=
  { layout := layout, scene := scene, mesh := mesh, numPrimitives := 0, prims := none,
    bytesPrims := 0, logBlockSize := logBlockSize, logSAHBlockSize := logSAHBlockSize,
    needVertices := needVertices, primBytes := primBytes, minLeafSize := minLeafSize,
    maxLeafSize := maxLeafSize,
    needAllThreads :=
      match mesh with
      | some m => decide (m.numTriangles > 50000)
      | none => true,
    nodeAllocator := none, primAllocator := none }

/-- `BVH4Triangle1BuilderFast(bvh, scene)`. -/
def BVH4Triangle1BuilderFast (h : Host) (scene : Scene) : BVH4BuilderFast :=
  BVH4BuilderFast.construct Layout.triangle1 scene none 0 0 false
    (h.sizeofTriangle Layout.triangle1) 2 h.inf

/-- `BVH4Triangle4BuilderFast(bvh, scene)`. -/
def BVH4Triangle4BuilderFast (h : Host) (scene : Scene) : BVH4BuilderFast :=
  BVH4BuilderFast.construct Layout.triangle4 scene none 2 2 false
    (h.sizeofTriangle Layout.triangle4) 4 h.inf

/-- `BVH4Triangle8BuilderFast(bvh, scene)`, compiled when `__AVX__` is defined. -/
def BVH4Triangle8BuilderFast (h : Host) (scene : Scene) : BVH4BuilderFast :=
  BVH4BuilderFast.construct Layout.triangle8 scene none 3 2 false
    (h.sizeofTriangle Layout.triangle8) 8 h.inf

/-- `BVH4Triangle1vBuilderFast(bvh, scene)`. -/
def BVH4Triangle1vBuilderFast (h : Host) (scene : Scene) : BVH4BuilderFast :=
  BVH4BuilderFast.construct Layout.triangle1v scene none 0 0 false
    (h.sizeofTriangle Layout.triangle1v) 2 h.inf

/-- `BVH4Triangle4vBuilderFast(bvh, scene)`. -/
def BVH4Triangle4vBuilderFast (h : Host) (scene : Scene) : BVH4BuilderFast :=
  BVH4BuilderFast.construct Layout.triangle4v scene none 2 2 false
    (h.sizeofTriangle Layout.triangle4v) 4 h.inf

/-- `BVH4Triangle4iBuilderFast(bvh, scene)`. -/
def BVH4Triangle4iBuilderFast (h : Host) (scene : Scene) : BVH4BuilderFast :=
  BVH4BuilderFast.construct Layout.triangle4i scene none 2 2 true
    (h.sizeofTriangle Layout.triangle4i) 4 h.inf

/-- `BVH4Triangle1BuilderFast(bvh, mesh)`, the constructor behind the factory
`BVH4Triangle1MeshBuilderFast`; `parent` is `mesh->parent`. -/
def BVH4Triangle1MeshBuilderFast (h : Host) (parent : Scene) (mesh : TriangleMesh) :
    BVH4BuilderFast :=
  BVH4BuilderFast.construct Layout.triangle1 parent (some mesh) 0 0 false
    (h.sizeofTriangle Layout.triangle1) 2 h.inf

/-- `BVH4Triangle4BuilderFast(bvh, mesh)`. -/
def BVH4Triangle4MeshBuilderFast (h : Host) (parent : Scene) (mesh : TriangleMesh) :
    BVH4BuilderFast :=
  BVH4BuilderFast.construct Layout.triangle4 parent (some mesh) 2 2 false
    (h.sizeofTriangle Layout.triangle4) 4 h.inf

/-- `BVH4Triangle8BuilderFast(bvh, mesh)`, compiled when `__AVX__` is defined. -/
def BVH4Triangle8MeshBuilderFast (h : Host) (parent : Scene) (mesh : TriangleMesh) :
    BVH4BuilderFast :=
  BVH4BuilderFast.construct Layout.triangle8 parent (some mesh) 3 2 false
    (h.sizeofTriangle Layout.triangle8) 8 h.inf

/-- `BVH4Triangle1vBuilderFast(bvh, mesh)`. -/
def BVH4Triangle1vMeshBuilderFast (h : Host) (parent : Scene) (mesh : TriangleMesh) :
    BVH4BuilderFast :=
  BVH4BuilderFast.construct Layout.triangle1v parent (some mesh) 0 0 false
    (h.sizeofTriangle Layout.triangle1v) 2 h.inf

/-- `BVH4Triangle4vBuilderFast(bvh, mesh)`. -/
def BVH4Triangle4vMeshBuilderFast (h : Host) (parent : Scene) (mesh : TriangleMesh) :
    BVH4BuilderFast :=
  BVH4BuilderFast.construct Layout.triangle4v parent (some mesh) 2 2 false
    (h.sizeofTriangle Layout.triangle4v) 4 h.inf

/-- `BVH4Triangle4iBuilderFast(bvh, mesh)`. -/
def BVH4Triangle4iMeshBuilderFast (h : Host) (parent : Scene) (mesh : TriangleMesh) :
    BVH4BuilderFast :=
  BVH4BuilderFast.construct Layout.triangle4i parent (some mesh) 2 2 true
    (h.sizeofTriangle Layout.triangle4i) 4 h.inf

/-- The counters and byte sizes of the `BVH4` object that `init` writes; the two data
pointers `nodes` and `primitives` are left out. -/
structure BVH4 where
  numPrimitives : Nat
  numVertices : Nat
  bytesNodes : Nat
  bytesPrimitives : Nat
deriving DecidableEq

/-- One round of the loop of `init` over the geometries of the scene: null
pointers, geometries that are no triangle mesh and meshes with a number of
time steps other than 1 are skipped; the other meshes add their triangles and
vertices to the two counters. -/
def countStep (acc : Nat × Nat) (geom : Geometry) : Nat × Nat :=
  match geom with
  | Geometry.triangleMesh mesh =>
    if mesh.numTimeSteps ≠ 1 then acc
    else (sizeT (acc.1 + mesh.numTriangles), sizeT (acc.2 + mesh.numVertices))
  | _ => acc

/-- The size of the scene as `init` calculates it: `numPrimitives` and
`numVertices`. For a single mesh these are its `numTriangles` and
`numVertices`; otherwise the loop over the scene runs from `(0, 0)`. -/
def sceneSize (b : BVH4BuilderFast) : Nat × Nat :=
  match b.mesh with
  | some mesh => (mesh.numTriangles, mesh.numVertices)
  | none => b.scene.foldl countStep (0, 0)

/-- `BVH4BuilderFast::init`, with `bvh` the object after `bvh->init(0)`:
count the primitives and, when the count has changed, size and initialise the
primitive array and the two allocators. Modelled from the spec:
`Allocator::init` (declared in the allocator header, not part of this file)
reserves the number of bytes it is given, and `bytesReserved` reads that
number back. -/
def BVH4BuilderFast.init (h : Host) (b : BVH4BuilderFast) (bvh : BVH4)
    (threadCount : Nat) : BVH4BuilderFast × BVH4 :=
  let numPrimitivesOld := b.numPrimitives
  let numPrimitives := (sceneSize b).1
  let numVertices := (sceneSize b).2
  let b1 := { b with numPrimitives := numPrimitives }
  let bvh1 := { bvh with numPrimitives := numPrimitives,
                         numVertices := if b.needVertices then numVertices else 0 }
  if numPrimitivesOld ≠ numPrimitives then
    let additionalBlocks := if b.needAllThreads then threadCount else 1
    let numPrimBlocks := h.blocks b.logBlockSize numPrimitives
    let numAllocatedNodes := min (h.mul06 numPrimBlocks) numPrimitives
    let numAllocatedPrimitives := min (h.mul12 numPrimBlocks) numPrimitives
    let numReservedNodes :=
      if h.x86_64 then sizeT (2 * numPrimitives) else h.mul15 numAllocatedNodes
    let numReservedPrimitives :=
      if h.x86_64 then sizeT (2 * numPrimitives) else h.mul15 numAllocatedPrimitives
    let bytesPrims := sizeT (numPrimitives * h.sizeofPrimRef)
    let bytesAllocatedNodes := sizeT (numAllocatedNodes * h.sizeofNode)
    let bytesAllocatedPrimitives0 := sizeT (numAllocatedPrimitives * b.primBytes)
    let bytesAllocatedPrimitives := max bytesAllocatedPrimitives0 bytesPrims
    let bytesReservedNodes0 := sizeT (numReservedNodes * h.sizeofNode)
    let bytesReservedPrimitives0 := sizeT (numReservedPrimitives * b.primBytes)
    let blocksReservedNodes :=
      sizeT (bytesReservedNodes0 + h.blockSize + (2 ^ 64 - 1)) / h.blockSize
    let blocksReservedPrimitives :=
      sizeT (bytesReservedPrimitives0 + h.blockSize + (2 ^ 64 - 1)) / h.blockSize
    let bytesReservedNodes :=
      sizeT (h.blockSize * sizeT (blocksReservedNodes + additionalBlocks))
    let bytesReservedPrimitives :=
      sizeT (h.blockSize * sizeT (blocksReservedPrimitives + additionalBlocks))
    let b2 := { b1 with
      bytesPrims := bytesPrims,
      prims := some (List.replicate numPrimitives PrimRef.zero),
      nodeAllocator := some ⟨bytesAllocatedNodes, bytesReservedNodes⟩,
      primAllocator := some ⟨bytesAllocatedPrimitives, bytesReservedPrimitives⟩ }
    (b2, { bvh1 with bytesNodes := bytesReservedNodes,
                     bytesPrimitives := bytesReservedPrimitives })
  else (b1, bvh1)

/-- The builder that the scene constructor of a layout makes. -/
def Layout.sceneBuilder (l : Layout) (h : Host) (scene : Scene) : BVH4BuilderFast :=
  match l with
  | Layout.triangle1 => BVH4Triangle1BuilderFast h scene
  | Layout.triangle4 => BVH4Triangle4BuilderFast h scene
  | Layout.triangle8 => BVH4Triangle8BuilderFast h scene
  | Layout.triangle1v => BVH4Triangle1vBuilderFast h scene
  | Layout.triangle4v => BVH4Triangle4vBuilderFast h scene
  | Layout.triangle4i => BVH4Triangle4iBuilderFast h scene

/-- The builder that the single-mesh constructor of a layout makes. -/
def Layout.meshBuilder (l : Layout) (h : Host) (parent : Scene) (mesh : TriangleMesh) :
    BVH4BuilderFast :=
  match l with
  | Layout.triangle1 => BVH4Triangle1MeshBuilderFast h parent mesh
  | Layout.triangle4 => BVH4Triangle4MeshBuilderFast h parent mesh
  | Layout.triangle8 => BVH4Triangle8MeshBuilderFast h parent mesh
  | Layout.triangle1v => BVH4Triangle1vMeshBuilderFast h parent mesh
  | Layout.triangle4v => BVH4Triangle4vMeshBuilderFast h parent mesh
  | Layout.triangle4i => BVH4Triangle4iMeshBuilderFast h parent mesh

/-- The configuration a constructor bakes in: `logBlockSize`,
`logSAHBlockSize`, `needVertices`, `primBytes`, `minLeafSize`, `maxLeafSize`. -/
def BVH4BuilderFast.config (b : BVH4BuilderFast) : Nat × Nat × Bool × Nat × Nat × Nat :=
  (b.logBlockSize, b.logSAHBlockSize, b.needVertices, b.primBytes, b.minLeafSize,
   b.maxLeafSize)

/-- A sample 64-bit host: allocator blocks of 4 KiB, the record sizes of the
table of layouts, 32 bytes for a `PrimRef`, 128 bytes for a node, the largest
`size_t` for `inf`, `blocks(N)` as the number of leaf records for `N`
primitives, and the float products rounded down. -/
def host64 : Host where
  sizeofTriangle := fun l =>
    match l with
    | Layout.triangle1 => 48
    | Layout.triangle4 => 64
    | Layout.triangle8 => 128
    | Layout.triangle1v => 48
    | Layout.triangle4v => 64
    | Layout.triangle4i => 48
  sizeofPrimRef := 32
  sizeofNode := 128
  inf := 2 ^ 64 - 1
  blockSize := 4096
  x86_64 := true
  blocks := fun logBlockSize n => (n + (2 ^ logBlockSize - 1)) / 2 ^ logBlockSize
  mul06 := fun n => 6 * n / 10
  mul12 := fun n => 12 * n / 10
  mul15 := fun n => 15 * n / 10

/-- A `BVH4` object as `bvh->init(0)` leaves it, as far as `init` goes. -/
def BVH4.fresh : BVH4 := ⟨0, 0, 0, 0⟩

/-- A mesh of one triangle with one time step. -/
def oneTriangleMesh : TriangleMesh :=
  ⟨1, 1, 3, [⟨0, 1, 2⟩], [⟨0, 0, 0⟩, ⟨1, 0, 0⟩, ⟨0, 1, 0⟩], 0, 0⟩

/-- A mesh of three triangles with two time steps. -/
def motionBlurMesh : TriangleMesh :=
  ⟨2, 3, 5, [⟨0, 1, 2⟩, ⟨1, 2, 3⟩, ⟨2, 3, 4⟩],
   [⟨0, 0, 0⟩, ⟨1, 0, 0⟩, ⟨0, 1, 0⟩, ⟨1, 1, 0⟩, ⟨0, 2, 0⟩], 0, 0⟩

/-- The number of blocks `init` adds to a reservation: one for each thread
when the builder uses all threads, one otherwise. -/
def BVH4BuilderFast.additionalBlocks (b : BVH4BuilderFast) (threadCount : Nat) : Nat :=
  if b.needAllThreads then threadCount else 1

/-- The number of primitives of a geometry as the generator sees it: the
triangles of a triangle mesh with exactly one time step, and none for a null
pointer, a geometry of another type, or a mesh with another number of time
steps. -/
def Geometry.numPrimitives : Geometry → Nat
  | Geometry.triangleMesh mesh => if mesh.numTimeSteps = 1 then mesh.numTriangles else 0
  | _ => 0

/-- A mesh that declares `2 ^ 62` triangles. -/
def hugeMesh : TriangleMesh := ⟨1, 2 ^ 62, 0, [], [], 0, 0⟩

/-- The scan of a list of primitives: a reset `CentGeomBBox3fa` extended by
the box of each primitive in turn. -/
def scanPrims (ps : List PrimRef) : CentGeomBBox3fa :=
  ps.foldl (fun acc p => acc.extend p.bounds) CentGeomBBox3fa.reset

/-- What the search loop of `recurse` has found after looking at the children
`cs`: either no child so far has more than `minLeafSize` primitives and
`bestArea` is still `neg_inf`; or `bestChild` is a child with more than
`minLeafSize` primitives whose area is `bestArea`, no such child has a larger
area, and those before it have a smaller one. -/
def BestSoFar (env : Env) (cs : List BuildRecord) (acc : Option Nat × Flt) : Prop :=
  match acc.1 with
  | none => acc.2 = neg_inf ∧ ∀ c ∈ cs, c.size ≤ env.minLeafSize
  | some j =>
    ∃ c, cs[j]? = some c ∧ env.minLeafSize < c.size ∧ sceneArea env c = some acc.2 ∧
      ∀ i c' a', cs[i]? = some c' → env.minLeafSize < c'.size → sceneArea env c' = some a' →
        a' ≤ acc.2 ∧ (i < j → a' < acc.2)

/-- Processing a record whose parent slot is not the root slot leaves the
root pointer of the BVH alone. -/
def RootKept (cur : BuildRecord) (st st' : State) : Prop :=
  cur.parent ≠ Slot.root → st'.root = st.root

/-- Scenario S3: five primitives with centroids at `x = 0, 1, 2, 3, 4`, each
with the box `[x - 1, x + 1] × [0, 1] × [0, 1]`, triangle `x` of mesh 0. -/
def linePrims : List PrimRef :=
  (List.range 5).map (fun (i : Nat) =>
    ⟨⟨((i : Int) - 1 : Int), (0 : Int), (0 : Int)⟩,
     ⟨((i : Int) + 1 : Int), (1 : Int), (1 : Int)⟩, 0, i⟩)

/-- The number of children of a node: its non-empty child slots. -/
def Node.numChildren (nd : Node) : Nat :=
  (nd.children.filter (fun r => decide (r ≠ NodeRef.empty))).length

/-- The record `c` names the range `[b, e)` at depth `d` and carries the
geometry bounds `B`. -/
def IsPart (c : BuildRecord) (B : BBox3fa) (b e d : Nat) : Prop :=
  c.begin = b ∧ c.end_ = e ∧ c.depth = d ∧ c.geomBounds = B

/-- What a balanced build adds to the memory for a record at depth `d` with
`m * 2 ^ j` primitives: the primitive array is left alone; nodes are only
added; there are `2 ^ j` new `createSmallLeaf` calls, each on `m` primitives
at depth `d + (j + 1) / 2`; and the new `node->set` calls are on nodes
allocated meanwhile, the children stored in one node having equal sizes. -/
def BalancedPost (m j d : Nat) (st st' : State) : Prop :=
  st'.prims = st.prims ∧ st.nodes.length ≤ st'.nodes.length ∧
  (∃ new, st'.leafCalls = st.leafCalls ++ new ∧ new.length = 2 ^ j ∧
    ∀ c ∈ new, c.1.size = m ∧ c.1.depth = d + (j + 1) / 2) ∧
  (∃ log, st'.setLog = st.setLog ++ log ∧
    (∀ e ∈ log, st.nodes.length ≤ e.1 ∧ e.1 < st'.nodes.length) ∧
    ∀ e1 ∈ log, ∀ e2 ∈ log, e1.1 = e2.1 → e1.2.2.size = e2.2.2.size)

/-- The same for the children loop of the node `node` over `k` children at
depth `d`, each with `q = m * 2 ^ j` primitives: `k * 2 ^ j` new leaves, and
the new `node->set` calls are those of the loop itself, on `node` with a
child of `q` primitives, and those on nodes allocated meanwhile. -/
def BalancedLoop (m j d node k q : Nat) (st st' : State) : Prop :=
  st'.prims = st.prims ∧ st.nodes.length ≤ st'.nodes.length ∧
  (∃ new, st'.leafCalls = st.leafCalls ++ new ∧ new.length = k * 2 ^ j ∧
    ∀ c ∈ new, c.1.size = m ∧ c.1.depth = d + (j + 1) / 2) ∧
  (∃ log, st'.setLog = st.setLog ++ log ∧
    (∀ e ∈ log, (e.1 = node ∧ e.2.2.size = q) ∨
      (st.nodes.length ≤ e.1 ∧ e.1 < st'.nodes.length)) ∧
    ∀ e1 ∈ log, ∀ e2 ∈ log, e1.1 = e2.1 → e1.2.2.size = e2.2.2.size)

/-- Scenario S4: 1024 primitives with identical bounds, the unit cube; they
differ in their primID only. -/
def clusterPrims : List PrimRef :=
  (List.range 1024).map (fun (i : Nat) => ⟨diagPoint 0, diagPoint 1, 0, i⟩)

/-! ## The subtree phase -/

/-- Modelled from the spec: `threadStack[i].pop(br)` of a per-thread work stack
(declared in the builder header, not part of this file) takes the record that
was pushed last, the stacks being LIFO, and fails on an empty stack. -/
def State.stackPop (st : State) (i : Nat) : Option (BuildRecord × State) :=
  match st.threadStack.getD i [] with
  | [] => none
  | r :: rest => some (r, { st with threadStack := st.threadStack.set i rest })

/-- The stealing loop of `buildSubTrees`,
`for (i = 0; i < numThreads; i++)
   if (threadStack[(threadID+i)%numThreads].pop(br)) { success = true; break; }`,
from round `i` on with `k` rounds left. Returns the indices of the stacks
probed, in program order, and the record popped with the memory after the
pop; `none` stands for `success == false`. -/
def stealLoop (st : State) (threadID numThreads : Nat) :
    Nat → Nat → List Nat × Option (BuildRecord × State)
  | _, 0 => ([], none)
  | i, k + 1 =>
    match st.stackPop ((threadID + i) % numThreads) with
    | some r => ([(threadID + i) % numThreads], some r)
    | none =>
      ((threadID + i) % numThreads :: (stealLoop st threadID numThreads (i + 1) k).1,
       (stealLoop st threadID numThreads (i + 1) k).2)

/-- The whole sweep over the thread stacks: rounds `0, .., numThreads - 1`. -/
def steal (st : State) (threadID numThreads : Nat) :
    List Nat × Option (BuildRecord × State) :=
  stealLoop st threadID numThreads 0 numThreads

/-- The inner loop of `buildSubTrees`,
`while (threadStack[threadID].pop(br)) recurse(br, .., RECURSE_PARALLEL, ..)`;
`fuel` bounds the number of iterations. -/
def drainStack (env : Env) (threadID : Nat) : Nat → State → Outcome
  | 0, st => Outcome.fail Err.outOfFuel st
  | fuel + 1, st =>
    match st.stackPop threadID with
    | none => Outcome.done st
    | some (br, st1) =>
      match recurse env threadID Mode.RECURSE_PARALLEL br st1 with
      | Outcome.done st2 => drainStack env threadID fuel st2
      | Outcome.fail e s => Outcome.fail e s

/-- The record a worker takes at the head of the outer loop of
`buildSubTrees`: the one `heap.pop` returns, or, when the heap is empty, the
one the stealing loop finds; `none` stands for the `break`. -/
def nextRecord (st : State) (threadID numThreads : Nat) : Option (BuildRecord × State) :=
  match heapPop st.heap with
  | some (br, rest) => some (br, { st with heap := rest })
  | none => (steal st threadID numThreads).2

/-- `BVH4BuilderFast::buildSubTrees` as run by the worker `threadID` while no
other worker is active: take a record from the heap or steal one, process
it in `RECURSE_PARALLEL` mode, drain the own stack, and start over; stop when
neither the heap nor any stack has a record. `fuel` bounds the number of
iterations of the outer loop and of each inner loop. -/
def buildSubTrees (env : Env) (threadID numThreads : Nat) : Nat → State → Outcome
  | 0, st => Outcome.fail Err.outOfFuel st
  | fuel + 1, st =>
    match nextRecord st threadID numThreads with
    | none => Outcome.done st
    | some (br, st1) =>
      match recurse env threadID Mode.RECURSE_PARALLEL br st1 with
      | Outcome.done st2 =>
        match drainStack env threadID fuel st2 with
        | Outcome.done st3 => buildSubTrees env threadID numThreads fuel st3
        | Outcome.fail e s => Outcome.fail e s
      | Outcome.fail e s => Outcome.fail e s
/-- The stack of thread `i`. -/
def State.stackOf (st : State) (i : Nat) : List BuildRecord := st.threadStack.getD i []

/-- A record of `n` primitives `[0, n)` at depth 2 with an empty box, for
the samples. -/
def sampleRecord (n : Nat) : BuildRecord :=
  { BuildRecord.blank with begin := 0, end_ := n, depth := 2 }

/-- A memory with two thread stacks, the given one for thread 0 and the given
one for thread 1, and an empty heap. -/
def twoStacks (s0 s1 : List BuildRecord) : State :=
  { initialState [] CentGeomBBox3fa.reset with threadStack := [s0, s1] }

/-- As `fallbackEnv`, with thread stacks that hold no record, so that every
push fails. -/
def fullStackEnv (layout : Layout) (minLeafSize : Nat) : Env where
  layout := layout
  minLeafSize := minLeafSize
  maxBuildDepth := 32
  maxBuildDepthLeaf := 48
  scene := []
  area := fun _ => some 1
  objectSplit := fun _ _ _ _ _ => none
  parallelSplit := fun _ _ _ _ _ => none
  stackSize := 0
  simd := ieeeSimd
/-- A sequential splitter that returns two non-empty parts: on an array of
`n` primitives and a well-formed record inside it with more than
`minLeafSize` primitives, the index where `left` ends and `right` begins lies
strictly between `begin` and `end`. -/
def SplitsNonEmpty (env : Env) (n : Nat) : Prop :=
  ∀ (P : List PrimRef) (r : BuildRecord), P.length = n → r.within n →
    env.minLeafSize < r.size →
    r.begin < (splitSequential env P r).2.1.end_ ∧
    (splitSequential env P r).2.1.end_ < r.end_
/-- The indices at which the expansion loop of `recurse` reads or writes
`children[]`, in program order, with `k` iterations left: the search loop
reads `children[i]` for `i < numChildren`; after a successful search the
split reads `children[bestChild]`, and the update reads
`children[numChildren-1]` and writes `children[bestChild]`,
`children[numChildren-1]` and `children[numChildren]`. -/
def expandAccesses (env : Env) (mode : Mode) (depth : Nat) :
    Nat → List BuildRecord → List PrimRef → List Nat
  | 0, _, _ => []
  | k + 1, children, prims =>
    match findBestChild env children with
    | none => List.range children.length
    | some bestChild =>
      let r := split env mode prims (children.getD bestChild BuildRecord.blank)
      let left := r.2.1.initDepth (depth + 1)
      let right := r.2.2.initDepth (depth + 1)
      List.range children.length ++
        [bestChild, children.length - 1, bestChild, children.length - 1, children.length] ++
        expandAccesses env mode depth k (placeChildren children bestChild left right) r.1

/-- A sample of the float function behind `sceneArea()` that has a NaN: the
area of a box that is flat in `y` and in `z` is not a number, as the float
area is when the extent in `x` is infinite (the product of an infinite and a
zero extent); every other box has the area 1. -/
def flatArea (b : BBox3fa) : Option Flt :=
  if b.lower.y = b.upper.y ∧ b.lower.z = b.upper.z then none else some 1

/-- As `fallbackEnv`, with the area function `flatArea`. -/
def flatEnv (layout : Layout) (minLeafSize : Nat) : Env where
  layout := layout
  minLeafSize := minLeafSize
  maxBuildDepth := 32
  maxBuildDepthLeaf := 48
  scene := []
  area := flatArea
  objectSplit := fun _ _ _ _ _ => none
  parallelSplit := fun _ _ _ _ _ => none
  stackSize := 64
  simd := ieeeSimd

/-- Six primitives in the plane `z = 0`, each reaching from `x = 0` to
infinity: the first three on the line `y = 0`, the last three on the line
`y = 1`. -/
def flatPrims : List PrimRef :=
  (List.range 6).map (fun (i : Nat) =>
    ⟨⟨(0 : Int), ((i / 3 : Nat) : Int), (0 : Int)⟩,
     ⟨pos_inf, ((i / 3 : Nat) : Int), (0 : Int)⟩, 0, i⟩)

/-- Every `createSmallLeaf` call so far was on a record of at most
`minLeafSize` primitives and has read as many primitives as the record
has. -/
def State.leafSizesOK (env : Env) (st : State) : Prop :=
  ∀ c ∈ st.leafCalls, c.1.size ≤ env.minLeafSize ∧ c.2.length = c.1.size

/-! ## Notions for the store log and the subtree phase -/

/-- The stores `ws` are the child slots in use of the nodes from index `lo`
on, each stored once: no slot occurs twice in `ws`; each store is through a
child slot of a node at an index from `lo` on, of a pointer that is not
empty, and the slot holds that pointer; and every child slot of such a node
that is not empty occurs in `ws`. -/
def Owned (nodes : List Node) (lo : Nat) (ws : List (Slot × NodeRef)) : Prop :=
  (ws.map Prod.fst).Nodup ∧
  (∀ w ∈ ws, w.2 ≠ NodeRef.empty ∧ ∃ k i, w.1 = Slot.child k i ∧ lo ≤ k ∧ k < nodes.length ∧
    (nodes.getD k Node.clear).children.getD i NodeRef.empty = w.2) ∧
  ∀ k i, lo ≤ k → k < nodes.length →
    (nodes.getD k Node.clear).children.getD i NodeRef.empty ≠ NodeRef.empty →
    Slot.child k i ∈ ws.map Prod.fst

/-- The slots through which encoded leaves were stored, in program order. -/
def leafSlots (ws : List (Slot × NodeRef)) : List Slot :=
  ws.filterMap (fun w =>
    match w.2 with
    | NodeRef.leaf _ _ => some w.1
    | _ => none)

/-- What processing the record `cur` adds to the log of stores: first one
store through the parent slot of `cur`, of a pointer that is not empty; then
stores through the child slots of the nodes allocated meanwhile only, one for
each such slot in use. The nodes that existed are left alone but for the
parent slot; if the parent slot is the root, the root holds the pointer
stored; and the leaf pointers among the stores are those of the new
`createSmallLeaf` calls, each through the parent slot of its record. -/
def WritesOnce (cur : BuildRecord) (st st' : State) : Prop :=
  st.hasSlot cur.parent →
  ∃ ref extra ws new, ref ≠ NodeRef.empty ∧
    st'.nodes = writeNodes st.nodes cur.parent ref ++ extra ∧
    st'.writes = st.writes ++ (cur.parent, ref) :: ws ∧
    (cur.parent = Slot.root → st'.root = ref) ∧
    Owned st'.nodes st.nodes.length ws ∧
    st'.leafCalls = st.leafCalls ++ new ∧
    leafSlots ((cur.parent, ref) :: ws) = new.map (fun c => c.1.parent)

/-- The records that wait to be processed: those on the global heap and
those on the thread stacks. -/
def State.pending (st : State) : List BuildRecord := st.heap ++ st.threadStack.flatten

/-- The weight of a record in the termination measure of the subtree phase:
`5 ^ (maxBuildDepth - depth)`. A record at depth `d < maxBuildDepth` makes way
for at most four records at depth `d + 1`, which weigh less together. -/
def workWeight (env : Env) (r : BuildRecord) : Nat := 5 ^ (env.maxBuildDepth - r.depth)

/-- The termination measure of the subtree phase: the weights of the records
that wait to be processed. -/
def State.work (env : Env) (st : State) : Nat := (st.pending.map (workWeight env)).sum

/-- What processing the record `cur` in `RECURSE_PARALLEL` or
`RECURSE_SEQUENTIAL` mode on the thread `t` does to the memory, given that
`t` has a stack: the number of stacks stays; some records `pushed` join the
waiting ones, they weigh less than `cur` (by `slack` at least) and are not
deeper than `maxBuildDepth` if `cur` is not; and when `cur` is a range of the array of `n` primitives, the array is permuted
inside that range only, the new `createSmallLeaf` calls and the records
pushed are on well-formed ranges inside it whose indices, taken together,
are the indices of `cur`, each once, and each new call has read the
primitives that the array holds in its range afterwards. -/
def SubtreePost (env : Env) (n t slack : Nat) (cur : BuildRecord) (st st' : State) : Prop :=
  t < st.threadStack.length →
  st'.threadStack.length = st.threadStack.length ∧
  ∃ pushed, st'.pending.Perm (pushed ++ st.pending) ∧
    (pushed.map (workWeight env)).sum + slack ≤ workWeight env cur ∧
    (cur.depth ≤ env.maxBuildDepth → ∀ p ∈ pushed, p.depth ≤ env.maxBuildDepth) ∧
    (cur.within st.prims.length → st.prims.length = n →
      ∃ new, st'.leafCalls = st.leafCalls ++ new ∧
        PermWithin cur.begin cur.end_ st.prims st'.prims ∧
        (new.flatMap (fun c => c.1.indices) ++ pushed.flatMap BuildRecord.indices).Perm
          cur.indices ∧
        (∀ c ∈ new, c.2 = c.1.primsOf st'.prims ∧
          cur.begin ≤ c.1.begin ∧ c.1.begin ≤ c.1.end_ ∧ c.1.end_ ≤ cur.end_) ∧
        ∀ p ∈ pushed, cur.begin ≤ p.begin ∧ p.begin ≤ p.end_ ∧ p.end_ ≤ cur.end_)

/-- The invariant of the subtree phase run by the single worker `t` on an
array of `n` primitives, relative to the leaf calls `L0` made before and the
indices `I0` of the records that waited at the start: the worker has a
stack; the waiting records are ranges of the array; the indices of the leaf
calls made since, together with those of the waiting records, are `I0`, each
once; and each of these calls is on a well-formed range and has read the
primitives the array now holds in it. -/
def SubtreeInv (n t : Nat) (L0 : List (BuildRecord × List PrimRef)) (I0 : List Nat)
    (P0 : List PrimRef) (st : State) : Prop :=
  t < st.threadStack.length ∧ st.prims.length = n ∧ st.prims.Perm P0 ∧
  (∀ r ∈ st.pending, r.within n) ∧
  ∃ new, st.leafCalls = L0 ++ new ∧
    (new.flatMap (fun c => c.1.indices) ++ st.pending.flatMap BuildRecord.indices).Perm I0 ∧
    ∀ c ∈ new, c.2 = c.1.primsOf st.prims ∧ c.1.begin ≤ c.1.end_ ∧ c.1.end_ ≤ n

/-- Modelled from the spec: `TaskScheduler::dispatchTask(_buildSubTrees, ..)`
(the scheduler is not part of this file) runs `buildSubTrees(threadID,
threadCount)` on every thread; here the workers of the given list run one
after another, each to its end. -/
def dispatchSubTrees (env : Env) (threadCount fuel : Nat) : List Nat → State → Outcome
  | [], st => Outcome.done st
  | t :: ts, st =>
    match buildSubTrees env t threadCount fuel st with
    | Outcome.done st1 => dispatchSubTrees env threadCount fuel ts st1
    | Outcome.fail e s => Outcome.fail e s

/-- `BVH4BuilderFast::build_parallel`, given what the generator
`generate_parallel` produced: the top-level loop, then `buildSubTrees` on the
threads `0, .., threadCount - 1`. `fuel` bounds the iterations of each loop. -/
def build_parallel (env : Env) (threadIndex threadCount : Nat) (numPrimitives : Nat)
    (prims : List PrimRef) (pinfo : CentGeomBBox3fa) (fuel : Nat) : Outcome :=
  match build_parallel_toplevel env threadIndex threadCount numPrimitives prims pinfo fuel with
  | Outcome.done st => dispatchSubTrees env threadCount fuel (List.range threadCount) st
  | Outcome.fail e s => Outcome.fail e s

/-- A run of the subtree phase by `numThreads` workers, record by record: in
each step some worker takes a record, from the heap or by stealing or from
its own stack, and processes it by `recurse` in `RECURSE_PARALLEL` mode; the
steps of different workers follow one another in any order. -/
inductive SubtreeRun (env : Env) (numThreads : Nat) : State → State → Prop
  | refl (st : State) : SubtreeRun env numThreads st st
  | step (t : Nat) (br : BuildRecord) (st st1 st2 st3 : State) :
    t < numThreads →
    (nextRecord st t numThreads = some (br, st1) ∨ st.stackPop t = some (br, st1)) →
    recurse env t Mode.RECURSE_PARALLEL br st1 = Outcome.done st2 →
    SubtreeRun env numThreads st2 st3 → SubtreeRun env numThreads st st3

/-- A float that is a number of absolute value at most `2 ^ 20`, neither an
infinity nor near the overflow of `float`. -/
def isFiniteFlt (x : Flt) : Prop :=
  (((-1048576 : Int) : WithTop Int) : Flt) ≤ x ∧ x ≤ (((1048576 : Int) : WithTop Int) : Flt)

/-- A box whose corners have coordinates of absolute value at most `2 ^ 20`
and whose lower corner is not above its upper corner, as the box of a
non-empty set of primitives with such vertices is. The sides of such a box
are numbers between 0 and `2 ^ 21`, so that the float `area` of the box, a sum
of products of two sides, is a number: it is neither NaN nor `neg_inf`. -/
def BBox3fa.proper (b : BBox3fa) : Prop :=
  (isFiniteFlt b.lower.x ∧ isFiniteFlt b.lower.y ∧ isFiniteFlt b.lower.z) ∧
  (isFiniteFlt b.upper.x ∧ isFiniteFlt b.upper.y ∧ isFiniteFlt b.upper.z) ∧
  Vec3fa.le b.lower b.upper

instance (x : Flt) : Decidable (isFiniteFlt x) := by
  unfold isFiniteFlt; infer_instance

instance (b : BBox3fa) : Decidable b.proper := by
  unfold BBox3fa.proper; infer_instance

/-- What `recurse_continue` has done with a child when it ends normally, given
by `P` what a `recurse` call that ends normally does: the child was pushed on
the heap (top level), or pushed on the stack of the thread (parallel
recursion), or processed by `recurse` in a mode other than `BUILD_TOP_LEVEL`. -/
def ContinuePost (env : Env) (threadID : Nat)
    (P : Mode → BuildRecord → State → State → Prop)
    (mode : Mode) (r : BuildRecord) (s s' : State) : Prop :=
  (mode = Mode.BUILD_TOP_LEVEL ∧ s' = s.heapPush r) ∨
  (mode = Mode.RECURSE_PARALLEL ∧ s.stackPush env threadID r = some s') ∨
  (mode ≠ Mode.BUILD_TOP_LEVEL ∧ ∃ m, m ≠ Mode.BUILD_TOP_LEVEL ∧ P m r s s')

/-- A record whose parent is a slot of the memory and whose depth is one more
than the number of interior nodes above that slot. -/
def PendingOK (st : State) (r : BuildRecord) : Prop :=
  st.hasSlot r.parent ∧ r.depth = 1 + nodesAbove st r.parent

/-- The depth invariant of a call in any mode: under the hypotheses of
`DepthInv`, `DepthPost` holds and every record that waits afterwards either
waited before or satisfies `PendingOK`. -/
def DepthInvP (env : Env) (cur : BuildRecord) (st st' : State) : Prop :=
  st.published → st.hasSlot cur.parent → cur.depth = 1 + nodesAbove st cur.parent →
  DepthPost env st st' ∧ ∀ r ∈ st'.pending, r ∈ st.pending ∨ PendingOK st' r

/-- The depth invariant of the memory during a build: every node is published
once; every `createSmallLeaf` call so far was on a record within the depth
limit whose depth is one more than the number of interior nodes above its
parent slot; and so is the depth of every record that waits on the heap or on
a stack. -/
def State.depthsOK (env : Env) (st : State) : Prop :=
  st.published ∧
  (∀ c ∈ st.leafCalls, c.1.depth ≤ env.maxBuildDepthLeaf ∧ PendingOK st c.1) ∧
  ∀ r ∈ st.pending, PendingOK st r

/-- The memory `st1` is the memory `st` with the record `br` taken off the
heap or off a thread stack, and nothing else changed. -/
def Popped (st : State) (br : BuildRecord) (st1 : State) : Prop :=
  st.pending.Perm (br :: st1.pending) ∧
  st1.threadStack.length = st.threadStack.length ∧
  st1.prims = st.prims ∧ st1.nodes = st.nodes ∧ st1.leaves = st.leaves ∧
  st1.root = st.root ∧ st1.bounds = st.bounds ∧ st1.leafCalls = st.leafCalls ∧
  st1.writes = st.writes ∧ st1.setLog = st.setLog

/-! ## Notions for bounds soundness in every mode -/

/-- The hypothesis of bounds soundness on the splitter of a mode (the
parallel binner at top level, the sequential binner otherwise, each with its
median fallback): on an array of `n` primitives and a well-formed record
inside it with more than `minLeafSize` primitives, it permutes primitives
inside the range of the record only, returns `left = [begin, mid)` and
`right = [mid, end)` with `begin ≤ mid ≤ end`, and both records satisfy the
`PrimInfo` invariant: `geomBounds` is the union of the boxes of the
primitives of the range in the array the splitter leaves. -/
def SplitsExactly (env : Env) (mode : Mode) (n : Nat) : Prop :=
  ∀ (P : List PrimRef) (r : BuildRecord), P.length = n → r.within n →
    env.minLeafSize < r.size →
    (split env mode P r).2.1.begin = r.begin ∧
    (split env mode P r).2.1.end_ = (split env mode P r).2.2.begin ∧
    (split env mode P r).2.2.end_ = r.end_ ∧
    r.begin ≤ (split env mode P r).2.1.end_ ∧
    (split env mode P r).2.1.end_ ≤ r.end_ ∧
    PermWithin r.begin r.end_ P (split env mode P r).1 ∧
    (split env mode P r).2.1.geomBounds =
      rangeUnion (split env mode P r).1 (split env mode P r).2.1.begin
        (split env mode P r).2.1.end_ ∧
    (split env mode P r).2.2.geomBounds =
      rangeUnion (split env mode P r).1 (split env mode P r).2.2.begin
        (split env mode P r).2.2.end_

/-- The range of `r` is a well-formed range inside the range of `cur`. -/
def InRange (cur r : BuildRecord) : Prop :=
  cur.begin ≤ r.begin ∧ r.begin ≤ r.end_ ∧ r.end_ ≤ cur.end_

/-- The ranges of two records have no index in common. -/
def Apart (a b : BuildRecord) : Prop :=
  a.begin = a.end_ ∨ b.begin = b.end_ ∨ a.end_ ≤ b.begin ∨ b.end_ ≤ a.begin

/-- The range of `r` lies inside the range of `c` or has no index in common
with it. -/
def Lam (r c : BuildRecord) : Prop :=
  c.begin = c.end_ ∨ r.end_ ≤ c.begin ∨ c.end_ ≤ r.begin ∨
    (c.begin ≤ r.begin ∧ r.end_ ≤ c.end_)

/-- What processing the record `cur`, a range of an array of `n` primitives,
does in any mode: the array is permuted inside the range of `cur` only; the
new `createSmallLeaf` calls are on ranges inside it and have read the
primitives the array holds there afterwards; each new `node->set` is for a
child record on a range inside it and stores the union of the boxes of the
primitives the array holds in that range afterwards; the records pushed are
on ranges inside it that have no index in common with one another nor with
the new leaves, and each lies inside or apart from the range of each new
`node->set`. -/
def ExactPost (n : Nat) (cur : BuildRecord) (st st' : State) : Prop :=
  cur.within n → st.prims.length = n →
  PermWithin cur.begin cur.end_ st.prims st'.prims ∧
  ∃ leaves log pushed,
    st'.leafCalls = st.leafCalls ++ leaves ∧ st'.setLog = st.setLog ++ log ∧
    st'.pending.Perm (pushed ++ st.pending) ∧
    (∀ l ∈ leaves, l.2 = l.1.primsOf st'.prims ∧ InRange cur l.1) ∧
    (∀ e ∈ log, InRange cur e.2.2 ∧
      e.2.2.geomBounds = rangeUnion st'.prims e.2.2.begin e.2.2.end_) ∧
    (∀ p ∈ pushed, InRange cur p ∧ (∀ e ∈ log, Lam p e.2.2) ∧ ∀ l ∈ leaves, Apart p l.1) ∧
    pushed.Pairwise Apart

/-- The boxes that the node at index `k` of the arena holds. -/
def State.boxes (st : State) (k : Nat) : List BBox3fa := (st.nodes.getD k Node.clear).bounds

/-- The box that the node at index `k` of the arena holds in slot `i`. -/
def State.boxAt (st : State) (k i : Nat) : BBox3fa := (st.boxes k).getD i BBox3fa.empty

/-- What processing a record does to the boxes of the nodes: the nodes that
existed keep their boxes; every new `node->set(i, ..)` call is on slot `i < 4`
of a new node, which holds the box of that call afterwards; and a slot of a
new node on which there was no such call holds the empty box. -/
def BoxPost (st st' : State) : Prop :=
  st.nodes.length ≤ st'.nodes.length ∧
  (∀ k, k < st.nodes.length → st'.boxes k = st.boxes k) ∧
  ∃ log, st'.setLog = st.setLog ++ log ∧
    (∀ e ∈ log, st.nodes.length ≤ e.1 ∧ e.1 < st'.nodes.length ∧ e.2.1 < BVH4.N ∧
      st'.boxAt e.1 e.2.1 = e.2.2.geomBounds) ∧
    (∀ k i, st.nodes.length ≤ k → k < st'.nodes.length → i < BVH4.N →
      (∃ c, (k, i, c) ∈ log) ∨ st'.boxAt k i = BBox3fa.empty)

/-- The boxes of the nodes are the boxes of the `node->set` calls: every call
so far was on slot `i < 4` of an allocated node, which holds the box of that
call; and a slot of a node on which there was no call holds the empty box. -/
def State.boxesStored (st : State) : Prop :=
  (∀ e ∈ st.setLog, e.1 < st.nodes.length ∧ e.2.1 < BVH4.N ∧
    st.boxAt e.1 e.2.1 = e.2.2.geomBounds) ∧
  (∀ k i, k < st.nodes.length → i < BVH4.N →
    (∃ c, (k, i, c) ∈ st.setLog) ∨ st.boxAt k i = BBox3fa.empty)

/-- The pointer that the node at index `k` of the arena holds in slot `i`. -/
def State.childAt (st : State) (k i : Nat) : NodeRef :=
  (st.nodes.getD k Node.clear).children.getD i NodeRef.empty

/-- A record whose parent is a child slot is anchored: `node->set` was called
on that slot for a record on the same range. -/
def State.anchored (st : State) (r : BuildRecord) : Prop :=
  ∀ k i, r.parent = Slot.child k i →
    ∃ c, (k, i, c) ∈ st.setLog ∧ c.begin = r.begin ∧ c.end_ = r.end_

/-- A store of an encoded node made while a record was processed: the node
was allocated meanwhile, and if the store was through a child slot, then
`node->set` was called on that slot for a record whose range contains the
range of every record for which `node->set` was called on the new node. -/
def NestedNew (st st' : State) (w : Slot × NodeRef) : Prop :=
  ∀ m, w.2 = NodeRef.node m → st.nodes.length ≤ m ∧ m < st'.nodes.length ∧
    ∀ k i, w.1 = Slot.child k i →
      ∃ c, (k, i, c) ∈ st'.setLog ∧ ∀ x ∈ st'.setLog, x.1 = m → InRange c x.2.2

/-- The conditions under which a call on the record `cur` is made in a build:
its range is inside the array of `n` primitives, its parent is a slot of the
memory, every `node->set` call so far was on an allocated node, and the
record is anchored. -/
def LinkPre (n : Nat) (cur : BuildRecord) (st : State) : Prop :=
  cur.within n ∧ st.prims.length = n ∧ st.hasSlot cur.parent ∧
  (∀ x ∈ st.setLog, x.1 < st.nodes.length) ∧ st.anchored cur

/-- What processing a record adds to the tree: the records of the new leaf
calls and the records pushed are anchored, the new stores of encoded nodes
are nested, and each new store of an encoded leaf is through the parent slot
of the record of a leaf call. -/
def LinkPost (st st' : State) : Prop :=
  (∀ l ∈ st'.leafCalls, l ∈ st.leafCalls ∨ st'.anchored l.1) ∧
  (∀ r ∈ st'.pending, r ∈ st.pending ∨ st'.anchored r) ∧
  (∀ w ∈ st'.writes, w ∈ st.writes ∨ NestedNew st st' w) ∧
  (∀ w ∈ st'.writes, w ∈ st.writes ∨
    ∀ a num, w.2 = NodeRef.leaf a num → ∃ l ∈ st'.leafCalls, l.1.parent = w.1)

/-- Every pointer that a child slot of a node holds was stored through that
slot: the slot is empty, or the log of stores has the store of its pointer
through it. -/
def State.pointersWritten (st : State) : Prop :=
  ∀ k i, st.childAt k i = NodeRef.empty ∨ (Slot.child k i, st.childAt k i) ∈ st.writes

/-- The bounds invariant of the memory during a build over an array of `n`
primitives. The records that wait are anchored, on ranges inside the array
that have no index in common. Every leaf call so far has read the primitives
that the array holds in its range now, its record is anchored, and no record
that waits shares an index with it. Every `node->set` call so far was for a
record whose box is the union of the boxes of the primitives that the array
holds in its range now, and a record that waits lies inside that range or
shares no index with it. The nodes hold the boxes of the `node->set` calls.
Every store of an encoded node through a child slot is nested: `node->set`
was called on that slot for a record whose range contains the range of every
record for which `node->set` was called on the node stored. Every pointer
in a node was stored through its slot. And every store of an encoded leaf was
through the parent slot of the record of a leaf call. -/
def State.boundsOK (n : Nat) (st : State) : Prop :=
  st.prims.length = n ∧
  (∀ r ∈ st.pending, r.within n ∧ st.anchored r) ∧
  st.pending.Pairwise Apart ∧
  (∀ l ∈ st.leafCalls, l.2 = l.1.primsOf st.prims ∧ l.1.within n ∧ st.anchored l.1 ∧
    ∀ r ∈ st.pending, Apart r l.1) ∧
  (∀ e ∈ st.setLog, e.2.2.within n ∧
    e.2.2.geomBounds = rangeUnion st.prims e.2.2.begin e.2.2.end_ ∧
    ∀ r ∈ st.pending, Lam r e.2.2) ∧
  st.boxesStored ∧
  (∀ w ∈ st.writes, ∀ m, w.2 = NodeRef.node m → m < st.nodes.length ∧
    ∀ k i, w.1 = Slot.child k i →
      ∃ c, (k, i, c) ∈ st.setLog ∧ ∀ x ∈ st.setLog, x.1 = m → InRange c x.2.2) ∧
  st.pointersWritten ∧
  (∀ w ∈ st.writes, ∀ a num, w.2 = NodeRef.leaf a num →
    ∃ l ∈ st.leafCalls, l.1.parent = w.1)

/-- Bounds soundness of the memory that a build leaves.
(1) Every `node->set(i, children[i].geomBounds)` call so far was on a slot
`i < 4` of an allocated node; the node holds the box of the call in that
slot; the box is the union of the boxes of the primitives that the array
holds in the range of the child record; so it contains the box of every
primitive read by every leaf call on a range inside that range, and every box
stored for a range inside that range.
(2) A slot of a node on which there was no `node->set` call holds the empty
box.
(3) For every leaf call, if the parent of its record is child slot `i` of
node `k`, the box that node `k` holds in slot `i` contains the box of every
primitive the call read.
(4) If a slot of a node holds an encoded leaf, there is a leaf call whose
record has that slot as parent, and the box in the slot contains the box of
every primitive that call read.
(5) If slot `i` of node `k` holds the encoded node `m`, the box that node
`k` holds in slot `i` contains each of the four boxes that node `m` holds. -/
def State.boxesSound (st : State) : Prop :=
  (∀ e ∈ st.setLog, e.1 < st.nodes.length ∧ e.2.1 < BVH4.N ∧
    st.boxAt e.1 e.2.1 = e.2.2.geomBounds ∧
    e.2.2.geomBounds = rangeUnion st.prims e.2.2.begin e.2.2.end_ ∧
    (∀ l ∈ st.leafCalls, e.2.2.begin ≤ l.1.begin → l.1.end_ ≤ e.2.2.end_ →
      ∀ p ∈ l.2, e.2.2.geomBounds.contains p.bounds) ∧
    (∀ e' ∈ st.setLog, e.2.2.begin ≤ e'.2.2.begin → e'.2.2.end_ ≤ e.2.2.end_ →
      e.2.2.geomBounds.contains e'.2.2.geomBounds)) ∧
  (∀ k i, k < st.nodes.length → i < BVH4.N →
    (∃ c, (k, i, c) ∈ st.setLog) ∨ st.boxAt k i = BBox3fa.empty) ∧
  (∀ l ∈ st.leafCalls, ∀ k i, l.1.parent = Slot.child k i →
    ∀ p ∈ l.2, (st.boxAt k i).contains p.bounds) ∧
  (∀ k i a num, st.childAt k i = NodeRef.leaf a num →
    ∃ l ∈ st.leafCalls, l.1.parent = Slot.child k i ∧
      ∀ p ∈ l.2, (st.boxAt k i).contains p.bounds) ∧
  (∀ k i m, st.childAt k i = NodeRef.node m →
    ∀ j, j < BVH4.N → (st.boxAt k i).contains (st.boxAt m j))

/-- Primitives that no binner can separate: `n` triangles of mesh 0 with one
common box, the unit cube at the origin. -/
def stackedPrims (n : Nat) : List PrimRef :=
  (List.range n).map (fun (i : Nat) => ⟨diagPoint 0, diagPoint 1, 0, i⟩)

/-- The `Triangle1` builder over the scene `normalScene`, with IEEE single
precision for the `ssef` arithmetic. -/
def normalEnv : Env := { fallbackEnv Layout.triangle1 2 with scene := normalScene }

/-! # Properties -/

/-! ## Basic facts: ranges and the fallback split -/

@[simp] theorem splitFallback_fst_begin (P : List PrimRef) (r : BuildRecord) :
    (splitFallback P r).1.begin = r.begin := rfl

@[simp] theorem splitFallback_fst_end (P : List PrimRef) (r : BuildRecord) :
    (splitFallback P r).1.end_ = splitFallback.center r := rfl

@[simp] theorem splitFallback_snd_begin (P : List PrimRef) (r : BuildRecord) :
    (splitFallback P r).2.begin = splitFallback.center r := rfl

@[simp] theorem splitFallback_snd_end (P : List PrimRef) (r : BuildRecord) :
    (splitFallback P r).2.end_ = r.end_ := rfl

theorem size_of_le (r : BuildRecord) (h : r.begin ≤ r.end_) :
    r.size = r.end_ - r.begin := by
  simp [BuildRecord.size, h]

theorem size_of_lt (r : BuildRecord) (h : r.end_ < r.begin) :
    r.size = 2 ^ 64 - (r.begin - r.end_) := by
  have : ¬ r.begin ≤ r.end_ := by omega
  simp [BuildRecord.size, this]

/-- Without narrowing the centre is the median index. -/
theorem center_eq (r : BuildRecord) (he : r.end_ ≤ 2 ^ 32) (hne : r.begin < 2 ^ 32) :
    splitFallback.center r = (r.begin + r.end_) / 2 := by
  unfold splitFallback.center
  omega

/-- The centre of a well-formed range never lies beyond its end. -/
theorem center_le_end (r : BuildRecord) (h : r.begin ≤ r.end_) :
    splitFallback.center r ≤ r.end_ := by
  unfold splitFallback.center
  omega

/-- The centre of a wrapped range lies before its begin. -/
theorem center_lt_begin (r : BuildRecord) (h : r.end_ < r.begin) :
    splitFallback.center r < r.begin := by
  unfold splitFallback.center
  omega

/-! ## Basic facts: the children loop -/

theorem forChildren_cons (body : Nat → BuildRecord → State → Outcome) (i : Nat)
    (c : BuildRecord) (cs : List BuildRecord) (st : State) :
    forChildren body i (c :: cs) st =
      match body i c st with
      | Outcome.done st1 => forChildren body (i + 1) cs st1
      | Outcome.fail e s => Outcome.fail e s := rfl

/-- The loop ends normally exactly when every call does, one after another. -/
theorem forChildren_done_cons (body : Nat → BuildRecord → State → Outcome) (i : Nat)
    (c : BuildRecord) (cs : List BuildRecord) (st st' : State) :
    forChildren body i (c :: cs) st = Outcome.done st' ↔
      ∃ s1, body i c st = Outcome.done s1 ∧
        forChildren body (i + 1) cs s1 = Outcome.done st' := by
  rw [forChildren_cons]
  cases hb : body i c st with
  | done s1 => simp
  | fail e s => simp

/-- The loop ends with the error `e` exactly when some child meets `Q`,
provided each call ends normally or with `e`, and with `e` exactly on `Q`. -/
theorem forChildren_error_iff (body : Nat → BuildRecord → State → Outcome) (e : Err)
    (Q : BuildRecord → Prop) (cs : List BuildRecord)
    (h : ∀ i c s, c ∈ cs →
      (((body i c s).error = some e ↔ Q c) ∧
       ((body i c s).error = none ∨ (body i c s).error = some e))) :
    ∀ i st, ((forChildren body i cs st).error = some e ↔ ∃ c ∈ cs, Q c) ∧
      ((forChildren body i cs st).error = none ∨
        (forChildren body i cs st).error = some e) := by
  induction cs with
  | nil => intro i st; simp [forChildren, Outcome.error]
  | cons c cs ih =>
    intro i st
    have hc := h i c st (List.mem_cons_self _ _)
    have ih' := ih (fun i c s hm => h i c s (List.mem_cons_of_mem _ hm))
    rw [forChildren_cons]
    cases hb : body i c st with
    | done s1 =>
      rw [hb] at hc
      have hq : ¬ Q c := fun hq => by simpa [Outcome.error] using hc.1.2 hq
      have := ih' (i + 1) s1
      simp only [List.mem_cons, exists_eq_or_imp, hq, false_or]
      exact this
    | fail e1 s1 =>
      rw [hb] at hc
      simp only [Outcome.error] at hc ⊢
      rcases hc.2 with h2 | h2
      · simp at h2
      · refine ⟨?_, Or.inr h2⟩
        constructor
        · intro _; exact ⟨c, List.mem_cons_self _ _, hc.1.1 h2⟩
        · intro _; exact h2

/-- The body of `createLeaf` behind its budget. -/
theorem createLeafF_unfold (env : Env) (fuel : Nat) (current : BuildRecord) (st : State) :
    createLeafF env (fuel + 1) current st =
    if current.depth > env.maxBuildDepthLeaf then Outcome.fail Err.depthLimit st
    else if current.size ≤ env.minLeafSize then
      Outcome.done (createSmallLeaf env current st)
    else
      match forChildren (fun i c s =>
          createLeafF env fuel
            { c with parent := Slot.child st.allocNode.1 i, depth := current.depth + 1 }
            (s.setBounds st.allocNode.1 i c)) 0
          [(splitFallback st.prims (splitFallback st.prims current).1).1,
           (splitFallback st.prims (splitFallback st.prims current).1).2,
           (splitFallback st.prims (splitFallback st.prims current).2).1,
           (splitFallback st.prims (splitFallback st.prims current).2).2]
          (st.allocNode.2.store current.parent (encodeNode st.allocNode.1)) with
      | Outcome.done st3 => Outcome.done (st3.compact st.allocNode.1)
      | Outcome.fail e s => Outcome.fail e s := rfl

/-! ## The depth limit of `createLeaf` -/

/-- The centres of the two fallback levels of `createLeaf` on a range that
needs no narrowing. -/
theorem fallback_centers (P : List PrimRef) (r : BuildRecord) (h : r.begin < r.end_)
    (he : r.end_ ≤ 2 ^ 32) :
    splitFallback.center r = (r.begin + r.end_) / 2 ∧
    splitFallback.center (splitFallback P r).1 = (r.begin + (r.begin + r.end_) / 2) / 2 ∧
    splitFallback.center (splitFallback P r).2 = ((r.begin + r.end_) / 2 + r.end_) / 2 := by
  have h0 : splitFallback.center r = (r.begin + r.end_) / 2 := center_eq r he (by omega)
  refine ⟨h0, ?_, ?_⟩
  · rw [center_eq _ (by simp; omega) (by simp; omega)]
    simp [h0]
  · rw [center_eq _ (by simp; omega) (by simp; omega)]
    simp [h0]

theorem createLeafF_error (env : Env) : ∀ (fuel : Nat) (r : BuildRecord) (st : State),
    env.maxBuildDepthLeaf + 1 - r.depth < fuel → r.begin ≤ r.end_ → r.end_ ≤ 2 ^ 32 →
    (((createLeafF env fuel r st).error = some Err.depthLimit ↔
        depthLimitHit env r.depth (r.end_ - r.begin)) ∧
     ((createLeafF env fuel r st).error = none ∨
      (createLeafF env fuel r st).error = some Err.depthLimit)) := by
  intro fuel
  induction fuel with
  | zero => intro r st h; omega
  | succ fuel ih =>
    intro r st hf hbe he
    rw [createLeafF_unfold]
    by_cases hd : r.depth > env.maxBuildDepthLeaf
    · simp [hd, Outcome.error, depthLimitHit]
    · rw [if_neg hd]
      have hd' : r.depth ≤ env.maxBuildDepthLeaf := by omega
      have hpow : 1 ≤ 4 ^ (env.maxBuildDepthLeaf - r.depth) := Nat.one_le_pow _ _ (by norm_num)
      by_cases hs : r.size ≤ env.minLeafSize
      · rw [if_pos hs]
        rw [size_of_le r hbe] at hs
        simp only [Outcome.error, depthLimitHit, true_or, and_true]
        constructor
        · intro h; simp at h
        · intro h
          rcases h with h | h
          · omega
          · have : env.minLeafSize ≤ env.minLeafSize * 4 ^ (env.maxBuildDepthLeaf - r.depth) :=
              Nat.le_mul_of_pos_right _ hpow
            omega
      · rw [if_neg hs]
        rw [size_of_le r hbe] at hs
        have hlt : r.begin < r.end_ := by omega
        obtain ⟨hc1, hc2, hc3⟩ := fallback_centers st.prims r hlt he
        have key := forChildren_error_iff
          (fun i c s =>
            createLeafF env fuel
              { c with parent := Slot.child st.allocNode.1 i, depth := r.depth + 1 }
              (s.setBounds st.allocNode.1 i c)) Err.depthLimit
          (fun c => depthLimitHit env (r.depth + 1) (c.end_ - c.begin))
          [(splitFallback st.prims (splitFallback st.prims r).1).1,
           (splitFallback st.prims (splitFallback st.prims r).1).2,
           (splitFallback st.prims (splitFallback st.prims r).2).1,
           (splitFallback st.prims (splitFallback st.prims r).2).2]
          (by
            intro i c s hc
            apply ih
            · simp only; omega
            · simp only [List.mem_cons, List.mem_singleton, List.not_mem_nil, or_false] at hc
              rcases hc with rfl | rfl | rfl | rfl <;>
                simp [hc1, hc2, hc3] <;> omega
            · simp only [List.mem_cons, List.mem_singleton, List.not_mem_nil, or_false] at hc
              rcases hc with rfl | rfl | rfl | rfl <;>
                simp [hc1, hc2, hc3] <;> omega)
          0 (st.allocNode.2.store r.parent (encodeNode st.allocNode.1))
        have harith : (∃ c ∈ [(splitFallback st.prims (splitFallback st.prims r).1).1,
           (splitFallback st.prims (splitFallback st.prims r).1).2,
           (splitFallback st.prims (splitFallback st.prims r).2).1,
           (splitFallback st.prims (splitFallback st.prims r).2).2],
             depthLimitHit env (r.depth + 1) (c.end_ - c.begin)) ↔
            depthLimitHit env r.depth (r.end_ - r.begin) := by
          simp only [List.mem_cons, List.mem_singleton, List.not_mem_nil, or_false,
            exists_eq_or_imp, exists_eq_left, depthLimitHit]
          simp only [splitFallback_fst_begin, splitFallback_fst_end, splitFallback_snd_begin,
            splitFallback_snd_end, hc1, hc2, hc3]
          by_cases hL : r.depth = env.maxBuildDepthLeaf
          · have h0 : env.maxBuildDepthLeaf - r.depth = 0 := by omega
            rw [h0]; simp; omega
          · have h1 : env.maxBuildDepthLeaf - r.depth = (env.maxBuildDepthLeaf - (r.depth + 1)) + 1 := by
              omega
            have h2 : ¬ r.depth + 1 > env.maxBuildDepthLeaf := by omega
            rw [h1, pow_succ, ← mul_assoc]
            simp only [h2, hd, false_or, gt_iff_lt]
            rw [mul_comm _ 4]
            generalize env.minLeafSize * 4 ^ (env.maxBuildDepthLeaf - (r.depth + 1)) = M
            omega
        rw [← harith]
        cases hfc : forChildren (fun i c s =>
            createLeafF env fuel
              { c with parent := Slot.child st.allocNode.1 i, depth := r.depth + 1 }
              (s.setBounds st.allocNode.1 i c)) 0
          [(splitFallback st.prims (splitFallback st.prims r).1).1,
           (splitFallback st.prims (splitFallback st.prims r).1).2,
           (splitFallback st.prims (splitFallback st.prims r).2).1,
           (splitFallback st.prims (splitFallback st.prims r).2).2]
          (st.allocNode.2.store r.parent (encodeNode st.allocNode.1)) with
        | done s3 => rw [hfc] at key; simpa [Outcome.error] using key
        | fail e1 s3 => rw [hfc] at key; simpa [Outcome.error] using key

theorem error_eq_some_iff (o : Outcome) (e : Err) :
    o.error = some e ↔ ∃ s, o = Outcome.fail e s := by
  cases o <;> simp [Outcome.error]

theorem error_eq_none_iff (o : Outcome) :
    o.error = none ↔ o.isDone = true := by
  cases o <;> simp [Outcome.error, Outcome.isDone]

/-- C8. For a record with `begin ≤ end` and `begin + end < 2 ^ 32`, `createLeaf`
at depth `d` on `n = end - begin` primitives throws "depth limit reached" if
and only if `d > maxBuildDepthLeaf` or `n > minLeafSize * 4 ^ (maxBuildDepthLeaf - d)`;
it never ends in another way than normally or with that error; when it throws
at its own entry the memory is untouched (no allocation, no store through
`current.parent`); and a record that reaches `createLeaf` at depth
`maxBuildDepth` with `n ≤ minLeafSize * 4 ^ (maxBuildDepthLeaf - maxBuildDepth)`
is turned into leaves without error. -/
theorem createLeaf_depth_limit_characterised (env : Env) (current : BuildRecord) (st : State)
    (hbe : current.begin ≤ current.end_) (hsum : current.begin + current.end_ < 2 ^ 32) :
    ((∃ s, createLeaf env current st = Outcome.fail Err.depthLimit s) ↔
      (current.depth > env.maxBuildDepthLeaf ∨
       current.size > env.minLeafSize * 4 ^ (env.maxBuildDepthLeaf - current.depth))) ∧
    ((createLeaf env current st).isDone = true ∨
      ∃ s, createLeaf env current st = Outcome.fail Err.depthLimit s) ∧
    (current.depth > env.maxBuildDepthLeaf →
      createLeaf env current st = Outcome.fail Err.depthLimit st) ∧
    (current.depth = env.maxBuildDepth → env.maxBuildDepth ≤ env.maxBuildDepthLeaf →
      current.size ≤ env.minLeafSize * 4 ^ (env.maxBuildDepthLeaf - env.maxBuildDepth) →
      (createLeaf env current st).isDone = true) := by
  have key := createLeafF_error env (env.maxBuildDepthLeaf + 1 - current.depth + 1) current st
    (by omega) hbe (by omega)
  rw [error_eq_some_iff, error_eq_none_iff] at key
  rw [size_of_le current hbe]
  unfold depthLimitHit at key
  refine ⟨key.1, key.2, ?_, ?_⟩
  · intro hd
    unfold createLeaf
    rw [createLeafF_unfold, if_pos hd]
  · intro hd hL hn
    rcases key.2 with h | h
    · exact h
    · exfalso
      have := key.1.1 h
      rw [hd] at this
      omega

theorem createLeaf_depth_limit_characterised_witness :
    (0 ≤ 5 ∧ 0 + 5 < 2 ^ 32) ∧
    (createLeaf (fallbackEnv Layout.triangle1 2)
        { BuildRecord.blank with end_ := 5, depth := 48, parent := Slot.root }
        (initialState (samplePrims 5) (scanBounds (samplePrims 5) 0 5))).isDone = false := by
  refine ⟨by decide, ?_⟩
  have h := createLeaf_depth_limit_characterised (fallbackEnv Layout.triangle1 2)
    { BuildRecord.blank with end_ := 5, depth := 48, parent := Slot.root }
    (initialState (samplePrims 5) (scanBounds (samplePrims 5) 0 5)) (by decide) (by decide)
  have h1 := h.1.2 (Or.inr (by decide))
  obtain ⟨s, hs⟩ := h1
  rw [hs]; rfl

/-! ## Leaf emitters -/

theorem getElem?_set_getD {α : Type} (l : List α) (n i : Nat) (x d : α) :
    (l.set n x)[i]?.getD d = if n = i ∧ n < l.length then x else l[i]?.getD d := by
  rw [List.getElem?_set]
  by_cases h : n = i
  · subst h
    by_cases h2 : n < l.length
    · simp [h2]
    · simp [h2, List.getElem?_eq_none (Nat.le_of_not_lt h2)]
  · simp [h]

theorem soaFill_succ (scene : Scene) (prims : List PrimRef) (start n w : Nat) :
    soaFill scene prims start (n + 1) w =
      soaStep scene prims start (soaFill scene prims start n w) n := by
  simp [soaFill, List.range_succ, List.foldl_append]

theorem soaStep_width (scene : Scene) (prims : List PrimRef) (start : Nat) (t : TriangleSoA)
    (n w : Nat) (h : t.width w) : (soaStep scene prims start t n).width w := by
  unfold TriangleSoA.width at *
  simp [soaStep, SoA3f.setLane]
  exact h

theorem soaFill_width (scene : Scene) (prims : List PrimRef) (start n w : Nat) :
    (soaFill scene prims start n w).width w := by
  induction n with
  | zero => simp [soaFill, TriangleSoA.width, TriangleSoA.init, SoA3f.zero]
  | succ n ih => rw [soaFill_succ]; exact soaStep_width _ _ _ _ _ _ ih

theorem soaStep_lane (scene : Scene) (prims : List PrimRef) (start : Nat) (t : TriangleSoA)
    (n w i : Nat) (h : t.width w) :
    (soaStep scene prims start t n).lane i =
      if n = i ∧ n < w then laneOf scene (primAt prims (start + n)) else t.lane i := by
  obtain ⟨h1, h2, h3, h4, h5, h6, h7, h8, h9, h10, h11, h12⟩ := h
  simp only [soaStep, TriangleSoA.lane, SoA3f.lane, SoA3f.setLane, List.getD_eq_getElem?_getD,
    getElem?_set_getD, h1, h2, h3, h4, h5, h6, h7, h8, h9, h10, h11, h12]
  by_cases hc : n = i ∧ n < w
  · simp only [if_pos hc, laneOf]
  · simp only [if_neg hc]

theorem init_lane (w i : Nat) (h : i < w) : (TriangleSoA.init w).lane i = unusedLane := by
  simp [TriangleSoA.init, TriangleSoA.lane, SoA3f.lane, SoA3f.zero, unusedLane,
    List.getD_eq_getElem?_getD, List.getElem?_replicate, h]

/-- After the filling loop, lane `i` holds primitive `start + i` when
`i < items` and is unused otherwise. -/
theorem soaFill_lane (scene : Scene) (prims : List PrimRef) (start w : Nat) :
    ∀ items i, items ≤ w → i < w →
    (soaFill scene prims start items w).lane i =
      if i < items then laneOf scene (primAt prims (start + i)) else unusedLane := by
  intro items
  induction items with
  | zero => intro i _ hi; simp [soaFill, init_lane w i hi]
  | succ n ih =>
    intro i hn hi
    rw [soaFill_succ, soaStep_lane _ _ _ _ _ w _ (soaFill_width _ _ _ _ _)]
    by_cases hc : n = i
    · subst hc
      simp [hi]
    · have : ¬ (n = i ∧ n < w) := by tauto
      rw [if_neg this, ih i (by omega) hi]
      by_cases h2 : i < n
      · have h3 : i < n + 1 := by omega
        simp [h2, h3]
      · have h3 : ¬ i < n + 1 := by omega
        simp [h2, h3]

theorem toInt32_of_lt (n : Nat) (h : n < 2 ^ 31) : toInt32 n = (n : Int) := by
  unfold toInt32
  have : (n + 2 ^ 31) % 2 ^ 32 = n + 2 ^ 31 := Nat.mod_eq_of_lt (by omega)
  rw [this]
  simp

theorem createSmallLeaf_leaves (env : Env) (current : BuildRecord) (st : State) :
    (createSmallLeaf env current st).leaves = st.leaves ++ [(leafBlock env st.prims current).1] := by
  unfold createSmallLeaf State.store
  cases current.parent <;> rfl

theorem createSmallLeaf_writes (env : Env) (current : BuildRecord) (st : State) :
    (createSmallLeaf env current st).writes =
      st.writes ++ [(current.parent,
        encodeLeaf st.leaves.length (leafBlock env st.prims current).2)] := by
  unfold createSmallLeaf State.store
  cases current.parent <;> rfl

/-- C9. For the SoA layouts (`Triangle4` and `Triangle4v` with 4 lanes,
`Triangle8` with 8) and a record of at most that many primitives,
`createSmallLeaf` appends one SoA record of that width to the primitive
arena and stores `encodeLeaf(record, 1)` through `current.parent`; lane
`i < items` holds the geomID, the primID and the mesh mask of `prims[begin+i]`
(as 32-bit lanes, equal to the ids themselves below `2 ^ 31`) and the three
vertices of its triangle, and every lane `i ≥ items` holds `-1` for geomID,
primID and mask and zero vertices. -/
theorem createSmallLeaf_soa_packing (env : Env) (current : BuildRecord) (st : State)
    (w : Nat) (hw : env.layout.lanes = some w) (hitems : current.size ≤ w) :
    ∃ blk t, (createSmallLeaf env current st).leaves = st.leaves ++ [blk] ∧
      blk.soa = some t ∧ t.width w ∧
      (createSmallLeaf env current st).writes =
        st.writes ++ [(current.parent, encodeLeaf st.leaves.length 1)] ∧
      (∀ i, i < current.size →
        t.lane i = laneOf env.scene (primAt st.prims (current.begin + i)) ∧
        ((primAt st.prims (current.begin + i)).geomID < 2 ^ 31 →
          (t.lane i).geomID = Int.ofNat (primAt st.prims (current.begin + i)).geomID) ∧
        ((primAt st.prims (current.begin + i)).primID < 2 ^ 31 →
          (t.lane i).primID = Int.ofNat (primAt st.prims (current.begin + i)).primID)) ∧
      (∀ i, current.size ≤ i → i < w → t.lane i = unusedLane) := by
  refine ⟨(leafBlock env st.prims current).1,
    soaFill env.scene st.prims current.begin current.size w,
    createSmallLeaf_leaves env current st, ?_, soaFill_width _ _ _ _ _, ?_, ?_, ?_⟩
  · cases hl : env.layout <;> simp [hl, Layout.lanes] at hw <;>
      simp [leafBlock, hl, LeafBlock.soa, hw]
  · rw [createSmallLeaf_writes]
    cases hl : env.layout <;> simp [hl, Layout.lanes] at hw <;> simp [leafBlock, hl]
  · intro i hi
    have hl := soaFill_lane env.scene st.prims current.begin w current.size i hitems (by omega)
    rw [if_pos hi] at hl
    refine ⟨hl, ?_, ?_⟩
    · intro h; rw [hl]; simp [laneOf, toInt32_of_lt _ h]
    · intro h; rw [hl]; simp [laneOf, toInt32_of_lt _ h]
  · intro i hi hiw
    have hl := soaFill_lane env.scene st.prims current.begin w current.size i hitems hiw
    rw [if_neg (by omega)] at hl
    exact hl

theorem createSmallLeaf_soa_packing_witness :
    ((fallbackEnv Layout.triangle4 4).layout.lanes = some 4 ∧
      ({ BuildRecord.blank with end_ := 2, parent := Slot.root } : BuildRecord).size ≤ 4) ∧
    ∃ blk t, (createSmallLeaf (fallbackEnv Layout.triangle4 4)
        { BuildRecord.blank with end_ := 2, parent := Slot.root }
        (initialState (samplePrims 2) CentGeomBBox3fa.reset)).leaves = [blk] ∧
      blk.soa = some t ∧ t.lane 3 = unusedLane := by
  refine ⟨⟨by decide, by decide⟩, ?_⟩
  obtain ⟨blk, t, h1, h2, _, _, _, h6⟩ := createSmallLeaf_soa_packing
    (fallbackEnv Layout.triangle4 4)
    { BuildRecord.blank with end_ := 2, parent := Slot.root }
    (initialState (samplePrims 2) CentGeomBBox3fa.reset) 4 (by decide) (by decide)
  exact ⟨blk, t, h1, h2, h6 3 (by decide) (by decide)⟩

/-- C10. For the `Triangle1` and `Triangle1v` layouts and a record of `k`
primitives, `createSmallLeaf` appends one block of `k` records to the
primitive arena and stores `encodeLeaf(block, k)` through `current.parent`;
record `i < k` is built from `prims[begin+i]`: `v0`, `v1`, `v2` carry the
coordinates of the three vertices of its triangle, their fourth lanes carry
primID, geomID and the mesh mask as 32-bit lanes (the ids and the mask
themselves below `2 ^ 31`), and `Triangle1` stores in addition
`Ng = cross(v0 - v1, v2 - v0)` with fourth lane 0, the difference and the
cross product being those of `ssef`, applied to the vertices with fourth
lane zero. With IEEE single precision the triangle `(0,0,0)`, `(-4097,0,0)`,
`(0,4097,0)` gets `Ng.z = 16785408`, the float next to `4097 * 4097`. -/
theorem createSmallLeaf_triangle1_packing (env : Env) (current : BuildRecord) (st : State) :
    (∃ recs, (createSmallLeaf { env with layout := Layout.triangle1 } current st).leaves =
        st.leaves ++ [LeafBlock.tri1 recs] ∧
      recs.length = current.size ∧
      (createSmallLeaf { env with layout := Layout.triangle1 } current st).writes =
        st.writes ++ [(current.parent, encodeLeaf st.leaves.length current.size)] ∧
      ∀ i, i < current.size → ∃ rec, recs[i]? = some rec ∧
        (let p := primAt st.prims (current.begin + i)
         let mesh := env.scene.getTriangleMesh p.geomID
         let tri := mesh.triangle p.primID
         let p0 := mesh.vertex tri.v0
         let p1 := mesh.vertex tri.v1
         let p2 := mesh.vertex tri.v2
         rec.v0 = ⟨p0.x, p0.y, p0.z, toInt32 p.primID⟩ ∧
         rec.v1 = ⟨p1.x, p1.y, p1.z, toInt32 p.geomID⟩ ∧
         rec.v2 = ⟨p2.x, p2.y, p2.z, toInt32 mesh.mask⟩ ∧
         (p.primID < 2 ^ 31 → rec.v0.a = Int.ofNat p.primID) ∧
         (p.geomID < 2 ^ 31 → rec.v1.a = Int.ofNat p.geomID) ∧
         (mesh.mask < 2 ^ 31 → rec.v2.a = Int.ofNat mesh.mask) ∧
         rec.Ng.a = 0 ∧
         (rec.Ng.x, rec.Ng.y, rec.Ng.z) =
           ((env.simd.cross (env.simd.sub ⟨p0.x, p0.y, p0.z, 0⟩ ⟨p1.x, p1.y, p1.z, 0⟩)
              (env.simd.sub ⟨p2.x, p2.y, p2.z, 0⟩ ⟨p0.x, p0.y, p0.z, 0⟩)).x,
            (env.simd.cross (env.simd.sub ⟨p0.x, p0.y, p0.z, 0⟩ ⟨p1.x, p1.y, p1.z, 0⟩)
              (env.simd.sub ⟨p2.x, p2.y, p2.z, 0⟩ ⟨p0.x, p0.y, p0.z, 0⟩)).y,
            (env.simd.cross (env.simd.sub ⟨p0.x, p0.y, p0.z, 0⟩ ⟨p1.x, p1.y, p1.z, 0⟩)
              (env.simd.sub ⟨p2.x, p2.y, p2.z, 0⟩ ⟨p0.x, p0.y, p0.z, 0⟩)).z))) ∧
    (∃ recs, (createSmallLeaf { env with layout := Layout.triangle1v } current st).leaves =
        st.leaves ++ [LeafBlock.tri1v recs] ∧
      recs.length = current.size ∧
      (createSmallLeaf { env with layout := Layout.triangle1v } current st).writes =
        st.writes ++ [(current.parent, encodeLeaf st.leaves.length current.size)] ∧
      ∀ i, i < current.size → ∃ rec, recs[i]? = some rec ∧
        (let p := primAt st.prims (current.begin + i)
         let mesh := env.scene.getTriangleMesh p.geomID
         let tri := mesh.triangle p.primID
         let p0 := mesh.vertex tri.v0
         let p1 := mesh.vertex tri.v1
         let p2 := mesh.vertex tri.v2
         rec.v0 = ⟨p0.x, p0.y, p0.z, toInt32 p.primID⟩ ∧
         rec.v1 = ⟨p1.x, p1.y, p1.z, toInt32 p.geomID⟩ ∧
         rec.v2 = ⟨p2.x, p2.y, p2.z, toInt32 mesh.mask⟩ ∧
         (p.primID < 2 ^ 31 → rec.v0.a = Int.ofNat p.primID) ∧
         (p.geomID < 2 ^ 31 → rec.v1.a = Int.ofNat p.geomID) ∧
         (mesh.mask < 2 ^ 31 → rec.v2.a = Int.ofNat mesh.mask))) ∧
    (triangle1Record ieeeSimd normalScene ⟨⟨0, 0, 0⟩, ⟨0, 0, 0⟩, 0, 0⟩).Ng =
      ⟨0, 0, 16785408, 0⟩ := by
  refine ⟨?_, ?_, by decide⟩
  · refine ⟨(List.range current.size).map
      (fun i => triangle1Record env.simd env.scene (primAt st.prims (current.begin + i))),
      ?_, ?_, ?_, ?_⟩
    · rw [createSmallLeaf_leaves]; simp only [leafBlock]
    · simp
    · rw [createSmallLeaf_writes]; simp only [leafBlock]
    · intro i hi
      refine ⟨triangle1Record env.simd env.scene (primAt st.prims (current.begin + i)), ?_, ?_⟩
      · simp [List.getElem?_map, List.getElem?_range, hi]
      · exact ⟨rfl, rfl, rfl, fun h => toInt32_of_lt _ h, fun h => toInt32_of_lt _ h,
          fun h => toInt32_of_lt _ h, rfl, rfl⟩
  · refine ⟨(List.range current.size).map
      (fun i => triangle1vRecord env.scene (primAt st.prims (current.begin + i))), ?_, ?_, ?_, ?_⟩
    · rw [createSmallLeaf_leaves]; simp only [leafBlock]
    · simp
    · rw [createSmallLeaf_writes]; simp only [leafBlock]
    · intro i hi
      refine ⟨triangle1vRecord env.scene (primAt st.prims (current.begin + i)), ?_, ?_⟩
      · simp [List.getElem?_map, List.getElem?_range, hi]
      · exact ⟨rfl, rfl, rfl, fun h => toInt32_of_lt _ h, fun h => toInt32_of_lt _ h,
          fun h => toInt32_of_lt _ h⟩

theorem createSmallLeaf_triangle1_packing_witness :
    ∃ rec, (createSmallLeaf { normalEnv with layout := Layout.triangle1 }
        { BuildRecord.blank with end_ := 1, parent := Slot.root }
        (initialState [⟨⟨0, 0, 0⟩, ⟨0, 0, 0⟩, 0, 0⟩] CentGeomBBox3fa.reset)).leaves =
        [LeafBlock.tri1 [rec]] ∧
      rec.v0 = ⟨0, 0, 0, 0⟩ ∧ rec.v1 = ⟨-4097, 0, 0, 0⟩ ∧ rec.v2 = ⟨0, 4097, 0, 1⟩ ∧
      rec.v0.a = 0 ∧ rec.Ng.a = 0 ∧ (rec.Ng.x, rec.Ng.y, rec.Ng.z) = (0, 0, 16785408) := by
  obtain ⟨recs, h1, h2, _, h4⟩ := (createSmallLeaf_triangle1_packing normalEnv
    { BuildRecord.blank with end_ := 1, parent := Slot.root }
    (initialState [⟨⟨0, 0, 0⟩, ⟨0, 0, 0⟩, 0, 0⟩] CentGeomBBox3fa.reset)).1
  have hlen : recs.length = 1 := h2
  obtain ⟨r, hr1⟩ := List.length_eq_one.1 hlen
  obtain ⟨rec, hr, hv0, hv1, hv2, hp, _, _, hNa, hNg⟩ := h4 0 (by decide)
  have hrec : r = rec := by
    rw [hr1] at hr
    exact Option.some.inj hr
  refine ⟨rec, ?_, hv0.trans (by decide), hv1.trans (by decide), hv2.trans (by decide),
    hp (by decide), hNa, hNg.trans (by decide)⟩
  rw [h1, hr1, hrec]
  rfl

/-! ## Small inputs -/

theorem recurseF_unfold (env : Env) (threadID fuel : Nat) (mode : Mode) (current : BuildRecord)
    (st : State) :
    recurseF env threadID (fuel + 1) mode current st =
    (let e := expandLoop env mode current.depth (BVH4.N - 1) [current] st.prims
     let st0 : State := { st with prims := e.2 }
     let node := st0.nodes.length
     if current.depth ≥ env.maxBuildDepth ∨ current.size ≤ env.minLeafSize then
       createLeaf env current st
     else if e.1.length = 1 then createLeaf env current st0
     else
       forChildren (fun i c s =>
         recurse_continue env (fun m r s1 => recurseF env threadID fuel m r s1) mode threadID
           { c with parent := Slot.child node i } (s.setBounds node i c)) 0 e.1
         (st0.allocNode.2.store current.parent (encodeNode node))) := rfl

/-- A small leaf is what `createLeaf` produces within the depth limit for at
most `minLeafSize` primitives. -/
theorem createLeaf_small (env : Env) (current : BuildRecord) (st : State)
    (hd : current.depth ≤ env.maxBuildDepthLeaf) (hs : current.size ≤ env.minLeafSize) :
    createLeaf env current st = Outcome.done (createSmallLeaf env current st) := by
  unfold createLeaf
  rw [createLeafF_unfold, if_neg (by omega), if_pos hs]

/-- C7. For an input of at most `minLeafSize` primitives, in particular for
`1 ≤ numPrimitives ≤ minLeafSize` (and a depth limit `maxBuildDepthLeaf` of
at least 1), `build_sequential` ends normally, allocates no
interior node, sets `bvh.bounds` to the geometry bounds reported by the
generator, and makes exactly one `createSmallLeaf` call, on the root record
`[0, numPrimitives)`, which reads `prims[0], .., prims[numPrimitives-1]` in
array order; the block it writes is the only one of the primitive arena and
`bvh.root` is the encoded leaf pointing at it (`numPrimitives` items for
`Triangle1` and `Triangle1v`, one SoA record otherwise). -/
theorem build_sequential_small_input (env : Env) (threadIndex numPrimitives : Nat)
    (prims : List PrimRef) (pinfo : CentGeomBBox3fa)
    (h2 : numPrimitives ≤ env.minLeafSize)
    (hL : 1 ≤ env.maxBuildDepthLeaf) :
    ∃ st, build_sequential env threadIndex numPrimitives prims pinfo = Outcome.done st ∧
      st.nodes = [] ∧
      st.bounds = pinfo.geomBounds ∧
      st.leafCalls = [(rootRecord pinfo numPrimitives,
        (List.range numPrimitives).map (fun i => primAt prims i))] ∧
      st.leaves = [(leafBlock env prims (rootRecord pinfo numPrimitives)).1] ∧
      st.root = encodeLeaf 0
        (if env.layout = Layout.triangle1 ∨ env.layout = Layout.triangle1v
          then numPrimitives else 1) := by
  have hsize : (rootRecord pinfo numPrimitives).size = numPrimitives := by
    simp [rootRecord, BuildRecord.size, BuildRecord.init, BuildRecord.blank]
  refine ⟨createSmallLeaf env (rootRecord pinfo numPrimitives) (initialState prims pinfo),
    ?_, ?_, ?_, ?_, ?_, ?_⟩
  · unfold build_sequential recurse
    rw [recurseF_unfold, if_pos (Or.inr (by rw [hsize]; exact h2))]
    exact createLeaf_small env _ _ (by simpa [rootRecord] using hL) (by rw [hsize]; exact h2)
  · simp [createSmallLeaf, State.store, rootRecord, initialState]
  · simp [createSmallLeaf, State.store, rootRecord, initialState]
  · simp [createSmallLeaf, State.store, initialState, leafPrims, hsize]
    simp [rootRecord, BuildRecord.init, BuildRecord.blank]
  · rw [createSmallLeaf_leaves]; simp [initialState]
  · simp only [createSmallLeaf, State.store, rootRecord, initialState, leafBlock]
    cases hl : env.layout <;> simp [hl, encodeLeaf, BuildRecord.size, BuildRecord.init, BuildRecord.blank]

/-- Scenario S1: one triangle with the box `(0,0,0)-(1,1,0)` under the
`Triangle1` configuration becomes a root leaf of one triangle. -/
theorem build_sequential_small_input_witness :
    (1 ≤ (fallbackEnv Layout.triangle1 2).minLeafSize ∧
      1 ≤ (fallbackEnv Layout.triangle1 2).maxBuildDepthLeaf) ∧
    ∃ st, build_sequential (fallbackEnv Layout.triangle1 2) 0 1
        [⟨⟨0, 0, 0⟩, ⟨1, 1, 0⟩, 0, 0⟩]
        (scanBounds [⟨⟨0, 0, 0⟩, ⟨1, 1, 0⟩, 0, 0⟩] 0 1) = Outcome.done st ∧
      st.nodes = [] ∧ st.root = encodeLeaf 0 1 ∧
      st.bounds = ⟨⟨0, 0, 0⟩, ⟨1, 1, 0⟩⟩ := by
  refine ⟨⟨by decide, by decide⟩, ?_⟩
  obtain ⟨st, h1, h2, h3, _, _, h6⟩ := build_sequential_small_input
    (fallbackEnv Layout.triangle1 2) 0 1 [⟨⟨0, 0, 0⟩, ⟨1, 1, 0⟩, 0, 0⟩]
    (scanBounds [⟨⟨0, 0, 0⟩, ⟨1, 1, 0⟩, 0, 0⟩] 0 1) (by decide) (by decide)
  refine ⟨st, h1, h2, ?_, ?_⟩
  · rw [h6]; rfl
  · rw [h3]; decide

/-! ## Two defects -/

/-- C2. The top-level loop of `build_parallel` loses work: for a scene of one
triangle and two threads, the loop pops the root record `[0, 1)`, finds it
no larger than `minLeafSize` and stops without pushing it back; the heap is
then empty, no leaf has been emitted, nothing was written to `bvh.root`, and
the ranges on the heap do not cover `[0, 1)`. -/
theorem build_parallel_toplevel_drops_popped_record :
    ∃ st, build_parallel_toplevel (fallbackEnv Layout.triangle4 4) 0 2 1
        (samplePrims 1) (scanBounds (samplePrims 1) 0 1) 1 = Outcome.done st ∧
      st.heap = [] ∧ st.threadStack = [[], []] ∧ st.leafCalls = [] ∧
      st.root = NodeRef.empty ∧
      ¬ (∃ r ∈ st.heap, r.begin ≤ 0 ∧ 0 < r.end_) := by
  refine ⟨_, rfl, ?_, ?_, ?_, ?_, ?_⟩ <;> decide

set_option maxRecDepth 100000

/-- C6. A leaf without primitives: with the `Triangle1` configuration
(`minLeafSize = 2`) and a binner that peels one primitive per split, a
sequential build of 96 primitives ends normally, reaches `createLeaf` at
depth 32 with the three primitives `[93, 96)`, and the fallback subtree
emits a leaf on the empty range `[93, 93)`. -/
theorem build_sequential_emits_empty_leaf :
    (build_sequential (peelEnv Layout.triangle1 2) 0 96 (samplePrims 96)
        (scanBounds (samplePrims 96) 0 96)).isDone = true ∧
    ((build_sequential (peelEnv Layout.triangle1 2) 0 96 (samplePrims 96)
        (scanBounds (samplePrims 96) 0 96)).state.leafCalls.filter
          (fun c => decide (c.1.size = 0))).map
        (fun c => (c.1.begin, c.1.end_, c.1.depth, c.2.length)) = [(93, 93, 33, 0)] := by
  decide

/-! ## Induction over a build that ends normally -/

/-- A children loop that ends normally has made its calls one after another. -/
theorem forChildren_chain (body : Nat → BuildRecord → State → Outcome)
    (P : BuildRecord → State → State → Prop) (upd : Nat → BuildRecord → BuildRecord)
    (node : Nat) (call : BuildRecord → State → Outcome)
    (hbody : ∀ i c s, body i c s = call (upd i c) (s.setBounds node i c))
    (hP : ∀ r s s', call r s = Outcome.done s' → P r s s') :
    ∀ cs i st st', forChildren body i cs st = Outcome.done st' →
      childChain P upd node i cs st st' := by
  intro cs
  induction cs with
  | nil => intro i st st' h; simp [forChildren] at h; simp [childChain, h]
  | cons c cs ih =>
    intro i st st' h
    rw [forChildren_done_cons] at h
    obtain ⟨s1, h1, h2⟩ := h
    rw [hbody] at h1
    exact ⟨s1, hP _ _ _ h1, ih _ _ _ h2⟩

/-- Induction over a `createLeaf` call that ends normally: a property of
(record, memory before, memory after) that holds for small leaves, and for a
fallback node whenever it holds for the four calls on its children, holds
for the call. -/
theorem createLeafF_induct (env : Env) (P : BuildRecord → State → State → Prop)
    (hleaf : ∀ cur st, cur.depth ≤ env.maxBuildDepthLeaf → cur.size ≤ env.minLeafSize →
      P cur st (createSmallLeaf env cur st))
    (hnode : ∀ cur st s', cur.depth ≤ env.maxBuildDepthLeaf → ¬ cur.size ≤ env.minLeafSize →
      childChain P
        (fun i c => { c with parent := Slot.child st.nodes.length i, depth := cur.depth + 1 })
        st.nodes.length 0 (fallbackChildren st.prims cur)
        (st.allocNode.2.store cur.parent (encodeNode st.nodes.length)) s' →
      P cur st (s'.compact st.nodes.length)) :
    ∀ fuel cur st st', createLeafF env fuel cur st = Outcome.done st' → P cur st st' := by
  intro fuel
  induction fuel with
  | zero => intro cur st st' h; simp [createLeafF] at h
  | succ fuel ih =>
    intro cur st st' h
    rw [createLeafF_unfold] at h
    by_cases hd : cur.depth > env.maxBuildDepthLeaf
    · rw [if_pos hd] at h; simp at h
    · rw [if_neg hd] at h
      by_cases hs : cur.size ≤ env.minLeafSize
      · rw [if_pos hs] at h
        cases h
        exact hleaf cur st (by omega) hs
      · rw [if_neg hs] at h
        cases hfc : forChildren (fun i c s =>
            createLeafF env fuel
              { c with parent := Slot.child st.allocNode.1 i, depth := cur.depth + 1 }
              (s.setBounds st.allocNode.1 i c)) 0
            [(splitFallback st.prims (splitFallback st.prims cur).1).1,
             (splitFallback st.prims (splitFallback st.prims cur).1).2,
             (splitFallback st.prims (splitFallback st.prims cur).2).1,
             (splitFallback st.prims (splitFallback st.prims cur).2).2]
            (st.allocNode.2.store cur.parent (encodeNode st.allocNode.1)) with
        | done s3 =>
          rw [hfc] at h
          cases h
          apply hnode cur st s3 (by omega) hs
          exact forChildren_chain _ P _ st.nodes.length (createLeafF env fuel)
            (fun i c s => rfl) (fun r s s' hr => ih r s s' hr) _ _ _ _ hfc
        | fail e s3 => rw [hfc] at h; simp at h

theorem createLeaf_induct (env : Env) (P : BuildRecord → State → State → Prop)
    (hleaf : ∀ cur st, cur.depth ≤ env.maxBuildDepthLeaf → cur.size ≤ env.minLeafSize →
      P cur st (createSmallLeaf env cur st))
    (hnode : ∀ cur st s', cur.depth ≤ env.maxBuildDepthLeaf → ¬ cur.size ≤ env.minLeafSize →
      childChain P
        (fun i c => { c with parent := Slot.child st.nodes.length i, depth := cur.depth + 1 })
        st.nodes.length 0 (fallbackChildren st.prims cur)
        (st.allocNode.2.store cur.parent (encodeNode st.nodes.length)) s' →
      P cur st (s'.compact st.nodes.length))
    (cur : BuildRecord) (st st' : State) (h : createLeaf env cur st = Outcome.done st') :
    P cur st st' :=
  createLeafF_induct env P hleaf hnode _ cur st st' h

theorem expandLoop_zero (env : Env) (mode : Mode) (d : Nat) (cs : List BuildRecord)
    (P : List PrimRef) : expandLoop env mode d 0 cs P = (cs, P) := rfl

theorem expandLoop_succ (env : Env) (mode : Mode) (d k : Nat) (cs : List BuildRecord)
    (P : List PrimRef) :
    expandLoop env mode d (k + 1) cs P =
      match findBestChild env cs with
      | none => (cs, P)
      | some j =>
        expandLoop env mode d k
          (placeChildren cs j
            ((split env mode P (cs.getD j BuildRecord.blank)).2.1.initDepth (d + 1))
            ((split env mode P (cs.getD j BuildRecord.blank)).2.2.initDepth (d + 1)))
          (split env mode P (cs.getD j BuildRecord.blank)).1 := rfl

@[simp] theorem placeChildren_length (cs : List BuildRecord) (j : Nat) (l r : BuildRecord) :
    (placeChildren cs j l r).length = cs.length + 1 := by
  simp [placeChildren]

theorem bestStep_fold_lt (env : Env) (cs : List BuildRecord) :
    ∀ (n : Nat) (acc : Option Nat × Flt), (∀ j, acc.1 = some j → j < n) →
    ∀ j, ((cs.enumFrom n).foldl (bestStep env) acc).1 = some j → j < n + cs.length := by
  induction cs with
  | nil => intro n acc h j hj; simpa using h j hj
  | cons c cs ih =>
    intro n acc h j hj
    simp only [List.enumFrom_cons, List.foldl_cons] at hj
    have := ih (n + 1) (bestStep env acc (n, c)) (by
      intro j' hj'
      unfold bestStep at hj'
      split at hj'
      · have := h j' hj'; omega
      · split at hj'
        · split at hj'
          · simp at hj'; omega
          · have := h j' hj'; omega
        · have := h j' hj'; omega) j hj
    simp only [List.length_cons]; omega

/-- The chosen child is one of the children. -/
theorem findBestChild_lt (env : Env) (cs : List BuildRecord) (j : Nat)
    (h : findBestChild env cs = some j) : j < cs.length := by
  have := bestStep_fold_lt env cs 0 (none, neg_inf) (by simp) j h
  simpa using this

theorem bestStep_fold_spec (env : Env) (R : Nat → Prop) (cs : List BuildRecord) :
    ∀ (n : Nat) (acc : Option Nat × Flt), (∀ j, acc.1 = some j → R j) →
    (∀ k c, cs[k]? = some c → env.minLeafSize < c.size → R (n + k)) →
    ∀ j, ((cs.enumFrom n).foldl (bestStep env) acc).1 = some j → R j := by
  induction cs with
  | nil => intro n acc h _ j hj; exact h j hj
  | cons c cs ih =>
    intro n acc h hR j hj
    simp only [List.enumFrom_cons, List.foldl_cons] at hj
    refine ih (n + 1) (bestStep env acc (n, c)) ?_ ?_ j hj
    · intro j' hj'
      unfold bestStep at hj'
      split at hj'
      · exact h j' hj'
      · rename_i hsz
        split at hj'
        · split at hj'
          · simp only [Option.some.injEq] at hj'
            subst hj'
            exact hR 0 c (by simp) (by simpa using hsz)
          · exact h j' hj'
        · exact h j' hj'
    · intro k c' hk hsz
      have := hR (k + 1) c' (by simpa using hk) hsz
      rw [show n + 1 + k = n + (k + 1) by omega]
      exact this

/-- The chosen child has more than `minLeafSize` primitives. -/
theorem findBestChild_size (env : Env) (cs : List BuildRecord) (j : Nat)
    (h : findBestChild env cs = some j) :
    env.minLeafSize < (cs.getD j BuildRecord.blank).size := by
  refine bestStep_fold_spec env
    (fun j => env.minLeafSize < (cs.getD j BuildRecord.blank).size) cs 0 (none, neg_inf)
    (by simp) ?_ j h
  intro k c hk hsz
  simp only [Nat.zero_add, List.getD_eq_getElem?_getD, hk, Option.getD_some]
  exact hsz

/-- Invariants of the expansion loop: what holds of the children and the
primitive array before the loop and is kept by one split and placement holds
after the loop. -/
theorem expandLoop_induct (env : Env) (mode : Mode) (d : Nat)
    (Q : List BuildRecord → List PrimRef → Prop)
    (hstep : ∀ cs P j, Q cs P → findBestChild env cs = some j → j < cs.length →
      env.minLeafSize < (cs.getD j BuildRecord.blank).size → cs.length < BVH4.N →
      Q (placeChildren cs j
          ((split env mode P (cs.getD j BuildRecord.blank)).2.1.initDepth (d + 1))
          ((split env mode P (cs.getD j BuildRecord.blank)).2.2.initDepth (d + 1)))
        (split env mode P (cs.getD j BuildRecord.blank)).1) :
    ∀ k cs P, cs.length + k ≤ BVH4.N → Q cs P →
      Q (expandLoop env mode d k cs P).1 (expandLoop env mode d k cs P).2 := by
  intro k
  induction k with
  | zero => intro cs P _ h; exact h
  | succ k ih =>
    intro cs P hk h
    rw [expandLoop_succ]
    cases hb : findBestChild env cs with
    | none => exact h
    | some j =>
      simp only
      apply ih
      · simp; omega
      · exact hstep cs P j h hb (findBestChild_lt env cs j hb)
          (findBestChild_size env cs j hb) (by omega)

theorem expandLoop_length_ge (env : Env) (mode : Mode) (d : Nat) :
    ∀ k cs P, cs.length ≤ (expandLoop env mode d k cs P).1.length ∧
      ((expandLoop env mode d k cs P).1.length = cs.length →
        expandLoop env mode d k cs P = (cs, P)) := by
  intro k
  induction k with
  | zero => intro cs P; simp [expandLoop_zero]
  | succ k ih =>
    intro cs P
    rw [expandLoop_succ]
    cases hb : findBestChild env cs with
    | none => simp
    | some j =>
      simp only
      have := (ih (placeChildren cs j
            ((split env mode P (cs.getD j BuildRecord.blank)).2.1.initDepth (d + 1))
            ((split env mode P (cs.getD j BuildRecord.blank)).2.2.initDepth (d + 1)))
          (split env mode P (cs.getD j BuildRecord.blank)).1).1
      simp only [placeChildren_length] at this
      constructor
      · omega
      · intro h; omega

theorem expandLoop_length_le (env : Env) (mode : Mode) (d : Nat) :
    ∀ k cs P, (expandLoop env mode d k cs P).1.length ≤ cs.length + k := by
  intro k
  induction k with
  | zero => intro cs P; simp [expandLoop_zero]
  | succ k ih =>
    intro cs P
    rw [expandLoop_succ]
    cases hb : findBestChild env cs with
    | none => simp
    | some j =>
      simp only
      have := ih (placeChildren cs j
            ((split env mode P (cs.getD j BuildRecord.blank)).2.1.initDepth (d + 1))
            ((split env mode P (cs.getD j BuildRecord.blank)).2.2.initDepth (d + 1)))
          (split env mode P (cs.getD j BuildRecord.blank)).1
      simp only [placeChildren_length] at this
      omega

/-- Induction over a sequential `recurse` call that ends normally: a property
of (record, memory before, memory after) that holds for every `createLeaf`
call that ends normally, and for an interior node whenever it holds for the
calls on its children, holds for the call. -/
theorem recurseF_seq_induct (env : Env) (threadID : Nat)
    (P : BuildRecord → State → State → Prop)
    (hcl : ∀ cur st st', createLeaf env cur st = Outcome.done st' → P cur st st')
    (hnode : ∀ cur st st', cur.depth < env.maxBuildDepth → ¬ cur.size ≤ env.minLeafSize →
      (expandLoop env Mode.RECURSE_SEQUENTIAL cur.depth (BVH4.N - 1) [cur] st.prims).1.length ≠ 1 →
      childChain P (fun i c => { c with parent := Slot.child st.nodes.length i })
        st.nodes.length 0
        (expandLoop env Mode.RECURSE_SEQUENTIAL cur.depth (BVH4.N - 1) [cur] st.prims).1
        ((({ st with prims := (expandLoop env Mode.RECURSE_SEQUENTIAL cur.depth (BVH4.N - 1)
            [cur] st.prims).2 } : State).allocNode.2).store cur.parent
          (encodeNode st.nodes.length)) st' →
      P cur st st') :
    ∀ fuel cur st st',
      recurseF env threadID fuel Mode.RECURSE_SEQUENTIAL cur st = Outcome.done st' →
      P cur st st' := by
  intro fuel
  induction fuel with
  | zero => intro cur st st' h; simp [recurseF] at h
  | succ fuel ih =>
    intro cur st st' h
    rw [recurseF_unfold] at h
    simp only at h
    by_cases hc : cur.depth ≥ env.maxBuildDepth ∨ cur.size ≤ env.minLeafSize
    · rw [if_pos hc] at h
      exact hcl _ _ _ h
    · rw [if_neg hc] at h
      by_cases h1 : (expandLoop env Mode.RECURSE_SEQUENTIAL cur.depth (BVH4.N - 1) [cur]
          st.prims).1.length = 1
      · rw [if_pos h1] at h
        have := (expandLoop_length_ge env Mode.RECURSE_SEQUENTIAL cur.depth (BVH4.N - 1) [cur]
          st.prims).2 (by simpa using h1)
        rw [this] at h
        exact hcl _ _ _ h
      · rw [if_neg h1] at h
        apply hnode cur st st' (by omega) (by tauto) h1
        exact forChildren_chain _ P _ st.nodes.length
          (recurseF env threadID fuel Mode.RECURSE_SEQUENTIAL)
          (fun i c s => by simp [recurse_continue]) (fun r s s' hr => ih r s s' hr) _ _ _ _ h

theorem recurse_seq_induct (env : Env) (threadID : Nat)
    (P : BuildRecord → State → State → Prop)
    (hcl : ∀ cur st st', createLeaf env cur st = Outcome.done st' → P cur st st')
    (hnode : ∀ cur st st', cur.depth < env.maxBuildDepth → ¬ cur.size ≤ env.minLeafSize →
      (expandLoop env Mode.RECURSE_SEQUENTIAL cur.depth (BVH4.N - 1) [cur] st.prims).1.length ≠ 1 →
      childChain P (fun i c => { c with parent := Slot.child st.nodes.length i })
        st.nodes.length 0
        (expandLoop env Mode.RECURSE_SEQUENTIAL cur.depth (BVH4.N - 1) [cur] st.prims).1
        ((({ st with prims := (expandLoop env Mode.RECURSE_SEQUENTIAL cur.depth (BVH4.N - 1)
            [cur] st.prims).2 } : State).allocNode.2).store cur.parent
          (encodeNode st.nodes.length)) st' →
      P cur st st')
    (cur : BuildRecord) (st st' : State)
    (h : recurse env threadID Mode.RECURSE_SEQUENTIAL cur st = Outcome.done st') :
    P cur st st' :=
  recurseF_seq_induct env threadID P hcl hnode _ cur st st' h

/-! ## Coverage -/

theorem permWithin_refl (b e : Nat) (P : List PrimRef) : PermWithin b e P P :=
  ⟨List.Perm.refl _, fun _ _ => rfl⟩

theorem permWithin_trans {b e : Nat} {P Q R : List PrimRef} (h1 : PermWithin b e P Q)
    (h2 : PermWithin b e Q R) : PermWithin b e P R :=
  ⟨h2.1.trans h1.1, fun i hi => (h2.2 i hi).trans (h1.2 i hi)⟩

theorem permWithin_widen {b e b' e' : Nat} {P Q : List PrimRef} (h : PermWithin b e P Q)
    (hb : b' ≤ b) (he : e ≤ e') : PermWithin b' e' P Q :=
  ⟨h.1, fun i hi => h.2 i (by omega)⟩

@[simp] theorem mem_indices (r : BuildRecord) (i : Nat) :
    i ∈ r.indices ↔ r.begin ≤ i ∧ i < r.end_ := by
  unfold BuildRecord.indices
  rw [List.mem_range'_1]
  omega

/-- A well-formed record's emitter reads the primitives of its range. -/
theorem leafPrims_eq_primsOf (P : List PrimRef) (r : BuildRecord) (h : r.begin ≤ r.end_) :
    leafPrims P r = r.primsOf P := by
  unfold leafPrims BuildRecord.primsOf BuildRecord.indices
  rw [size_of_le r h, List.range'_eq_map_range, List.map_map]
  rfl

/-- The primitives of a range depend on the array inside the range only. -/
theorem primsOf_congr (P Q : List PrimRef) (r : BuildRecord)
    (h : ∀ i, r.begin ≤ i → i < r.end_ → primAt P i = primAt Q i) :
    r.primsOf P = r.primsOf Q := by
  unfold BuildRecord.primsOf
  apply List.map_congr_left
  intro i hi
  rw [mem_indices] at hi
  exact h i hi.1 hi.2

@[simp] theorem store_prims (st : State) (slot : Slot) (ref : NodeRef) :
    (st.store slot ref).prims = st.prims := by
  unfold State.store; cases slot <;> rfl

@[simp] theorem store_leafCalls (st : State) (slot : Slot) (ref : NodeRef) :
    (st.store slot ref).leafCalls = st.leafCalls := by
  unfold State.store; cases slot <;> rfl

@[simp] theorem setBounds_prims (st : State) (n i : Nat) (c : BuildRecord) :
    (st.setBounds n i c).prims = st.prims := rfl

@[simp] theorem setBounds_leafCalls (st : State) (n i : Nat) (c : BuildRecord) :
    (st.setBounds n i c).leafCalls = st.leafCalls := rfl

@[simp] theorem allocNode_prims (st : State) : st.allocNode.2.prims = st.prims := rfl

@[simp] theorem allocNode_leafCalls (st : State) :
    st.allocNode.2.leafCalls = st.leafCalls := rfl

@[simp] theorem compact_prims (st : State) (n : Nat) : (st.compact n).prims = st.prims := rfl

@[simp] theorem compact_leafCalls (st : State) (n : Nat) :
    (st.compact n).leafCalls = st.leafCalls := rfl

@[simp] theorem createSmallLeaf_prims (env : Env) (cur : BuildRecord) (st : State) :
    (createSmallLeaf env cur st).prims = st.prims := by
  simp [createSmallLeaf]

@[simp] theorem createSmallLeaf_leafCalls (env : Env) (cur : BuildRecord) (st : State) :
    (createSmallLeaf env cur st).leafCalls = st.leafCalls ++ [(cur, leafPrims st.prims cur)] := by
  simp [createSmallLeaf]

/-- A small leaf covers its record. -/
theorem createSmallLeaf_covers (env : Env) (cur : BuildRecord) (st : State)
    (h : cur.begin ≤ cur.end_) : Covers cur st (createSmallLeaf env cur st) := by
  refine ⟨?_, [(cur, leafPrims st.prims cur)], ?_, ?_, ?_⟩
  · simp only [createSmallLeaf_prims]; exact permWithin_refl _ _ _
  · simp
  · simp
  · intro c hc
    simp only [List.mem_singleton] at hc
    subst hc
    simp [leafPrims_eq_primsOf _ _ h, h]

/-- Coverage composes over a children loop whose children have pairwise
disjoint ranges; `I` is a condition on the length of the array, which the
loop does not change. -/
theorem chain_covers (I : Nat → Prop) (upd : Nat → BuildRecord → BuildRecord) (node : Nat)
    (hupd : ∀ i c, (upd i c).begin = c.begin ∧ (upd i c).end_ = c.end_) :
    ∀ cs i s s',
      childChain (fun r s s' => r.within s.prims.length → I s.prims.length → Covers r s s')
        upd node i cs s s' →
      I s.prims.length →
      (∀ c ∈ cs, c.within s.prims.length) →
      cs.Pairwise (fun a b => ∀ i, i ∈ a.indices → i ∉ b.indices) →
      CoversAll cs s s' := by
  intro cs
  induction cs with
  | nil =>
    intro i s s' h _ _ _
    simp only [childChain] at h
    subst h
    exact ⟨List.Perm.refl _, fun _ _ => rfl, [], by simp, by simp, by simp⟩
  | cons c rest ih =>
    intro i s s' h hI hw hp
    obtain ⟨s1, hc, hrest⟩ := h
    have hwc := hw c (List.mem_cons_self _ _)
    have hcov : Covers (upd i c) (s.setBounds node i c) s1 := by
      apply hc
      · unfold BuildRecord.within at *
        rw [(hupd i c).1, (hupd i c).2]
        simpa using hwc
      · simpa using hI
    rw [List.pairwise_cons] at hp
    obtain ⟨⟨hperm1, hframe1⟩, new1, hl1, hidx1, hsnap1⟩ := hcov
    rw [(hupd i c).1, (hupd i c).2] at hframe1 hsnap1
    simp only [setBounds_prims, setBounds_leafCalls] at hperm1 hframe1 hl1
    have hlen : s1.prims.length = s.prims.length := hperm1.length_eq
    obtain ⟨hperm2, hframe2, new2, hl2, hidx2, hsnap2⟩ :=
      ih (i + 1) s1 s' hrest (by rw [hlen]; exact hI)
        (fun c' hc' => by rw [hlen]; exact hw c' (List.mem_cons_of_mem _ hc')) hp.2
    refine ⟨hperm2.trans hperm1, ?_, new1 ++ new2, ?_, ?_, ?_⟩
    · intro j hj
      rw [hframe2 j (fun c' hc' => hj c' (List.mem_cons_of_mem _ hc'))]
      apply hframe1
      have := hj c (List.mem_cons_self _ _)
      omega
    · rw [hl2, hl1, List.append_assoc]
    · rw [List.flatMap_append, List.flatMap_cons]
      apply List.Perm.append _ hidx2
      have : (upd i c).indices = c.indices := by
        unfold BuildRecord.indices; rw [(hupd i c).1, (hupd i c).2]
      rw [← this]; exact hidx1
    · intro l hl
      rw [List.mem_append] at hl
      rcases hl with hl | hl
      · obtain ⟨hs, hb, hle, he⟩ := hsnap1 l hl
        refine ⟨?_, hle, c, List.mem_cons_self _ _, hb, he⟩
        rw [hs]
        apply primsOf_congr
        intro j hj1 hj2
        symm
        apply hframe2
        intro c' hc' hjc'
        exact hp.1 c' hc' j (by rw [mem_indices]; omega) (by rw [mem_indices]; exact hjc')
      · obtain ⟨hs, hle, c', hc', hb, he⟩ := hsnap2 l hl
        exact ⟨hs, hle, c', List.mem_cons_of_mem _ hc', hb, he⟩

theorem childChain_forall (P : BuildRecord → State → State → Prop)
    (upd : Nat → BuildRecord → BuildRecord) (node : Nat) :
    ∀ cs i s s', childChain P upd node i cs s s' →
      ∀ c ∈ cs, ∃ k s1 s2, P (upd k c) s1 s2 := by
  intro cs
  induction cs with
  | nil => intro i s s' _ c hc; simp at hc
  | cons a rest ih =>
    intro i s s' h c hc
    obtain ⟨s1, h1, h2⟩ := h
    rcases List.mem_cons.1 hc with rfl | hc
    · exact ⟨i, _, _, h1⟩
    · exact ih _ _ _ h2 c hc

theorem childChain_imp (P Q : BuildRecord → State → State → Prop)
    (upd : Nat → BuildRecord → BuildRecord) (node : Nat) :
    ∀ cs i s s', (∀ k c s1 s2, c ∈ cs → P (upd k c) s1 s2 → Q (upd k c) s1 s2) →
      childChain P upd node i cs s s' → childChain Q upd node i cs s s' := by
  intro cs
  induction cs with
  | nil => intro i s s' _ h; exact h
  | cons a rest ih =>
    intro i s s' hpq h
    obtain ⟨s1, h1, h2⟩ := h
    exact ⟨s1, hpq _ _ _ _ (List.mem_cons_self _ _) h1,
      ih _ _ _ (fun k c s1 s2 hc => hpq k c s1 s2 (List.mem_cons_of_mem _ hc)) h2⟩

/-- Two adjacent index ranges make up the range around them. -/
theorem range'_glue (a m z : Nat) (h1 : a ≤ m) (h2 : m ≤ z) :
    List.range' a (m - a) ++ List.range' m (z - m) = List.range' a (z - a) := by
  have := List.range'_append a (m - a) (z - m) 1
  rw [show a + 1 * (m - a) = m by omega, show z - m + (m - a) = z - a by omega] at this
  exact this

/-- Children whose indices, taken together, are the indices of a range have
pairwise disjoint ranges. -/
theorem pairwise_disjoint_of_perm (cs : List BuildRecord) (r : BuildRecord)
    (h : (cs.flatMap BuildRecord.indices).Perm r.indices) :
    cs.Pairwise (fun a b => ∀ i, i ∈ a.indices → i ∉ b.indices) := by
  have hn : (cs.flatMap BuildRecord.indices).Nodup := by
    rw [h.nodup_iff]
    exact List.nodup_range' _ _
  rw [List.nodup_flatMap] at hn
  exact hn.2.imp (fun hab i hi => List.disjoint_left.1 hab hi)

/-- From the children of a node to the node: when the children lie inside the
range of `cur` and their indices make up its indices, what the children loop
added covers `cur`. -/
theorem covers_of_coversAll (cur : BuildRecord) (cs : List BuildRecord) (s0 s s' : State)
    (hall : CoversAll cs s s')
    (hin : ∀ c ∈ cs, cur.begin ≤ c.begin ∧ c.end_ ≤ cur.end_)
    (hidx : (cs.flatMap BuildRecord.indices).Perm cur.indices)
    (hpre : PermWithin cur.begin cur.end_ s0.prims s.prims)
    (hcalls : s.leafCalls = s0.leafCalls) :
    Covers cur s0 s' := by
  obtain ⟨hperm, hframe, new, hl, hnew, hsnap⟩ := hall
  refine ⟨⟨hperm.trans hpre.1, ?_⟩, new, by rw [hl, hcalls], hnew.trans hidx, ?_⟩
  · intro i hi
    rw [hframe i (fun c hc => by have := hin c hc; omega)]
    exact hpre.2 i hi
  · intro l hl'
    obtain ⟨h1, h2, c, hc, h3, h4⟩ := hsnap l hl'
    have := hin c hc
    exact ⟨h1, by omega, h2, by omega⟩

/-- The ranges of the four children of a fallback node, when none of them is
wrapped: they follow each other from `begin` to `end`. -/
theorem fallbackChildren_tile (P : List PrimRef) (cur : BuildRecord) (m : Nat)
    (hbe : cur.begin ≤ cur.end_) (hm : cur.end_ + m < 2 ^ 64)
    (hwf : ∀ c ∈ fallbackChildren P cur, c.begin ≤ c.end_ ∨ 2 ^ 64 ≤ c.begin + m) :
    (∀ c ∈ fallbackChildren P cur,
      c.begin ≤ c.end_ ∧ cur.begin ≤ c.begin ∧ c.end_ ≤ cur.end_) ∧
    (fallbackChildren P cur).flatMap BuildRecord.indices = cur.indices := by
  have hc := center_le_end cur hbe
  have h0 := hwf (splitFallback P (splitFallback P cur).1).1 (by simp [fallbackChildren])
  have h2 := hwf (splitFallback P (splitFallback P cur).2).1 (by simp [fallbackChildren])
  simp only [splitFallback_fst_begin, splitFallback_fst_end, splitFallback_snd_begin] at h0 h2
  have hbc : cur.begin ≤ splitFallback.center cur := by
    by_contra hlt
    have := center_lt_begin (splitFallback P cur).1 (by simp; omega)
    simp only [splitFallback_fst_begin] at this
    omega
  have hc0 := center_le_end (splitFallback P cur).1 (by simpa using hbc)
  have hc2 := center_le_end (splitFallback P cur).2 (by simpa using hc)
  simp only [splitFallback_fst_end, splitFallback_snd_end] at hc0 hc2
  constructor
  · intro c hcm
    simp only [fallbackChildren, List.mem_cons, List.mem_singleton, List.not_mem_nil,
      or_false] at hcm
    rcases hcm with rfl | rfl | rfl | rfl <;> simp <;> omega
  · simp only [fallbackChildren, List.flatMap_cons, List.flatMap_nil, List.append_nil,
      BuildRecord.indices, splitFallback_fst_begin, splitFallback_fst_end,
      splitFallback_snd_begin, splitFallback_snd_end]
    rw [range'_glue _ _ _ (by omega) (by omega), ← List.append_assoc,
      range'_glue _ _ _ (by omega) (by omega), range'_glue _ _ _ (by omega) (by omega)]

/-- `createLeaf` covers: a call that ends normally was not on a wrapped range
(unless `begin + minLeafSize` overflows 64 bits), and on a range inside the
array it covers its record. -/
theorem createLeaf_covers (env : Env) (cur : BuildRecord) (st st' : State)
    (h : createLeaf env cur st = Outcome.done st') :
    (cur.begin ≤ cur.end_ ∨ 2 ^ 64 ≤ cur.begin + env.minLeafSize) ∧
    (cur.within st.prims.length → cur.end_ + env.minLeafSize < 2 ^ 64 → Covers cur st st') := by
  refine createLeaf_induct env
    (fun cur st st' => (cur.begin ≤ cur.end_ ∨ 2 ^ 64 ≤ cur.begin + env.minLeafSize) ∧
      (cur.within st.prims.length → cur.end_ + env.minLeafSize < 2 ^ 64 → Covers cur st st'))
    ?_ ?_ cur st st' h
  · intro cur st _ hs
    constructor
    · by_cases hbe : cur.begin ≤ cur.end_
      · exact Or.inl hbe
      · right
        rw [size_of_lt cur (by omega)] at hs
        omega
    · intro hw _
      exact createSmallLeaf_covers env cur st hw.1
  · intro cur st s' _ _ hchain
    have hkids := childChain_forall _ _ _ _ _ _ _ hchain
    have hwf : ∀ c ∈ fallbackChildren st.prims cur,
        c.begin ≤ c.end_ ∨ 2 ^ 64 ≤ c.begin + env.minLeafSize := by
      intro c hc
      obtain ⟨k, s1, s2, hP⟩ := hkids c hc
      exact hP.1
    constructor
    · by_cases hbe : cur.begin ≤ cur.end_
      · exact Or.inl hbe
      · right
        have h0 := hwf (splitFallback st.prims (splitFallback st.prims cur).1).1
          (by simp [fallbackChildren])
        simp only [splitFallback_fst_begin, splitFallback_fst_end] at h0
        have h1 := center_lt_begin cur (by omega)
        have h2 := center_lt_begin (splitFallback st.prims cur).1 (by simp; omega)
        simp only [splitFallback_fst_begin] at h2
        omega
    · intro hw hm
      obtain ⟨htile, hidx⟩ := fallbackChildren_tile st.prims cur env.minLeafSize hw.1 hm hwf
      have hchain' := childChain_imp _
        (fun r s s' => r.within s.prims.length → True → Covers r s s') _ _ _ _ _ _
        (fun k c s1 s2 hc hP hwithin _ => hP.2 hwithin (by
          have := (htile c hc).2.2
          simp only
          omega)) hchain
      have hall := chain_covers (fun _ => True)
        (fun i c => { c with parent := Slot.child st.nodes.length i, depth := cur.depth + 1 })
        st.nodes.length (fun i c => ⟨rfl, rfl⟩) _ _ _ _ hchain' trivial
        (fun c hc => by
          have := htile c hc
          simp only [store_prims, allocNode_prims]
          exact ⟨this.1, by have := hw.2; omega⟩)
        (pairwise_disjoint_of_perm _ cur (by rw [hidx]))
      have hcov := covers_of_coversAll cur _ st _ _ hall
        (fun c hc => (htile c hc).2) (by rw [hidx])
        (by simp only [store_prims, allocNode_prims]; exact permWithin_refl _ _ _)
        (by simp)
      obtain ⟨hp, new, hl, hnew, hsnap⟩ := hcov
      exact ⟨by simpa using hp, new, by simpa using hl, hnew, by simpa using hsnap⟩

/-- The placement after a split, up to order: the chosen child is replaced by
`left` and `right`, the other children stay. -/
theorem placeChildren_perm (cs : List BuildRecord) (j : Nat) (l r : BuildRecord)
    (hj : j < cs.length) (hlen : cs.length < BVH4.N) :
    ∃ rest, cs.Perm (cs.getD j BuildRecord.blank :: rest) ∧
      (placeChildren cs j l r).Perm (l :: r :: rest) := by
  unfold BVH4.N at hlen
  match cs, hj, hlen with
  | [a], hj, _ =>
    have : j = 0 := by simp at hj; omega
    subst this
    exact ⟨[], by simp, by simp [placeChildren]⟩
  | [a, b], hj, _ =>
    have : j = 0 ∨ j = 1 := by simp at hj; omega
    rcases this with rfl | rfl
    · refine ⟨[b], by simp, ?_⟩
      simp only [placeChildren, List.length_cons, List.length_nil, List.getD_eq_getElem?_getD]
      simp only [List.set, Nat.reduceAdd, Nat.add_one_sub_one, List.getElem?_cons_succ,
        List.getElem?_cons_zero, Option.getD_some, List.cons_append, List.nil_append]
      exact (@List.perm_append_comm _ [b] [l, r])
    · refine ⟨[a], ?_, ?_⟩
      · simp only [List.getD_eq_getElem?_getD, List.getElem?_cons_succ, List.getElem?_cons_zero,
          Option.getD_some]
        exact List.Perm.swap _ _ _
      · simp only [placeChildren, List.length_cons, List.length_nil, List.getD_eq_getElem?_getD]
        simp only [List.set, Nat.reduceAdd, Nat.add_one_sub_one, List.getElem?_cons_succ,
          List.getElem?_cons_zero, Option.getD_some, List.cons_append, List.nil_append]
        exact (@List.perm_append_comm _ [a] [l, r])
  | [a, b, c], hj, _ =>
    have : j = 0 ∨ j = 1 ∨ j = 2 := by simp at hj; omega
    rcases this with rfl | rfl | rfl
    · refine ⟨[c, b], ?_, ?_⟩
      · simp only [List.getD_eq_getElem?_getD, List.getElem?_cons_zero, Option.getD_some]
        exact (List.Perm.swap _ _ _).cons _
      · simp only [placeChildren, List.length_cons, List.length_nil, List.getD_eq_getElem?_getD]
        simp only [List.set, Nat.reduceAdd, Nat.add_one_sub_one, List.getElem?_cons_succ,
          List.getElem?_cons_zero, Option.getD_some, List.cons_append, List.nil_append]
        exact (@List.perm_append_comm _ [c, b] [l, r])
    · refine ⟨[a, c], ?_, ?_⟩
      · simp only [List.getD_eq_getElem?_getD, List.getElem?_cons_succ, List.getElem?_cons_zero,
          Option.getD_some]
        exact List.Perm.swap _ _ _
      · simp only [placeChildren, List.length_cons, List.length_nil, List.getD_eq_getElem?_getD]
        simp only [List.set, Nat.reduceAdd, Nat.add_one_sub_one, List.getElem?_cons_succ,
          List.getElem?_cons_zero, Option.getD_some, List.cons_append, List.nil_append]
        exact (@List.perm_append_comm _ [a, c] [l, r])
    · refine ⟨[a, b], ?_, ?_⟩
      · simp only [List.getD_eq_getElem?_getD, List.getElem?_cons_succ, List.getElem?_cons_zero,
          Option.getD_some]
        exact ((List.Perm.swap _ _ _).cons a).trans (List.Perm.swap _ _ _)
      · simp only [placeChildren, List.length_cons, List.length_nil, List.getD_eq_getElem?_getD]
        simp only [List.set, Nat.reduceAdd, Nat.add_one_sub_one, List.getElem?_cons_succ,
          List.getElem?_cons_zero, Option.getD_some, List.cons_append, List.nil_append]
        exact (@List.perm_append_comm _ [a, b] [l, r])
  | _ :: _ :: _ :: _ :: _, _, hlen => simp at hlen; omega
  | [], hj, _ => simp at hj

theorem split_sequential (env : Env) (P : List PrimRef) (r : BuildRecord) :
    split env Mode.RECURSE_SEQUENTIAL P r = splitSequential env P r := by
  simp [split]

theorem getD_mem (cs : List BuildRecord) (j : Nat) (hj : j < cs.length) :
    cs.getD j BuildRecord.blank ∈ cs := by
  rw [List.getD_eq_getElem?_getD, List.getElem?_eq_getElem hj]
  exact List.getElem_mem _

/-- After the expansion loop of a sequential `recurse`, with a splitter that
stays inside the range it is given: the array is permuted inside the range
of `cur` only, every child is a well-formed range inside it, and the indices
of the children are the indices of `cur`, each once. -/
theorem expandLoop_tiles (env : Env) (n : Nat) (hsplit : SplitsWithinRange env n)
    (cur : BuildRecord) (P0 : List PrimRef) (hlen : P0.length = n) (hw : cur.within n) :
    PermWithin cur.begin cur.end_ P0
      (expandLoop env Mode.RECURSE_SEQUENTIAL cur.depth (BVH4.N - 1) [cur] P0).2 ∧
    (∀ c ∈ (expandLoop env Mode.RECURSE_SEQUENTIAL cur.depth (BVH4.N - 1) [cur] P0).1,
      c.begin ≤ c.end_ ∧ cur.begin ≤ c.begin ∧ c.end_ ≤ cur.end_) ∧
    ((expandLoop env Mode.RECURSE_SEQUENTIAL cur.depth (BVH4.N - 1) [cur] P0).1.flatMap
      BuildRecord.indices).Perm cur.indices := by
  have key := expandLoop_induct env Mode.RECURSE_SEQUENTIAL cur.depth
    (fun cs P => P.length = n ∧ PermWithin cur.begin cur.end_ P0 P ∧
      (∀ c ∈ cs, c.begin ≤ c.end_ ∧ cur.begin ≤ c.begin ∧ c.end_ ≤ cur.end_) ∧
      (cs.flatMap BuildRecord.indices).Perm cur.indices)
    (by
      intro cs P j hQ _ hj hsz hl
      obtain ⟨hPlen, hPW, hin, hidx⟩ := hQ
      rw [split_sequential]
      have hmem := getD_mem cs j hj
      have hcj := hin _ hmem
      obtain ⟨h1, h2, h3, h4, h5, h6⟩ := hsplit P (cs.getD j BuildRecord.blank) hPlen
        ⟨hcj.1, by have := hw.2; omega⟩ hsz
      obtain ⟨rest, hp1, hp2⟩ := placeChildren_perm cs j
        ((splitSequential env P (cs.getD j BuildRecord.blank)).2.1.initDepth (cur.depth + 1))
        ((splitSequential env P (cs.getD j BuildRecord.blank)).2.2.initDepth (cur.depth + 1))
        hj hl
      refine ⟨by rw [h6.1.length_eq, hPlen], permWithin_trans hPW (permWithin_widen h6 hcj.2.1 hcj.2.2), ?_, ?_⟩
      · intro c hc
        have hc' := hp2.mem_iff.1 hc
        simp only [List.mem_cons] at hc'
        rcases hc' with rfl | rfl | hc'
        · simp only [BuildRecord.initDepth]; omega
        · simp only [BuildRecord.initDepth]; omega
        · exact hin c (hp1.mem_iff.2 (List.mem_cons_of_mem _ hc'))
      · refine (hp2.flatMap_right _).trans (List.Perm.trans ?_ ((hp1.flatMap_right _).symm.trans hidx))
        simp only [List.flatMap_cons, ← List.append_assoc]
        apply List.Perm.append_right
        have : ((splitSequential env P (cs.getD j BuildRecord.blank)).2.1.initDepth
              (cur.depth + 1)).indices ++
            ((splitSequential env P (cs.getD j BuildRecord.blank)).2.2.initDepth
              (cur.depth + 1)).indices = (cs.getD j BuildRecord.blank).indices := by
          simp only [BuildRecord.indices, BuildRecord.initDepth]
          rw [h1, ← h2, h3]
          exact range'_glue _ _ _ h4 h5
        rw [this])
    (BVH4.N - 1) [cur] P0 (by simp [BVH4.N])
    ⟨hlen, permWithin_refl _ _ _, by
      intro c hc
      simp only [List.mem_singleton] at hc
      subst hc
      exact ⟨hw.1, le_refl _, le_refl _⟩, by simp⟩
  exact ⟨key.2.1, key.2.2.1, key.2.2.2⟩

/-- A sequential `recurse` call that ends normally covers its record, for a
splitter that stays inside the range it is given. -/
theorem recurse_covers (env : Env) (threadID n : Nat) (hsplit : SplitsWithinRange env n)
    (hn : n + env.minLeafSize < 2 ^ 64) (cur : BuildRecord) (st st' : State)
    (h : recurse env threadID Mode.RECURSE_SEQUENTIAL cur st = Outcome.done st') :
    cur.within st.prims.length → st.prims.length = n → Covers cur st st' := by
  refine recurse_seq_induct env threadID
    (fun cur st st' => cur.within st.prims.length → st.prims.length = n → Covers cur st st')
    ?_ ?_ cur st st' h
  · intro cur st st' hcl hw hlen
    exact (createLeaf_covers env cur st st' hcl).2 hw (by have := hw.2; omega)
  · intro cur st st' _ _ _ hchain hw hlen
    rw [hlen] at hw
    obtain ⟨hPW, hin, hidx⟩ := expandLoop_tiles env n hsplit cur st.prims hlen hw
    have hlen' : (expandLoop env Mode.RECURSE_SEQUENTIAL cur.depth (BVH4.N - 1) [cur]
        st.prims).2.length = n := by rw [hPW.1.length_eq, hlen]
    have hall := chain_covers (fun k => k = n)
      (fun i c => { c with parent := Slot.child st.nodes.length i })
      st.nodes.length (fun i c => ⟨rfl, rfl⟩) _ _ _ _ hchain
      (by simpa using hlen')
      (fun c hc => by
        have := hin c hc
        simp only [store_prims, allocNode_prims, hlen']
        exact ⟨this.1, by have := hw.2; omega⟩)
      (pairwise_disjoint_of_perm _ cur hidx)
    exact covers_of_coversAll cur _ st _ _ hall (fun c hc => (hin c hc).2) hidx
      (by simpa using hPW) (by simp)

/-- An array is the list of its entries in index order. -/
theorem map_primAt_range (P : List PrimRef) : (List.range P.length).map (primAt P) = P := by
  apply List.ext_getElem
  · simp
  · intro i h1 h2
    simp [primAt, List.getD_eq_getElem?_getD, List.getElem?_eq_getElem h2]

/-- The median fallback is a splitter that stays inside the range it is
given, on arrays of at most `2 ^ 32` primitives. -/
theorem fallbackEnv_splitsWithinRange (layout : Layout) (m n : Nat) (hn : n ≤ 2 ^ 32) :
    SplitsWithinRange (fallbackEnv layout m) n := by
  intro P r _ hw hsz
  have hbe := hw.1
  rw [size_of_le r hbe] at hsz
  have hc := center_eq r (by have := hw.2; omega) (by have := hw.2; omega)
  refine ⟨rfl, rfl, rfl, ?_, ?_, permWithin_refl _ _ _⟩
  · show r.begin ≤ splitFallback.center r
    omega
  · show splitFallback.center r ≤ r.end_
    omega

/-- C1. Sequential build covers every primitive exactly once. For a root
record `[0, n)` over an array of `n` primitives (with `n + minLeafSize`
below `2 ^ 64`) and a splitter that permutes primitives inside the range of
the record it is given only and returns `left = [begin, mid)`,
`right = [mid, end)` with `begin ≤ mid ≤ end`, a run of `recurse` in
`RECURSE_SEQUENTIAL` mode that ends without error makes its `createSmallLeaf`
calls on ranges whose indices, taken together, are `0, .., n-1`, each once:
the ranges are pairwise disjoint and every index below `n` lies in one of
them; the final primitive array is a permutation of the initial one; each
leaf has read the primitives the final array holds in its range; the
multiset of `(geomID, primID)` pairs read by the leaves is that of the input;
and if the pairs of the input are distinct, no pair is read twice. -/
theorem sequential_build_covers_each_primitive_once (env : Env) (threadID n : Nat)
    (root : BuildRecord) (st st' : State)
    (hroot : root.begin = 0 ∧ root.end_ = n) (hlen : st.prims.length = n)
    (hn : n + env.minLeafSize < 2 ^ 64) (hsplit : SplitsWithinRange env n)
    (h : recurse env threadID Mode.RECURSE_SEQUENTIAL root st = Outcome.done st') :
    ∃ new, st'.leafCalls = st.leafCalls ++ new ∧
      (new.flatMap (fun c => c.1.indices)).Perm (List.range n) ∧
      new.Pairwise (fun a b => ∀ i, i ∈ a.1.indices → i ∉ b.1.indices) ∧
      (∀ i, i < n → ∃ c ∈ new, c.1.begin ≤ i ∧ i < c.1.end_) ∧
      st'.prims.Perm st.prims ∧
      (∀ c ∈ new, c.2 = c.1.primsOf st'.prims) ∧
      ((new.flatMap (fun c => c.2)).map PrimRef.ids).Perm (st.prims.map PrimRef.ids) ∧
      ((st.prims.map PrimRef.ids).Nodup →
        ((new.flatMap (fun c => c.2)).map PrimRef.ids).Nodup) := by
  obtain ⟨⟨hperm, _⟩, new, hl, hidx, hsnap⟩ := recurse_covers env threadID n hsplit hn root st st' h
    (by rw [hlen]; exact ⟨by omega, by omega⟩) hlen
  have hidx' : (new.flatMap (fun c => c.1.indices)).Perm (List.range n) := by
    have : root.indices = List.range n := by
      simp [BuildRecord.indices, hroot.1, hroot.2, List.range_eq_range']
    rw [← this]; exact hidx
  have hnd : (new.flatMap (fun c => c.1.indices)).Nodup := by
    rw [hidx'.nodup_iff]; exact List.nodup_range n
  have hread : new.flatMap (fun c => c.2) =
      (new.flatMap (fun c => c.1.indices)).map (primAt st'.prims) := by
    rw [List.map_flatMap]
    apply List.flatMap_congr
    intro c hc
    rw [(hsnap c hc).1]; rfl
  have hmulti : (new.flatMap (fun c => c.2)).Perm st.prims := by
    rw [hread]
    refine ((hidx'.map _).trans ?_).trans hperm
    rw [← hlen, ← hperm.length_eq, map_primAt_range]
  refine ⟨new, hl, hidx', ?_, ?_, hperm, fun c hc => (hsnap c hc).1, hmulti.map _, ?_⟩
  · rw [List.nodup_flatMap] at hnd
    exact hnd.2.imp (fun hab i hi => List.disjoint_left.1 hab hi)
  · intro i hi
    have : i ∈ new.flatMap (fun c => c.1.indices) := hidx'.mem_iff.2 (List.mem_range.2 hi)
    rw [List.mem_flatMap] at this
    obtain ⟨c, hc, hic⟩ := this
    rw [mem_indices] at hic
    exact ⟨c, hc, hic⟩
  · intro hnd'
    exact ((hmulti.map PrimRef.ids).nodup_iff).2 hnd'

theorem Outcome.eq_done_of_isDone (o : Outcome) (h : o.isDone = true) :
    o = Outcome.done o.state := by
  cases o with
  | done s => rfl
  | fail e s => simp [Outcome.isDone] at h

theorem sequential_build_covers_each_primitive_once_witness :
    ((rootRecord (scanBounds (samplePrims 5) 0 5) 5).begin = 0 ∧
      (rootRecord (scanBounds (samplePrims 5) 0 5) 5).end_ = 5) ∧
    (initialState (samplePrims 5) (scanBounds (samplePrims 5) 0 5)).prims.length = 5 ∧
    5 + (fallbackEnv Layout.triangle1 2).minLeafSize < 2 ^ 64 ∧
    SplitsWithinRange (fallbackEnv Layout.triangle1 2) 5 ∧
    ∃ new, (build_sequential (fallbackEnv Layout.triangle1 2) 0 5 (samplePrims 5)
        (scanBounds (samplePrims 5) 0 5)).state.leafCalls = new ∧
      (new.flatMap (fun c => c.1.indices)).Perm (List.range 5) := by
  have hs := fallbackEnv_splitsWithinRange Layout.triangle1 2 5 (by norm_num)
  refine ⟨⟨rfl, rfl⟩, by decide, by decide, hs, ?_⟩
  obtain ⟨new, h1, h2, _⟩ := sequential_build_covers_each_primitive_once
    (fallbackEnv Layout.triangle1 2) 0 5 (rootRecord (scanBounds (samplePrims 5) 0 5) 5)
    (initialState (samplePrims 5) (scanBounds (samplePrims 5) 0 5))
    (build_sequential (fallbackEnv Layout.triangle1 2) 0 5 (samplePrims 5)
        (scanBounds (samplePrims 5) 0 5)).state
    ⟨rfl, rfl⟩ (by decide) (by decide) hs
    (Outcome.eq_done_of_isDone _ (by decide))
  exact ⟨new, by simpa [initialState] using h1, h2⟩

/-! ## Depth -/

theorem nodeLevels_fold (x : List Slot) : ∀ acc : List Nat,
    ∃ more, x.foldl (fun levels s => levels ++ [1 + slotLevel levels s]) acc = acc ++ more ∧
      more.length = x.length := by
  induction x with
  | nil => intro acc; exact ⟨[], by simp⟩
  | cons s x ih =>
    intro acc
    obtain ⟨more, h1, h2⟩ := ih (acc ++ [1 + slotLevel acc s])
    exact ⟨(1 + slotLevel acc s) :: more, by simp [h1], by simp [h2]⟩

theorem nodeLevels_append (l x : List Slot) :
    ∃ more, nodeLevels (l ++ x) = nodeLevels l ++ more ∧ more.length = x.length := by
  unfold nodeLevels
  rw [List.foldl_append]
  exact nodeLevels_fold x _

theorem nodeLevels_length (l : List Slot) : (nodeLevels l).length = l.length := by
  obtain ⟨more, h1, h2⟩ := nodeLevels_append [] l
  simp only [List.nil_append] at h1
  rw [h1]
  simp [nodeLevels, h2]

theorem nodeLevels_snoc (l : List Slot) (s : Slot) :
    nodeLevels (l ++ [s]) = nodeLevels l ++ [1 + slotLevel (nodeLevels l) s] := by
  simp [nodeLevels, List.foldl_append]

/-- The level of an allocated node does not change when more nodes are
published. -/
theorem slotLevel_append (l x : List Slot) (slot : Slot)
    (h : ∀ k i, slot = Slot.child k i → k < l.length) :
    slotLevel (nodeLevels (l ++ x)) slot = slotLevel (nodeLevels l) slot := by
  cases slot with
  | null => rfl
  | root => rfl
  | child k i =>
    obtain ⟨more, h1, _⟩ := nodeLevels_append l x
    have hk := h k i rfl
    simp only [slotLevel, h1, List.getD_eq_getElem?_getD]
    rw [List.getElem?_append_left (by rw [nodeLevels_length]; exact hk)]

theorem nodeSlots_append (a b : List (Slot × NodeRef)) :
    nodeSlots (a ++ b) = nodeSlots a ++ nodeSlots b := by
  simp [nodeSlots, List.filterMap_append]

/-- The number of nodes above a slot of the memory does not change when the
build goes on. -/
theorem nodesAbove_stable (st st' : State) (slot : Slot) (hp : st.published)
    (hs : st.hasSlot slot) (hw : ∃ ws, st'.writes = st.writes ++ ws) :
    nodesAbove st' slot = nodesAbove st slot := by
  obtain ⟨ws, hw⟩ := hw
  unfold nodesAbove
  rw [hw, nodeSlots_append]
  apply slotLevel_append
  intro k i hk
  subst hk
  rw [hp]
  exact hs

theorem hasSlot_mono (st st' : State) (slot : Slot) (h : st.nodes.length ≤ st'.nodes.length)
    (hs : st.hasSlot slot) : st'.hasSlot slot := by
  cases slot with
  | null => trivial
  | root => trivial
  | child k i => exact Nat.lt_of_lt_of_le hs h

@[simp] theorem store_writes (st : State) (slot : Slot) (ref : NodeRef) :
    (st.store slot ref).writes = st.writes ++ [(slot, ref)] := by
  unfold State.store; cases slot <;> rfl

@[simp] theorem store_nodes_length (st : State) (slot : Slot) (ref : NodeRef) :
    (st.store slot ref).nodes.length = st.nodes.length := by
  unfold State.store; cases slot <;> simp

@[simp] theorem setBounds_writes (st : State) (n i : Nat) (c : BuildRecord) :
    (st.setBounds n i c).writes = st.writes := rfl

@[simp] theorem setBounds_nodes_length (st : State) (n i : Nat) (c : BuildRecord) :
    (st.setBounds n i c).nodes.length = st.nodes.length := by
  simp [State.setBounds]

@[simp] theorem compact_writes (st : State) (n : Nat) : (st.compact n).writes = st.writes := rfl

@[simp] theorem compact_nodes_length (st : State) (n : Nat) :
    (st.compact n).nodes.length = st.nodes.length := by
  simp [State.compact]

@[simp] theorem allocNode_writes (st : State) : st.allocNode.2.writes = st.writes := rfl

@[simp] theorem allocNode_nodes_length (st : State) :
    st.allocNode.2.nodes.length = st.nodes.length + 1 := by
  simp [State.allocNode]

@[simp] theorem allocNode_fst (st : State) : st.allocNode.1 = st.nodes.length := rfl

@[simp] theorem createSmallLeaf_writes' (env : Env) (cur : BuildRecord) (st : State) :
    nodeSlots (createSmallLeaf env cur st).writes = nodeSlots st.writes := by
  rw [createSmallLeaf_writes, nodeSlots_append]
  simp [nodeSlots, encodeLeaf]

@[simp] theorem createSmallLeaf_nodes_length (env : Env) (cur : BuildRecord) (st : State) :
    (createSmallLeaf env cur st).nodes.length = st.nodes.length := by
  simp [createSmallLeaf]

/-- A small leaf keeps the depth invariant. -/
theorem createSmallLeaf_depth (env : Env) (cur : BuildRecord) (st : State)
    (hd : cur.depth ≤ env.maxBuildDepthLeaf) :
    DepthInv env cur st (createSmallLeaf env cur st) := by
  intro hp hs hdepth
  refine ⟨?_, ⟨_, createSmallLeaf_writes env cur st⟩, by simp, [(cur, leafPrims st.prims cur)],
    by simp, ?_⟩
  · unfold State.published; simp; exact hp
  · intro c hc
    simp only [List.mem_singleton] at hc
    subst hc
    refine ⟨hd, hasSlot_mono st _ _ (by simp) hs, ?_⟩
    simp only [hdepth, nodesAbove, createSmallLeaf_writes']

theorem depthPost_refl (env : Env) (s : State) (hp : s.published) : DepthPost env s s :=
  ⟨hp, ⟨[], by simp⟩, le_refl _, [], by simp, by simp⟩

/-- The depth invariant composes: first `s` to `s1`, then `s1` to `s'`. -/
theorem depthPost_trans (env : Env) (s s1 s' : State) (h1 : DepthPost env s s1)
    (h2 : DepthPost env s1 s') : DepthPost env s s' := by
  obtain ⟨hp1, ⟨ws1, hw1⟩, hn1, new1, hl1, hc1⟩ := h1
  obtain ⟨hp2, ⟨ws2, hw2⟩, hn2, new2, hl2, hc2⟩ := h2
  refine ⟨hp2, ⟨ws1 ++ ws2, by rw [hw2, hw1, List.append_assoc]⟩, by omega, new1 ++ new2,
    by rw [hl2, hl1, List.append_assoc], ?_⟩
  intro c hc
  rw [List.mem_append] at hc
  rcases hc with hc | hc
  · obtain ⟨a, b, d⟩ := hc1 c hc
    exact ⟨a, hasSlot_mono s1 s' _ hn2 b, by
      rw [nodesAbove_stable s1 s' _ hp1 b ⟨ws2, hw2⟩]; exact d⟩
  · exact hc2 c hc

theorem published_setBounds (s : State) (n i : Nat) (c : BuildRecord) :
    (s.setBounds n i c).published ↔ s.published := by
  simp [State.published]

theorem depthPost_setBounds (env : Env) (s s1 : State) (n i : Nat) (c : BuildRecord) :
    DepthPost env (s.setBounds n i c) s1 ↔ DepthPost env s s1 := by
  simp [DepthPost]

theorem nodesAbove_child (st : State) (node i j : Nat) :
    nodesAbove st (Slot.child node i) = nodesAbove st (Slot.child node j) := rfl

/-- The depth invariant over a children loop: the children are records of
depth `d` whose parents are the slots of `node`, and `d` is one more than
the number of nodes above those slots. -/
theorem chain_depth (env : Env) (upd : Nat → BuildRecord → BuildRecord) (node d : Nat) :
    ∀ cs i s s', childChain (DepthInv env) upd node i cs s s' →
      (∀ k c, c ∈ cs → (upd k c).parent = Slot.child node k ∧ (upd k c).depth = d) →
      s.published → node < s.nodes.length → d = 1 + nodesAbove s (Slot.child node 0) →
      DepthPost env s s' := by
  intro cs
  induction cs with
  | nil =>
    intro i s s' h _ hp _ _
    simp only [childChain] at h
    subst h
    exact depthPost_refl env _ hp
  | cons c rest ih =>
    intro i s s' h hupd hp hnode hd
    obtain ⟨s1, hc, hrest⟩ := h
    have hu := hupd i c (List.mem_cons_self _ _)
    have h1 : DepthPost env (s.setBounds node i c) s1 := by
      apply hc
      · exact (published_setBounds _ _ _ _).2 hp
      · rw [hu.1]; simpa [State.hasSlot] using hnode
      · rw [hu.1, hu.2, hd]; rfl
    have h1' : DepthPost env s s1 := (depthPost_setBounds _ _ _ _ _ _).1 h1
    obtain ⟨hp1, hw1, hn1, _⟩ := h1'
    have h2 := ih (i + 1) s1 s' hrest
      (fun k c' hc' => hupd k c' (List.mem_cons_of_mem _ hc')) hp1 (by omega)
      (by rw [nodesAbove_stable s s1 _ hp (by simpa [State.hasSlot] using hnode) hw1]; exact hd)
    exact depthPost_trans env s s1 s' ((depthPost_setBounds _ _ _ _ _ _).1 h1) h2

/-- Publishing a freshly allocated node: every node is again published once,
and the number of nodes above the slots of the new node is one more than
above the slot it was published through. -/
theorem publish_node (st st0 : State) (slot : Slot) (hp : st.published)
    (hw : st0.writes = st.writes) (hn : st0.nodes.length = st.nodes.length + 1) :
    (st0.store slot (encodeNode st.nodes.length)).published ∧
    nodesAbove (st0.store slot (encodeNode st.nodes.length)) (Slot.child st.nodes.length 0) =
      1 + nodesAbove st slot := by
  constructor
  · have hp' : (nodeSlots st.writes).length = st.nodes.length := hp
    unfold State.published
    rw [store_writes, nodeSlots_append, store_nodes_length, hw, hn, List.length_append, hp']
    simp [nodeSlots, encodeNode]
  · unfold nodesAbove
    rw [store_writes, nodeSlots_append, hw]
    have : nodeSlots [(slot, encodeNode st.nodes.length)] = [slot] := by
      simp [nodeSlots, encodeNode]
    rw [this, nodeLevels_snoc]
    simp only [slotLevel, List.getD_eq_getElem?_getD]
    have hp' : (nodeSlots st.writes).length = st.nodes.length := hp
    rw [List.getElem?_append_right (by rw [nodeLevels_length, hp'])]
    simp [nodeLevels_length, hp']

theorem depthPost_compact (env : Env) (s s' : State) (n : Nat) (h : DepthPost env s s') :
    DepthPost env s (s'.compact n) := by
  obtain ⟨hp, hw, hn, new, hl, hc⟩ := h
  refine ⟨by simpa [State.published] using hp, by simpa using hw, by simpa using hn, new,
    by simpa using hl, ?_⟩
  intro c hcm
  obtain ⟨a, b, d⟩ := hc c hcm
  refine ⟨a, ?_, d⟩
  cases hpar : c.1.parent with
  | null => trivial
  | root => trivial
  | child k i => rw [hpar] at b; simpa [State.hasSlot] using b

/-- The depth invariant from the published node down to the record it was
allocated for. -/
theorem depthPost_of_node (env : Env) (st s0 s' : State) (h : DepthPost env s0 s')
    (hw : ∃ w, s0.writes = st.writes ++ w) (hn : st.nodes.length ≤ s0.nodes.length)
    (hl : s0.leafCalls = st.leafCalls) : DepthPost env st s' := by
  obtain ⟨hp, ⟨ws, hws⟩, hn', new, hl', hc⟩ := h
  obtain ⟨w, hw⟩ := hw
  exact ⟨hp, ⟨w ++ ws, by rw [hws, hw, List.append_assoc]⟩, by omega, new,
    by rw [hl', hl], hc⟩

/-- `createLeaf` keeps the depth invariant. -/
theorem createLeaf_depth (env : Env) (cur : BuildRecord) (st st' : State)
    (h : createLeaf env cur st = Outcome.done st') : DepthInv env cur st st' := by
  refine createLeaf_induct env (DepthInv env) ?_ ?_ cur st st' h
  · intro cur st hd _
    exact createSmallLeaf_depth env cur st hd
  · intro cur st s' _ _ hchain hp _ hdepth
    obtain ⟨hp0, hlev⟩ := publish_node st st.allocNode.2 cur.parent hp (by simp) (by simp)
    have hpost := chain_depth env _ st.nodes.length (cur.depth + 1) _ _ _ _ hchain
      (fun k c _ => ⟨rfl, rfl⟩) hp0 (by simp) (by rw [hlev, hdepth]; omega)
    exact depthPost_compact env _ _ _
      (depthPost_of_node env st _ _ hpost ⟨[(cur.parent, encodeNode st.nodes.length)], by simp⟩
        (by simp) (by simp))

/-- After the expansion loop, either no split was made or every child has
depth `cur.depth + 1`. -/
theorem expandLoop_depth (env : Env) (mode : Mode) (cur : BuildRecord) (P0 : List PrimRef) :
    (expandLoop env mode cur.depth (BVH4.N - 1) [cur] P0).1 = [cur] ∨
    ∀ c ∈ (expandLoop env mode cur.depth (BVH4.N - 1) [cur] P0).1, c.depth = cur.depth + 1 := by
  refine expandLoop_induct env mode cur.depth
    (fun cs _ => cs = [cur] ∨ ∀ c ∈ cs, c.depth = cur.depth + 1) ?_
    (BVH4.N - 1) [cur] P0 (by simp [BVH4.N]) (Or.inl rfl)
  intro cs P j hQ _ hj _ hl
  right
  obtain ⟨rest, hp1, hp2⟩ := placeChildren_perm cs j
    ((split env mode P (cs.getD j BuildRecord.blank)).2.1.initDepth (cur.depth + 1))
    ((split env mode P (cs.getD j BuildRecord.blank)).2.2.initDepth (cur.depth + 1)) hj hl
  intro c hc
  have hc' := hp2.mem_iff.1 hc
  simp only [List.mem_cons] at hc'
  rcases hc' with rfl | rfl | hc'
  · rfl
  · rfl
  · rcases hQ with hQ | hQ
    · subst hQ
      have := hp1.length_eq
      simp only [List.length_cons, List.length_nil] at this
      have : rest = [] := List.eq_nil_of_length_eq_zero (by omega)
      subst this
      simp at hc'
    · exact hQ c (hp1.mem_iff.2 (List.mem_cons_of_mem _ hc'))

/-- A sequential `recurse` call keeps the depth invariant. -/
theorem recurse_depth (env : Env) (threadID : Nat) (cur : BuildRecord) (st st' : State)
    (h : recurse env threadID Mode.RECURSE_SEQUENTIAL cur st = Outcome.done st') :
    DepthInv env cur st st' := by
  refine recurse_seq_induct env threadID (DepthInv env) ?_ ?_ cur st st' h
  · intro cur st st' hcl
    exact createLeaf_depth env cur st st' hcl
  · intro cur st st' _ _ hne hchain hp _ hdepth
    have hd := (expandLoop_depth env Mode.RECURSE_SEQUENTIAL cur st.prims).resolve_left
      (fun heq => hne (by rw [heq]; rfl))
    obtain ⟨hp0, hlev⟩ := publish_node st
      ({ st with prims := (expandLoop env Mode.RECURSE_SEQUENTIAL cur.depth (BVH4.N - 1) [cur]
          st.prims).2 } : State).allocNode.2 cur.parent hp (by simp) (by simp)
    have hpost := chain_depth env _ st.nodes.length (cur.depth + 1) _ _ _ _ hchain
      (fun k c hc => ⟨rfl, hd c hc⟩) hp0 (by simp) (by rw [hlev, hdepth]; omega)
    exact depthPost_of_node env st _ _ hpost
      ⟨[(cur.parent, encodeNode st.nodes.length)], by simp⟩ (by simp) (by simp)

/-- A property of the memory that every call of the loop body keeps, also
when it throws, holds of the memory the loop leaves. -/
theorem forChildren_state_inv (body : Nat → BuildRecord → State → Outcome)
    (I : State → Prop) (hbody : ∀ i c s, I s → I (body i c s).state) :
    ∀ cs i st, I st → I (forChildren body i cs st).state := by
  intro cs
  induction cs with
  | nil => intro i st h; exact h
  | cons c cs ih =>
    intro i st h
    rw [forChildren_cons]
    have hb := hbody i c st h
    cases hbc : body i c st with
    | done s1 => rw [hbc] at hb; exact ih _ _ hb
    | fail e s1 => rw [hbc] at hb; exact hb

theorem leafDepthsOK_of_leafCalls (env : Env) (s s' : State) (h : s'.leafCalls = s.leafCalls)
    (hs : s.leafDepthsOK env) : s'.leafDepthsOK env := by
  unfold State.leafDepthsOK at *
  rw [h]; exact hs

/-- `createLeaf` only emits leaves within the depth limit, however it ends. -/
theorem createLeafF_leafDepths (env : Env) : ∀ fuel cur st, st.leafDepthsOK env →
    (createLeafF env fuel cur st).state.leafDepthsOK env := by
  intro fuel
  induction fuel with
  | zero => intro cur st h; exact h
  | succ fuel ih =>
    intro cur st h
    rw [createLeafF_unfold]
    by_cases hd : cur.depth > env.maxBuildDepthLeaf
    · rw [if_pos hd]; exact h
    · rw [if_neg hd]
      by_cases hs : cur.size ≤ env.minLeafSize
      · rw [if_pos hs]
        intro c hc
        simp only [Outcome.state, createSmallLeaf_leafCalls, List.mem_append,
          List.mem_singleton] at hc
        rcases hc with hc | rfl
        · exact h c hc
        · simp only; omega
      · rw [if_neg hs]
        have := forChildren_state_inv (fun i c s =>
            createLeafF env fuel
              { c with parent := Slot.child st.allocNode.1 i, depth := cur.depth + 1 }
              (s.setBounds st.allocNode.1 i c)) (fun s => s.leafDepthsOK env)
          (fun i c s hs' => ih _ _ (leafDepthsOK_of_leafCalls env s _ (by simp) hs'))
          [(splitFallback st.prims (splitFallback st.prims cur).1).1,
           (splitFallback st.prims (splitFallback st.prims cur).1).2,
           (splitFallback st.prims (splitFallback st.prims cur).2).1,
           (splitFallback st.prims (splitFallback st.prims cur).2).2] 0
          (st.allocNode.2.store cur.parent (encodeNode st.allocNode.1))
          (leafDepthsOK_of_leafCalls env st _ (by simp) h)
        revert this
        cases forChildren (fun i c s =>
            createLeafF env fuel
              { c with parent := Slot.child st.allocNode.1 i, depth := cur.depth + 1 }
              (s.setBounds st.allocNode.1 i c)) 0
          [(splitFallback st.prims (splitFallback st.prims cur).1).1,
           (splitFallback st.prims (splitFallback st.prims cur).1).2,
           (splitFallback st.prims (splitFallback st.prims cur).2).1,
           (splitFallback st.prims (splitFallback st.prims cur).2).2]
          (st.allocNode.2.store cur.parent (encodeNode st.allocNode.1)) with
        | done s3 => intro h3; exact leafDepthsOK_of_leafCalls env s3 _ (by simp [Outcome.state]) h3
        | fail e s3 => intro h3; exact h3

theorem stackPush_leafCalls (env : Env) (st st1 : State) (threadID : Nat) (r : BuildRecord)
    (h : st.stackPush env threadID r = some st1) : st1.leafCalls = st.leafCalls := by
  unfold State.stackPush at h
  simp only at h
  by_cases hlt : (st.threadStack.getD threadID []).length < env.stackSize
  · rw [if_pos hlt] at h; cases h; rfl
  · rw [if_neg hlt] at h; cases h

/-- `recurse`, in every mode and however it ends, only emits leaves within
the depth limit. -/
theorem recurseF_leafDepths (env : Env) (threadID : Nat) : ∀ fuel mode cur st,
    st.leafDepthsOK env → (recurseF env threadID fuel mode cur st).state.leafDepthsOK env := by
  intro fuel
  induction fuel with
  | zero => intro mode cur st h; exact h
  | succ fuel ih =>
    intro mode cur st h
    rw [recurseF_unfold]
    simp only
    split
    · exact createLeafF_leafDepths env _ _ _ h
    · split
      · exact createLeafF_leafDepths env _ _ _ (leafDepthsOK_of_leafCalls env st _ rfl h)
      · apply forChildren_state_inv _ (fun s => s.leafDepthsOK env)
        · intro i c s hs
          have hs' : (s.setBounds st.nodes.length i c).leafDepthsOK env :=
            leafDepthsOK_of_leafCalls env s _ (by simp) hs
          unfold recurse_continue
          split
          · exact leafDepthsOK_of_leafCalls env _ _ (by simp [Outcome.state, State.heapPush]) hs'
          · split
            · split
              · rename_i st1 hpush
                exact leafDepthsOK_of_leafCalls env _ _
                  (stackPush_leafCalls env _ _ _ _ hpush) hs'
              · exact ih _ _ _ hs'
            · exact ih _ _ _ hs'
        · exact leafDepthsOK_of_leafCalls env st _ (by simp) h

/-! ## Child slots -/

theorem store_nodes (st : State) (slot : Slot) (ref : NodeRef) :
    (st.store slot ref).nodes = writeNodes st.nodes slot ref := by
  unfold State.store writeNodes; cases slot <;> rfl

theorem clear_filledUpTo : Node.clear.filledUpTo 0 := by
  refine ⟨by simp [Node.clear], by simp [Node.clear], by simp, ?_⟩
  intro i _ hi
  simp [Node.clear, List.getD_eq_getElem?_getD, List.getElem?_replicate, hi]

/-- Filling slot `k` of a node whose first `k` slots are filled. -/
theorem filledUpTo_step (nd : Node) (k : Nat) (b : BBox3fa) (ref : NodeRef)
    (h : nd.filledUpTo k) (hk : k < BVH4.N) (href : ref ≠ NodeRef.empty) :
    ((nd.set k b).setChild k ref).filledUpTo (k + 1) := by
  obtain ⟨h1, h2, h3, h4⟩ := h
  refine ⟨by simp [Node.set, Node.setChild, h1], by simp [Node.set, Node.setChild, h2], ?_, ?_⟩
  · intro i hi
    simp only [Node.set, Node.setChild, List.getD_eq_getElem?_getD, getElem?_set_getD, h2]
    by_cases hik : k = i
    · simp [hik, hk, href]; subst hik; simp [hk, href]
    · have : ¬ (k = i ∧ k < BVH4.N) := by tauto
      rw [if_neg this]
      have := h3 i (by omega)
      simpa [List.getD_eq_getElem?_getD] using this
  · intro i hi1 hi2
    have := h4 i (by omega) hi2
    simp only [Node.set, Node.setChild, List.getD_eq_getElem?_getD, getElem?_set_getD, h1, h2]
    have hne : ¬ (k = i ∧ k < BVH4.N) := by omega
    rw [if_neg hne, if_neg hne]
    simpa [List.getD_eq_getElem?_getD] using this

theorem list_length_four {α : Type} (l : List α) (h : l.length = 4) :
    ∃ a b c d, l = [a, b, c, d] := by
  match l, h with
  | [a, b, c, d], _ => exact ⟨a, b, c, d, rfl⟩

/-- A node whose filled slots come first is its own compaction. -/
theorem compact_of_filledUpTo (nd : Node) (k : Nat) (hk : k ≤ BVH4.N) (h : nd.filledUpTo k) :
    BVH4.compact nd = nd := by
  obtain ⟨h1, h2, h3, h4⟩ := h
  unfold BVH4.N at *
  obtain ⟨b0, b1, b2, b3, hb⟩ := list_length_four nd.bounds h1
  obtain ⟨c0, c1, c2, c3, hc⟩ := list_length_four nd.children h2
  cases nd with
  | mk bounds children =>
    simp only at hb hc
    subst hb hc
    have h30 := h3 0; have h31 := h3 1; have h32 := h3 2; have h33 := h3 3
    have h40 := h4 0; have h41 := h4 1; have h42 := h4 2; have h43 := h4 3
    simp only [List.getD_eq_getElem?_getD, List.getElem?_cons_zero, List.getElem?_cons_succ,
      Option.getD_some] at h30 h31 h32 h33 h40 h41 h42 h43
    have hcases : k = 0 ∨ k = 1 ∨ k = 2 ∨ k = 3 ∨ k = 4 := by omega
    rcases hcases with rfl | rfl | rfl | rfl | rfl
    · have e0 := (h40 (by omega) (by omega)).1
      have e1 := (h41 (by omega) (by omega)).1
      have e2 := (h42 (by omega) (by omega)).1
      have e3 := (h43 (by omega) (by omega)).1
      subst e0 e1 e2 e3
      simp [BVH4.compact, Node.slots]
    · have n0 := h30 (by omega)
      have e1 := (h41 (by omega) (by omega)).1
      have e2 := (h42 (by omega) (by omega)).1
      have e3 := (h43 (by omega) (by omega)).1
      subst e1 e2 e3
      simp [BVH4.compact, Node.slots, n0]
    · have n0 := h30 (by omega)
      have n1 := h31 (by omega)
      have e2 := (h42 (by omega) (by omega)).1
      have e3 := (h43 (by omega) (by omega)).1
      subst e2 e3
      simp [BVH4.compact, Node.slots, n0, n1]
    · have n0 := h30 (by omega)
      have n1 := h31 (by omega)
      have n2 := h32 (by omega)
      have e3 := (h43 (by omega) (by omega)).1
      subst e3
      simp [BVH4.compact, Node.slots, n0, n1, n2]
    · have n0 := h30 (by omega)
      have n1 := h31 (by omega)
      have n2 := h32 (by omega)
      have n3 := h33 (by omega)
      simp [BVH4.compact, Node.slots, n0, n1, n2, n3]

theorem set_at_length {α : Type} (base : List α) (x y : α) (ex : List α) :
    (base ++ x :: ex).set base.length y = base ++ y :: ex := by
  induction base with
  | nil => rfl
  | cons a base ih => simp [ih]

theorem getD_at_length {α : Type} (base : List α) (x d : α) (ex : List α) :
    (base ++ x :: ex).getD base.length d = x := by
  induction base with
  | nil => rfl
  | cons a base ih => simpa using ih

/-- The slot invariant over a children loop: child `j` fills slot `j` of the
node at index `node`, and the nodes appended meanwhile are finished. -/
theorem chain_fills (upd : Nat → BuildRecord → BuildRecord) (node : Nat)
    (hupd : ∀ k c, (upd k c).parent = Slot.child node k) (base : List Node)
    (hbase : base.length = node) :
    ∀ cs j s s', childChain FillsSlot upd node j cs s s' → j + cs.length ≤ BVH4.N →
      ∀ nd ex, s.nodes = base ++ nd :: ex → nd.filledUpTo j → (∀ e ∈ ex, e.finished) →
      ∃ nd' ex', s'.nodes = base ++ nd' :: ex' ∧ nd'.filledUpTo (j + cs.length) ∧
        ∀ e ∈ ex', e.finished := by
  intro cs
  induction cs with
  | nil =>
    intro j s s' h _ nd ex hn hf hex
    simp only [childChain] at h
    subst h
    exact ⟨nd, ex, hn, by simpa using hf, hex⟩
  | cons c rest ih =>
    intro j s s' h hj nd ex hn hf hex
    obtain ⟨s1, hc, hrest⟩ := h
    simp only [List.length_cons] at hj
    have hsb : (s.setBounds node j c).nodes = base ++ (nd.set j c.geomBounds) :: ex := by
      simp only [State.setBounds, hn]
      rw [← hbase, getD_at_length, set_at_length]
    obtain ⟨ref, extra, href, hnodes, hfin⟩ := hc (by
      rw [hupd]
      simp only [State.hasSlot, hsb, List.length_append, List.length_cons]
      omega)
    rw [hupd, hsb] at hnodes
    simp only [writeNodes] at hnodes
    rw [← hbase, getD_at_length, set_at_length] at hnodes
    have := ih (j + 1) s1 s' hrest (by omega)
      ((nd.set j c.geomBounds).setChild j ref) (ex ++ extra)
      (by rw [hnodes]; simp)
      (filledUpTo_step nd j _ ref hf (by omega) href)
      (by
        intro e he
        rw [List.mem_append] at he
        rcases he with he | he
        · exact hex e he
        · exact hfin e he)
    obtain ⟨nd', ex', h1, h2, h3⟩ := this
    refine ⟨nd', ex', h1, ?_, h3⟩
    rw [List.length_cons, show j + (rest.length + 1) = j + 1 + rest.length by omega]
    exact h2

@[simp] theorem writeNodes_length (nodes : List Node) (slot : Slot) (ref : NodeRef) :
    (writeNodes nodes slot ref).length = nodes.length := by
  unfold writeNodes; cases slot <;> simp

/-- A store through a slot of the memory does not touch nodes allocated
later. -/
theorem writeNodes_append (nodes x : List Node) (slot : Slot) (ref : NodeRef)
    (h : ∀ k i, slot = Slot.child k i → k < nodes.length) :
    writeNodes (nodes ++ x) slot ref = writeNodes nodes slot ref ++ x := by
  cases slot with
  | null => rfl
  | root => rfl
  | child k i =>
    have hk := h k i rfl
    simp only [writeNodes, List.getD_eq_getElem?_getD]
    rw [List.getElem?_append_left hk, List.set_append_left _ _ hk]

theorem hasSlot_iff (st : State) (slot : Slot) :
    st.hasSlot slot ↔ ∀ k i, slot = Slot.child k i → k < st.nodes.length := by
  cases slot with
  | null => simp [State.hasSlot]
  | root => simp [State.hasSlot]
  | child k i => simp [State.hasSlot]

@[simp] theorem createSmallLeaf_nodes (env : Env) (cur : BuildRecord) (st : State) :
    (createSmallLeaf env cur st).nodes =
      writeNodes st.nodes cur.parent (encodeLeaf st.leaves.length (leafBlock env st.prims cur).2) := by
  simp [createSmallLeaf, store_nodes]

/-- The node arena after allocating a node for `cur`, publishing it and
running the children loop: the parent slot of `cur` holds the node, and the
new node and the nodes allocated below it are finished. -/
theorem fills_of_chain (cur : BuildRecord) (st st0 s' : State) (cs : List BuildRecord)
    (upd : Nat → BuildRecord → BuildRecord)
    (hupd : ∀ k c, (upd k c).parent = Slot.child st.nodes.length k)
    (h0 : st0.nodes = st.nodes ++ [Node.clear])
    (hchain : childChain FillsSlot upd st.nodes.length 0 cs
      (st0.store cur.parent (encodeNode st.nodes.length)) s')
    (hlen : 1 ≤ cs.length ∧ cs.length ≤ BVH4.N) (hs : st.hasSlot cur.parent) :
    ∃ nd ex, s'.nodes = writeNodes st.nodes cur.parent (encodeNode st.nodes.length) ++ nd :: ex ∧
      nd.finished ∧ ∀ e ∈ ex, e.finished := by
  have hstart : (st0.store cur.parent (encodeNode st.nodes.length)).nodes =
      writeNodes st.nodes cur.parent (encodeNode st.nodes.length) ++ Node.clear :: [] := by
    rw [store_nodes, h0, writeNodes_append _ _ _ _ ((hasSlot_iff st _).1 hs)]
  obtain ⟨nd, ex, h1, h2, h3⟩ := chain_fills upd st.nodes.length hupd
    (writeNodes st.nodes cur.parent (encodeNode st.nodes.length)) (by simp)
    cs 0 _ s' hchain (by omega) Node.clear [] hstart clear_filledUpTo (by simp)
  rw [Nat.zero_add] at h2
  exact ⟨nd, ex, h1, ⟨cs.length, hlen.1, hlen.2, h2, compact_of_filledUpTo nd _ hlen.2 h2⟩, h3⟩

/-- `createLeaf` fills the parent slot and appends finished nodes. -/
theorem createLeaf_fills (env : Env) (cur : BuildRecord) (st st' : State)
    (h : createLeaf env cur st = Outcome.done st') : FillsSlot cur st st' := by
  refine createLeaf_induct env FillsSlot ?_ ?_ cur st st' h
  · intro cur st _ _ _
    exact ⟨encodeLeaf st.leaves.length (leafBlock env st.prims cur).2, [],
      by simp [encodeLeaf], by simp, by simp⟩
  · intro cur st s' _ _ hchain hs
    obtain ⟨nd, ex, h1, h2, h3⟩ := fills_of_chain cur st st.allocNode.2 s' _ _
      (fun k c => rfl) rfl hchain (by simp [fallbackChildren, BVH4.N]) hs
    refine ⟨encodeNode st.nodes.length, nd :: ex, by simp [encodeNode], ?_, ?_⟩
    · simp only [State.compact, h1]
      have hl : (writeNodes st.nodes cur.parent (encodeNode st.nodes.length)).length =
          st.nodes.length := by simp
      have e1 := getD_at_length (writeNodes st.nodes cur.parent (encodeNode st.nodes.length))
        nd Node.clear ex
      have e2 := set_at_length (writeNodes st.nodes cur.parent (encodeNode st.nodes.length))
        nd (BVH4.compact nd) ex
      rw [hl] at e1 e2
      obtain ⟨k, _, _, _, hc⟩ := h2
      rw [e1, e2, hc]
    · intro e he
      rcases List.mem_cons.1 he with rfl | he
      · exact h2
      · exact h3 e he

/-- A sequential `recurse` call fills the parent slot and appends finished
nodes. -/
theorem recurse_fills (env : Env) (threadID : Nat) (cur : BuildRecord) (st st' : State)
    (h : recurse env threadID Mode.RECURSE_SEQUENTIAL cur st = Outcome.done st') :
    FillsSlot cur st st' := by
  refine recurse_seq_induct env threadID FillsSlot ?_ ?_ cur st st' h
  · intro cur st st' hcl
    exact createLeaf_fills env cur st st' hcl
  · intro cur st st' _ _ hne hchain hs
    have hge := (expandLoop_length_ge env Mode.RECURSE_SEQUENTIAL cur.depth (BVH4.N - 1) [cur]
      st.prims).1
    have hle := expandLoop_length_le env Mode.RECURSE_SEQUENTIAL cur.depth (BVH4.N - 1) [cur]
      st.prims
    simp only [List.length_singleton] at hge hle
    obtain ⟨nd, ex, h1, h2, h3⟩ := fills_of_chain cur st
      ({ st with prims := (expandLoop env Mode.RECURSE_SEQUENTIAL cur.depth (BVH4.N - 1) [cur]
          st.prims).2 } : State).allocNode.2 st' _ _
      (fun k c => rfl) rfl hchain ⟨hge, by simp only [BVH4.N] at hle ⊢; omega⟩ hs
    refine ⟨encodeNode st.nodes.length, nd :: ex, by simp [encodeNode], h1, ?_⟩
    intro e he
    rcases List.mem_cons.1 he with rfl | he
    · exact h2
    · exact h3 e he

/-- Branching factor and compaction in a sequential build. In a sequential
build that ends without error, every interior node of the arena, whether allocated by
`recurse` or by `createLeaf`, has `k` filled child slots with `1 ≤ k ≤ 4`;
they are the slots `0, .., k-1`; the slots `k, .., 3` are in the cleared
state (empty pointer, empty box), so the empty slots are at the end; and the
node is equal to its own compaction. -/
theorem nodes_filled_from_the_front (env : Env) (threadIndex numPrimitives : Nat)
    (prims : List PrimRef) (pinfo : CentGeomBBox3fa) (st' : State)
    (h : build_sequential env threadIndex numPrimitives prims pinfo = Outcome.done st') :
    ∀ nd ∈ st'.nodes, nd.bounds.length = 4 ∧ nd.children.length = 4 ∧
      ∃ k, 1 ≤ k ∧ k ≤ 4 ∧
        (∀ i, i < k → nd.children.getD i NodeRef.empty ≠ NodeRef.empty) ∧
        (∀ i, k ≤ i → i < 4 →
          nd.children.getD i NodeRef.empty = NodeRef.empty ∧
          nd.bounds.getD i BBox3fa.empty = BBox3fa.empty) ∧
        BVH4.compact nd = nd := by
  obtain ⟨ref, extra, _, hnodes, hfin⟩ := recurse_fills env threadIndex _ _ _ h
    (by simp [rootRecord, State.hasSlot])
  intro nd hnd
  rw [hnodes] at hnd
  simp only [rootRecord, initialState, writeNodes, List.nil_append] at hnd
  obtain ⟨k, hk1, hk2, ⟨h1, h2, h3, h4⟩, hc⟩ := hfin nd hnd
  exact ⟨h1, h2, k, hk1, hk2, h3, h4, hc⟩

theorem nodes_filled_from_the_front_witness :
    build_sequential (fallbackEnv Layout.triangle1 2) 0 5 (samplePrims 5)
        (scanBounds (samplePrims 5) 0 5) =
      Outcome.done (build_sequential (fallbackEnv Layout.triangle1 2) 0 5 (samplePrims 5)
        (scanBounds (samplePrims 5) 0 5)).state ∧
    (build_sequential (fallbackEnv Layout.triangle1 2) 0 5 (samplePrims 5)
        (scanBounds (samplePrims 5) 0 5)).state.nodes.length = 1 ∧
    ∀ nd ∈ (build_sequential (fallbackEnv Layout.triangle1 2) 0 5 (samplePrims 5)
        (scanBounds (samplePrims 5) 0 5)).state.nodes, BVH4.compact nd = nd :=
  ⟨Outcome.eq_done_of_isDone _ (by decide), by decide,
   fun nd hnd => by
    obtain ⟨_, _, k, _, _, _, _, hc⟩ := nodes_filled_from_the_front
      (fallbackEnv Layout.triangle1 2) 0 5 (samplePrims 5)
      (scanBounds (samplePrims 5) 0 5) _ (Outcome.eq_done_of_isDone _ (by decide)) nd hnd
    exact hc⟩

/-! ## Bounds -/

theorem vle_refl (a : Vec3fa) : Vec3fa.le a a := ⟨le_rfl, le_rfl, le_rfl⟩

theorem vle_trans {a b c : Vec3fa} (h1 : Vec3fa.le a b) (h2 : Vec3fa.le b c) :
    Vec3fa.le a c :=
  ⟨le_trans h1.1 h2.1, le_trans h1.2.1 h2.2.1, le_trans h1.2.2 h2.2.2⟩

theorem contains_refl (a : BBox3fa) : a.contains a := ⟨vle_refl _, vle_refl _⟩

theorem contains_trans {a b c : BBox3fa} (h1 : a.contains b) (h2 : b.contains c) :
    a.contains c :=
  ⟨vle_trans h1.1 h2.1, vle_trans h2.2 h1.2⟩

/-- The empty box lies in every box. -/
theorem contains_empty (a : BBox3fa) : a.contains BBox3fa.empty := by
  refine ⟨⟨?_, ?_, ?_⟩, ⟨?_, ?_, ?_⟩⟩ <;>
    simp [BBox3fa.empty, pos_inf, neg_inf]

/-- A box contains a union of two boxes exactly when it contains both. -/
theorem contains_extend_iff (x a b : BBox3fa) :
    x.contains (a.extend b) ↔ x.contains a ∧ x.contains b := by
  simp only [BBox3fa.contains, BBox3fa.extend, Vec3fa.le, Vec3fa.min, Vec3fa.max, le_min_iff,
    max_le_iff]
  tauto

theorem extend_right_comm (a b c : BBox3fa) :
    (a.extend b).extend c = (a.extend c).extend b := by
  simp only [BBox3fa.extend, Vec3fa.min, Vec3fa.max, min_right_comm _ b.lower.x,
    min_right_comm _ b.lower.y, min_right_comm _ b.lower.z, sup_right_comm _ b.upper.x,
    sup_right_comm _ b.upper.y, sup_right_comm _ b.upper.z]

/-- A box contains the union of a list of boxes, started from `acc`, exactly
when it contains `acc` and every box of the list. -/
theorem contains_foldl_iff (x : BBox3fa) (l : List BBox3fa) : ∀ acc,
    x.contains (l.foldl BBox3fa.extend acc) ↔ x.contains acc ∧ ∀ b ∈ l, x.contains b := by
  induction l with
  | nil => intro acc; simp
  | cons b l ih =>
    intro acc
    rw [List.foldl_cons, ih, contains_extend_iff]
    simp only [List.mem_cons, forall_eq_or_imp]
    tauto

/-- A box contains the union of a range exactly when it contains the box of
every primitive of the range. -/
theorem contains_rangeUnion_iff (x : BBox3fa) (P : List PrimRef) (lo hi : Nat) :
    x.contains (rangeUnion P lo hi) ↔
      ∀ i, lo ≤ i → i < hi → x.contains (primAt P i).bounds := by
  unfold rangeUnion
  rw [contains_foldl_iff]
  simp only [contains_empty, true_and, List.mem_map, List.mem_range'_1, forall_exists_index,
    and_imp]
  constructor
  · intro h i h1 h2
    exact h _ i h1 (by omega) rfl
  · intro h b i h1 h2 hb
    subst hb
    exact h i h1 (by omega)

/-- The union of a range contains the union of each range inside it. -/
theorem rangeUnion_mono (P : List PrimRef) (lo hi lo' hi' : Nat) (h1 : lo ≤ lo')
    (h2 : hi' ≤ hi) : (rangeUnion P lo hi).contains (rangeUnion P lo' hi') := by
  rw [contains_rangeUnion_iff]
  intro i hi1 hi2
  exact (contains_rangeUnion_iff _ P lo hi).1 (contains_refl _) i (by omega) (by omega)

/-- The union of a range depends on the array inside the range only. -/
theorem rangeUnion_congr (P Q : List PrimRef) (lo hi : Nat)
    (h : ∀ i, lo ≤ i → i < hi → primAt P i = primAt Q i) :
    rangeUnion P lo hi = rangeUnion Q lo hi := by
  unfold rangeUnion
  congr 1
  apply List.map_congr_left
  intro i hi'
  rw [List.mem_range'_1] at hi'
  rw [h i hi'.1 (by omega)]

/-- The geometry bounds that a scan computes are the union of the range. -/
theorem scanBounds_geomBounds (P : List PrimRef) (lo hi : Nat) :
    (scanBounds P lo hi).geomBounds = rangeUnion P lo hi := by
  unfold scanBounds rangeUnion
  rw [List.foldl_map]
  have key : ∀ (l : List Nat) (acc : CentGeomBBox3fa),
      (l.foldl (fun acc i => acc.extend (primAt P i).bounds) acc).geomBounds =
        l.foldl (fun b i => b.extend (primAt P i).bounds) acc.geomBounds := by
    intro l
    induction l with
    | nil => intro acc; rfl
    | cons i l ih => intro acc; rw [List.foldl_cons, List.foldl_cons, ih]; rfl
  exact key _ _

/-- An array split at `b` and `e`: the entries before, inside and after the
range. -/
theorem array_three_parts (P : List PrimRef) (b e : Nat) (hbe : b ≤ e) (he : e ≤ P.length) :
    P = (List.range' 0 b).map (primAt P) ++ (List.range' b (e - b)).map (primAt P) ++
      (List.range' e (P.length - e)).map (primAt P) := by
  rw [← List.map_append, ← List.map_append]
  have h1 := range'_glue 0 b e (Nat.zero_le _) hbe
  have h2 := range'_glue 0 e P.length (Nat.zero_le _) he
  simp only [Nat.sub_zero] at h1 h2
  rw [h1, h2, ← List.range_eq_range', map_primAt_range]

/-- A permutation inside a range permutes the primitives of the range. -/
theorem permWithin_slice (P P' : List PrimRef) (b e : Nat) (h : PermWithin b e P P')
    (hbe : b ≤ e) (he : e ≤ P.length) :
    ((List.range' b (e - b)).map (primAt P')).Perm ((List.range' b (e - b)).map (primAt P)) := by
  have hlen : P'.length = P.length := h.1.length_eq
  have h1 := array_three_parts P b e hbe he
  have h2 := array_three_parts P' b e hbe (by omega)
  have hA : (List.range' 0 b).map (primAt P') = (List.range' 0 b).map (primAt P) := by
    apply List.map_congr_left
    intro i hi
    rw [List.mem_range'_1] at hi
    exact h.2 i (Or.inl (by omega))
  have hC : (List.range' e (P'.length - e)).map (primAt P') =
      (List.range' e (P.length - e)).map (primAt P) := by
    rw [hlen]
    apply List.map_congr_left
    intro i hi
    rw [List.mem_range'_1] at hi
    exact h.2 i (Or.inr (by omega))
  have hp := h.1
  rw [h1, h2, hA, hC] at hp
  rw [List.append_assoc, List.append_assoc, List.perm_append_left_iff,
    List.perm_append_right_iff] at hp
  exact hp

/-- The union of a range does not change when the primitives of the range
are permuted. -/
theorem rangeUnion_perm (P P' : List PrimRef) (b e : Nat) (h : PermWithin b e P P')
    (hbe : b ≤ e) (he : e ≤ P.length) : rangeUnion P' b e = rangeUnion P b e := by
  have hs := (permWithin_slice P P' b e h hbe he).map PrimRef.bounds
  unfold rangeUnion
  have e1 : (List.range' b (e - b)).map (fun i => (primAt P' i).bounds) =
      ((List.range' b (e - b)).map (primAt P')).map PrimRef.bounds := by
    rw [List.map_map]; rfl
  have e2 : (List.range' b (e - b)).map (fun i => (primAt P i).bounds) =
      ((List.range' b (e - b)).map (primAt P)).map PrimRef.bounds := by
    rw [List.map_map]; rfl
  rw [e1, e2]
  exact List.Perm.foldl_eq' hs (fun x _ y _ z => extend_right_comm z x y) _

@[simp] theorem store_setLog (st : State) (slot : Slot) (ref : NodeRef) :
    (st.store slot ref).setLog = st.setLog := by
  unfold State.store; cases slot <;> rfl

@[simp] theorem setBounds_setLog (st : State) (n i : Nat) (c : BuildRecord) :
    (st.setBounds n i c).setLog = st.setLog ++ [(n, i, c)] := rfl

@[simp] theorem allocNode_setLog (st : State) : st.allocNode.2.setLog = st.setLog := rfl

@[simp] theorem compact_setLog (st : State) (n : Nat) : (st.compact n).setLog = st.setLog := rfl

@[simp] theorem createSmallLeaf_setLog (env : Env) (cur : BuildRecord) (st : State) :
    (createSmallLeaf env cur st).setLog = st.setLog := by
  simp [createSmallLeaf]

/-- Exactness of the stored boxes composes over a children loop: the children
have pairwise disjoint ranges and carry the unions of their ranges when the
loop starts. -/
theorem chain_exact (I : Nat → Prop) (upd : Nat → BuildRecord → BuildRecord) (node : Nat)
    (hupd : ∀ i c, (upd i c).begin = c.begin ∧ (upd i c).end_ = c.end_) :
    ∀ cs i s s',
      childChain (fun r s s' => r.within s.prims.length → I s.prims.length →
        Covers r s s' ∧ BoundsExact r s s') upd node i cs s s' →
      I s.prims.length →
      (∀ c ∈ cs, c.within s.prims.length) →
      cs.Pairwise (fun a b => ∀ i, i ∈ a.indices → i ∉ b.indices) →
      (∀ c ∈ cs, c.geomBounds = rangeUnion s.prims c.begin c.end_) →
      BoundsExactAll cs s s' := by
  intro cs
  induction cs with
  | nil =>
    intro i s s' h _ _ _ _
    simp only [childChain] at h
    subst h
    exact ⟨[], by simp, by simp⟩
  | cons c rest ih =>
    intro i s s' h hI hw hp hex
    obtain ⟨s1, hc, hrest⟩ := h
    have hwc := hw c (List.mem_cons_self _ _)
    obtain ⟨hcov, log1, hl1, hlog1⟩ := hc
      (by unfold BuildRecord.within at *; rw [(hupd i c).1, (hupd i c).2]; simpa using hwc)
      (by simpa using hI)
    rw [List.pairwise_cons] at hp
    obtain ⟨⟨hperm1, hframe1⟩, _⟩ := hcov
    rw [(hupd i c).1, (hupd i c).2] at hframe1 hlog1
    simp only [setBounds_prims] at hperm1 hframe1
    simp only [setBounds_setLog] at hl1
    have hlen : s1.prims.length = s.prims.length := hperm1.length_eq
    have hw1 : ∀ c' ∈ rest, c'.within s1.prims.length := fun c' hc' => by
      rw [hlen]; exact hw c' (List.mem_cons_of_mem _ hc')
    have hall := chain_covers I upd node hupd rest (i + 1) s1 s'
      (childChain_imp _ _ upd node rest (i + 1) s1 s'
        (fun k c' a b _ hP hwi hIi => (hP hwi hIi).1) hrest)
      (by rw [hlen]; exact hI) hw1 hp.2
    obtain ⟨_, hframe2, _⟩ := hall
    have hdisj : ∀ j, c.begin ≤ j → j < c.end_ → primAt s'.prims j = primAt s1.prims j := by
      intro j hj1 hj2
      apply hframe2
      intro c' hc' hjc'
      exact hp.1 c' hc' j (by rw [mem_indices]; omega) (by rw [mem_indices]; exact hjc')
    obtain ⟨log2, hl2, hlog2⟩ := ih (i + 1) s1 s' hrest (by rw [hlen]; exact hI) hw1 hp.2
      (fun c' hc' => by
        rw [hex c' (List.mem_cons_of_mem _ hc')]
        symm
        apply rangeUnion_congr
        intro j hj1 hj2
        apply hframe1
        have := hp.1 c' hc' j
        simp only [mem_indices] at this
        by_contra hcon
        exact this (by omega) ⟨hj1, hj2⟩)
    refine ⟨(node, i, c) :: log1 ++ log2, by rw [hl2, hl1]; simp, ?_⟩
    intro e he
    simp only [List.cons_append, List.mem_cons, List.mem_append] at he
    rcases he with rfl | he | he
    · refine ⟨hwc.1, ⟨c, List.mem_cons_self _ _, le_refl _, le_refl _⟩, ?_⟩
      simp only
      rw [rangeUnion_congr s'.prims s1.prims _ _ hdisj,
        rangeUnion_perm s.prims s1.prims _ _ ⟨hperm1, hframe1⟩ hwc.1 hwc.2]
      exact hex c (List.mem_cons_self _ _)
    · obtain ⟨a1, a2, a3, a4⟩ := hlog1 e he
      refine ⟨a1, ⟨c, List.mem_cons_self _ _, a2, a3⟩, ?_⟩
      rw [a4]
      symm
      apply rangeUnion_congr
      intro j hj1 hj2
      exact hdisj j (by omega) (by omega)
    · obtain ⟨a1, ⟨c', hc', a2, a3⟩, a4⟩ := hlog2 e he
      exact ⟨a1, ⟨c', List.mem_cons_of_mem _ hc', a2, a3⟩, a4⟩

/-- From the children of a node to the node, for the stored boxes. -/
theorem exact_of_exactAll (cur : BuildRecord) (cs : List BuildRecord) (s0 s s' : State)
    (hall : BoundsExactAll cs s s')
    (hin : ∀ c ∈ cs, cur.begin ≤ c.begin ∧ c.end_ ≤ cur.end_)
    (hlog : s.setLog = s0.setLog) : BoundsExact cur s0 s' := by
  obtain ⟨log, hl, hlog'⟩ := hall
  refine ⟨log, by rw [hl, hlog], ?_⟩
  intro e he
  obtain ⟨a1, ⟨c, hc, a2, a3⟩, a4⟩ := hlog' e he
  have := hin c hc
  exact ⟨a1, by omega, by omega, a4⟩

theorem splitFallback_fst_geomBounds (P : List PrimRef) (r : BuildRecord) :
    (splitFallback P r).1.geomBounds =
      rangeUnion P (splitFallback P r).1.begin (splitFallback P r).1.end_ := by
  rw [← scanBounds_geomBounds]; rfl

theorem splitFallback_snd_geomBounds (P : List PrimRef) (r : BuildRecord) :
    (splitFallback P r).2.geomBounds =
      rangeUnion P (splitFallback P r).2.begin (splitFallback P r).2.end_ := by
  rw [← scanBounds_geomBounds]; rfl

/-- `createLeaf` covers its record and stores exact boxes, with no assumption
on the splitter: its children come from the median fallback. -/
theorem createLeaf_exact (env : Env) (cur : BuildRecord) (st st' : State)
    (h : createLeaf env cur st = Outcome.done st') :
    (cur.begin ≤ cur.end_ ∨ 2 ^ 64 ≤ cur.begin + env.minLeafSize) ∧
    (cur.within st.prims.length → cur.end_ + env.minLeafSize < 2 ^ 64 →
      Covers cur st st' ∧ BoundsExact cur st st') := by
  refine createLeaf_induct env
    (fun cur st st' => (cur.begin ≤ cur.end_ ∨ 2 ^ 64 ≤ cur.begin + env.minLeafSize) ∧
      (cur.within st.prims.length → cur.end_ + env.minLeafSize < 2 ^ 64 →
        Covers cur st st' ∧ BoundsExact cur st st'))
    ?_ ?_ cur st st' h
  · intro cur st _ hs
    constructor
    · by_cases hbe : cur.begin ≤ cur.end_
      · exact Or.inl hbe
      · right
        rw [size_of_lt cur (by omega)] at hs
        omega
    · intro hw _
      exact ⟨createSmallLeaf_covers env cur st hw.1, [], by simp, by simp⟩
  · intro cur st s' _ _ hchain
    have hkids := childChain_forall _ _ _ _ _ _ _ hchain
    have hwf : ∀ c ∈ fallbackChildren st.prims cur,
        c.begin ≤ c.end_ ∨ 2 ^ 64 ≤ c.begin + env.minLeafSize := by
      intro c hc
      obtain ⟨k, s1, s2, hP⟩ := hkids c hc
      exact hP.1
    constructor
    · by_cases hbe : cur.begin ≤ cur.end_
      · exact Or.inl hbe
      · right
        have h0 := hwf (splitFallback st.prims (splitFallback st.prims cur).1).1
          (by simp [fallbackChildren])
        simp only [splitFallback_fst_begin, splitFallback_fst_end] at h0
        have h1 := center_lt_begin cur (by omega)
        have h2 := center_lt_begin (splitFallback st.prims cur).1 (by simp; omega)
        simp only [splitFallback_fst_begin] at h2
        omega
    · intro hw hm
      obtain ⟨htile, hidx⟩ := fallbackChildren_tile st.prims cur env.minLeafSize hw.1 hm hwf
      have hchain' := childChain_imp _
        (fun r s s' => r.within s.prims.length → True → Covers r s s' ∧ BoundsExact r s s')
        _ _ _ _ _ _
        (fun k c s1 s2 hc hP hwithin _ => hP.2 hwithin (by
          have := (htile c hc).2.2
          simp only
          omega)) hchain
      have hwithin : ∀ c ∈ fallbackChildren st.prims cur,
          c.within (st.allocNode.2.store cur.parent (encodeNode st.nodes.length)).prims.length := by
        intro c hc
        have := htile c hc
        simp only [store_prims, allocNode_prims]
        exact ⟨this.1, by have := hw.2; omega⟩
      have hpair := pairwise_disjoint_of_perm (fallbackChildren st.prims cur) cur (by rw [hidx])
      have hall := chain_covers (fun _ => True)
        (fun i c => { c with parent := Slot.child st.nodes.length i, depth := cur.depth + 1 })
        st.nodes.length (fun i c => ⟨rfl, rfl⟩) _ _ _ _
        (childChain_imp _ _ _ _ _ _ _ _ (fun k c a b _ hP hwi hIi => (hP hwi hIi).1) hchain')
        trivial hwithin hpair
      have hexall := chain_exact (fun _ => True)
        (fun i c => { c with parent := Slot.child st.nodes.length i, depth := cur.depth + 1 })
        st.nodes.length (fun i c => ⟨rfl, rfl⟩) _ _ _ _ hchain' trivial hwithin hpair
        (by
          intro c hc
          simp only [store_prims, allocNode_prims]
          simp only [fallbackChildren, List.mem_cons, List.mem_singleton, List.not_mem_nil,
            or_false] at hc
          rcases hc with rfl | rfl | rfl | rfl
          · exact splitFallback_fst_geomBounds _ _
          · exact splitFallback_snd_geomBounds _ _
          · exact splitFallback_fst_geomBounds _ _
          · exact splitFallback_snd_geomBounds _ _)
      have hcov := covers_of_coversAll cur _ st _ _ hall
        (fun c hc => (htile c hc).2) (by rw [hidx])
        (by simp only [store_prims, allocNode_prims]; exact permWithin_refl _ _ _)
        (by simp)
      have hex := exact_of_exactAll cur _ st _ _ hexall (fun c hc => (htile c hc).2) (by simp)
      obtain ⟨hp, new, hl, hnew, hsnap⟩ := hcov
      obtain ⟨log, hlog, hlog'⟩ := hex
      exact ⟨⟨by simpa using hp, new, by simpa using hl, hnew, by simpa using hsnap⟩,
        log, by simpa using hlog, by simpa using hlog'⟩

/-- After the expansion loop of a sequential `recurse`, with a splitter that
stays inside the range it is given and returns exact bounds: the children
tile the range of `cur`, and either no split was made or every child carries
the union of its range in the array the loop leaves. -/
theorem expandLoop_exact (env : Env) (n : Nat) (hsplit : SplitsWithinRange env n)
    (hexact : SplitsWithExactBounds env n)
    (cur : BuildRecord) (P0 : List PrimRef) (hlen : P0.length = n) (hw : cur.within n) :
    (expandLoop env Mode.RECURSE_SEQUENTIAL cur.depth (BVH4.N - 1) [cur] P0).1 = [cur] ∨
    ∀ c ∈ (expandLoop env Mode.RECURSE_SEQUENTIAL cur.depth (BVH4.N - 1) [cur] P0).1,
      c.geomBounds = rangeUnion
        (expandLoop env Mode.RECURSE_SEQUENTIAL cur.depth (BVH4.N - 1) [cur] P0).2
        c.begin c.end_ := by
  have key := expandLoop_induct env Mode.RECURSE_SEQUENTIAL cur.depth
    (fun cs P => (P.length = n ∧
      (∀ c ∈ cs, c.begin ≤ c.end_ ∧ cur.begin ≤ c.begin ∧ c.end_ ≤ cur.end_) ∧
      (cs.flatMap BuildRecord.indices).Perm cur.indices) ∧
      (cs = [cur] ∨ ∀ c ∈ cs, c.geomBounds = rangeUnion P c.begin c.end_))
    (by
      intro cs P j hQ _ hj hsz hl
      obtain ⟨⟨hPlen, hin, hidx⟩, hcase⟩ := hQ
      rw [split_sequential]
      have hmem := getD_mem cs j hj
      have hcj := hin _ hmem
      have hwj : (cs.getD j BuildRecord.blank).within n := ⟨hcj.1, by have := hw.2; omega⟩
      obtain ⟨h1, h2, h3, h4, h5, h6⟩ := hsplit P (cs.getD j BuildRecord.blank) hPlen hwj hsz
      obtain ⟨e1, e2⟩ := hexact P (cs.getD j BuildRecord.blank) hPlen hwj hsz
      obtain ⟨rest, hp1, hp2⟩ := placeChildren_perm cs j
        ((splitSequential env P (cs.getD j BuildRecord.blank)).2.1.initDepth (cur.depth + 1))
        ((splitSequential env P (cs.getD j BuildRecord.blank)).2.2.initDepth (cur.depth + 1))
        hj hl
      have hpair := pairwise_disjoint_of_perm (cs.getD j BuildRecord.blank :: rest) cur
        ((hp1.flatMap_right _).symm.trans hidx)
      rw [List.pairwise_cons] at hpair
      refine ⟨⟨by rw [h6.1.length_eq, hPlen], ?_, ?_⟩, Or.inr ?_⟩
      · intro c hc
        have hc' := hp2.mem_iff.1 hc
        simp only [List.mem_cons] at hc'
        rcases hc' with rfl | rfl | hc'
        · simp only [BuildRecord.initDepth]; omega
        · simp only [BuildRecord.initDepth]; omega
        · exact hin c (hp1.mem_iff.2 (List.mem_cons_of_mem _ hc'))
      · refine (hp2.flatMap_right _).trans
          (List.Perm.trans ?_ ((hp1.flatMap_right _).symm.trans hidx))
        simp only [List.flatMap_cons, ← List.append_assoc]
        apply List.Perm.append_right
        have : ((splitSequential env P (cs.getD j BuildRecord.blank)).2.1.initDepth
              (cur.depth + 1)).indices ++
            ((splitSequential env P (cs.getD j BuildRecord.blank)).2.2.initDepth
              (cur.depth + 1)).indices = (cs.getD j BuildRecord.blank).indices := by
          simp only [BuildRecord.indices, BuildRecord.initDepth]
          rw [h1, ← h2, h3]
          exact range'_glue _ _ _ h4 h5
        rw [this]
      · intro c hc
        have hc' := hp2.mem_iff.1 hc
        simp only [List.mem_cons] at hc'
        rcases hc' with rfl | rfl | hc'
        · exact e1
        · exact e2
        · rcases hcase with hcase | hcase
          · subst hcase
            have := hp1.length_eq
            simp only [List.length_cons, List.length_nil] at this
            have : rest = [] := List.eq_nil_of_length_eq_zero (by omega)
            subst this
            simp at hc'
          · rw [hcase c (hp1.mem_iff.2 (List.mem_cons_of_mem _ hc'))]
            symm
            apply rangeUnion_congr
            intro i hi1 hi2
            apply h6.2
            have := hpair.1 c hc' i
            simp only [mem_indices] at this
            by_contra hcon
            exact this (by omega) ⟨hi1, hi2⟩)
    (BVH4.N - 1) [cur] P0 (by simp [BVH4.N])
    ⟨⟨hlen, by
      intro c hc
      simp only [List.mem_singleton] at hc
      subst hc
      exact ⟨hw.1, le_refl _, le_refl _⟩, by simp⟩, Or.inl rfl⟩
  exact key.2

/-- A sequential `recurse` call that ends normally covers its record and
stores exact boxes, for a splitter that stays inside the range it is given
and returns exact bounds. -/
theorem recurse_exact (env : Env) (threadID n : Nat) (hsplit : SplitsWithinRange env n)
    (hexact : SplitsWithExactBounds env n)
    (hn : n + env.minLeafSize < 2 ^ 64) (cur : BuildRecord) (st st' : State)
    (h : recurse env threadID Mode.RECURSE_SEQUENTIAL cur st = Outcome.done st') :
    cur.within st.prims.length → st.prims.length = n →
      Covers cur st st' ∧ BoundsExact cur st st' := by
  refine recurse_seq_induct env threadID
    (fun cur st st' => cur.within st.prims.length → st.prims.length = n →
      Covers cur st st' ∧ BoundsExact cur st st')
    ?_ ?_ cur st st' h
  · intro cur st st' hcl hw hlen
    exact (createLeaf_exact env cur st st' hcl).2 hw (by have := hw.2; omega)
  · intro cur st st' _ _ hne hchain hw hlen
    rw [hlen] at hw
    obtain ⟨hPW, hin, hidx⟩ := expandLoop_tiles env n hsplit cur st.prims hlen hw
    have hex := (expandLoop_exact env n hsplit hexact cur st.prims hlen hw).resolve_left
      (fun heq => hne (by rw [heq]; rfl))
    have hlen' : (expandLoop env Mode.RECURSE_SEQUENTIAL cur.depth (BVH4.N - 1) [cur]
        st.prims).2.length = n := by rw [hPW.1.length_eq, hlen]
    have hwithin : ∀ c ∈ (expandLoop env Mode.RECURSE_SEQUENTIAL cur.depth (BVH4.N - 1) [cur]
        st.prims).1, c.within
          ((({ st with prims := (expandLoop env Mode.RECURSE_SEQUENTIAL cur.depth (BVH4.N - 1)
            [cur] st.prims).2 } : State).allocNode.2).store cur.parent
              (encodeNode st.nodes.length)).prims.length := by
      intro c hc
      have := hin c hc
      simp only [store_prims, allocNode_prims, hlen']
      exact ⟨this.1, by have := hw.2; omega⟩
    have hpair := pairwise_disjoint_of_perm _ cur hidx
    have hall := chain_covers (fun k => k = n)
      (fun i c => { c with parent := Slot.child st.nodes.length i })
      st.nodes.length (fun i c => ⟨rfl, rfl⟩) _ _ _ _
      (childChain_imp _ _ _ _ _ _ _ _ (fun k c a b _ hP hwi hIi => (hP hwi hIi).1) hchain)
      (by simpa using hlen') hwithin hpair
    have hexall := chain_exact (fun k => k = n)
      (fun i c => { c with parent := Slot.child st.nodes.length i })
      st.nodes.length (fun i c => ⟨rfl, rfl⟩) _ _ _ _ hchain
      (by simpa using hlen') hwithin hpair
      (by intro c hc; simp only [store_prims, allocNode_prims]; exact hex c hc)
    exact ⟨covers_of_coversAll cur _ st _ _ hall (fun c hc => (hin c hc).2) hidx
        (by simpa using hPW) (by simp),
      exact_of_exactAll cur _ st _ _ hexall (fun c hc => (hin c hc).2) (by simp)⟩

/-- From coverage and exactness to soundness: every stored box is the union
of its range, contains the box of every primitive of every leaf inside its
range, and contains every box stored for a range inside its range. -/
theorem sound_of_exact (cur : BuildRecord) (st st' : State) (hc : Covers cur st st')
    (he : BoundsExact cur st st') :
    ∃ leaves log, st'.leafCalls = st.leafCalls ++ leaves ∧ st'.setLog = st.setLog ++ log ∧
      ∀ e ∈ log,
        e.2.2.geomBounds = rangeUnion st'.prims e.2.2.begin e.2.2.end_ ∧
        (∀ l ∈ leaves, e.2.2.begin ≤ l.1.begin → l.1.end_ ≤ e.2.2.end_ →
          ∀ p ∈ l.2, e.2.2.geomBounds.contains p.bounds) ∧
        (∀ e' ∈ log, e.2.2.begin ≤ e'.2.2.begin → e'.2.2.end_ ≤ e.2.2.end_ →
          e.2.2.geomBounds.contains e'.2.2.geomBounds) := by
  obtain ⟨_, leaves, hl, _, hsnap⟩ := hc
  obtain ⟨log, hlog, hex⟩ := he
  refine ⟨leaves, log, hl, hlog, ?_⟩
  intro e hel
  have hee := (hex e hel).2.2.2
  refine ⟨hee, ?_, ?_⟩
  · intro l hll h1 h2 p hp
    rw [(hsnap l hll).1] at hp
    simp only [BuildRecord.primsOf, List.mem_map, mem_indices] at hp
    obtain ⟨i, hi, rfl⟩ := hp
    rw [hee]
    exact (contains_rangeUnion_iff _ _ _ _).1 (contains_refl _) i (by omega) (by omega)
  · intro e' he' h1 h2
    rw [hee, (hex e' he').2.2.2]
    exact rangeUnion_mono _ _ _ _ _ h1 h2

/-- The median fallback returns exact bounds. -/
theorem fallbackEnv_exactBounds (layout : Layout) (m n : Nat) :
    SplitsWithExactBounds (fallbackEnv layout m) n := by
  intro P r _ _ _
  exact ⟨splitFallback_fst_geomBounds P r, splitFallback_snd_geomBounds P r⟩

/-! ## The recursion budget is never used up -/

/-- A children loop does not end with an error that no call ends with. -/
theorem forChildren_error_ne (body : Nat → BuildRecord → State → Outcome) (e : Err)
    (cs : List BuildRecord) (h : ∀ i c s, c ∈ cs → (body i c s).error ≠ some e) :
    ∀ i st, (forChildren body i cs st).error ≠ some e := by
  induction cs with
  | nil => intro i st; simp [forChildren, Outcome.error]
  | cons c cs ih =>
    intro i st
    rw [forChildren_cons]
    have hc := h i c st (List.mem_cons_self _ _)
    cases hb : body i c st with
    | done s1 => exact ih (fun i c s hm => h i c s (List.mem_cons_of_mem _ hm)) _ _
    | fail e1 s1 => rw [hb] at hc; exact hc

/-- `createLeaf` never runs out of its budget: with more fuel than
`maxBuildDepthLeaf + 1 - depth` the call ends normally or with the depth
limit error. -/
theorem createLeafF_fuel (env : Env) : ∀ fuel cur st,
    env.maxBuildDepthLeaf + 1 - cur.depth < fuel →
    (createLeafF env fuel cur st).error ≠ some Err.outOfFuel := by
  intro fuel
  induction fuel with
  | zero => intro cur st h; omega
  | succ fuel ih =>
    intro cur st hf
    rw [createLeafF_unfold]
    by_cases hd : cur.depth > env.maxBuildDepthLeaf
    · rw [if_pos hd]; simp [Outcome.error]
    · rw [if_neg hd]
      by_cases hs : cur.size ≤ env.minLeafSize
      · rw [if_pos hs]; simp [Outcome.error]
      · rw [if_neg hs]
        have := forChildren_error_ne (fun i c s =>
            createLeafF env fuel
              { c with parent := Slot.child st.allocNode.1 i, depth := cur.depth + 1 }
              (s.setBounds st.allocNode.1 i c)) Err.outOfFuel
          [(splitFallback st.prims (splitFallback st.prims cur).1).1,
           (splitFallback st.prims (splitFallback st.prims cur).1).2,
           (splitFallback st.prims (splitFallback st.prims cur).2).1,
           (splitFallback st.prims (splitFallback st.prims cur).2).2]
          (fun i c s _ => ih _ _ (by simp only; omega)) 0
          (st.allocNode.2.store cur.parent (encodeNode st.allocNode.1))
        revert this
        cases forChildren (fun i c s =>
            createLeafF env fuel
              { c with parent := Slot.child st.allocNode.1 i, depth := cur.depth + 1 }
              (s.setBounds st.allocNode.1 i c)) 0
          [(splitFallback st.prims (splitFallback st.prims cur).1).1,
           (splitFallback st.prims (splitFallback st.prims cur).1).2,
           (splitFallback st.prims (splitFallback st.prims cur).2).1,
           (splitFallback st.prims (splitFallback st.prims cur).2).2]
          (st.allocNode.2.store cur.parent (encodeNode st.allocNode.1)) with
        | done s3 => intro _; simp [Outcome.error]
        | fail e s3 => intro h3; simpa [Outcome.error] using h3

theorem createLeaf_fuel (env : Env) (cur : BuildRecord) (st : State) :
    (createLeaf env cur st).error ≠ some Err.outOfFuel :=
  createLeafF_fuel env _ cur st (by omega)

/-- `recurse` never runs out of its budget, in any mode: with more fuel than
`maxBuildDepth - depth` the call ends normally or with the depth limit
error. -/
theorem recurseF_fuel (env : Env) (threadID : Nat) : ∀ fuel mode cur st,
    env.maxBuildDepth - cur.depth < fuel →
    (recurseF env threadID fuel mode cur st).error ≠ some Err.outOfFuel := by
  intro fuel
  induction fuel with
  | zero => intro mode cur st h; omega
  | succ fuel ih =>
    intro mode cur st hf
    rw [recurseF_unfold]
    simp only
    split
    · exact createLeaf_fuel env _ _
    · rename_i hc
      split
      · exact createLeaf_fuel env _ _
      · apply forChildren_error_ne
        intro i c s hcm
        have hd := (expandLoop_depth env mode cur st.prims).resolve_left
          (fun heq => by
            rename_i hne
            exact hne (by rw [heq]; rfl))
        have hdc := hd c hcm
        unfold recurse_continue
        split
        · simp [Outcome.error]
        · split
          · split
            · simp [Outcome.error]
            · exact ih _ _ _ (by simp only; omega)
          · exact ih _ _ _ (by simp only; omega)

theorem recurse_fuel (env : Env) (threadID : Nat) (mode : Mode) (cur : BuildRecord)
    (st : State) : (recurse env threadID mode cur st).error ≠ some Err.outOfFuel :=
  recurseF_fuel env threadID _ mode cur st (by omega)

/-! ## The indexed leaf layout -/

theorem tri4iStep_wide (scene : Scene) (prims : List PrimRef) (start : Nat) (t : Triangle4i)
    (n : Nat) (h : t.wide) : (tri4iStep scene prims start t n).wide := by
  unfold Triangle4i.wide at *
  simp only [tri4iStep, List.length_set]
  exact h

theorem tri4iPad_wide (t : Triangle4i) (n : Nat) (h : t.wide) : (tri4iPad t n).wide := by
  unfold Triangle4i.wide at *
  simp only [tri4iPad, List.length_set]
  exact h

theorem tri4iStep_slot (scene : Scene) (prims : List PrimRef) (start : Nat) (t : Triangle4i)
    (n i : Nat) (h : t.wide) :
    (tri4iStep scene prims start t n).slot i =
      if n = i ∧ n < 4 then tri4iSlot scene (primAt prims (start + n)) else t.slot i := by
  obtain ⟨h1, h2, h3, h4, h5⟩ := h
  simp only [tri4iStep, Triangle4i.slot, List.getD_eq_getElem?_getD, getElem?_set_getD,
    h1, h2, h3, h4, h5]
  by_cases hc : n = i ∧ n < 4
  · simp only [if_pos hc, tri4iSlot]
  · simp only [if_neg hc]

theorem tri4iPad_slot (t : Triangle4i) (n i : Nat) (h : t.wide) :
    (tri4iPad t n).slot i =
      if n = i ∧ n < 4 then (t.v0.getD 0 0, 0, 0, -1, -1) else t.slot i := by
  obtain ⟨h1, h2, h3, h4, h5⟩ := h
  simp only [tri4iPad, Triangle4i.slot, List.getD_eq_getElem?_getD, getElem?_set_getD,
    h1, h2, h3, h4, h5]
  by_cases hc : n = i ∧ n < 4
  · simp only [if_pos hc]
  · simp only [if_neg hc]

theorem tri4iLoaded_succ (scene : Scene) (prims : List PrimRef) (start n : Nat) :
    tri4iLoaded scene prims start (n + 1) =
      tri4iStep scene prims start (tri4iLoaded scene prims start n) n := by
  simp only [tri4iLoaded, List.range_succ, List.foldl_append, List.foldl_cons, List.foldl_nil]

theorem tri4iLoaded_wide (scene : Scene) (prims : List PrimRef) (start n : Nat) :
    (tri4iLoaded scene prims start n).wide := by
  induction n with
  | zero => simp [tri4iLoaded, Triangle4i.wide]
  | succ n ih => rw [tri4iLoaded_succ]; exact tri4iStep_wide _ _ _ _ _ ih

theorem tri4iLoaded_zero_slot (scene : Scene) (prims : List PrimRef) (start i : Nat)
    (hi : i < 4) : (tri4iLoaded scene prims start 0).slot i = (0, 0, 0, -1, -1) := by
  simp only [tri4iLoaded, List.range_zero, List.foldl_nil, Triangle4i.slot,
    List.getD_eq_getElem?_getD, List.getElem?_replicate, hi, if_true, Option.getD_some]

/-- After `n` rounds of the first loop, slot `i < n` holds what was read for
primitive `start + i` and the other slots hold their initial values. -/
theorem tri4iLoaded_slot (scene : Scene) (prims : List PrimRef) (start : Nat) :
    ∀ n i, n ≤ 4 → i < 4 →
    (tri4iLoaded scene prims start n).slot i =
      if i < n then tri4iSlot scene (primAt prims (start + i)) else (0, 0, 0, -1, -1) := by
  intro n
  induction n with
  | zero => intro i _ hi; rw [tri4iLoaded_zero_slot _ _ _ _ hi]; simp
  | succ n ih =>
    intro i hn hi
    rw [tri4iLoaded_succ, tri4iStep_slot _ _ _ _ _ _ (tri4iLoaded_wide _ _ _ _)]
    by_cases hc : n = i
    · subst hc
      have h1 : n = n ∧ n < 4 := ⟨rfl, hi⟩
      have h2 : n < n + 1 := by omega
      rw [if_pos h1, if_pos h2]
    · have h1 : ¬ (n = i ∧ n < 4) := by tauto
      rw [if_neg h1, ih i (by omega) hi]
      by_cases h2 : i < n
      · have h3 : i < n + 1 := by omega
        rw [if_pos h2, if_pos h3]
      · have h3 : ¬ i < n + 1 := by omega
        rw [if_neg h2, if_neg h3]

/-- The second loop over the slots `s, .., s + k - 1`, none of them slot 0:
these slots get the address of slot 0, zero offsets and ids `-1`; the other
slots keep their values. -/
theorem tri4iPad_fold (k : Nat) : ∀ (s : Nat) (t : Triangle4i), t.wide → 1 ≤ s →
    ((List.range' s k).foldl tri4iPad t).wide ∧
    ∀ i, ((List.range' s k).foldl tri4iPad t).slot i =
      if s ≤ i ∧ i < s + k ∧ i < 4 then (t.v0.getD 0 0, 0, 0, -1, -1) else t.slot i := by
  induction k with
  | zero =>
    intro s t hw _
    refine ⟨hw, fun i => ?_⟩
    have : ¬ (s ≤ i ∧ i < s + 0 ∧ i < 4) := by omega
    rw [if_neg this]
    rfl
  | succ k ih =>
    intro s t hw hs
    have hw1 := tri4iPad_wide t s hw
    obtain ⟨h1, h2⟩ := ih (s + 1) (tri4iPad t s) hw1 (by omega)
    have h0 : (tri4iPad t s).v0.getD 0 0 = t.v0.getD 0 0 := by
      have h3 := tri4iPad_slot t s 0 hw
      have h4 : ¬ (s = 0 ∧ s < 4) := by omega
      rw [if_neg h4] at h3
      exact congrArg Prod.fst h3
    refine ⟨h1, fun i => ?_⟩
    show ((List.range' (s + 1) k).foldl tri4iPad (tri4iPad t s)).slot i = _
    rw [h2 i, h0, tri4iPad_slot t s i hw]
    by_cases ha : s + 1 ≤ i ∧ i < s + 1 + k ∧ i < 4
    · have hb : s ≤ i ∧ i < s + (k + 1) ∧ i < 4 := by omega
      rw [if_pos ha, if_pos hb]
    · rw [if_neg ha]
      by_cases hc : s = i ∧ s < 4
      · have hb : s ≤ i ∧ i < s + (k + 1) ∧ i < 4 := by omega
        rw [if_pos hc, if_pos hb]
      · have hb : ¬ (s ≤ i ∧ i < s + (k + 1) ∧ i < 4) := by omega
        rw [if_neg hc, if_neg hb]

theorem tri4iFill_eq (scene : Scene) (prims : List PrimRef) (start items : Nat) :
    tri4iFill scene prims start items =
      (List.range' items (4 - items)).foldl tri4iPad (tri4iLoaded scene prims start items) :=
  rfl

/-- The slots of the `Triangle4i` locals after both loops. -/
theorem tri4iFill_slots (scene : Scene) (prims : List PrimRef) (start items : Nat)
    (h1 : 1 ≤ items) (h4 : items ≤ 4) :
    (tri4iFill scene prims start items).wide ∧
    (∀ i, i < items → (tri4iFill scene prims start items).slot i =
      tri4iSlot scene (primAt prims (start + i))) ∧
    (∀ i, items ≤ i → i < 4 → (tri4iFill scene prims start items).slot i =
      ((tri4iFill scene prims start items).v0.getD 0 0, 0, 0, -1, -1)) := by
  rw [tri4iFill_eq]
  obtain ⟨hw, hs⟩ := tri4iPad_fold (4 - items) items (tri4iLoaded scene prims start items)
    (tri4iLoaded_wide _ _ _ _) h1
  have h0 := hs 0
  have hn0 : ¬ (items ≤ 0 ∧ 0 < items + (4 - items) ∧ 0 < 4) := by omega
  rw [if_neg hn0] at h0
  have h00 := congrArg Prod.fst h0
  refine ⟨hw, ?_, ?_⟩
  · intro i hi
    have hn : ¬ (items ≤ i ∧ i < items + (4 - items) ∧ i < 4) := by omega
    rw [hs i, if_neg hn, tri4iLoaded_slot _ _ _ items i h4 (by omega), if_pos hi]
  · intro i hi hi4
    have hp : items ≤ i ∧ i < items + (4 - items) ∧ i < 4 := by omega
    rw [hs i, if_pos hp]
    exact congrArg (fun x => (x, (0 : Int), (0 : Int), (-1 : Int), (-1 : Int))) h00.symm

theorem intOffset_of_fits (p q : Int) (hd : (4 : Int) ∣ p - q)
    (lo : -2 ^ 31 ≤ (p - q) / 4) (hi : (p - q) / 4 < 2 ^ 31) :
    intOffset p q = (p - q) / 4 ∧ q + 4 * intOffset p q = p := by
  unfold intOffset
  have h1 : ((p - q) / 4 + 2 ^ 31) % 2 ^ 32 = (p - q) / 4 + 2 ^ 31 :=
    Int.emod_eq_of_lt (by omega) (by omega)
  rw [h1]
  constructor
  · omega
  · have := Int.mul_ediv_cancel' hd
    omega

theorem vertexPtr_sub (m : TriangleMesh) (a b : Nat) :
    m.vertexPtr a - m.vertexPtr b = 4 * (4 * ((a : Int) - (b : Int))) := by
  unfold TriangleMesh.vertexPtr
  simp only [Int.ofNat_eq_coe]
  ring

/-- C11. For the `Triangle4i` layout and a record of `items` primitives,
`1 ≤ items ≤ 4`, `createSmallLeaf` appends one record with four slots to the
primitive arena and stores `encodeLeaf(record, 1)` through `current.parent`.
For a filled slot `i < items`, with `tri` the triangle of `prims[begin+i]` in
its mesh: `v0[i]` is the address of `vertex(tri.v[0])`; `geomID[i]` and
`primID[i]` are the ids as 32-bit lanes; `v1[i]` and `v2[i]` are the
distances in 4-byte ints from `v0[i]` to `vertex(tri.v[1])` and
`vertex(tri.v[2])` narrowed to 32 bits, so that, whenever the distance fits
in a signed 32-bit int, the lane is that distance and `v0[i] + 4 * v1[i]`
(the byte address `(int*) v0[i] + v1[i]`) is the address of the vertex, and
likewise for `v2`. For an unused slot `i ≥ items`: `geomID[i] = primID[i] =
-1`, `v0[i] = v0[0]` and both offsets are 0. -/
theorem createSmallLeaf_triangle4i_packing (env : Env) (current : BuildRecord) (st : State)
    (hl : env.layout = Layout.triangle4i) (h1 : 1 ≤ current.size) (h4 : current.size ≤ 4) :
    ∃ t, (createSmallLeaf env current st).leaves = st.leaves ++ [LeafBlock.tri4i t] ∧
      (createSmallLeaf env current st).writes =
        st.writes ++ [(current.parent, encodeLeaf st.leaves.length 1)] ∧
      t.wide ∧
      (∀ i, i < current.size →
        let p := primAt st.prims (current.begin + i)
        let mesh := env.scene.getTriangleMesh p.geomID
        let tri := mesh.triangle p.primID
        t.v0.getD i 0 = mesh.vertexPtr tri.v0 ∧
        t.geomID.getD i 0 = toInt32 p.geomID ∧
        t.primID.getD i 0 = toInt32 p.primID ∧
        t.v1.getD i 0 = intOffset (mesh.vertexPtr tri.v1) (t.v0.getD i 0) ∧
        t.v2.getD i 0 = intOffset (mesh.vertexPtr tri.v2) (t.v0.getD i 0) ∧
        (-2 ^ 31 ≤ (mesh.vertexPtr tri.v1 - t.v0.getD i 0) / 4 ∧
          (mesh.vertexPtr tri.v1 - t.v0.getD i 0) / 4 < 2 ^ 31 →
          t.v1.getD i 0 = (mesh.vertexPtr tri.v1 - t.v0.getD i 0) / 4 ∧
          t.v0.getD i 0 + 4 * t.v1.getD i 0 = mesh.vertexPtr tri.v1) ∧
        (-2 ^ 31 ≤ (mesh.vertexPtr tri.v2 - t.v0.getD i 0) / 4 ∧
          (mesh.vertexPtr tri.v2 - t.v0.getD i 0) / 4 < 2 ^ 31 →
          t.v2.getD i 0 = (mesh.vertexPtr tri.v2 - t.v0.getD i 0) / 4 ∧
          t.v0.getD i 0 + 4 * t.v2.getD i 0 = mesh.vertexPtr tri.v2)) ∧
      (∀ i, current.size ≤ i → i < 4 →
        t.geomID.getD i 0 = -1 ∧ t.primID.getD i 0 = -1 ∧
        t.v0.getD i 0 = t.v0.getD 0 0 ∧ t.v1.getD i 0 = 0 ∧ t.v2.getD i 0 = 0) := by
  obtain ⟨hw, hf, hp⟩ := tri4iFill_slots env.scene st.prims current.begin current.size h1 h4
  refine ⟨tri4iFill env.scene st.prims current.begin current.size, ?_, ?_, hw, ?_, ?_⟩
  · rw [createSmallLeaf_leaves]; simp only [leafBlock, hl]
  · rw [createSmallLeaf_writes]; simp only [leafBlock, hl]
  · intro i hi
    have h := hf i hi
    simp only [Triangle4i.slot, tri4iSlot, Prod.mk.injEq] at h
    obtain ⟨e0, e1, e2, e3, e4⟩ := h
    intro p mesh tri
    have d1 : (4 : Int) ∣ mesh.vertexPtr tri.v1 - mesh.vertexPtr tri.v0 :=
      ⟨_, vertexPtr_sub mesh tri.v1 tri.v0⟩
    have d2 : (4 : Int) ∣ mesh.vertexPtr tri.v2 - mesh.vertexPtr tri.v0 :=
      ⟨_, vertexPtr_sub mesh tri.v2 tri.v0⟩
    rw [e1, e2, e0]
    refine ⟨rfl, e3, e4, rfl, rfl, ?_, ?_⟩
    · intro hfit
      exact intOffset_of_fits _ _ d1 hfit.1 hfit.2
    · intro hfit
      exact intOffset_of_fits _ _ d2 hfit.1 hfit.2
  · intro i hi hi4
    have h := hp i hi hi4
    simp only [Triangle4i.slot, Prod.mk.injEq] at h
    obtain ⟨e0, e1, e2, e3, e4⟩ := h
    exact ⟨e3, e4, e0, e1, e2⟩

theorem createSmallLeaf_triangle4i_packing_witness :
    ((fallbackEnv Layout.triangle4i 4).layout = Layout.triangle4i ∧
      1 ≤ ({ BuildRecord.blank with end_ := 2, parent := Slot.root } : BuildRecord).size ∧
      ({ BuildRecord.blank with end_ := 2, parent := Slot.root } : BuildRecord).size ≤ 4) ∧
    ∃ t, (createSmallLeaf (fallbackEnv Layout.triangle4i 4)
        { BuildRecord.blank with end_ := 2, parent := Slot.root }
        (initialState (samplePrims 2) CentGeomBBox3fa.reset)).leaves = [LeafBlock.tri4i t] ∧
      t.geomID.getD 3 0 = -1 ∧ t.v0.getD 3 0 = t.v0.getD 0 0 := by
  refine ⟨⟨rfl, by decide, by decide⟩, ?_⟩
  obtain ⟨t, h1, _, _, _, h5⟩ := createSmallLeaf_triangle4i_packing
    (fallbackEnv Layout.triangle4i 4)
    { BuildRecord.blank with end_ := 2, parent := Slot.root }
    (initialState (samplePrims 2) CentGeomBBox3fa.reset) rfl (by decide) (by decide)
  exact ⟨t, h1, (h5 3 (by decide) (by decide)).1, (h5 3 (by decide) (by decide)).2.2.1⟩

/-! ## Constructors and `init` -/

/-- C12. For each layout the scene constructor and the single-mesh
constructor make a builder of that layout and bake in the same
configuration; `(logBlockSize, minLeafSize, maxLeafSize)` is `(0, 2, inf)`
for `Triangle1` and `Triangle1v`, `(2, 4, inf)` for `Triangle4`, `Triangle4v`
and `Triangle4i`, and `(3, 8, inf)` for `Triangle8`; `primBytes` is the size
of the record of the layout; and `needVertices` is true for `Triangle4i`
only. -/
theorem constructors_bake_layout_configuration (h : Host) (l : Layout)
    (scene parent : Scene) (mesh : TriangleMesh) :
    (l.sceneBuilder h scene).layout = l ∧ (l.meshBuilder h parent mesh).layout = l ∧
    (l.sceneBuilder h scene).config = (l.meshBuilder h parent mesh).config ∧
    ((l.sceneBuilder h scene).logBlockSize, (l.sceneBuilder h scene).minLeafSize,
      (l.sceneBuilder h scene).maxLeafSize) =
      (match l with
       | Layout.triangle1 => (0, 2, h.inf)
       | Layout.triangle4 => (2, 4, h.inf)
       | Layout.triangle8 => (3, 8, h.inf)
       | Layout.triangle1v => (0, 2, h.inf)
       | Layout.triangle4v => (2, 4, h.inf)
       | Layout.triangle4i => (2, 4, h.inf)) ∧
    (l.sceneBuilder h scene).primBytes = h.sizeofTriangle l ∧
    ((l.sceneBuilder h scene).needVertices = true ↔ l = Layout.triangle4i) ∧
    (l.sceneBuilder h scene).mesh = none ∧
    (l.meshBuilder h parent mesh).mesh = some mesh ∧
    (l.meshBuilder h parent mesh).scene = parent := by
  cases l <;>
    simp [Layout.sceneBuilder, Layout.meshBuilder, BVH4BuilderFast.config,
      BVH4BuilderFast.construct, BVH4Triangle1BuilderFast, BVH4Triangle4BuilderFast,
      BVH4Triangle8BuilderFast, BVH4Triangle1vBuilderFast, BVH4Triangle4vBuilderFast,
      BVH4Triangle4iBuilderFast, BVH4Triangle1MeshBuilderFast, BVH4Triangle4MeshBuilderFast,
      BVH4Triangle8MeshBuilderFast, BVH4Triangle1vMeshBuilderFast,
      BVH4Triangle4vMeshBuilderFast, BVH4Triangle4iMeshBuilderFast]

theorem sizeT_of_lt (n : Nat) (h : n < 2 ^ 64) : sizeT n = n := Nat.mod_eq_of_lt h

theorem ceil_blocks (x bs : Nat) (hbs : 0 < bs) :
    x ≤ bs * ((x + bs - 1) / bs) ∧ bs * ((x + bs - 1) / bs) ≤ x + bs - 1 ∧
    (x + bs - 1) / bs ≤ bs * ((x + bs - 1) / bs) := by
  have h1 := Nat.div_add_mod (x + bs - 1) bs
  have h2 := Nat.mod_lt (x + bs - 1) hbs
  have h3 : (x + bs - 1) / bs ≤ bs * ((x + bs - 1) / bs) := Nat.le_mul_of_pos_left _ hbs
  refine ⟨?_, ?_, h3⟩ <;> omega


theorem reserved_bytes_eq (n pb bs pad : Nat) (hbs : 0 < bs) (hpb : 0 < pb)
    (hfit : 2 * n * pb + bs * (pad + 1) < 2 ^ 64) :
    sizeT (bs * sizeT (sizeT (sizeT (sizeT (2 * n) * pb) + bs + (2 ^ 64 - 1)) / bs + pad)) =
      bs * ((2 * n * pb + bs - 1) / bs + pad) := by
  obtain ⟨c1, c2, c3⟩ := ceil_blocks (2 * n * pb) bs hbs
  have e1 : bs * (pad + 1) = bs * pad + bs := by ring
  have e2 : bs * ((2 * n * pb + bs - 1) / bs + pad) =
      bs * ((2 * n * pb + bs - 1) / bs) + bs * pad := by ring
  have hpad : pad ≤ bs * pad := Nat.le_mul_of_pos_left _ hbs
  have h2n : 2 * n ≤ 2 * n * pb := Nat.le_mul_of_pos_right _ hpb
  have s1 : sizeT (2 * n) = 2 * n := sizeT_of_lt _ (by omega)
  have s2 : sizeT (2 * n * pb) = 2 * n * pb := sizeT_of_lt _ (by omega)
  have s3 : sizeT (2 * n * pb + bs + (2 ^ 64 - 1)) = 2 * n * pb + bs - 1 := by
    unfold sizeT
    omega
  have s4 : sizeT ((2 * n * pb + bs - 1) / bs + pad) = (2 * n * pb + bs - 1) / bs + pad :=
    sizeT_of_lt _ (by omega)
  rw [s1, s2, s3, s4]
  exact sizeT_of_lt _ (by omega)

/-- C13, as amended. On the 64-bit sizing path, when the primitive count has
changed since the previous `init` and the byte counts fit in a `size_t`,
`init` reserves for the primitive allocator `blockSize * (ceil(2 *
numPrimitives * primBytes / blockSize) + additionalBlocks)` bytes, where
`additionalBlocks` is `threadCount` for a builder that uses all threads and
one block otherwise; the result is a multiple of `blockSize`, at least
`2 * numPrimitives * primBytes + additionalBlocks * blockSize`, and is what
`bvh->bytesPrimitives` is set to. A scene builder uses all threads; a
single-mesh builder does so for more than 50000 triangles only. -/
theorem init_reserves_primitive_blocks (h : Host) (b : BVH4BuilderFast) (bvh : BVH4)
    (threadCount : Nat) (h64 : h.x86_64 = true) (hbs : 0 < h.blockSize) (hpb : 0 < b.primBytes)
    (hchg : b.numPrimitives ≠ (sceneSize b).1)
    (hfit : 2 * (sceneSize b).1 * b.primBytes +
      h.blockSize * (b.additionalBlocks threadCount + 1) < 2 ^ 64) :
    (∃ a, (b.init h bvh threadCount).1.primAllocator = some a ∧
      (b.init h bvh threadCount).2.bytesPrimitives = a.bytesReserved ∧
      a.bytesReserved = h.blockSize *
        ((2 * (sceneSize b).1 * b.primBytes + h.blockSize - 1) / h.blockSize +
          b.additionalBlocks threadCount) ∧
      h.blockSize ∣ a.bytesReserved ∧
      2 * (sceneSize b).1 * b.primBytes + b.additionalBlocks threadCount * h.blockSize ≤
        a.bytesReserved) ∧
    (∀ (l : Layout) (scene : Scene),
      (l.sceneBuilder h scene).additionalBlocks threadCount = threadCount) ∧
    (∀ (l : Layout) (parent : Scene) (mesh : TriangleMesh),
      (l.meshBuilder h parent mesh).additionalBlocks threadCount =
        if mesh.numTriangles > 50000 then threadCount else 1) := by
  refine ⟨?_, ?_, ?_⟩
  · have key := reserved_bytes_eq (sceneSize b).1 b.primBytes h.blockSize
      (b.additionalBlocks threadCount) hbs hpb hfit
    obtain ⟨c1, _, _⟩ := ceil_blocks (2 * (sceneSize b).1 * b.primBytes) h.blockSize hbs
    unfold BVH4BuilderFast.init
    simp only [hchg, ne_eq, not_false_eq_true, if_true, h64]
    refine ⟨_, rfl, rfl, ?_, ?_, ?_⟩
    · exact key
    · show h.blockSize ∣ sizeT _
      rw [show BVH4BuilderFast.additionalBlocks b threadCount =
        (if b.needAllThreads then threadCount else 1) from rfl] at key
      rw [key]
      exact Dvd.intro _ rfl
    · show _ ≤ sizeT _
      rw [show BVH4BuilderFast.additionalBlocks b threadCount =
        (if b.needAllThreads then threadCount else 1) from rfl] at key
      rw [key, Nat.mul_add, Nat.mul_comm (b.additionalBlocks threadCount)]
      exact Nat.add_le_add_right c1 _
  · intro l scene
    cases l <;> rfl
  · intro l parent mesh
    cases l <;>
      simp [Layout.meshBuilder, BVH4BuilderFast.additionalBlocks, BVH4BuilderFast.construct,
        BVH4Triangle1MeshBuilderFast, BVH4Triangle4MeshBuilderFast,
        BVH4Triangle8MeshBuilderFast, BVH4Triangle1vMeshBuilderFast,
        BVH4Triangle4vMeshBuilderFast, BVH4Triangle4iMeshBuilderFast]

theorem init_reserves_primitive_blocks_witness :
    (host64.x86_64 = true ∧ 0 < host64.blockSize ∧
      0 < (BVH4Triangle4MeshBuilderFast host64 [Geometry.triangleMesh oneTriangleMesh]
        oneTriangleMesh).primBytes) ∧
    ∃ a, ((BVH4Triangle4MeshBuilderFast host64 [Geometry.triangleMesh oneTriangleMesh]
        oneTriangleMesh).init host64 BVH4.fresh 2).1.primAllocator = some a ∧
      a.bytesReserved = 4096 * ((2 * 1 * 64 + 4096 - 1) / 4096 + 1) := by
  refine ⟨⟨rfl, by decide, by decide⟩, ?_⟩
  obtain ⟨⟨a, h1, _, h3, _⟩, _⟩ := init_reserves_primitive_blocks host64
    (BVH4Triangle4MeshBuilderFast host64 [Geometry.triangleMesh oneTriangleMesh]
      oneTriangleMesh) BVH4.fresh 2 rfl (by decide) (by decide) (by decide) (by decide)
  exact ⟨a, h1, h3⟩

/-- C13, counterexample. A `Triangle4` builder for a single mesh of one
triangle, initialised with `threadCount = 2` on the sample host: `init`
reserves 8192 bytes, two blocks, not the three blocks `blockSize * (ceil(2 *
numPrimitives * primBytes / blockSize) + threadCount)`, and less than
`2 * numPrimitives * primBytes + threadCount * blockSize`. A scene builder
for a scene without triangles, whose count stays 0, reserves nothing. And
for a mesh that declares `2 ^ 62` triangles the byte count wraps in `size_t`:
the reservation is two blocks, less than `2 * numPrimitives * primBytes`. -/
theorem init_pads_one_block_for_small_mesh :
    ((BVH4Triangle4MeshBuilderFast host64 [Geometry.triangleMesh oneTriangleMesh]
        oneTriangleMesh).init host64 BVH4.fresh 2).1.primAllocator = some ⟨64, 8192⟩ ∧
    ((BVH4Triangle4MeshBuilderFast host64 [Geometry.triangleMesh oneTriangleMesh]
        oneTriangleMesh).init host64 BVH4.fresh 2).1.numPrimitives = 1 ∧
    8192 ≠ host64.blockSize *
      ((2 * 1 * host64.sizeofTriangle Layout.triangle4 + host64.blockSize - 1) /
        host64.blockSize + 2) ∧
    8192 < 2 * 1 * host64.sizeofTriangle Layout.triangle4 + 2 * host64.blockSize ∧
    ((BVH4Triangle4BuilderFast host64 []).init host64 BVH4.fresh 2).1.primAllocator = none ∧
    ((BVH4Triangle4BuilderFast host64 [Geometry.triangleMesh hugeMesh]).init host64
      BVH4.fresh 2).1.primAllocator.map AllocatorInit.bytesReserved = some 8192 ∧
    ((BVH4Triangle4BuilderFast host64 [Geometry.triangleMesh hugeMesh]).init host64
      BVH4.fresh 2).1.numPrimitives = 2 ^ 62 ∧
    8192 < 2 * 2 ^ 62 * host64.sizeofTriangle Layout.triangle4 := by
  decide

theorem countStep_fold (scene : Scene) : ∀ (acc : Nat × Nat), acc.1 < 2 ^ 64 →
    (scene.foldl countStep acc).1 = sizeT (acc.1 + (scene.map Geometry.numPrimitives).sum) := by
  induction scene with
  | nil =>
    intro acc h
    simp only [List.foldl_nil, List.map_nil, List.sum_nil, Nat.add_zero, sizeT]
    exact (Nat.mod_eq_of_lt h).symm
  | cons g gs ih =>
    intro acc h
    rw [List.foldl_cons]
    have hlt : (countStep acc g).1 < 2 ^ 64 := by
      cases g with
      | null => exact h
      | other => exact h
      | triangleMesh m =>
        simp only [countStep]
        by_cases ht : m.numTimeSteps ≠ 1
        · rw [if_pos ht]; exact h
        · rw [if_neg ht]; exact Nat.mod_lt _ (by decide)
    rw [ih _ hlt]
    cases g with
    | null => simp [countStep, Geometry.numPrimitives]
    | other => simp [countStep, Geometry.numPrimitives]
    | triangleMesh m =>
      simp only [countStep, Geometry.numPrimitives, List.map_cons, List.sum_cons]
      by_cases ht : m.numTimeSteps = 1
      · have ht2 : ¬ m.numTimeSteps ≠ 1 := by simpa using ht
        rw [if_neg ht2, if_pos ht]
        simp only [sizeT]
        omega
      · have ht2 : m.numTimeSteps ≠ 1 := ht
        rw [if_pos ht2, if_neg ht]
        simp

/-- For a scene builder `init` counts the triangles of the triangle meshes
with exactly one time step, in `size_t` arithmetic. -/
theorem init_scene_count (h : Host) (b : BVH4BuilderFast) (bvh : BVH4) (threadCount : Nat)
    (hm : b.mesh = none) :
    (b.init h bvh threadCount).1.numPrimitives =
      sizeT ((b.scene.map Geometry.numPrimitives).sum) ∧
    (b.init h bvh threadCount).2.numPrimitives =
      sizeT ((b.scene.map Geometry.numPrimitives).sum) := by
  have hs : (sceneSize b).1 = sizeT ((b.scene.map Geometry.numPrimitives).sum) := by
    unfold sceneSize
    rw [hm]
    simpa using countStep_fold b.scene (0, 0) (by decide)
  unfold BVH4BuilderFast.init
  by_cases hc : b.numPrimitives ≠ (sceneSize b).1
  · simp only [hc, ne_eq, not_false_eq_true, if_true]
    exact ⟨hs, hs⟩
  · simp only [hc, if_false]
    exact ⟨hs, hs⟩

/-- C14. A builder for the single mesh `motionBlurMesh`, which has two time
steps and three triangles: `init` sets `numPrimitives` and
`bvh->numPrimitives` to 3, whereas the scene builder for the scene that
holds this mesh counts 0 primitives. -/
theorem init_counts_triangles_of_multi_time_step_mesh :
    motionBlurMesh.numTimeSteps = 2 ∧
    ((BVH4Triangle4MeshBuilderFast host64 [Geometry.triangleMesh motionBlurMesh]
      motionBlurMesh).init host64 BVH4.fresh 1).1.numPrimitives = 3 ∧
    ((BVH4Triangle4MeshBuilderFast host64 [Geometry.triangleMesh motionBlurMesh]
      motionBlurMesh).init host64 BVH4.fresh 1).2.numPrimitives = 3 ∧
    ((BVH4Triangle4BuilderFast host64 [Geometry.triangleMesh motionBlurMesh]).init host64
      BVH4.fresh 1).1.numPrimitives = 0 := by
  decide

/-! ## The median fallback split -/

theorem scanBounds_eq_scanPrims (P : List PrimRef) (r : BuildRecord) :
    scanBounds P r.begin r.end_ = scanPrims (r.primsOf P) := by
  unfold scanBounds scanPrims BuildRecord.primsOf BuildRecord.indices
  rw [List.foldl_map]

/-- C15. For a record with `begin ≤ end` and `begin + end < 2 ^ 32`,
`splitFallback` returns `left = [begin, c)` and `right = [c, end)` with
`c = (begin + end) / 2`; the sizes are `n / 2` and `(n + 1) / 2`; for `n ≥ 2`
both parts are non-empty and smaller than the input; the bounds of each child
are the scan of the primitives of its own range, from a reset
`CentGeomBBox3fa`; and the primitive array is only read: when the binner of
the mode finds no split, `split` hands back the array it was given together
with these two records. -/
theorem splitFallback_median (prims : List PrimRef) (current : BuildRecord)
    (hbe : current.begin ≤ current.end_) (h32 : current.begin + current.end_ < 2 ^ 32) :
    (splitFallback prims current).1.begin = current.begin ∧
    (splitFallback prims current).1.end_ = (current.begin + current.end_) / 2 ∧
    (splitFallback prims current).2.begin = (current.begin + current.end_) / 2 ∧
    (splitFallback prims current).2.end_ = current.end_ ∧
    (splitFallback prims current).1.size = current.size / 2 ∧
    (splitFallback prims current).2.size = (current.size + 1) / 2 ∧
    (2 ≤ current.size →
      1 ≤ (splitFallback prims current).1.size ∧ 1 ≤ (splitFallback prims current).2.size ∧
      (splitFallback prims current).1.size < current.size ∧
      (splitFallback prims current).2.size < current.size) ∧
    (⟨(splitFallback prims current).1.geomBounds, (splitFallback prims current).1.centBounds⟩ :
      CentGeomBBox3fa) = scanPrims ((splitFallback prims current).1.primsOf prims) ∧
    (⟨(splitFallback prims current).2.geomBounds, (splitFallback prims current).2.centBounds⟩ :
      CentGeomBBox3fa) = scanPrims ((splitFallback prims current).2.primsOf prims) ∧
    (∀ (env : Env) (mode : Mode),
      env.objectSplit prims current.begin current.end_ current.geomBounds
        current.centBounds = none →
      env.parallelSplit prims current.begin current.end_ current.geomBounds
        current.centBounds = none →
      split env mode prims current = (prims, splitFallback prims current)) := by
  have hc : splitFallback.center current = (current.begin + current.end_) / 2 :=
    center_eq current (by omega) (by omega)
  have hn := size_of_le current hbe
  have hl : (splitFallback prims current).1.size = current.size / 2 := by
    rw [size_of_le _ (by simp only [splitFallback_fst_begin, splitFallback_fst_end, hc]; omega)]
    simp only [splitFallback_fst_begin, splitFallback_fst_end, hc, hn]
    omega
  have hr : (splitFallback prims current).2.size = (current.size + 1) / 2 := by
    rw [size_of_le _ (by simp only [splitFallback_snd_begin, splitFallback_snd_end, hc]; omega)]
    simp only [splitFallback_snd_begin, splitFallback_snd_end, hc, hn]
    omega
  refine ⟨rfl, hc, hc, rfl, hl, hr, ?_, ?_, ?_, ?_⟩
  · intro h2
    rw [hl, hr]
    omega
  · rw [← scanBounds_eq_scanPrims]
    rfl
  · rw [← scanBounds_eq_scanPrims]
    rfl
  · intro env mode h1 h2
    unfold split splitParallel splitSequential
    rw [h1, h2]
    by_cases hm : mode = Mode.BUILD_TOP_LEVEL
    · rw [if_pos hm]
    · rw [if_neg hm]

theorem splitFallback_median_witness :
    ((rootRecord (scanBounds (samplePrims 5) 0 5) 5).begin ≤
        (rootRecord (scanBounds (samplePrims 5) 0 5) 5).end_ ∧
      (rootRecord (scanBounds (samplePrims 5) 0 5) 5).begin +
        (rootRecord (scanBounds (samplePrims 5) 0 5) 5).end_ < 2 ^ 32) ∧
    (splitFallback (samplePrims 5) (rootRecord (scanBounds (samplePrims 5) 0 5) 5)).1.size = 2 ∧
    (splitFallback (samplePrims 5) (rootRecord (scanBounds (samplePrims 5) 0 5) 5)).2.size = 3 := by
  have h := splitFallback_median (samplePrims 5) (rootRecord (scanBounds (samplePrims 5) 0 5) 5)
    (by decide) (by decide)
  exact ⟨⟨by decide, by decide⟩, h.2.2.2.2.1, h.2.2.2.2.2.1⟩

/-! ## The expansion loop -/

/-- C16. When `recurse` turns `cur` into an interior node (it is below
`maxBuildDepth`, has more than `minLeafSize` primitives, and the expansion
loop ends with more than one child), the call is the children loop over the
array the expansion loop leaves: child `i` is handed to `recurse_continue`
with its parent slot set, and every record handed over has depth
`cur.depth + 1`, whatever the number of splits that produced it; none keeps
`cur.depth`. Likewise, when `createLeaf` builds a node for `current`, it calls
itself on the four fallback children with depth `current.depth + 1`. -/
theorem child_records_one_level_deeper (env : Env) (threadID fuel : Nat) (mode : Mode)
    (cur : BuildRecord) (st : State) :
    (¬ (cur.depth ≥ env.maxBuildDepth ∨ cur.size ≤ env.minLeafSize) →
      (expandLoop env mode cur.depth (BVH4.N - 1) [cur] st.prims).1.length ≠ 1 →
      recurseF env threadID (fuel + 1) mode cur st =
        forChildren (fun i c s =>
          recurse_continue env (fun m r s1 => recurseF env threadID fuel m r s1) mode threadID
            { c with parent := Slot.child st.nodes.length i }
            (s.setBounds st.nodes.length i c)) 0
          (expandLoop env mode cur.depth (BVH4.N - 1) [cur] st.prims).1
          (({ st with prims :=
              (expandLoop env mode cur.depth (BVH4.N - 1) [cur] st.prims).2 } :
            State).allocNode.2.store cur.parent (encodeNode st.nodes.length)) ∧
      2 ≤ (expandLoop env mode cur.depth (BVH4.N - 1) [cur] st.prims).1.length ∧
      ∀ c ∈ (expandLoop env mode cur.depth (BVH4.N - 1) [cur] st.prims).1, ∀ i,
        ({ c with parent := Slot.child st.nodes.length i } : BuildRecord).depth =
          cur.depth + 1 ∧ c.depth ≠ cur.depth) ∧
    (¬ cur.depth > env.maxBuildDepthLeaf → ¬ cur.size ≤ env.minLeafSize →
      createLeafF env (fuel + 1) cur st =
        (match forChildren (fun i c s =>
            createLeafF env fuel
              { c with parent := Slot.child st.nodes.length i, depth := cur.depth + 1 }
              (s.setBounds st.nodes.length i c)) 0 (fallbackChildren st.prims cur)
            (st.allocNode.2.store cur.parent (encodeNode st.nodes.length)) with
          | Outcome.done st3 => Outcome.done (st3.compact st.nodes.length)
          | Outcome.fail e s => Outcome.fail e s) ∧
      ∀ c ∈ fallbackChildren st.prims cur, ∀ i,
        ({ c with parent := Slot.child st.nodes.length i, depth := cur.depth + 1 } :
          BuildRecord).depth = cur.depth + 1) := by
  constructor
  · intro h1 h2
    refine ⟨?_, ?_, ?_⟩
    · rw [recurseF_unfold]
      simp only [if_neg h1, if_neg h2]
    · have := (expandLoop_length_ge env mode cur.depth (BVH4.N - 1) [cur] st.prims).1
      simp only [List.length_singleton] at this
      omega
    · rcases expandLoop_depth env mode cur st.prims with h | h
      · rw [h] at h2
        exact absurd rfl h2
      · intro c hc i
        have hd := h c hc
        refine ⟨hd, ?_⟩
        rw [hd]
        omega
  · intro h1 h2
    refine ⟨?_, fun _ _ _ => rfl⟩
    rw [createLeafF_unfold]
    simp only [if_neg h1, if_neg h2]
    rfl

theorem child_records_one_level_deeper_witness :
    (¬ ((rootRecord (scanBounds (samplePrims 5) 0 5) 5).depth ≥
          (fallbackEnv Layout.triangle1 2).maxBuildDepth ∨
        (rootRecord (scanBounds (samplePrims 5) 0 5) 5).size ≤
          (fallbackEnv Layout.triangle1 2).minLeafSize) ∧
      (expandLoop (fallbackEnv Layout.triangle1 2) Mode.RECURSE_SEQUENTIAL
        (rootRecord (scanBounds (samplePrims 5) 0 5) 5).depth (BVH4.N - 1)
        [rootRecord (scanBounds (samplePrims 5) 0 5) 5]
        (initialState (samplePrims 5) (scanBounds (samplePrims 5) 0 5)).prims).1.length ≠ 1) ∧
    ∀ c ∈ (expandLoop (fallbackEnv Layout.triangle1 2) Mode.RECURSE_SEQUENTIAL
        (rootRecord (scanBounds (samplePrims 5) 0 5) 5).depth (BVH4.N - 1)
        [rootRecord (scanBounds (samplePrims 5) 0 5) 5]
        (initialState (samplePrims 5) (scanBounds (samplePrims 5) 0 5)).prims).1,
      c.depth = 2 := by
  refine ⟨⟨by decide, by decide⟩, ?_⟩
  intro c hc
  exact (((child_records_one_level_deeper (fallbackEnv Layout.triangle1 2) 0 31
    Mode.RECURSE_SEQUENTIAL (rootRecord (scanBounds (samplePrims 5) 0 5) 5)
    (initialState (samplePrims 5) (scanBounds (samplePrims 5) 0 5))).1
    (by decide) (by decide)).2.2 c hc 0).1

theorem placeChildren_getElem? (cs : List BuildRecord) (j : Nat) (l r : BuildRecord)
    (hj : j < cs.length) :
    (placeChildren cs j l r)[cs.length]? = some r ∧
    (placeChildren cs j l r)[cs.length - 1]? = some l ∧
    (j < cs.length - 1 → (placeChildren cs j l r)[j]? = cs[cs.length - 1]?) ∧
    (∀ i, i < cs.length - 1 → i ≠ j → (placeChildren cs j l r)[i]? = cs[i]?) := by
  unfold placeChildren
  have hlen : ((cs.set j (cs.getD (cs.length - 1) BuildRecord.blank)).set
      (cs.length - 1) l).length = cs.length := by simp
  refine ⟨?_, ?_, ?_, ?_⟩
  · rw [List.getElem?_append_right (by omega), hlen]
    simp
  · rw [List.getElem?_append_left (by omega), List.getElem?_set_self (by simp; omega)]
  · intro h
    rw [List.getElem?_append_left (by omega), List.getElem?_set_ne (by omega),
      List.getElem?_set_self hj, List.getD_eq_getElem?_getD]
    have : cs.length - 1 < cs.length := by omega
    rw [List.getElem?_eq_getElem this]
    rfl
  · intro i hi hij
    rw [List.getElem?_append_left (by omega), List.getElem?_set_ne (by omega),
      List.getElem?_set_ne (by omega)]

/-- C17, as amended. One round of the expansion loop with chosen slot `j`
among `c` children: the loop goes on with the array in which slot `c - 1`
holds `left`, the new slot `c` holds `right`, the chosen slot `j` holds the
record that was in the last slot `c - 1` (so it holds `left` exactly when
`j = c - 1`), every other slot is unchanged, and `numChildren` is `c + 1`;
`left` and `right` are the two parts of the split of `children[j]`, at depth
`depth + 1`. -/
theorem expansion_step_slots (env : Env) (mode : Mode) (depth k : Nat)
    (children : List BuildRecord) (prims : List PrimRef) (j : Nat)
    (hbest : findBestChild env children = some j) :
    let r := split env mode prims (children.getD j BuildRecord.blank)
    let left := r.2.1.initDepth (depth + 1)
    let right := r.2.2.initDepth (depth + 1)
    let next := placeChildren children j left right
    expandLoop env mode depth (k + 1) children prims = expandLoop env mode depth k next r.1 ∧
    j < children.length ∧
    next.length = children.length + 1 ∧
    next[children.length]? = some right ∧
    next[children.length - 1]? = some left ∧
    (j < children.length - 1 → next[j]? = children[children.length - 1]?) ∧
    (j = children.length - 1 → next[j]? = some left) ∧
    (∀ i, i < children.length - 1 → i ≠ j → next[i]? = children[i]?) := by
  intro r left right next
  have hj := findBestChild_lt env children j hbest
  obtain ⟨h1, h2, h3, h4⟩ := placeChildren_getElem? children j left right hj
  refine ⟨?_, hj, placeChildren_length _ _ _ _, h1, h2, h3, ?_, h4⟩
  · rw [expandLoop_succ, hbest]
  · intro h
    rw [h]
    exact h2

theorem expansion_step_slots_witness :
    findBestChild (fallbackEnv Layout.triangle1 2)
      [rootRecord (scanBounds (samplePrims 8) 0 8) 8] = some 0 ∧
    (placeChildren [rootRecord (scanBounds (samplePrims 8) 0 8) 8] 0
      ((split (fallbackEnv Layout.triangle1 2) Mode.RECURSE_SEQUENTIAL (samplePrims 8)
        ([rootRecord (scanBounds (samplePrims 8) 0 8) 8].getD 0 BuildRecord.blank)).2.1.initDepth
          (1 + 1))
      ((split (fallbackEnv Layout.triangle1 2) Mode.RECURSE_SEQUENTIAL (samplePrims 8)
        ([rootRecord (scanBounds (samplePrims 8) 0 8) 8].getD 0 BuildRecord.blank)).2.2.initDepth
          (1 + 1))).length = 2 := by
  refine ⟨by decide, ?_⟩
  exact (expansion_step_slots (fallbackEnv Layout.triangle1 2) Mode.RECURSE_SEQUENTIAL 1 2
    [rootRecord (scanBounds (samplePrims 8) 0 8) 8] (samplePrims 8) 0 (by decide)).2.2.1

/-- C17, counterexample. Eight primitives, every split the median fallback:
after the first round the children are `[0,4)` and `[4,8)`, and the second
round chooses slot 0. After its split into `left = [0,2)` and
`right = [2,4)`, slot 0 holds `[4,8)`, the record of the last slot, and
`left` is in slot 1. -/
theorem expansion_moves_last_child_into_chosen_slot :
    (expandLoop (fallbackEnv Layout.triangle1 2) Mode.RECURSE_SEQUENTIAL 1 1
      [rootRecord (scanBounds (samplePrims 8) 0 8) 8] (samplePrims 8)).1.map
        (fun c => (c.begin, c.end_)) = [(0, 4), (4, 8)] ∧
    findBestChild (fallbackEnv Layout.triangle1 2)
      (expandLoop (fallbackEnv Layout.triangle1 2) Mode.RECURSE_SEQUENTIAL 1 1
        [rootRecord (scanBounds (samplePrims 8) 0 8) 8] (samplePrims 8)).1 = some 0 ∧
    (expandLoop (fallbackEnv Layout.triangle1 2) Mode.RECURSE_SEQUENTIAL 1 2
      [rootRecord (scanBounds (samplePrims 8) 0 8) 8] (samplePrims 8)).1.map
        (fun c => (c.begin, c.end_)) = [(4, 8), (0, 2), (2, 4)] ∧
    (expandLoop (fallbackEnv Layout.triangle1 2) Mode.RECURSE_SEQUENTIAL 1 2
      [rootRecord (scanBounds (samplePrims 8) 0 8) 8] (samplePrims 8)).1[0]? ≠
      some ((split (fallbackEnv Layout.triangle1 2) Mode.RECURSE_SEQUENTIAL (samplePrims 8)
        ((expandLoop (fallbackEnv Layout.triangle1 2) Mode.RECURSE_SEQUENTIAL 1 1
          [rootRecord (scanBounds (samplePrims 8) 0 8) 8] (samplePrims 8)).1.getD 0
            BuildRecord.blank)).2.1.initDepth 2) := by
  decide

theorem bestSoFar_step (env : Env) (cs : List BuildRecord) (c : BuildRecord)
    (acc : Option Nat × Flt) (h : BestSoFar env cs acc)
    (ha : env.minLeafSize < c.size → ∃ a, sceneArea env c = some a ∧ neg_inf < a) :
    BestSoFar env (cs ++ [c]) (bestStep env acc (cs.length, c)) := by
  have hget : ∀ i c', (cs ++ [c])[i]? = some c' →
      (i < cs.length ∧ cs[i]? = some c') ∨ (i = cs.length ∧ c' = c) := by
    intro i c' hi
    by_cases hlt : i < cs.length
    · rw [List.getElem?_append_left hlt] at hi
      exact Or.inl ⟨hlt, hi⟩
    · rw [List.getElem?_append_right (by omega)] at hi
      have h0 : i - cs.length = 0 := by
        by_contra hne
        have : ([c] : List BuildRecord)[i - cs.length]? = none :=
          List.getElem?_eq_none (by simp; omega)
        rw [this] at hi
        exact absurd hi (by simp)
      rw [h0] at hi
      simp only [List.getElem?_cons_zero, Option.some.injEq] at hi
      exact Or.inr ⟨by omega, hi.symm⟩
  have hkeep : BestSoFar env cs acc →
      (env.minLeafSize < c.size → ∀ a, sceneArea env c = some a → a ≤ acc.2 ∧ acc.1 ≠ none) →
      BestSoFar env (cs ++ [c]) acc := by
    intro hb hc
    unfold BestSoFar at hb ⊢
    cases hacc : acc.1 with
    | none =>
      rw [hacc] at hb
      refine ⟨hb.1, ?_⟩
      intro c' hc'
      rcases List.mem_append.1 hc' with hm | hm
      · exact hb.2 c' hm
      · rw [List.mem_singleton] at hm
        subst hm
        by_contra hgt
        obtain ⟨a, ha1, _⟩ := ha (by omega)
        exact (hc (by omega) a ha1).2 hacc
    | some j =>
      rw [hacc] at hb
      obtain ⟨c0, h1, h2, h3, h4⟩ := hb
      have hj : j < cs.length := by
        by_contra hge
        rw [List.getElem?_eq_none (by omega)] at h1
        exact absurd h1 (by simp)
      refine ⟨c0, ?_, h2, h3, ?_⟩
      · rw [List.getElem?_append_left hj]; exact h1
      · intro i c' a' hi hs har
        rcases hget i c' hi with ⟨_, hi'⟩ | ⟨hi', hcc⟩
        · exact h4 i c' a' hi' hs har
        · subst hcc
          refine ⟨(hc hs a' har).1, fun hlt => ?_⟩
          omega
  unfold bestStep
  by_cases hsz : c.size ≤ env.minLeafSize
  · simp only [hsz, if_true]
    exact hkeep h (fun hgt => absurd hsz (by omega))
  · simp only [hsz, if_false]
    obtain ⟨a, ha1, ha2⟩ := ha (by omega)
    rw [ha1]
    simp only
    by_cases hlt : acc.2 < a
    · rw [if_pos hlt]
      unfold BestSoFar
      simp only
      refine ⟨c, by simp, by omega, ha1, ?_⟩
      intro i c' a' hi hs har
      rcases hget i c' hi with ⟨hil, hi'⟩ | ⟨hi', hcc⟩
      · unfold BestSoFar at h
        cases hacc : acc.1 with
        | none =>
          rw [hacc] at h
          have hm : c' ∈ cs := List.getElem?_mem hi'
          have := h.2 c' hm
          omega
        | some j =>
          rw [hacc] at h
          obtain ⟨c0, h1, h2, h3, h4⟩ := h
          have hle := (h4 i c' a' hi' hs har).1
          exact ⟨le_of_lt (lt_of_le_of_lt hle hlt), fun _ => lt_of_le_of_lt hle hlt⟩
      · subst hcc
        rw [ha1] at har
        simp only [Option.some.injEq] at har
        subst har
        exact ⟨le_refl _, fun hl => by omega⟩
    · rw [if_neg hlt]
      apply hkeep h
      intro _ a0 ha0
      rw [ha1] at ha0
      simp only [Option.some.injEq] at ha0
      subst ha0
      refine ⟨not_lt.1 hlt, ?_⟩
      intro hnone
      unfold BestSoFar at h
      rw [hnone] at h
      rw [h.1] at hlt
      exact hlt ha2

theorem bestSoFar_fold (env : Env) (cs : List BuildRecord)
    (ha : ∀ c ∈ cs, env.minLeafSize < c.size → ∃ a, sceneArea env c = some a ∧ neg_inf < a) :
    BestSoFar env cs (cs.enum.foldl (bestStep env) (none, neg_inf)) := by
  induction cs using List.reverseRecOn with
  | nil =>
    unfold BestSoFar
    simp
  | append_singleton l c ih =>
    rw [List.enum_append, List.foldl_append, List.enumFrom_singleton, List.foldl_cons,
      List.foldl_nil]
    exact bestSoFar_step env l c _
      (ih (fun c' hc' => ha c' (List.mem_append_left _ hc')))
      (ha c (List.mem_append_right _ (List.mem_singleton_self c)))

/-- C18. For an array of children whose areas are comparable (no NaN) and
greater than `neg_inf`: the search ends with `bestChild == -1` if and only if
no child has more than `minLeafSize` primitives; otherwise `bestChild` is a
child with more than `minLeafSize` primitives, no such child has a larger
area, and every such child before it has a strictly smaller area, so that
`bestChild` is the lowest index among the children of maximal area. -/
theorem findBestChild_largest_area_first (env : Env) (children : List BuildRecord)
    (harea : ∀ c ∈ children, ∃ a, sceneArea env c = some a ∧ neg_inf < a) :
    (findBestChild env children = none ↔ ∀ c ∈ children, c.size ≤ env.minLeafSize) ∧
    ∀ j, findBestChild env children = some j →
      ∃ c a, children[j]? = some c ∧ env.minLeafSize < c.size ∧ sceneArea env c = some a ∧
        ∀ i c' a', children[i]? = some c' → env.minLeafSize < c'.size →
          sceneArea env c' = some a' → a' ≤ a ∧ (i < j → a' < a) := by
  have hb := bestSoFar_fold env children (fun c hc _ => harea c hc)
  unfold BestSoFar at hb
  unfold findBestChild
  constructor
  · constructor
    · intro hn
      rw [hn] at hb
      exact hb.2
    · intro hall
      cases hacc : (children.enum.foldl (bestStep env) (none, neg_inf)).1 with
      | none => rfl
      | some j =>
        rw [hacc] at hb
        obtain ⟨c, h1, h2, _, _⟩ := hb
        have := hall c (List.getElem?_mem h1)
        omega
  · intro j hj
    rw [hj] at hb
    obtain ⟨c, h1, h2, h3, h4⟩ := hb
    exact ⟨c, _, h1, h2, h3, h4⟩

theorem findBestChild_largest_area_first_witness :
    (∀ c ∈ ([{ BuildRecord.blank with end_ := 2 },
        { BuildRecord.blank with begin := 2, end_ := 5 },
        { BuildRecord.blank with begin := 5, end_ := 8 }] : List BuildRecord),
      ∃ a, sceneArea (fallbackEnv Layout.triangle1 2) c = some a ∧ neg_inf < a) ∧
    findBestChild (fallbackEnv Layout.triangle1 2)
      [{ BuildRecord.blank with end_ := 2 }, { BuildRecord.blank with begin := 2, end_ := 5 },
       { BuildRecord.blank with begin := 5, end_ := 8 }] = some 1 ∧
    ∃ c, ([{ BuildRecord.blank with end_ := 2 }, { BuildRecord.blank with begin := 2, end_ := 5 },
       { BuildRecord.blank with begin := 5, end_ := 8 }] : List BuildRecord)[1]? = some c ∧
      (fallbackEnv Layout.triangle1 2).minLeafSize < c.size := by
  refine ⟨fun _ _ => ⟨1, rfl, by decide⟩, by decide, ?_⟩
  obtain ⟨c, _, h1, h2, _⟩ := (findBestChild_largest_area_first (fallbackEnv Layout.triangle1 2)
    [{ BuildRecord.blank with end_ := 2 }, { BuildRecord.blank with begin := 2, end_ := 5 },
     { BuildRecord.blank with begin := 5, end_ := 8 }]
    (fun _ _ => ⟨1, rfl, by decide⟩)).2 1 (by decide)
  exact ⟨c, h1, h2⟩

/-! ## Scenario S3: five primitives on a line -/

/-- The search finds a child as soon as one child has more than `minLeafSize`
primitives, provided the areas of such children are numbers above `neg_inf`. -/
theorem findBestChild_isSome (env : Env) (cs : List BuildRecord)
    (harea : ∀ c ∈ cs, env.minLeafSize < c.size → ∃ a, sceneArea env c = some a ∧ neg_inf < a)
    (c : BuildRecord) (hc : c ∈ cs) (hsz : env.minLeafSize < c.size) :
    ∃ j, findBestChild env cs = some j := by
  have hb := bestSoFar_fold env cs harea
  unfold BestSoFar at hb
  unfold findBestChild
  cases hacc : (cs.enum.foldl (bestStep env) (none, neg_inf)).1 with
  | none =>
    rw [hacc] at hb
    have := hb.2 c hc
    omega
  | some j => exact ⟨j, rfl⟩

theorem placeChildren_singleton (c l r : BuildRecord) : placeChildren [c] 0 l r = [l, r] := rfl

theorem isFiniteFlt_min (a b : Flt) (ha : isFiniteFlt a) (hb : isFiniteFlt b) :
    isFiniteFlt (Min.min a b) := by
  rcases min_choice a b with h | h <;> rw [h] <;> assumption

theorem isFiniteFlt_max (a b : Flt) (ha : isFiniteFlt a) (hb : isFiniteFlt b) :
    isFiniteFlt (Max.max a b) := by
  rcases max_choice a b with h | h <;> rw [h] <;> assumption

/-- The union of two proper boxes is proper. -/
theorem proper_extend (a b : BBox3fa) (ha : a.proper) (hb : b.proper) : (a.extend b).proper := by
  obtain ⟨⟨a1, a2, a3⟩, ⟨a4, a5, a6⟩, a7, a8, a9⟩ := ha
  obtain ⟨⟨b1, b2, b3⟩, ⟨b4, b5, b6⟩, _⟩ := hb
  refine ⟨⟨isFiniteFlt_min _ _ a1 b1, isFiniteFlt_min _ _ a2 b2, isFiniteFlt_min _ _ a3 b3⟩,
    ⟨isFiniteFlt_max _ _ a4 b4, isFiniteFlt_max _ _ a5 b5, isFiniteFlt_max _ _ a6 b6⟩, ?_, ?_, ?_⟩
  · exact le_trans (min_le_left _ _) (le_trans a7 (le_max_left _ _))
  · exact le_trans (min_le_left _ _) (le_trans a8 (le_max_left _ _))
  · exact le_trans (min_le_left _ _) (le_trans a9 (le_max_left _ _))

theorem proper_foldl (l : List BBox3fa) : ∀ acc : BBox3fa, acc.proper →
    (∀ b ∈ l, b.proper) → (l.foldl BBox3fa.extend acc).proper := by
  induction l with
  | nil => intro acc h _; exact h
  | cons b l ih =>
    intro acc h hl
    rw [List.foldl_cons]
    exact ih _ (proper_extend _ _ h (hl b (List.mem_cons_self _ _)))
      (fun c hc => hl c (List.mem_cons_of_mem _ hc))

/-- The union of a non-empty range of primitives with proper boxes is a
proper box. -/
theorem proper_rangeUnion (P : List PrimRef) (lo hi : Nat) (h : lo < hi)
    (hP : ∀ i, lo ≤ i → i < hi → (primAt P i).bounds.proper) : (rangeUnion P lo hi).proper := by
  unfold rangeUnion
  have hr : List.range' lo (hi - lo) = lo :: List.range' (lo + 1) (hi - lo - 1) := by
    have : hi - lo = (hi - lo - 1) + 1 := by omega
    rw [this, List.range'_succ]
    simp
  rw [hr, List.map_cons, List.foldl_cons]
  have h0 : BBox3fa.empty.extend (primAt P lo).bounds = (primAt P lo).bounds := by
    simp [BBox3fa.extend, BBox3fa.empty, Vec3fa.min, Vec3fa.max, pos_inf, neg_inf]
  rw [h0]
  apply proper_foldl _ _ (hP lo (le_refl _) h)
  intro b hb
  rw [List.mem_map] at hb
  obtain ⟨i, hi, rfl⟩ := hb
  rw [List.mem_range'_1] at hi
  exact hP i (by omega) (by omega)

theorem primAt_mem (P : List PrimRef) (i : Nat) (h : i < P.length) : primAt P i ∈ P := by
  unfold primAt
  rw [List.getD_eq_getElem?_getD, List.getElem?_eq_getElem h]
  exact List.getElem_mem _

/-- Five primitives, `minLeafSize = 2`: the expansion loop makes at least two
splits, because after the first one a part with at least three primitives is
left, so it ends with three or four children. The areas compared are those
of the record and of that part, which are proper boxes. -/
theorem expandLoop_five (env : Env) (n : Nat) (hmin : env.minLeafSize = 2)
    (hsplit : SplitsWithinRange env n) (hexact : SplitsWithExactBounds env n)
    (harea : ∀ b : BBox3fa, b.proper → ∃ a, env.area b = some a ∧ neg_inf < a)
    (cur : BuildRecord) (P0 : List PrimRef) (hlen : P0.length = n) (hw : cur.within n)
    (hsz : cur.size = 5) (hP0 : ∀ p ∈ P0, p.bounds.proper) (hcur : cur.geomBounds.proper) :
    3 ≤ (expandLoop env Mode.RECURSE_SEQUENTIAL cur.depth (BVH4.N - 1) [cur] P0).1.length ∧
    (expandLoop env Mode.RECURSE_SEQUENTIAL cur.depth (BVH4.N - 1) [cur] P0).1.length ≤ 4 := by
  have hN : BVH4.N - 1 = 2 + 1 := rfl
  -- first round
  obtain ⟨j1, hj1⟩ := findBestChild_isSome env [cur]
    (fun c hc _ => by
      rw [List.mem_singleton] at hc
      subst hc
      exact harea _ hcur) cur (List.mem_singleton_self _) (by omega)
  have hj1lt := findBestChild_lt env [cur] j1 hj1
  simp only [List.length_singleton] at hj1lt
  obtain rfl : j1 = 0 := by omega
  obtain ⟨s1, s2, s3, s4, s5, s6⟩ := hsplit P0 cur hlen hw (by omega)
  obtain ⟨e1, e2⟩ := hexact P0 cur hlen hw (by omega)
  have hP1 : ∀ i, i < n → (primAt (splitSequential env P0 cur).1 i).bounds.proper := by
    intro i hi
    apply hP0
    apply s6.1.mem_iff.1
    exact primAt_mem _ _ (by rw [s6.1.length_eq, hlen]; exact hi)
  rw [hN, expandLoop_succ, hj1]
  simp only [List.getD_cons_zero, split_sequential, placeChildren_singleton]
  -- second round
  have hs1 : ((splitSequential env P0 cur).2.1.initDepth (cur.depth + 1)).size =
      (splitSequential env P0 cur).2.1.end_ - cur.begin := by
    rw [size_of_le _ (by simp only [BuildRecord.initDepth]; omega)]
    simp only [BuildRecord.initDepth, s1]
  have hs2 : ((splitSequential env P0 cur).2.2.initDepth (cur.depth + 1)).size =
      cur.end_ - (splitSequential env P0 cur).2.1.end_ := by
    rw [size_of_le _ (by simp only [BuildRecord.initDepth]; omega)]
    simp only [BuildRecord.initDepth, s2, s3]
  have hs3 := size_of_le cur hw.1
  have hw2 := hw.2
  have hbig : ∃ c ∈ [(splitSequential env P0 cur).2.1.initDepth (cur.depth + 1),
      (splitSequential env P0 cur).2.2.initDepth (cur.depth + 1)], env.minLeafSize < c.size := by
    by_cases h3 : 3 ≤ ((splitSequential env P0 cur).2.1.initDepth (cur.depth + 1)).size
    · exact ⟨_, List.mem_cons_self _ _, by omega⟩
    · exact ⟨_, List.mem_cons_of_mem _ (List.mem_singleton_self _), by omega⟩
  obtain ⟨c, hc, hcs⟩ := hbig
  obtain ⟨j2, hj2⟩ := findBestChild_isSome env _
    (fun c' hc' hsz' => by
      apply harea
      simp only [List.mem_cons, List.mem_singleton, List.not_mem_nil, or_false] at hc'
      rcases hc' with rfl | rfl
      · show (splitSequential env P0 cur).2.1.geomBounds.proper
        rw [e1]
        exact proper_rangeUnion _ _ _ (by omega) (fun i h1 h2 => hP1 i (by omega))
      · show (splitSequential env P0 cur).2.2.geomBounds.proper
        rw [e2]
        exact proper_rangeUnion _ _ _ (by omega) (fun i h1 h2 => hP1 i (by omega))) c hc hcs
  rw [expandLoop_succ, hj2]
  simp only
  constructor
  · refine le_trans ?_ (expandLoop_length_ge _ _ _ _ _ _).1
    simp only [placeChildren_length, List.length_cons, List.length_nil]
    omega
  · refine le_trans (expandLoop_length_le _ _ _ _ _ _) ?_
    simp only [placeChildren_length, List.length_cons, List.length_nil]
    omega

/-- The node arena after allocating a node for `cur`, publishing it and
running the children loop: the new node has one filled slot for each child. -/
theorem filled_of_chain (cur : BuildRecord) (st st0 s' : State) (cs : List BuildRecord)
    (upd : Nat → BuildRecord → BuildRecord)
    (hupd : ∀ k c, (upd k c).parent = Slot.child st.nodes.length k)
    (h0 : st0.nodes = st.nodes ++ [Node.clear])
    (hchain : childChain FillsSlot upd st.nodes.length 0 cs
      (st0.store cur.parent (encodeNode st.nodes.length)) s')
    (hlen : cs.length ≤ BVH4.N) (hs : st.hasSlot cur.parent) :
    ∃ nd ex, s'.nodes = writeNodes st.nodes cur.parent (encodeNode st.nodes.length) ++ nd :: ex ∧
      nd.filledUpTo cs.length := by
  have hstart : (st0.store cur.parent (encodeNode st.nodes.length)).nodes =
      writeNodes st.nodes cur.parent (encodeNode st.nodes.length) ++ Node.clear :: [] := by
    rw [store_nodes, h0, writeNodes_append _ _ _ _ ((hasSlot_iff st _).1 hs)]
  obtain ⟨nd, ex, h1, h2, _⟩ := chain_fills upd st.nodes.length hupd
    (writeNodes st.nodes cur.parent (encodeNode st.nodes.length)) (by simp)
    cs 0 _ s' hchain (by omega) Node.clear [] hstart clear_filledUpTo (by simp)
  rw [Nat.zero_add] at h2
  exact ⟨nd, ex, h1, h2⟩

/-- A sequential `recurseF` call that ends normally fills the parent slot and
appends finished nodes. -/
theorem recurseF_fills (env : Env) (threadID fuel : Nat) (cur : BuildRecord) (st st' : State)
    (h : recurseF env threadID fuel Mode.RECURSE_SEQUENTIAL cur st = Outcome.done st') :
    FillsSlot cur st st' := by
  refine recurseF_seq_induct env threadID FillsSlot ?_ ?_ fuel cur st st' h
  · intro cur st st' hcl
    exact createLeaf_fills env cur st st' hcl
  · intro cur st st' _ _ hne hchain hs
    have hge := (expandLoop_length_ge env Mode.RECURSE_SEQUENTIAL cur.depth (BVH4.N - 1) [cur]
      st.prims).1
    have hle := expandLoop_length_le env Mode.RECURSE_SEQUENTIAL cur.depth (BVH4.N - 1) [cur]
      st.prims
    simp only [List.length_singleton] at hge hle
    obtain ⟨nd, ex, h1, h2, h3⟩ := fills_of_chain cur st
      ({ st with prims := (expandLoop env Mode.RECURSE_SEQUENTIAL cur.depth (BVH4.N - 1) [cur]
          st.prims).2 } : State).allocNode.2 st' _ _
      (fun k c => rfl) rfl hchain ⟨hge, by simp only [BVH4.N] at hle ⊢; omega⟩ hs
    refine ⟨encodeNode st.nodes.length, nd :: ex, by simp [encodeNode], h1, ?_⟩
    intro e he
    rcases List.mem_cons.1 he with rfl | he
    · exact h2
    · exact h3 e he

/-- When a sequential `recurse` that ends normally turns `cur` into an
interior node, the node it allocates has one filled slot for each child the
expansion loop leaves, and the other slots cleared. -/
theorem recurse_node_filled (env : Env) (threadID : Nat) (cur : BuildRecord) (st st' : State)
    (h : recurse env threadID Mode.RECURSE_SEQUENTIAL cur st = Outcome.done st')
    (hd : cur.depth < env.maxBuildDepth) (hsz : ¬ cur.size ≤ env.minLeafSize)
    (hne : (expandLoop env Mode.RECURSE_SEQUENTIAL cur.depth (BVH4.N - 1) [cur]
      st.prims).1.length ≠ 1) (hs : st.hasSlot cur.parent) :
    ∃ nd ex, st'.nodes = writeNodes st.nodes cur.parent (encodeNode st.nodes.length) ++ nd :: ex ∧
      nd.filledUpTo (expandLoop env Mode.RECURSE_SEQUENTIAL cur.depth (BVH4.N - 1) [cur]
        st.prims).1.length := by
  unfold recurse at h
  rw [recurseF_unfold] at h
  simp only at h
  have hc : ¬ (cur.depth ≥ env.maxBuildDepth ∨ cur.size ≤ env.minLeafSize) := by
    intro hc
    rcases hc with hc | hc
    · omega
    · exact hsz hc
  rw [if_neg hc, if_neg hne] at h
  have hchain := forChildren_chain _ FillsSlot
    (fun i c => { c with parent := Slot.child st.nodes.length i }) st.nodes.length
    (recurseF env threadID (env.maxBuildDepth - cur.depth) Mode.RECURSE_SEQUENTIAL)
    (fun i c s => by simp [recurse_continue])
    (fun r s s' hr => recurseF_fills env threadID _ r s s' hr) _ _ _ _ h
  have hle := expandLoop_length_le env Mode.RECURSE_SEQUENTIAL cur.depth (BVH4.N - 1) [cur]
    st.prims
  simp only [List.length_singleton] at hle
  exact filled_of_chain cur st
    ({ st with prims := (expandLoop env Mode.RECURSE_SEQUENTIAL cur.depth (BVH4.N - 1) [cur]
        st.prims).2 } : State).allocNode.2 st' _ _
    (fun k c => rfl) rfl hchain (by simp only [BVH4.N] at hle ⊢; omega) hs

theorem store_root (st : State) (slot : Slot) (ref : NodeRef) :
    (st.store slot ref).root = if slot = Slot.root then ref else st.root := by
  unfold State.store
  cases slot <;> simp

theorem createSmallLeaf_root (env : Env) (cur : BuildRecord) (st : State)
    (h : cur.parent ≠ Slot.root) : (createSmallLeaf env cur st).root = st.root := by
  simp only [createSmallLeaf, store_root, if_neg h]

theorem chain_root (upd : Nat → BuildRecord → BuildRecord) (node : Nat)
    (hupd : ∀ k c, (upd k c).parent = Slot.child node k) :
    ∀ cs i s s', childChain RootKept upd node i cs s s' → s'.root = s.root := by
  intro cs
  induction cs with
  | nil =>
    intro i s s' h
    simp only [childChain] at h
    rw [h]
  | cons c rest ih =>
    intro i s s' h
    obtain ⟨s1, hc, hrest⟩ := h
    rw [ih (i + 1) s1 s' hrest, hc (by rw [hupd]; simp)]
    rfl

theorem createLeaf_root (env : Env) (cur : BuildRecord) (st st' : State)
    (h : createLeaf env cur st = Outcome.done st') : RootKept cur st st' := by
  refine createLeaf_induct env RootKept ?_ ?_ cur st st' h
  · intro cur st _ _ hp
    exact createSmallLeaf_root env cur st hp
  · intro cur st s' _ _ hchain hp
    have := chain_root _ st.nodes.length (fun k c => rfl) _ _ _ _ hchain
    show s'.root = st.root
    rw [this, store_root, if_neg hp]
    rfl

theorem recurseF_root (env : Env) (threadID fuel : Nat) (cur : BuildRecord) (st st' : State)
    (h : recurseF env threadID fuel Mode.RECURSE_SEQUENTIAL cur st = Outcome.done st') :
    RootKept cur st st' := by
  refine recurseF_seq_induct env threadID RootKept ?_ ?_ fuel cur st st' h
  · intro cur st st' hcl
    exact createLeaf_root env cur st st' hcl
  · intro cur st st' _ _ _ hchain hp
    have := chain_root _ st.nodes.length (fun k c => rfl) _ _ _ _ hchain
    rw [this, store_root, if_neg hp]
    rfl

/-- When a sequential `recurse` that ends normally turns the root record into
an interior node, the root pointer of the BVH is that node. -/
theorem recurse_root_node (env : Env) (threadID : Nat) (cur : BuildRecord) (st st' : State)
    (h : recurse env threadID Mode.RECURSE_SEQUENTIAL cur st = Outcome.done st')
    (hd : cur.depth < env.maxBuildDepth) (hsz : ¬ cur.size ≤ env.minLeafSize)
    (hne : (expandLoop env Mode.RECURSE_SEQUENTIAL cur.depth (BVH4.N - 1) [cur]
      st.prims).1.length ≠ 1) (hp : cur.parent = Slot.root) :
    st'.root = encodeNode st.nodes.length := by
  unfold recurse at h
  rw [recurseF_unfold] at h
  simp only at h
  have hc : ¬ (cur.depth ≥ env.maxBuildDepth ∨ cur.size ≤ env.minLeafSize) := by
    intro hc
    rcases hc with hc | hc
    · omega
    · exact hsz hc
  rw [if_neg hc, if_neg hne] at h
  have hchain := forChildren_chain _ RootKept
    (fun i c => { c with parent := Slot.child st.nodes.length i }) st.nodes.length
    (recurseF env threadID (env.maxBuildDepth - cur.depth) Mode.RECURSE_SEQUENTIAL)
    (fun i c s => by simp [recurse_continue])
    (fun r s s' hr => recurseF_root env threadID _ r s s' hr) _ _ _ _ h
  rw [chain_root _ st.nodes.length (fun k c => rfl) _ _ _ _ hchain, store_root, if_pos hp]

/-- A node whose first `k` slots are filled and whose other slots are cleared
has `k` children. -/
theorem numChildren_of_filledUpTo (nd : Node) (k : Nat) (hk : k ≤ BVH4.N)
    (h : nd.filledUpTo k) : nd.numChildren = k := by
  obtain ⟨_, h2, h3, h4⟩ := h
  unfold BVH4.N at *
  obtain ⟨c0, c1, c2, c3, hc⟩ := list_length_four nd.children h2
  have h30 := h3 0; have h31 := h3 1; have h32 := h3 2; have h33 := h3 3
  have h40 := h4 0; have h41 := h4 1; have h42 := h4 2; have h43 := h4 3
  unfold Node.numChildren
  rw [hc] at h30 h31 h32 h33 h40 h41 h42 h43 ⊢
  simp only [List.getD_eq_getElem?_getD, List.getElem?_cons_zero, List.getElem?_cons_succ,
    Option.getD_some] at h30 h31 h32 h33 h40 h41 h42 h43
  have hcases : k = 0 ∨ k = 1 ∨ k = 2 ∨ k = 3 ∨ k = 4 := by omega
  rcases hcases with rfl | rfl | rfl | rfl | rfl
  · have e0 := (h40 (by omega) (by omega)).1
    have e1 := (h41 (by omega) (by omega)).1
    have e2 := (h42 (by omega) (by omega)).1
    have e3 := (h43 (by omega) (by omega)).1
    subst e0 e1 e2 e3
    simp
  · have n0 := h30 (by omega)
    have e1 := (h41 (by omega) (by omega)).1
    have e2 := (h42 (by omega) (by omega)).1
    have e3 := (h43 (by omega) (by omega)).1
    subst e1 e2 e3
    simp [n0]
  · have n0 := h30 (by omega)
    have n1 := h31 (by omega)
    have e2 := (h42 (by omega) (by omega)).1
    have e3 := (h43 (by omega) (by omega)).1
    subst e2 e3
    simp [n0, n1]
  · have n0 := h30 (by omega)
    have n1 := h31 (by omega)
    have n2 := h32 (by omega)
    have e3 := (h43 (by omega) (by omega)).1
    subst e3
    simp [n0, n1, n2]
  · have n0 := h30 (by omega)
    have n1 := h31 (by omega)
    have n2 := h32 (by omega)
    have n3 := h33 (by omega)
    simp [n0, n1, n2, n3]

/-- A sequential build over five primitives with proper boxes and
`minLeafSize = 2` that ends normally: the root pointer is node 0, the node
built for the root record, and that node has three or four children. -/
theorem build_five_root_children (env : Env) (threadIndex : Nat) (prims : List PrimRef)
    (pinfo : CentGeomBBox3fa) (st' : State) (hlen : prims.length = 5)
    (hmin : env.minLeafSize = 2) (hdepth : 1 < env.maxBuildDepth)
    (hsplit : SplitsWithinRange env 5) (hexact : SplitsWithExactBounds env 5)
    (harea : ∀ b : BBox3fa, b.proper → ∃ a, env.area b = some a ∧ neg_inf < a)
    (hprims : ∀ p ∈ prims, p.bounds.proper) (hpinfo : pinfo.geomBounds.proper)
    (h : build_sequential env threadIndex 5 prims pinfo = Outcome.done st') :
    st'.root = encodeNode 0 ∧
    ∃ nd, st'.nodes[0]? = some nd ∧ 3 ≤ nd.numChildren ∧ nd.numChildren ≤ 4 := by
  unfold build_sequential at h
  have hw : (rootRecord pinfo 5).within 5 := ⟨by simp [rootRecord, BuildRecord.init], by
    simp [rootRecord, BuildRecord.init]⟩
  have hsz : (rootRecord pinfo 5).size = 5 := by
    rw [size_of_le _ hw.1]
    simp [rootRecord, BuildRecord.init]
  obtain ⟨h3, h4⟩ := expandLoop_five env 5 hmin hsplit hexact harea (rootRecord pinfo 5) prims
    hlen hw hsz hprims hpinfo
  have hd : (rootRecord pinfo 5).depth < env.maxBuildDepth := hdepth
  have hnsz : ¬ (rootRecord pinfo 5).size ≤ env.minLeafSize := by omega
  have hne : (expandLoop env Mode.RECURSE_SEQUENTIAL (rootRecord pinfo 5).depth (BVH4.N - 1)
      [rootRecord pinfo 5] (initialState prims pinfo).prims).1.length ≠ 1 := by
    show (expandLoop env Mode.RECURSE_SEQUENTIAL (rootRecord pinfo 5).depth (BVH4.N - 1)
      [rootRecord pinfo 5] prims).1.length ≠ 1
    omega
  refine ⟨recurse_root_node env threadIndex _ _ _ h hd hnsz hne rfl, ?_⟩
  obtain ⟨nd, ex, hn, hf⟩ := recurse_node_filled env threadIndex _ _ _ h hd hnsz hne
    (by simp [rootRecord, State.hasSlot])
  refine ⟨nd, ?_, ?_⟩
  · rw [hn]
    simp [rootRecord, initialState, writeNodes]
  · have hk := numChildren_of_filledUpTo nd _ (by simpa [BVH4.N] using h4) hf
    rw [hk]
    exact ⟨h3, h4⟩

theorem linePrims_proper : (∀ p ∈ linePrims, p.bounds.proper) ∧
    (scanBounds linePrims 0 5).geomBounds.proper := by
  decide

/-- C19, as amended. Scenario S3, five primitives with centroids at
`x = 0, .., 4` with the `minLeafSize = 2` of the `Triangle1` configuration and
any splitter that returns two adjacent parts of the range with their exact
bounds, the area of a box with corners of absolute value at most `2 ^ 20`
and lower corner below upper corner being a number: in a
sequential build that ends normally the root pointer is the node built for
the root record `[0,5)`, and that node has three or four children, never
two, because after the first split a part with at least three primitives is
left and is split again. With median splits it has exactly three children,
with the primitives `[0,2)`, `[2,3)` and `[3,5)`. -/
theorem s3_root_has_three_or_four_children (env : Env) (threadIndex : Nat) (st' : State)
    (hmin : env.minLeafSize = 2) (hdepth : 1 < env.maxBuildDepth)
    (hsplit : SplitsWithinRange env 5) (hexact : SplitsWithExactBounds env 5)
    (harea : ∀ b : BBox3fa, b.proper → ∃ a, env.area b = some a ∧ neg_inf < a)
    (h : build_sequential env threadIndex 5 linePrims (scanBounds linePrims 0 5) =
      Outcome.done st') :
    st'.root = encodeNode 0 ∧
    (∃ nd, st'.nodes[0]? = some nd ∧ 3 ≤ nd.numChildren ∧ nd.numChildren ≤ 4) ∧
    (build_sequential (fallbackEnv Layout.triangle1 2) 0 5 linePrims
      (scanBounds linePrims 0 5)).state.nodes.map Node.numChildren = [3] ∧
    (build_sequential (fallbackEnv Layout.triangle1 2) 0 5 linePrims
      (scanBounds linePrims 0 5)).state.leafCalls.map (fun c => (c.1.begin, c.1.end_)) =
        [(0, 2), (2, 3), (3, 5)] := by
  obtain ⟨h1, h2⟩ := build_five_root_children env threadIndex linePrims _ st' rfl hmin hdepth
    hsplit hexact harea linePrims_proper.1 linePrims_proper.2 h
  exact ⟨h1, h2, by decide, by decide⟩

theorem s3_root_has_three_or_four_children_witness :
    ((fallbackEnv Layout.triangle1 2).minLeafSize = 2 ∧
      1 < (fallbackEnv Layout.triangle1 2).maxBuildDepth) ∧
    (build_sequential (fallbackEnv Layout.triangle1 2) 0 5 linePrims
      (scanBounds linePrims 0 5)).state.root = encodeNode 0 ∧
    ∃ nd, (build_sequential (fallbackEnv Layout.triangle1 2) 0 5 linePrims
      (scanBounds linePrims 0 5)).state.nodes[0]? = some nd ∧ 3 ≤ nd.numChildren := by
  refine ⟨⟨rfl, by decide⟩, ?_⟩
  obtain ⟨h1, ⟨nd, h2, h3, _⟩, _⟩ := s3_root_has_three_or_four_children
    (fallbackEnv Layout.triangle1 2) 0 _ rfl (by decide)
    (fallbackEnv_splitsWithinRange _ _ 5 (by decide)) (fallbackEnv_exactBounds _ _ 5)
    (fun _ _ => ⟨1, rfl, by decide⟩)
    (Outcome.eq_done_of_isDone _ (by decide))
  exact ⟨h1, nd, h2, h3⟩

/-- C19, counterexample. Scenario S3 with median splits: the sequential build
ends normally with one interior node, the root; it has three children, the
leaves of `[0,2)`, `[2,3)` and `[3,5)`, not two. And no splitter that returns
two adjacent parts of the range with their exact bounds gives a root with two
children, the area of a box with corners of absolute value at most `2 ^ 20`
and lower corner below upper corner being a number. -/
theorem s3_root_has_three_children :
    (build_sequential (fallbackEnv Layout.triangle1 2) 0 5 linePrims
      (scanBounds linePrims 0 5)).isDone = true ∧
    (build_sequential (fallbackEnv Layout.triangle1 2) 0 5 linePrims
      (scanBounds linePrims 0 5)).state.root = NodeRef.node 0 ∧
    (build_sequential (fallbackEnv Layout.triangle1 2) 0 5 linePrims
      (scanBounds linePrims 0 5)).state.nodes.map Node.children =
        [[NodeRef.leaf 0 2, NodeRef.leaf 1 1, NodeRef.leaf 2 2, NodeRef.empty]] ∧
    (build_sequential (fallbackEnv Layout.triangle1 2) 0 5 linePrims
      (scanBounds linePrims 0 5)).state.nodes.map Node.numChildren = [3] ∧
    (∀ (env : Env) (threadIndex : Nat) (st' : State),
      env.minLeafSize = 2 → 1 < env.maxBuildDepth →
      SplitsWithinRange env 5 → SplitsWithExactBounds env 5 →
      (∀ b : BBox3fa, b.proper → ∃ a, env.area b = some a ∧ neg_inf < a) →
      build_sequential env threadIndex 5 linePrims (scanBounds linePrims 0 5) =
        Outcome.done st' →
      ∀ nd, st'.nodes[0]? = some nd → nd.numChildren ≠ 2) := by
  refine ⟨by decide, by decide, by decide, by decide, ?_⟩
  intro env threadIndex st' hmin hdepth hsplit hexact harea h nd hnd
  obtain ⟨_, nd', h2, h3, _⟩ := build_five_root_children env threadIndex linePrims _ st' rfl
    hmin hdepth hsplit hexact harea linePrims_proper.1 linePrims_proper.2 h
  rw [hnd] at h2
  simp only [Option.some.injEq] at h2
  subst h2
  omega

/-! ## Scenario S4: a balanced tree -/

theorem extend_self (b : BBox3fa) : b.extend b = b := by
  cases b with
  | mk lo hi =>
    cases lo; cases hi
    simp [BBox3fa.extend, Vec3fa.min, Vec3fa.max]

theorem empty_extend (b : BBox3fa) : BBox3fa.empty.extend b = b := by
  cases b with
  | mk lo hi =>
    cases lo; cases hi
    simp [BBox3fa.extend, BBox3fa.empty, Vec3fa.min, Vec3fa.max, pos_inf, neg_inf]

theorem foldl_extend_const (B : BBox3fa) (l : List BBox3fa) (h : ∀ b ∈ l, b = B) :
    l.foldl BBox3fa.extend B = B := by
  induction l with
  | nil => rfl
  | cons b l ih =>
    rw [List.foldl_cons, h b (List.mem_cons_self _ _), extend_self]
    exact ih (fun b' hb' => h b' (List.mem_cons_of_mem _ hb'))

/-- The union of a non-empty range of primitives that all have the box `B`
is `B`. -/
theorem rangeUnion_identical (P : List PrimRef) (B : BBox3fa) (lo hi : Nat) (hlt : lo < hi)
    (h : ∀ i, lo ≤ i → i < hi → (primAt P i).bounds = B) : rangeUnion P lo hi = B := by
  unfold rangeUnion
  obtain ⟨k, hk⟩ : ∃ k, hi - lo = k + 1 := ⟨hi - lo - 1, by omega⟩
  rw [hk, List.range'_succ, List.map_cons, List.foldl_cons, h lo (le_refl _) hlt, empty_extend]
  apply foldl_extend_const
  intro b hb
  rw [List.mem_map] at hb
  obtain ⟨i, hi', rfl⟩ := hb
  rw [List.mem_range'_1] at hi'
  exact h i (by omega) (by omega)

theorem isPart_size {c : BuildRecord} {B : BBox3fa} {b e d : Nat} (h : IsPart c B b e d)
    (hbe : b ≤ e) : c.size = e - b := by
  obtain ⟨h1, h2, _, _⟩ := h
  rw [size_of_le _ (by omega), h1, h2]

/-- With equal areas the search takes the first child that has more than
`minLeafSize` primitives. -/
theorem findBestChild_lowest (env : Env) (cs : List BuildRecord) (a : Flt) (j0 : Nat)
    (c0 : BuildRecord)
    (hall : ∀ c ∈ cs, env.minLeafSize < c.size → sceneArea env c = some a) (ha : neg_inf < a)
    (h0 : cs[j0]? = some c0) (hs0 : env.minLeafSize < c0.size)
    (hbefore : ∀ i c, i < j0 → cs[i]? = some c → c.size ≤ env.minLeafSize) :
    findBestChild env cs = some j0 := by
  have hb := bestSoFar_fold env cs (fun c hc hs => ⟨a, hall c hc hs, ha⟩)
  unfold BestSoFar at hb
  unfold findBestChild
  cases hacc : (cs.enum.foldl (bestStep env) (none, neg_inf)).1 with
  | none =>
    rw [hacc] at hb
    have := hb.2 c0 (List.getElem?_mem h0)
    omega
  | some j =>
    rw [hacc] at hb
    obtain ⟨c, h1, h2, h3, h4⟩ := hb
    have e1 := hall c (List.getElem?_mem h1) h2
    rw [h3] at e1
    simp only [Option.some.injEq] at e1
    obtain ⟨_, hlt⟩ := h4 j0 c0 a h0 hs0 (hall c0 (List.getElem?_mem h0) hs0)
    rw [e1] at hlt
    have hj1 : ¬ j0 < j := fun hjj => lt_irrefl a (hlt hjj)
    have hj2 : ¬ j < j0 := by
      intro hjj
      have := hbefore j c hjj h1
      omega
    have : j = j0 := by omega
    rw [this]

/-- When no child has more than `minLeafSize` primitives the search finds
none. -/
theorem findBestChild_none (env : Env) (cs : List BuildRecord)
    (h : ∀ c ∈ cs, c.size ≤ env.minLeafSize) : findBestChild env cs = none := by
  cases hf : findBestChild env cs with
  | none => rfl
  | some j =>
    have h1 := findBestChild_size env cs j hf
    have h2 := findBestChild_lt env cs j hf
    have hm : cs.getD j BuildRecord.blank ∈ cs := by
      rw [List.getD_eq_getElem?_getD, List.getElem?_eq_getElem h2]
      exact List.getElem_mem _
    have := h _ hm
    omega

/-- When the object binner finds no split, the sequential split of a record
with an even number `2 * h` of primitives that all have the box `B` leaves
the array alone and returns the two halves, each with the bounds `B`. -/
theorem split_halves (env : Env) (hnone : ∀ P b e g c, env.objectSplit P b e g c = none)
    (P : List PrimRef) (B : BBox3fa) (r : BuildRecord) (b h d : Nat) (hh : 1 ≤ h)
    (hb : r.begin = b) (he : r.end_ = b + 2 * h) (h32 : b + 2 * h ≤ 2 ^ 32)
    (hB : ∀ i, b ≤ i → i < b + 2 * h → (primAt P i).bounds = B) :
    (split env Mode.RECURSE_SEQUENTIAL P r).1 = P ∧
    IsPart ((split env Mode.RECURSE_SEQUENTIAL P r).2.1.initDepth d) B b (b + h) d ∧
    IsPart ((split env Mode.RECURSE_SEQUENTIAL P r).2.2.initDepth d) B (b + h) (b + 2 * h) d := by
  have hs : split env Mode.RECURSE_SEQUENTIAL P r = (P, splitFallback P r) := by
    rw [split_sequential]
    unfold splitSequential
    rw [hnone]
  have hc : splitFallback.center r = b + h := by
    rw [center_eq r (by omega) (by omega), hb, he]
    omega
  rw [hs]
  refine ⟨rfl, ⟨hb, hc, rfl, ?_⟩, ⟨hc, he, rfl, ?_⟩⟩
  · show (scanBounds P r.begin (splitFallback.center r)).geomBounds = B
    rw [scanBounds_geomBounds, hb, hc]
    exact rangeUnion_identical P B _ _ (by omega) (fun i h1 h2 => hB i h1 (by omega))
  · show (scanBounds P (splitFallback.center r) r.end_).geomBounds = B
    rw [scanBounds_geomBounds, he, hc]
    exact rangeUnion_identical P B _ _ (by omega) (fun i h1 h2 => hB i (by omega) h2)

theorem placeChildren_pair (l r x y : BuildRecord) : placeChildren [l, r] 0 x y = [r, x, y] := rfl

theorem placeChildren_triple (c0 c1 c2 x y : BuildRecord) :
    placeChildren [c0, c1, c2] 0 x y = [c2, c1, x, y] := rfl

theorem sceneArea_of_isPart (env : Env) (B : BBox3fa) (a : Flt) (harea : env.area B = some a)
    {c : BuildRecord} {b e d : Nat} (h : IsPart c B b e d) : sceneArea env c = some a := by
  unfold sceneArea
  rw [h.2.2.2, harea]

/-- Every split the median fallback, all primitives with the box `B`: a
record of `2 * minLeafSize` primitives is expanded into its two halves. -/
theorem expandLoop_two (env : Env) (hnone : ∀ P b e g c, env.objectSplit P b e g c = none)
    (P : List PrimRef) (B : BBox3fa) (a : Flt) (harea : env.area B = some a) (ha : neg_inf < a)
    (cur : BuildRecord) (b d : Nat) (hm : 1 ≤ env.minLeafSize)
    (hcur : IsPart cur B b (b + 2 * env.minLeafSize) d)
    (h32 : b + 2 * env.minLeafSize ≤ 2 ^ 32)
    (hB : ∀ i, b ≤ i → i < b + 2 * env.minLeafSize → (primAt P i).bounds = B) :
    ∃ l r, expandLoop env Mode.RECURSE_SEQUENTIAL d (BVH4.N - 1) [cur] P = ([l, r], P) ∧
      IsPart l B b (b + env.minLeafSize) (d + 1) ∧
      IsPart r B (b + env.minLeafSize) (b + 2 * env.minLeafSize) (d + 1) := by
  have hsz := isPart_size hcur (by omega)
  have f1 : findBestChild env [cur] = some 0 :=
    findBestChild_lowest env [cur] a 0 cur
      (fun c hc _ => by
        rw [List.mem_singleton] at hc
        rw [hc]
        exact sceneArea_of_isPart env B a harea hcur)
      ha rfl (by omega) (fun i c hi _ => by omega)
  obtain ⟨s1, pl, pr⟩ := split_halves env hnone P B cur b env.minLeafSize (d + 1) hm hcur.1
    hcur.2.1 h32 hB
  rw [show BVH4.N - 1 = 2 + 1 from rfl, expandLoop_succ, f1]
  simp only [List.getD_cons_zero, placeChildren_singleton, s1]
  generalize (split env Mode.RECURSE_SEQUENTIAL P cur).2.1.initDepth (d + 1) = L at pl ⊢
  generalize (split env Mode.RECURSE_SEQUENTIAL P cur).2.2.initDepth (d + 1) = R at pr ⊢
  have f2 : findBestChild env [L, R] = none := by
    apply findBestChild_none
    intro c hc
    simp only [List.mem_cons, List.mem_singleton, List.not_mem_nil, or_false] at hc
    rcases hc with rfl | rfl
    · rw [isPart_size pl (by omega)]; omega
    · rw [isPart_size pr (by omega)]; omega
  rw [expandLoop_succ, f2]
  exact ⟨L, R, rfl, pl, pr⟩

/-- Every split the median fallback, all primitives with the box `B`: a
record of `4 * q` primitives, `q ≥ minLeafSize`, is expanded into its four
quarters; they end up in the slot order second, first, third, fourth. -/
theorem expandLoop_four (env : Env) (hnone : ∀ P b e g c, env.objectSplit P b e g c = none)
    (P : List PrimRef) (B : BBox3fa) (a : Flt) (harea : env.area B = some a) (ha : neg_inf < a)
    (cur : BuildRecord) (b d q : Nat) (hm : 1 ≤ env.minLeafSize) (hq : env.minLeafSize ≤ q)
    (hcur : IsPart cur B b (b + 4 * q) d) (h32 : b + 4 * q ≤ 2 ^ 32)
    (hB : ∀ i, b ≤ i → i < b + 4 * q → (primAt P i).bounds = B) :
    ∃ c0 c1 c2 c3,
      expandLoop env Mode.RECURSE_SEQUENTIAL d (BVH4.N - 1) [cur] P = ([c0, c1, c2, c3], P) ∧
      IsPart c0 B (b + q) (b + 2 * q) (d + 1) ∧ IsPart c1 B b (b + q) (d + 1) ∧
      IsPart c2 B (b + 2 * q) (b + 3 * q) (d + 1) ∧
      IsPart c3 B (b + 3 * q) (b + 4 * q) (d + 1) := by
  have hsz := isPart_size hcur (by omega)
  have f1 : findBestChild env [cur] = some 0 :=
    findBestChild_lowest env [cur] a 0 cur
      (fun c hc _ => by
        rw [List.mem_singleton] at hc
        rw [hc]
        exact sceneArea_of_isPart env B a harea hcur)
      ha rfl (by omega) (fun i c hi _ => by omega)
  obtain ⟨s1, pl, pr⟩ := split_halves env hnone P B cur b (2 * q) (d + 1) (by omega) hcur.1
    (by rw [hcur.2.1]; omega) (by omega) (fun i h1 h2 => hB i h1 (by omega))
  rw [show BVH4.N - 1 = 2 + 1 from rfl, expandLoop_succ, f1]
  simp only [List.getD_cons_zero, placeChildren_singleton, s1]
  generalize (split env Mode.RECURSE_SEQUENTIAL P cur).2.1.initDepth (d + 1) = L at pl ⊢
  generalize (split env Mode.RECURSE_SEQUENTIAL P cur).2.2.initDepth (d + 1) = R at pr ⊢
  -- second round: the first half is split
  have hLs := isPart_size pl (by omega)
  have hRs := isPart_size pr (by omega)
  have f2 : findBestChild env [L, R] = some 0 :=
    findBestChild_lowest env [L, R] a 0 L
      (fun c hc _ => by
        simp only [List.mem_cons, List.mem_singleton, List.not_mem_nil, or_false] at hc
        rcases hc with rfl | rfl
        · exact sceneArea_of_isPart env B a harea pl
        · exact sceneArea_of_isPart env B a harea pr)
      ha rfl (by omega) (fun i c hi _ => by omega)
  obtain ⟨s2, pl1, pl2⟩ := split_halves env hnone P B L b q (d + 1) (by omega) pl.1
    pl.2.1 (by omega) (fun i h1 h2 => hB i h1 (by omega))
  rw [expandLoop_succ, f2]
  simp only [List.getD_cons_zero, placeChildren_pair, s2]
  generalize (split env Mode.RECURSE_SEQUENTIAL P L).2.1.initDepth (d + 1) = L1 at pl1 ⊢
  generalize (split env Mode.RECURSE_SEQUENTIAL P L).2.2.initDepth (d + 1) = L2 at pl2 ⊢
  -- third round: the second half, now in slot 0, is split
  have f3 : findBestChild env [R, L1, L2] = some 0 :=
    findBestChild_lowest env [R, L1, L2] a 0 R
      (fun c hc _ => by
        simp only [List.mem_cons, List.mem_singleton, List.not_mem_nil, or_false] at hc
        rcases hc with rfl | rfl | rfl
        · exact sceneArea_of_isPart env B a harea pr
        · exact sceneArea_of_isPart env B a harea pl1
        · exact sceneArea_of_isPart env B a harea pl2)
      ha rfl (by omega) (fun i c hi _ => by omega)
  obtain ⟨s3, pr1, pr2⟩ := split_halves env hnone P B R (b + 2 * q) q (d + 1) (by omega) pr.1
    (by rw [pr.2.1]; omega) (by omega) (fun i h1 h2 => hB i (by omega) (by omega))
  rw [expandLoop_succ, f3]
  simp only [List.getD_cons_zero, placeChildren_triple, s3]
  generalize (split env Mode.RECURSE_SEQUENTIAL P R).2.1.initDepth (d + 1) = R1 at pr1 ⊢
  generalize (split env Mode.RECURSE_SEQUENTIAL P R).2.2.initDepth (d + 1) = R2 at pr2 ⊢
  refine ⟨L2, L1, R1, R2, rfl, ?_, pl1, ?_, ?_⟩
  · obtain ⟨h1, h2, h3, h4⟩ := pl2
    exact ⟨h1, by omega, h3, h4⟩
  · obtain ⟨h1, h2, h3, h4⟩ := pr1
    exact ⟨h1, by omega, h3, h4⟩
  · obtain ⟨h1, h2, h3, h4⟩ := pr2
    exact ⟨by omega, by omega, h3, h4⟩

/-- The children loop of a balanced build: when each call on a child of `q`
primitives is balanced, so is the loop. -/
theorem forChildren_balanced (body : Nat → BuildRecord → State → Outcome)
    (upd : Nat → BuildRecord → BuildRecord) (call : BuildRecord → State → Outcome)
    (m j d node q : Nat) (P0 : List PrimRef)
    (hbody : ∀ i c s, body i c s = call (upd i c) (s.setBounds node i c)) :
    ∀ (cs : List BuildRecord) (i : Nat) (s : State),
      (∀ c ∈ cs, c.size = q ∧ ∀ k s1, s1.prims = P0 →
        ∃ s2, call (upd k c) s1 = Outcome.done s2 ∧ BalancedPost m j d s1 s2) →
      s.prims = P0 → node < s.nodes.length →
      ∃ s', forChildren body i cs s = Outcome.done s' ∧
        BalancedLoop m j d node cs.length q s s' := by
  intro cs
  induction cs with
  | nil =>
    intro i s _ _ _
    refine ⟨s, rfl, rfl, le_refl _, ⟨[], by simp, by simp, by simp⟩, ⟨[], by simp, by simp, by simp⟩⟩
  | cons c rest ih =>
    intro i s hcs hP hnode
    obtain ⟨hq, hcall⟩ := hcs c (List.mem_cons_self _ _)
    obtain ⟨s1, hc1, p1, n1, ⟨new1, l1, len1, lp1⟩, ⟨log1, g1, gi1, gp1⟩⟩ :=
      hcall i (s.setBounds node i c) (by simpa using hP)
    have hn1 : s.nodes.length ≤ s1.nodes.length := by simpa using n1
    obtain ⟨s', hrest, p2, n2, ⟨new2, l2, len2, lp2⟩, ⟨log2, g2, gi2, gp2⟩⟩ :=
      ih (i + 1) s1 (fun c' hc' => hcs c' (List.mem_cons_of_mem _ hc'))
        (by rw [p1]; simpa using hP) (by omega)
    refine ⟨s', ?_, ?_, by omega, ⟨new1 ++ new2, ?_, ?_, ?_⟩, ⟨(node, i, c) :: log1 ++ log2, ?_, ?_, ?_⟩⟩
    · rw [forChildren_cons, hbody, hc1]
      exact hrest
    · rw [p2, p1]; rfl
    · rw [l2, l1]; simp
    · rw [List.length_append, len1, len2, List.length_cons]
      ring
    · intro x hx
      rcases List.mem_append.1 hx with hx | hx
      · exact lp1 x hx
      · exact lp2 x hx
    · rw [g2, g1]; simp
    · intro e he
      simp only [List.cons_append, List.mem_cons, List.mem_append] at he
      rcases he with rfl | he | he
      · exact Or.inl ⟨rfl, hq⟩
      · have := gi1 e he
        simp only [setBounds_nodes_length] at this
        exact Or.inr ⟨this.1, by omega⟩
      · rcases gi2 e he with h | h
        · exact Or.inl h
        · exact Or.inr ⟨by omega, h.2⟩
    · have key : ∀ e, e ∈ (node, i, c) :: log1 ++ log2 →
          (e.1 = node ∧ e.2.2.size = q) ∨ (e ∈ log1 ∧ s.nodes.length ≤ e.1 ∧ e.1 < s1.nodes.length) ∨
          (e ∈ log2 ∧ s1.nodes.length ≤ e.1) := by
        intro e he
        simp only [List.cons_append, List.mem_cons, List.mem_append] at he
        rcases he with rfl | he | he
        · exact Or.inl ⟨rfl, hq⟩
        · have := gi1 e he
          simp only [setBounds_nodes_length] at this
          exact Or.inr (Or.inl ⟨he, this.1, this.2⟩)
        · rcases gi2 e he with h | h
          · exact Or.inl h
          · exact Or.inr (Or.inr ⟨he, h.1⟩)
      intro e1 he1 e2 he2 heq
      rcases key e1 he1 with ⟨a1, b1⟩ | ⟨a1, b1, c1⟩ | ⟨a1, b1⟩ <;>
        rcases key e2 he2 with ⟨a2, b2⟩ | ⟨a2, b2, c2⟩ | ⟨a2, b2⟩
      · rw [b1, b2]
      · omega
      · omega
      · omega
      · exact gp1 e1 a1 e2 a2 heq
      · omega
      · omega
      · omega
      · exact gp2 e1 a1 e2 a2 heq

/-- One level of a balanced build: `recurse` on a record that the expansion
loop turns into the children `cs`, each of `q` primitives and each built
balanced one level down, ends normally and is balanced. -/
theorem recurse_balanced_step (env : Env) (threadID : Nat) (m j q : Nat) (cur : BuildRecord)
    (st : State) (cs : List BuildRecord)
    (hexp : expandLoop env Mode.RECURSE_SEQUENTIAL cur.depth (BVH4.N - 1) [cur] st.prims =
      (cs, st.prims))
    (hlen : cs.length ≠ 1) (hd : cur.depth < env.maxBuildDepth)
    (hsz : ¬ cur.size ≤ env.minLeafSize)
    (hcs : ∀ c ∈ cs, c.size = q ∧ c.depth = cur.depth + 1 ∧ ∀ k s1, s1.prims = st.prims →
      ∃ s2, recurse env threadID Mode.RECURSE_SEQUENTIAL
          { c with parent := Slot.child st.nodes.length k } s1 = Outcome.done s2 ∧
        BalancedPost m j (cur.depth + 1) s1 s2) :
    ∃ st', recurse env threadID Mode.RECURSE_SEQUENTIAL cur st = Outcome.done st' ∧
      BalancedLoop m j (cur.depth + 1) st.nodes.length cs.length q
        ((({ st with prims := st.prims } : State).allocNode.2).store cur.parent
          (encodeNode st.nodes.length)) st' := by
  have hc : ¬ (cur.depth ≥ env.maxBuildDepth ∨ cur.size ≤ env.minLeafSize) := by
    intro hc
    rcases hc with hc | hc
    · omega
    · exact hsz hc
  unfold recurse
  rw [recurseF_unfold]
  simp only [hexp, if_neg hc, if_neg hlen]
  apply forChildren_balanced _ (fun i c => { c with parent := Slot.child st.nodes.length i })
    (recurseF env threadID (env.maxBuildDepth - cur.depth) Mode.RECURSE_SEQUENTIAL)
    m j (cur.depth + 1) st.nodes.length q st.prims
    (fun i c s => by simp [recurse_continue]) cs 0
  · intro c hcm
    obtain ⟨h1, h2, h3⟩ := hcs c hcm
    refine ⟨h1, fun k s1 hs1 => ?_⟩
    obtain ⟨s2, hr, hp⟩ := h3 k s1 hs1
    refine ⟨s2, ?_, hp⟩
    unfold recurse at hr
    have hf : env.maxBuildDepth - ({ c with parent := Slot.child st.nodes.length k } :
        BuildRecord).depth + 1 = env.maxBuildDepth - cur.depth := by
      show env.maxBuildDepth - c.depth + 1 = env.maxBuildDepth - cur.depth
      omega
    rw [hf] at hr
    exact hr
  · simp
  · simp

theorem balancedPost_of_loop (m j j' d q k : Nat) (st st' : State) (slot : Slot) (ref : NodeRef)
    (hk : k * 2 ^ j' = 2 ^ j) (hlev : d + 1 + (j' + 1) / 2 = d + (j + 1) / 2)
    (h : BalancedLoop m j' (d + 1) st.nodes.length k q
      ((({ st with prims := st.prims } : State).allocNode.2).store slot ref) st') :
    BalancedPost m j d st st' := by
  obtain ⟨p, n, ⟨new, l1, l2, l3⟩, ⟨log, g1, g2, g3⟩⟩ := h
  simp only [store_prims, allocNode_prims, store_nodes_length, allocNode_nodes_length,
    store_leafCalls, allocNode_leafCalls, store_setLog, allocNode_setLog] at p n l1 g1 g2
  refine ⟨p, by omega, ⟨new, l1, by rw [l2, hk], ?_⟩, ⟨log, g1, ?_, g3⟩⟩
  · intro c hc
    rw [← hlev]
    exact l3 c hc
  · intro e he
    rcases g2 e he with h | h
    · omega
    · omega

theorem recurse_small (env : Env) (threadID : Nat) (cur : BuildRecord) (st : State)
    (hd : cur.depth ≤ env.maxBuildDepthLeaf) (hs : cur.size ≤ env.minLeafSize) :
    recurse env threadID Mode.RECURSE_SEQUENTIAL cur st =
      Outcome.done (createSmallLeaf env cur st) := by
  unfold recurse
  rw [recurseF_unfold]
  simp only [if_pos (Or.inr hs : cur.depth ≥ env.maxBuildDepth ∨ cur.size ≤ env.minLeafSize)]
  exact createLeaf_small env cur st hd hs

/-- Every split the median fallback, all primitives with the box `B`: the
sequential `recurse` on a record of `minLeafSize * 2 ^ j` primitives, with
room for `(j + 1) / 2` more levels, ends normally and is balanced. -/
theorem recurse_balanced (env : Env) (threadID : Nat)
    (hnone : ∀ P b e g c, env.objectSplit P b e g c = none)
    (B : BBox3fa) (a : Flt) (harea : env.area B = some a) (ha : neg_inf < a)
    (P0 : List PrimRef) (n : Nat) (hB : ∀ i, i < n → (primAt P0 i).bounds = B)
    (hn : n ≤ 2 ^ 32) (hm : 1 ≤ env.minLeafSize) :
    ∀ (j : Nat) (cur : BuildRecord) (st : State) (b : Nat), st.prims = P0 →
      IsPart cur B b (b + env.minLeafSize * 2 ^ j) cur.depth →
      b + env.minLeafSize * 2 ^ j ≤ n →
      cur.depth + (j + 1) / 2 ≤ env.maxBuildDepthLeaf →
      cur.depth + (j + 1) / 2 ≤ env.maxBuildDepth →
      ∃ st', recurse env threadID Mode.RECURSE_SEQUENTIAL cur st = Outcome.done st' ∧
        BalancedPost env.minLeafSize j cur.depth st st' := by
  intro j
  induction j using Nat.strong_induction_on with
  | _ j ih =>
    intro cur st b hP hcur hbn hdl hdm
    have hsz := isPart_size hcur (by omega)
    have child : ∀ (j' : Nat), j' < j →
        cur.depth + 1 + (j' + 1) / 2 ≤ env.maxBuildDepthLeaf →
        cur.depth + 1 + (j' + 1) / 2 ≤ env.maxBuildDepth →
        ∀ (c : BuildRecord) (b' : Nat),
        IsPart c B b' (b' + env.minLeafSize * 2 ^ j') (cur.depth + 1) →
        b' + env.minLeafSize * 2 ^ j' ≤ n →
        c.size = env.minLeafSize * 2 ^ j' ∧ c.depth = cur.depth + 1 ∧
        ∀ k s1, s1.prims = st.prims →
          ∃ s2, recurse env threadID Mode.RECURSE_SEQUENTIAL
              { c with parent := Slot.child st.nodes.length k } s1 = Outcome.done s2 ∧
            BalancedPost env.minLeafSize j' (cur.depth + 1) s1 s2 := by
      intro j' hj' hd1 hd2 c b' hc hb'
      refine ⟨by rw [isPart_size hc (by omega)]; omega, hc.2.2.1, fun k s1 hs1 => ?_⟩
      have e : ({ c with parent := Slot.child st.nodes.length k } : BuildRecord).depth =
          cur.depth + 1 := hc.2.2.1
      have := ih j' hj' { c with parent := Slot.child st.nodes.length k } s1 b'
        (by rw [hs1, hP])
        (by
          obtain ⟨h1, h2, h3, h4⟩ := hc
          exact ⟨h1, h2, rfl, h4⟩)
        hb' (by rw [e]; exact hd1) (by rw [e]; exact hd2)
      obtain ⟨s2, h1, h2⟩ := this
      rw [e] at h2
      exact ⟨s2, h1, h2⟩
    rcases Nat.lt_or_ge j 1 with hj0 | hj1
    · -- a leaf
      have hj : j = 0 := by omega
      subst hj
      simp only [pow_zero, Nat.mul_one] at hsz hcur hbn
      refine ⟨createSmallLeaf env cur st,
        recurse_small env threadID cur st (by omega) (by omega), ?_⟩
      refine ⟨by simp, by simp, ⟨[(cur, leafPrims st.prims cur)], by simp, by simp, ?_⟩,
        ⟨[], by simp, by simp, by simp⟩⟩
      intro c hc
      simp only [List.mem_singleton] at hc
      subst hc
      exact ⟨by show cur.size = env.minLeafSize; rw [hsz, Nat.add_sub_cancel_left], by simp⟩
    · have hgt : ¬ cur.size ≤ env.minLeafSize := by
        have : 2 ≤ 2 ^ j := by
          calc 2 = 2 ^ 1 := rfl
            _ ≤ 2 ^ j := Nat.pow_le_pow_right (by omega) hj1
        rw [hsz]
        have h2 : env.minLeafSize * 2 ≤ env.minLeafSize * 2 ^ j := Nat.mul_le_mul_left _ this
        omega
      have hdlt : cur.depth < env.maxBuildDepth := by omega
      rcases Nat.lt_or_ge j 2 with hj | hj2
      · -- a node with two leaves
        have hj : j = 1 := by omega
        subst hj
        simp only [pow_one] at hsz hcur hbn
        have hcur2 : IsPart cur B b (b + 2 * env.minLeafSize) cur.depth := by
          obtain ⟨h1, h2, h3, h4⟩ := hcur
          exact ⟨h1, by omega, h3, h4⟩
        obtain ⟨l, r, hexp, pl, pr⟩ := expandLoop_two env hnone st.prims B a harea ha cur b
          cur.depth hm hcur2 (by omega) (fun i _ h2 => by rw [hP]; exact hB i (by omega))
        have hchild : ∀ c ∈ [l, r], c.size = env.minLeafSize ∧ c.depth = cur.depth + 1 ∧
            ∀ k s1, s1.prims = st.prims →
            ∃ s2, recurse env threadID Mode.RECURSE_SEQUENTIAL
                { c with parent := Slot.child st.nodes.length k } s1 = Outcome.done s2 ∧
              BalancedPost env.minLeafSize 0 (cur.depth + 1) s1 s2 := by
          intro c hc
          simp only [List.mem_cons, List.mem_singleton, List.not_mem_nil, or_false] at hc
          have h0 := child 0 (by omega) (by omega) (by omega) c
          simp only [pow_zero, Nat.mul_one] at h0
          rcases hc with rfl | rfl
          · exact h0 b pl (by omega)
          · exact h0 (b + env.minLeafSize) (by
              obtain ⟨h1, h2, h3, h4⟩ := pr
              exact ⟨h1, by omega, h3, h4⟩) (by omega)
        obtain ⟨st', hr, hl⟩ := recurse_balanced_step env threadID env.minLeafSize 0
          env.minLeafSize cur st [l, r] hexp (by simp) hdlt hgt hchild
        exact ⟨st', hr, balancedPost_of_loop _ 1 0 _ _ _ st st' _ _ (by simp) (by omega) hl⟩
      · -- a node with four children
        obtain ⟨j', rfl⟩ : ∃ j', j = j' + 2 := ⟨j - 2, by omega⟩
        have hq4 : env.minLeafSize * 2 ^ (j' + 2) = 4 * (env.minLeafSize * 2 ^ j') := by ring
        have hqm : env.minLeafSize ≤ env.minLeafSize * 2 ^ j' :=
          Nat.le_mul_of_pos_right _ (Nat.two_pow_pos j')
        rw [hq4] at hsz hcur hbn
        obtain ⟨c0, c1, c2, c3, hexp, p0, p1, p2, p3⟩ := expandLoop_four env hnone st.prims B a
          harea ha cur b cur.depth (env.minLeafSize * 2 ^ j') hm hqm hcur (by omega)
          (fun i _ h2 => by rw [hP]; exact hB i (by omega))
        have hchild : ∀ c ∈ [c0, c1, c2, c3],
            c.size = env.minLeafSize * 2 ^ j' ∧ c.depth = cur.depth + 1 ∧
            ∀ k s1, s1.prims = st.prims →
            ∃ s2, recurse env threadID Mode.RECURSE_SEQUENTIAL
                { c with parent := Slot.child st.nodes.length k } s1 = Outcome.done s2 ∧
              BalancedPost env.minLeafSize j' (cur.depth + 1) s1 s2 := by
          intro c hc
          simp only [List.mem_cons, List.mem_singleton, List.not_mem_nil, or_false] at hc
          have h0 := child j' (by omega) (by omega) (by omega) c
          rcases hc with rfl | rfl | rfl | rfl
          · exact h0 (b + env.minLeafSize * 2 ^ j') (by
              obtain ⟨h1, h2, h3, h4⟩ := p0
              exact ⟨h1, by omega, h3, h4⟩) (by omega)
          · exact h0 b p1 (by omega)
          · exact h0 (b + 2 * (env.minLeafSize * 2 ^ j')) (by
              obtain ⟨h1, h2, h3, h4⟩ := p2
              exact ⟨h1, by omega, h3, h4⟩) (by omega)
          · exact h0 (b + 3 * (env.minLeafSize * 2 ^ j')) (by
              obtain ⟨h1, h2, h3, h4⟩ := p3
              exact ⟨h1, by omega, h3, h4⟩) (by omega)
        obtain ⟨st', hr, hl⟩ := recurse_balanced_step env threadID env.minLeafSize j'
          (env.minLeafSize * 2 ^ j') cur st [c0, c1, c2, c3] hexp (by simp) hdlt hgt hchild
        exact ⟨st', hr, balancedPost_of_loop _ (j' + 2) j' _ _ _ st st' _ _ (by simp; ring)
          (by omega) hl⟩

theorem primAt_bounds_of_forall (prims : List PrimRef) (B : BBox3fa)
    (hB : ∀ p ∈ prims, p.bounds = B) (i : Nat) (hi : i < prims.length) :
    (primAt prims i).bounds = B := by
  unfold primAt
  rw [List.getD_eq_getElem?_getD, List.getElem?_eq_getElem hi]
  exact hB _ (List.getElem_mem _)

/-- A sequential build over `minLeafSize * 2 ^ j` primitives with identical
bounds in which every split is the median fallback: it ends normally; the
children stored in one node have equal sizes; there are `2 ^ j` leaves, each
with `minLeafSize` primitives, at depth `1 + (j + 1) / 2`, below
`(j + 1) / 2` interior nodes. -/
theorem build_balanced (env : Env) (threadIndex : Nat) (prims : List PrimRef) (B : BBox3fa)
    (a : Flt) (j : Nat) (hlen : prims.length ≤ 2 ^ 32) (hB : ∀ p ∈ prims, p.bounds = B)
    (hnone : ∀ P b e g c, env.objectSplit P b e g c = none)
    (harea : env.area B = some a) (ha : neg_inf < a)
    (hm : env.minLeafSize * 2 ^ j = prims.length) (hm1 : 1 ≤ env.minLeafSize)
    (hdl : 1 + (j + 1) / 2 ≤ env.maxBuildDepthLeaf) (hdm : 1 + (j + 1) / 2 ≤ env.maxBuildDepth) :
    ∃ st', build_sequential env threadIndex prims.length prims
        (scanBounds prims 0 prims.length) = Outcome.done st' ∧
      (∀ e1 ∈ st'.setLog, ∀ e2 ∈ st'.setLog, e1.1 = e2.1 → e1.2.2.size = e2.2.2.size) ∧
      st'.leafCalls.length = 2 ^ j ∧
      ∀ c ∈ st'.leafCalls, c.1.size = env.minLeafSize ∧ c.1.depth = 1 + (j + 1) / 2 ∧
        nodesAbove st' c.1.parent = (j + 1) / 2 := by
  have hpos : 0 < prims.length := by
    rw [← hm]
    exact Nat.mul_pos hm1 (Nat.two_pow_pos j)
  have hBi := primAt_bounds_of_forall prims B hB
  have hroot : IsPart (rootRecord (scanBounds prims 0 prims.length) prims.length) B 0
      (0 + env.minLeafSize * 2 ^ j)
      (rootRecord (scanBounds prims 0 prims.length) prims.length).depth := by
    refine ⟨rfl, by rw [hm, Nat.zero_add]; rfl, rfl, ?_⟩
    show (scanBounds prims 0 prims.length).geomBounds = B
    rw [scanBounds_geomBounds]
    exact rangeUnion_identical prims B 0 _ hpos (fun i _ hi => hBi i hi)
  obtain ⟨st', hr, hp, _, ⟨new, l1, l2, l3⟩, ⟨log, g1, _, g3⟩⟩ :=
    recurse_balanced env threadIndex hnone B a harea ha prims prims.length hBi hlen hm1 j
      (rootRecord (scanBounds prims 0 prims.length) prims.length)
      (initialState prims (scanBounds prims 0 prims.length)) 0 rfl hroot
      (by rw [hm, Nat.zero_add]) hdl hdm
  refine ⟨st', hr, ?_, ?_, ?_⟩
  · have : st'.setLog = log := by rw [g1]; rfl
    rw [this]
    exact g3
  · have : st'.leafCalls = new := by rw [l1]; rfl
    rw [this, l2]
  · have hnew : st'.leafCalls = new := by rw [l1]; rfl
    have hinv := recurse_depth env threadIndex _ _ _ hr
    obtain ⟨_, _, _, new', hl', hc'⟩ := hinv
      (by simp [State.published, initialState, nodeSlots])
      (by simp [rootRecord, State.hasSlot])
      (by simp [rootRecord, nodesAbove, slotLevel])
    intro c hc
    have h1 : c ∈ new := by rw [← hnew]; exact hc
    have h2 : c ∈ new' := by
      rw [hl'] at hc
      simpa [initialState] using hc
    obtain ⟨s1, s2⟩ := l3 c h1
    obtain ⟨_, _, s3⟩ := hc' c h2
    have s4 : (rootRecord (scanBounds prims 0 prims.length) prims.length).depth = 1 := rfl
    rw [s4] at s2
    exact ⟨s1, s2, by omega⟩

theorem clusterPrims_length : clusterPrims.length = 1024 := by
  simp [clusterPrims]

theorem clusterPrims_bounds : ∀ p ∈ clusterPrims, p.bounds = ⟨diagPoint 0, diagPoint 1⟩ := by
  intro p hp
  simp only [clusterPrims, List.mem_map] at hp
  obtain ⟨i, _, rfl⟩ := hp
  rfl

/-- C20, as amended. Scenario S4: 1024 primitives with identical bounds and
every split the median fallback, with `minLeafSize * 2 ^ j = 1024` (so that
`j = log2(1024 / minLeafSize)`: 9, 8 and 7 for the `minLeafSize` 2, 4 and 8
of the layouts) and depth limits that leave room for `(j + 1) / 2` levels.
The sequential build ends normally and the tree is balanced: the children
stored in one interior node have equal sizes; all `2 ^ j` leaves have
`minLeafSize` primitives and lie at the same depth `1 + (j + 1) / 2`; and
every root-to-leaf path passes through `(j + 1) / 2 = ceil(j / 2)` interior
nodes: 5 levels for `minLeafSize = 2`, 4 for `minLeafSize = 4` and for
`minLeafSize = 8`. -/
theorem s4_balanced_tree (env : Env) (threadIndex : Nat) (prims : List PrimRef) (B : BBox3fa)
    (a : Flt) (j : Nat) (hlen : prims.length = 1024) (hB : ∀ p ∈ prims, p.bounds = B)
    (hnone : ∀ P b e g c, env.objectSplit P b e g c = none)
    (harea : env.area B = some a) (ha : neg_inf < a)
    (hm : env.minLeafSize * 2 ^ j = 1024)
    (hdl : 1 + (j + 1) / 2 ≤ env.maxBuildDepthLeaf) (hdm : 1 + (j + 1) / 2 ≤ env.maxBuildDepth) :
    1024 / env.minLeafSize = 2 ^ j ∧
    (env.minLeafSize = 2 → (j + 1) / 2 = 5) ∧ (env.minLeafSize = 4 → (j + 1) / 2 = 4) ∧
    (env.minLeafSize = 8 → (j + 1) / 2 = 4) ∧
    ∃ st', build_sequential env threadIndex 1024 prims (scanBounds prims 0 1024) =
        Outcome.done st' ∧
      (∀ e1 ∈ st'.setLog, ∀ e2 ∈ st'.setLog, e1.1 = e2.1 → e1.2.2.size = e2.2.2.size) ∧
      st'.leafCalls.length = 2 ^ j ∧
      ∀ c ∈ st'.leafCalls, c.1.size = env.minLeafSize ∧ c.1.depth = 1 + (j + 1) / 2 ∧
        nodesAbove st' c.1.parent = (j + 1) / 2 := by
  have hm1 : 1 ≤ env.minLeafSize := by
    rcases Nat.eq_zero_or_pos env.minLeafSize with h0 | h0
    · rw [h0] at hm
      simp at hm
    · exact h0
  have hj : ∀ m k, env.minLeafSize = m → m * 2 ^ k = 1024 → j = k := by
    intro m k h1 h2
    rw [h1] at hm
    have h3 : m * 2 ^ j = m * 2 ^ k := by rw [hm, h2]
    have h4 : 2 ^ j = 2 ^ k := Nat.eq_of_mul_eq_mul_left (by omega) h3
    exact Nat.pow_right_injective (le_refl 2) h4
  refine ⟨?_, ?_, ?_, ?_, ?_⟩
  · rw [← hm]
    exact Nat.mul_div_cancel_left _ (by omega)
  · intro h2
    rw [hj 2 9 h2 (by norm_num)]
  · intro h4
    rw [hj 4 8 h4 (by norm_num)]
  · intro h8
    rw [hj 8 7 h8 (by norm_num)]
  · have h := build_balanced env threadIndex prims B a j (by rw [hlen]; norm_num) hB hnone
      harea ha (by rw [hm, hlen]) hm1 hdl hdm
    rw [hlen] at h
    exact h

theorem s4_balanced_tree_witness :
    (clusterPrims.length = 1024 ∧
      (fallbackEnv Layout.triangle4 4).minLeafSize * 2 ^ 8 = 1024 ∧
      1 + (8 + 1) / 2 ≤ (fallbackEnv Layout.triangle4 4).maxBuildDepthLeaf ∧
      1 + (8 + 1) / 2 ≤ (fallbackEnv Layout.triangle4 4).maxBuildDepth) ∧
    ∃ st', build_sequential (fallbackEnv Layout.triangle4 4) 0 1024 clusterPrims
        (scanBounds clusterPrims 0 1024) = Outcome.done st' ∧
      st'.leafCalls.length = 256 ∧
      ∀ c ∈ st'.leafCalls, c.1.size = 4 ∧ c.1.depth = 5 ∧ nodesAbove st' c.1.parent = 4 := by
  refine ⟨⟨clusterPrims_length, by decide, by decide, by decide⟩, ?_⟩
  obtain ⟨_, _, _, _, st', h1, _, h3, h4⟩ := s4_balanced_tree (fallbackEnv Layout.triangle4 4) 0
    clusterPrims ⟨diagPoint 0, diagPoint 1⟩ 1 8 clusterPrims_length clusterPrims_bounds
    (fun _ _ _ _ _ => rfl) rfl (by decide) (by decide) (by decide) (by decide)
  exact ⟨st', h1, h3, h4⟩

/-- C20, counterexample. Scenario S4 under the `Triangle1` configuration
(`minLeafSize = 2`) with median splits: the build ends normally with 512
leaves of two primitives, all at depth 6, and every root-to-leaf path passes
through 5 interior nodes (of 1024, 256, 64, 16 and 4 primitives), whereas
`ceil(log2(1024 / 2)) / 2` is `9 / 2`, which is not 5, neither as a quotient
of integers nor as the fraction 4.5. -/
theorem s4_triangle1_has_five_levels :
    ∃ st', build_sequential (fallbackEnv Layout.triangle1 2) 0 1024 clusterPrims
        (scanBounds clusterPrims 0 1024) = Outcome.done st' ∧
      st'.leafCalls.length = 512 ∧
      (∀ c ∈ st'.leafCalls, c.1.size = 2 ∧ c.1.depth = 6 ∧ nodesAbove st' c.1.parent = 5) ∧
      Nat.clog 2 (1024 / (fallbackEnv Layout.triangle1 2).minLeafSize) = 9 ∧
      5 ≠ 9 / 2 ∧ 2 * 5 ≠ 9 := by
  have h := build_balanced (fallbackEnv Layout.triangle1 2) 0 clusterPrims
    ⟨diagPoint 0, diagPoint 1⟩ 1 9 (by rw [clusterPrims_length]; norm_num) clusterPrims_bounds
    (fun _ _ _ _ _ => rfl) rfl (by decide) (by rw [clusterPrims_length]; rfl) (by decide)
    (by decide) (by decide)
  rw [clusterPrims_length] at h
  obtain ⟨st', h1, _, h3, h4⟩ := h
  refine ⟨st', h1, h3, h4, ?_, by decide, by decide⟩
  have e : 1024 / (fallbackEnv Layout.triangle1 2).minLeafSize = 2 ^ 9 := by decide
  rw [e]
  exact Nat.clog_pow 2 9 (by decide)

/-! ## Child dispatch -/

/-- C21. Child dispatch by mode. In `BUILD_TOP_LEVEL` mode `recurse_continue`
pushes the child on the global heap and does not call `recurse`. In
`RECURSE_PARALLEL` mode a child of more than
`THRESHOLD_FOR_SUBTREE_RECURSION = 128` primitives is pushed on the stack of
the calling thread when that stack has room, and is processed by `recurse` in
`RECURSE_SEQUENTIAL` mode when the stack is full. In every other case, that
is in `RECURSE_SEQUENTIAL` mode and in `RECURSE_PARALLEL` mode with at most
128 primitives, the child is processed by `recurse` in the unchanged mode. -/
theorem recurse_continue_dispatch (env : Env)
    (recurse : Mode → BuildRecord → State → Outcome) (threadID : Nat)
    (current : BuildRecord) (st : State) :
    THRESHOLD_FOR_SUBTREE_RECURSION = 128 ∧
    recurse_continue env recurse Mode.BUILD_TOP_LEVEL threadID current st =
      Outcome.done ({ st with heap := st.heap ++ [current] } : State) ∧
    (128 < current.size → (st.stackOf threadID).length < env.stackSize →
      recurse_continue env recurse Mode.RECURSE_PARALLEL threadID current st =
        Outcome.done ({ st with
          threadStack := (st.threadStack.set threadID (current :: st.stackOf threadID)) } : State)) ∧
    (128 < current.size → env.stackSize ≤ (st.stackOf threadID).length →
      recurse_continue env recurse Mode.RECURSE_PARALLEL threadID current st =
        recurse Mode.RECURSE_SEQUENTIAL current st) ∧
    (current.size ≤ 128 →
      recurse_continue env recurse Mode.RECURSE_PARALLEL threadID current st =
        recurse Mode.RECURSE_PARALLEL current st) ∧
    recurse_continue env recurse Mode.RECURSE_SEQUENTIAL threadID current st =
      recurse Mode.RECURSE_SEQUENTIAL current st := by
  refine ⟨rfl, ?_, ?_, ?_, ?_, ?_⟩
  · simp [recurse_continue, State.heapPush]
  · intro hs hroom
    have hs' : current.size > THRESHOLD_FOR_SUBTREE_RECURSION := hs
    unfold State.stackOf at hroom
    simp only [recurse_continue, State.stackPush, hs', and_self, if_true, hroom, State.stackOf]
    simp
  · intro hs hfull
    have hs' : current.size > THRESHOLD_FOR_SUBTREE_RECURSION := hs
    have hn : ¬ (st.threadStack.getD threadID []).length < env.stackSize := by
      unfold State.stackOf at hfull; omega
    simp only [recurse_continue, State.stackPush, hs', and_self, if_true, hn]
    simp
  · intro hs
    have hs' : ¬ current.size > THRESHOLD_FOR_SUBTREE_RECURSION := by
      unfold THRESHOLD_FOR_SUBTREE_RECURSION; omega
    simp [recurse_continue, hs']
  · simp [recurse_continue]

theorem recurse_continue_dispatch_witness :
    recurse_continue (fallbackEnv Layout.triangle1 2) (recurse (fallbackEnv Layout.triangle1 2) 0)
        Mode.RECURSE_PARALLEL 0 (sampleRecord 129) (twoStacks [] []) =
      Outcome.done (twoStacks [sampleRecord 129] []) ∧
    recurse_continue (fullStackEnv Layout.triangle1 2)
        (recurse (fallbackEnv Layout.triangle1 2) 0)
        Mode.RECURSE_PARALLEL 0 (sampleRecord 129) (twoStacks [] []) =
      recurse (fallbackEnv Layout.triangle1 2) 0 Mode.RECURSE_SEQUENTIAL (sampleRecord 129)
        (twoStacks [] []) ∧
    recurse_continue (fallbackEnv Layout.triangle1 2) (recurse (fallbackEnv Layout.triangle1 2) 0)
        Mode.RECURSE_PARALLEL 0 (sampleRecord 128) (twoStacks [] []) =
      recurse (fallbackEnv Layout.triangle1 2) 0 Mode.RECURSE_PARALLEL (sampleRecord 128)
        (twoStacks [] []) :=
  ⟨(recurse_continue_dispatch (fallbackEnv Layout.triangle1 2)
      (recurse (fallbackEnv Layout.triangle1 2) 0) 0 (sampleRecord 129)
      (twoStacks [] [])).2.2.1 (by decide) (by decide),
   (recurse_continue_dispatch (fullStackEnv Layout.triangle1 2)
      (recurse (fallbackEnv Layout.triangle1 2) 0) 0 (sampleRecord 129)
      (twoStacks [] [])).2.2.2.1 (by decide) (by decide),
   (recurse_continue_dispatch (fallbackEnv Layout.triangle1 2)
      (recurse (fallbackEnv Layout.triangle1 2) 0) 0 (sampleRecord 128)
      (twoStacks [] [])).2.2.2.2.1 (by decide)⟩

/-! ## Leaves at top level -/

/-- C22. A leaf is produced in `BUILD_TOP_LEVEL` mode. For a scene of 96
triangles built with 95 threads under the `Triangle1` configuration
(`minLeafSize = 2`, `maxBuildDepth = 32`) and a parallel binner that
separates one primitive per split: after 31 rounds of the top-level loop the
heap holds 94 records, fewer than `threadCount`, and its largest record is
`[93, 96)` at depth 32 with 3 primitives; round 32 pops it, the guard
`br.size() <= minLeafSize` lets it pass, and `recurse` in `BUILD_TOP_LEVEL`
mode takes the first leaf branch, where `assert(mode != BUILD_TOP_LEVEL)`
stands; the loop ends with four `createSmallLeaf` calls made at depth 33. -/
theorem build_parallel_toplevel_creates_leaves :
    (peelEnv Layout.triangle1 2).maxBuildDepth = 32 ∧
    (build_parallel_toplevel (peelEnv Layout.triangle1 2) 0 95 96 (samplePrims 96)
        (scanBounds (samplePrims 96) 0 96) 31).error = some Err.outOfFuel ∧
    (build_parallel_toplevel (peelEnv Layout.triangle1 2) 0 95 96 (samplePrims 96)
        (scanBounds (samplePrims 96) 0 96) 31).state.heap.length = 94 ∧
    (build_parallel_toplevel (peelEnv Layout.triangle1 2) 0 95 96 (samplePrims 96)
        (scanBounds (samplePrims 96) 0 96) 31).state.leafCalls = [] ∧
    (heapPop (build_parallel_toplevel (peelEnv Layout.triangle1 2) 0 95 96 (samplePrims 96)
        (scanBounds (samplePrims 96) 0 96) 31).state.heap).map
        (fun x => (x.1.begin, x.1.end_, x.1.depth, x.1.size)) = some (93, 96, 32, 3) ∧
    (build_parallel_toplevel (peelEnv Layout.triangle1 2) 0 95 96 (samplePrims 96)
        (scanBounds (samplePrims 96) 0 96) 40).isDone = true ∧
    (build_parallel_toplevel (peelEnv Layout.triangle1 2) 0 95 96 (samplePrims 96)
        (scanBounds (samplePrims 96) 0 96) 40).state.leafCalls.map
        (fun c => (c.1.begin, c.1.end_, c.1.depth)) =
      [(93, 93, 33), (93, 94, 33), (94, 95, 33), (95, 96, 33)] := by
  decide

/-! ## The stealing sweep -/

theorem stackPop_eq_none (st : State) (j : Nat) :
    st.stackPop j = none ↔ st.stackOf j = [] := by
  unfold State.stackPop State.stackOf
  cases st.threadStack.getD j [] with
  | nil => simp
  | cons r rest => simp

theorem stackPop_cons (st : State) (j : Nat) (r : BuildRecord) (rest : List BuildRecord)
    (h : st.stackOf j = r :: rest) :
    st.stackPop j = some (r, ({ st with threadStack := st.threadStack.set j rest } : State)) := by
  unfold State.stackOf at h
  unfold State.stackPop
  rw [h]

/-- The rounds of the stealing loop visit different stacks. -/
theorem probe_injective (t n a b : Nat) (ha : a < n) (hb : b < n)
    (h : (t + a) % n = (t + b) % n) : a = b := by
  have h1 : a ≡ b [MOD n] := Nat.ModEq.add_left_cancel' t h
  have h2 : a % n = b % n := h1
  rwa [Nat.mod_eq_of_lt ha, Nat.mod_eq_of_lt hb] at h2

/-- The rounds of the stealing loop visit every stack. -/
theorem probe_surjective (t n j : Nat) (hj : j < n) : ∃ a, a < n ∧ (t + a) % n = j := by
  have ht : t % n < n := Nat.mod_lt _ (by omega)
  by_cases h : t % n ≤ j
  · refine ⟨j - t % n, by omega, ?_⟩
    rw [Nat.add_mod, Nat.mod_eq_of_lt (show j - t % n < n by omega),
      show t % n + (j - t % n) = j by omega, Nat.mod_eq_of_lt hj]
  · refine ⟨j + n - t % n, by omega, ?_⟩
    rw [Nat.add_mod, Nat.mod_eq_of_lt (show j + n - t % n < n by omega),
      show t % n + (j + n - t % n) = j + n by omega, Nat.add_mod_right, Nat.mod_eq_of_lt hj]

/-- What the stealing loop does from round `i` on, with `k` rounds left: it
probes the stacks of the rounds `i, i+1, ..` in turn and stops at the first
one that is not empty, whose top record it takes. -/
theorem stealLoop_spec (st : State) (t n : Nat) : ∀ k i,
    ((stealLoop st t n i k).2 = none ∧
      (stealLoop st t n i k).1 = (List.range k).map (fun a => (t + (i + a)) % n) ∧
      ∀ a, a < k → st.stackOf ((t + (i + a)) % n) = []) ∨
    (∃ m r rest, m < k ∧
      (stealLoop st t n i k).1 = (List.range (m + 1)).map (fun a => (t + (i + a)) % n) ∧
      (∀ a, a < m → st.stackOf ((t + (i + a)) % n) = []) ∧
      st.stackOf ((t + (i + m)) % n) = r :: rest ∧
      (stealLoop st t n i k).2 =
        some (r, ({ st with threadStack := st.threadStack.set ((t + (i + m)) % n) rest } : State))) := by
  intro k
  induction k with
  | zero => intro i; left; simp [stealLoop]
  | succ k ih =>
    intro i
    cases hs : st.stackOf ((t + i) % n) with
    | nil =>
      have hp := (stackPop_eq_none st _).2 hs
      have hunf : stealLoop st t n i (k + 1) =
          ((t + i) % n :: (stealLoop st t n (i + 1) k).1, (stealLoop st t n (i + 1) k).2) := by
        simp only [stealLoop, hp]
      rcases ih (i + 1) with ⟨h1, h2, h3⟩ | ⟨m, r, rest, hm, h2, h3, h4, h5⟩
      · left
        refine ⟨by rw [hunf]; exact h1, ?_, ?_⟩
        · rw [hunf, h2, List.range_succ_eq_map]
          simp only [List.map_cons, List.map_map, Nat.add_zero]
          congr 1
          apply List.map_congr_left
          intro a _
          simp only [Function.comp]
          rw [show i + 1 + a = i + (a + 1) by omega]
        · intro a ha
          cases a with
          | zero => simpa using hs
          | succ a =>
            have := h3 a (by omega)
            rwa [show i + 1 + a = i + (a + 1) by omega] at this
      · right
        refine ⟨m + 1, r, rest, by omega, ?_, ?_, ?_, ?_⟩
        · rw [hunf, h2, List.range_succ_eq_map (m + 1)]
          simp only [List.map_cons, List.map_map, Nat.add_zero]
          congr 1
          apply List.map_congr_left
          intro a _
          simp only [Function.comp]
          rw [show i + 1 + a = i + (a + 1) by omega]
        · intro a ha
          cases a with
          | zero => simpa using hs
          | succ a =>
            have := h3 a (by omega)
            rwa [show i + 1 + a = i + (a + 1) by omega] at this
        · rwa [show i + 1 + m = i + (m + 1) by omega] at h4
        · rw [hunf, h5, show i + 1 + m = i + (m + 1) by omega]
    | cons r rest =>
      have hp := stackPop_cons st _ r rest hs
      right
      refine ⟨0, r, rest, by omega, ?_, ?_, ?_, ?_⟩
      · simp only [stealLoop, hp]; simp [List.range_succ]
      · intro a ha; omega
      · simpa using hs
      · simp only [stealLoop, hp]; simp

/-- C23 as the code has it. When the global heap is empty, the worker
`threadID` among `numThreads` workers probes the thread stacks in round-robin
order starting at its own stack, `threadID mod numThreads`, then
`(threadID+1) mod numThreads`, and so on; it probes each stack at most once
per sweep; it stops at the first stack that is not empty and takes its top
record; and it finds nothing, which is when `buildSubTrees` exits, only if
every one of the `numThreads` stacks, its own included, was empty. -/
theorem steal_round_robin_from_own_stack (st : State) (threadID numThreads : Nat) :
    (((steal st threadID numThreads).2 = none ∧
        (steal st threadID numThreads).1 =
          (List.range numThreads).map (fun a => (threadID + a) % numThreads) ∧
        ∀ j, j < numThreads → st.stackOf j = []) ∨
      (∃ m r rest, m < numThreads ∧
        (steal st threadID numThreads).1 =
          (List.range (m + 1)).map (fun a => (threadID + a) % numThreads) ∧
        (∀ a, a < m → st.stackOf ((threadID + a) % numThreads) = []) ∧
        st.stackOf ((threadID + m) % numThreads) = r :: rest ∧
        (steal st threadID numThreads).2 =
          some (r, ({ st with threadStack :=
            (st.threadStack.set ((threadID + m) % numThreads) rest) } : State)))) ∧
    (steal st threadID numThreads).1.Nodup ∧
    (0 < numThreads →
      (steal st threadID numThreads).1.head? = some (threadID % numThreads)) := by
  have key := stealLoop_spec st threadID numThreads numThreads 0
  simp only [Nat.zero_add] at key
  have hnd : ∀ m, m ≤ numThreads →
      ((List.range m).map (fun a => (threadID + a) % numThreads)).Nodup := by
    intro m hm
    apply List.Nodup.map_on _ (List.nodup_range m)
    intro a ha b hb hab
    rw [List.mem_range] at ha hb
    exact probe_injective threadID numThreads a b (by omega) (by omega) hab
  unfold steal
  rcases key with ⟨h1, h2, h3⟩ | ⟨m, r, rest, hm, h2, h3, h4, h5⟩
  · refine ⟨Or.inl ⟨h1, h2, ?_⟩, by rw [h2]; exact hnd _ le_rfl, ?_⟩
    · intro j hj
      obtain ⟨a, ha, hja⟩ := probe_surjective threadID numThreads j hj
      rw [← hja]; exact h3 a ha
    · intro hpos
      rw [h2]
      obtain ⟨n', rfl⟩ : ∃ n', numThreads = n' + 1 := ⟨numThreads - 1, by omega⟩
      rw [List.range_succ_eq_map]; simp
  · refine ⟨Or.inr ⟨m, r, rest, hm, h2, h3, h4, h5⟩, by rw [h2]; exact hnd _ (by omega), ?_⟩
    intro _
    rw [h2, List.range_succ_eq_map]; simp

/-- C23 as stated fails: with two workers, the sweep of worker 0 starts at
stack 0, its own, not at stack `(0 + 1) mod 2 = 1`: when its own stack is
empty and worker 1 has a record, it probes stack 0 and then stack 1. -/
theorem steal_probes_own_stack_first :
    (steal (twoStacks [] [sampleRecord 200]) 0 2).1 = [0, 1] ∧
    (steal (twoStacks [] [sampleRecord 200]) 0 2).1.head? ≠ some ((0 + 1) % 2) ∧
    ((steal (twoStacks [] [sampleRecord 200]) 0 2).2.map Prod.fst) = some (sampleRecord 200) := by
  decide

theorem steal_round_robin_from_own_stack_witness :
    0 < 2 ∧ (steal (twoStacks [] []) 1 2).1 = [1, 0] ∧
    (steal (twoStacks [] []) 1 2).1.head? = some (1 % 2) :=
  ⟨by decide, by decide,
   (steal_round_robin_from_own_stack (twoStacks [] []) 1 2).2.2 (by decide)⟩

/-! ## Termination of the sequential recursion -/

/-- A children loop depends on its body only through the calls on the
children it runs over. -/
theorem forChildren_congr (body1 body2 : Nat → BuildRecord → State → Outcome) :
    ∀ (cs : List BuildRecord), (∀ i c s, c ∈ cs → body1 i c s = body2 i c s) →
    ∀ i st, forChildren body1 i cs st = forChildren body2 i cs st := by
  intro cs
  induction cs with
  | nil => intro _ i st; rfl
  | cons c cs ih =>
    intro h i st
    rw [forChildren_cons, forChildren_cons, h i c st (List.mem_cons_self _ _)]
    cases body2 i c st with
    | done s1 => exact ih (fun i c s hm => h i c s (List.mem_cons_of_mem _ hm)) _ _
    | fail e s1 => rfl

/-- Above `maxBuildDepthLeaf + 1 - depth` the budget of `createLeaf` does not
matter. -/
theorem createLeafF_fuel_eq (env : Env) : ∀ f1 f2 cur st,
    env.maxBuildDepthLeaf + 1 - cur.depth < f1 → env.maxBuildDepthLeaf + 1 - cur.depth < f2 →
    createLeafF env f1 cur st = createLeafF env f2 cur st := by
  intro f1
  induction f1 with
  | zero => intro f2 cur st h; omega
  | succ f1 ih =>
    intro f2 cur st h1 h2
    obtain ⟨f2, rfl⟩ : ∃ k, f2 = k + 1 := ⟨f2 - 1, by omega⟩
    rw [createLeafF_unfold, createLeafF_unfold]
    by_cases hd : cur.depth > env.maxBuildDepthLeaf
    · rw [if_pos hd, if_pos hd]
    · rw [if_neg hd, if_neg hd]
      by_cases hs : cur.size ≤ env.minLeafSize
      · rw [if_pos hs, if_pos hs]
      · rw [if_neg hs, if_neg hs]
        rw [forChildren_congr _ (fun i c s =>
            createLeafF env f2
              { c with parent := Slot.child st.allocNode.1 i, depth := cur.depth + 1 }
              (s.setBounds st.allocNode.1 i c)) _
          (fun i c s _ => ih f2 _ _ (by simp only; omega) (by simp only; omega))]

/-- Above `maxBuildDepth - depth` the budget of `recurse` does not matter, in
any mode. -/
theorem recurseF_fuel_eq (env : Env) (threadID : Nat) : ∀ f1 f2 mode cur st,
    env.maxBuildDepth - cur.depth < f1 → env.maxBuildDepth - cur.depth < f2 →
    recurseF env threadID f1 mode cur st = recurseF env threadID f2 mode cur st := by
  intro f1
  induction f1 with
  | zero => intro f2 mode cur st h; omega
  | succ f1 ih =>
    intro f2 mode cur st h1 h2
    obtain ⟨f2, rfl⟩ : ∃ k, f2 = k + 1 := ⟨f2 - 1, by omega⟩
    rw [recurseF_unfold, recurseF_unfold]
    simp only
    by_cases hc : cur.depth ≥ env.maxBuildDepth ∨ cur.size ≤ env.minLeafSize
    · rw [if_pos hc, if_pos hc]
    · rw [if_neg hc, if_neg hc]
      by_cases hl : (expandLoop env mode cur.depth (BVH4.N - 1) [cur] st.prims).1.length = 1
      · rw [if_pos hl, if_pos hl]
      · rw [if_neg hl, if_neg hl]
        have hd := (expandLoop_depth env mode cur st.prims).resolve_left
          (fun heq => hl (by rw [heq]; rfl))
        apply forChildren_congr
        intro i c s hcm
        have hdc := hd c hcm
        have e1 : ∀ m, recurseF env threadID f1 m
            { c with parent := Slot.child st.nodes.length i } (s.setBounds st.nodes.length i c) =
            recurseF env threadID f2 m
            { c with parent := Slot.child st.nodes.length i } (s.setBounds st.nodes.length i c) :=
          fun m => ih f2 m _ _ (by simp only; omega) (by simp only; omega)
        unfold recurse_continue
        simp only [e1]

/-- An outcome that is not the exhaustion of the budget is a normal end or
the depth limit error. -/
theorem done_or_depthLimit (o : Outcome) (h : o.error ≠ some Err.outOfFuel) :
    (∃ s, o = Outcome.done s) ∨ ∃ s, o = Outcome.fail Err.depthLimit s := by
  cases o with
  | done s => exact Or.inl ⟨s, rfl⟩
  | fail e s =>
    cases e with
    | depthLimit => exact Or.inr ⟨s, rfl⟩
    | outOfFuel => simp [Outcome.error] at h

/-- With a splitter that returns two non-empty parts, the children the
expansion loop of a sequential `recurse` ends with are all smaller than the
record, once a split was made. -/
theorem expandLoop_children_smaller (env : Env) (n : Nat) (hsplit : SplitsWithinRange env n)
    (hne : SplitsNonEmpty env n) (cur : BuildRecord) (P0 : List PrimRef) (hlen : P0.length = n)
    (hw : cur.within n) :
    (expandLoop env Mode.RECURSE_SEQUENTIAL cur.depth (BVH4.N - 1) [cur] P0).1 = [cur] ∨
    ∀ c ∈ (expandLoop env Mode.RECURSE_SEQUENTIAL cur.depth (BVH4.N - 1) [cur] P0).1,
      c.size < cur.size := by
  have key := expandLoop_induct env Mode.RECURSE_SEQUENTIAL cur.depth
    (fun cs P => P.length = n ∧
      (∀ c ∈ cs, c.begin ≤ c.end_ ∧ cur.begin ≤ c.begin ∧ c.end_ ≤ cur.end_) ∧
      (cs = [cur] ∨ ∀ c ∈ cs, c.size < cur.size))
    (by
      intro cs P j hQ _ hj hsz hl
      obtain ⟨hPlen, hin, hsm⟩ := hQ
      rw [split_sequential]
      have hmem := getD_mem cs j hj
      have hcj := hin _ hmem
      have hwj : (cs.getD j BuildRecord.blank).within n := ⟨hcj.1, by have := hw.2; omega⟩
      obtain ⟨h1, h2, h3, h4, h5, h6⟩ := hsplit P (cs.getD j BuildRecord.blank) hPlen hwj hsz
      obtain ⟨h7, h8⟩ := hne P (cs.getD j BuildRecord.blank) hPlen hwj hsz
      obtain ⟨rest, hp1, hp2⟩ := placeChildren_perm cs j
        ((splitSequential env P (cs.getD j BuildRecord.blank)).2.1.initDepth (cur.depth + 1))
        ((splitSequential env P (cs.getD j BuildRecord.blank)).2.2.initDepth (cur.depth + 1))
        hj hl
      refine ⟨by rw [h6.1.length_eq, hPlen], ?_, Or.inr ?_⟩
      · intro c hc
        have hc' := hp2.mem_iff.1 hc
        simp only [List.mem_cons] at hc'
        rcases hc' with rfl | rfl | hc'
        · simp only [BuildRecord.initDepth]; omega
        · simp only [BuildRecord.initDepth]; omega
        · exact hin c (hp1.mem_iff.2 (List.mem_cons_of_mem _ hc'))
      · intro c hc
        have hc' := hp2.mem_iff.1 hc
        have hcs := size_of_le cur hw.1
        simp only [List.mem_cons] at hc'
        rcases hc' with rfl | rfl | hc'
        · rw [size_of_le _ (by simp only [BuildRecord.initDepth]; omega), hcs]
          simp only [BuildRecord.initDepth]; omega
        · rw [size_of_le _ (by simp only [BuildRecord.initDepth]; omega), hcs]
          simp only [BuildRecord.initDepth]; omega
        · rcases hsm with hsm | hsm
          · subst hsm
            have hl1 := hp1.length_eq
            rw [List.length_cons, List.length_cons, List.length_nil] at hl1
            have hr : rest = [] := List.length_eq_zero.1 (by omega)
            subst hr
            simp at hc'
          · exact hsm c (hp1.mem_iff.2 (List.mem_cons_of_mem _ hc')))
    (BVH4.N - 1) [cur] P0 (by simp [BVH4.N])
    ⟨hlen, by
      intro c hc
      simp only [List.mem_singleton] at hc
      subst hc
      exact ⟨hw.1, le_refl _, le_refl _⟩, Or.inl rfl⟩
  exact key.2.2

/-- C26. The sequential recursion always terminates. For every record, every
memory and every splitter, `recurse` in `RECURSE_SEQUENTIAL` mode ends
normally or with the depth limit error, and so does `createLeaf`; any budget
above `maxBuildDepth - depth` for `recurse`, and above
`maxBuildDepthLeaf + 1 - depth` for `createLeaf`, gives that same result.
The reasons: at `depth >= maxBuildDepth` `recurse` hands over to
`createLeaf`; above `maxBuildDepthLeaf` `createLeaf` throws; and the children
of a node of `recurse` are at `depth + 1` (those of a node of `createLeaf` are
by construction). With a splitter that stays inside its range and returns two
non-empty parts, every child range is in addition strictly smaller than the
range of the record. -/
theorem recurse_sequential_terminates (env : Env) (threadID n : Nat) (cur : BuildRecord)
    (st : State) :
    ((∃ st', recurse env threadID Mode.RECURSE_SEQUENTIAL cur st = Outcome.done st') ∨
      ∃ st', recurse env threadID Mode.RECURSE_SEQUENTIAL cur st =
        Outcome.fail Err.depthLimit st') ∧
    ((∃ st', createLeaf env cur st = Outcome.done st') ∨
      ∃ st', createLeaf env cur st = Outcome.fail Err.depthLimit st') ∧
    (∀ fuel, env.maxBuildDepth - cur.depth < fuel →
      recurseF env threadID fuel Mode.RECURSE_SEQUENTIAL cur st =
        recurse env threadID Mode.RECURSE_SEQUENTIAL cur st) ∧
    (∀ fuel, env.maxBuildDepthLeaf + 1 - cur.depth < fuel →
      createLeafF env fuel cur st = createLeaf env cur st) ∧
    (env.maxBuildDepth ≤ cur.depth →
      recurse env threadID Mode.RECURSE_SEQUENTIAL cur st = createLeaf env cur st) ∧
    (env.maxBuildDepthLeaf < cur.depth →
      createLeaf env cur st = Outcome.fail Err.depthLimit st) ∧
    ((expandLoop env Mode.RECURSE_SEQUENTIAL cur.depth (BVH4.N - 1) [cur] st.prims).1.length ≠ 1 →
      ∀ c ∈ (expandLoop env Mode.RECURSE_SEQUENTIAL cur.depth (BVH4.N - 1) [cur] st.prims).1,
        c.depth = cur.depth + 1) ∧
    (SplitsWithinRange env n → SplitsNonEmpty env n → st.prims.length = n → cur.within n →
      (expandLoop env Mode.RECURSE_SEQUENTIAL cur.depth (BVH4.N - 1) [cur] st.prims).1.length ≠ 1 →
      ∀ c ∈ (expandLoop env Mode.RECURSE_SEQUENTIAL cur.depth (BVH4.N - 1) [cur] st.prims).1,
        c.size < cur.size) := by
  refine ⟨done_or_depthLimit _ (recurse_fuel env threadID _ cur st),
    done_or_depthLimit _ (createLeaf_fuel env cur st), ?_, ?_, ?_, ?_, ?_, ?_⟩
  · intro fuel hf
    exact recurseF_fuel_eq env threadID fuel _ _ cur st hf (by omega)
  · intro fuel hf
    exact createLeafF_fuel_eq env fuel _ cur st hf (by omega)
  · intro hd
    unfold recurse
    rw [recurseF_unfold]
    simp only
    rw [if_pos (Or.inl hd)]
  · intro hd
    unfold createLeaf
    rw [createLeafF_unfold, if_pos hd]
  · intro hl
    exact (expandLoop_depth env _ cur st.prims).resolve_left (fun heq => hl (by rw [heq]; rfl))
  · intro hsplit hne hlen hw hl
    exact (expandLoop_children_smaller env n hsplit hne cur st.prims hlen hw).resolve_left
      (fun heq => hl (by rw [heq]; rfl))

/-- The median fallback returns two non-empty parts of every range with at
least two primitives, on arrays of at most `2 ^ 32` primitives. -/
theorem fallbackEnv_splitsNonEmpty (layout : Layout) (m n : Nat) (hn : n ≤ 2 ^ 32)
    (hm : 1 ≤ m) : SplitsNonEmpty (fallbackEnv layout m) n := by
  intro P r _ hw hsz
  have hbe := hw.1
  rw [size_of_le r hbe] at hsz
  have hc := center_eq r (by have := hw.2; omega) (by have := hw.2; omega)
  have hm' : 1 ≤ (fallbackEnv layout m).minLeafSize := hm
  constructor
  · show r.begin < splitFallback.center r
    omega
  · show splitFallback.center r < r.end_
    omega

theorem recurse_sequential_terminates_witness :
    recurseF (fallbackEnv Layout.triangle1 2) 0 40 Mode.RECURSE_SEQUENTIAL
        (rootRecord (scanBounds (samplePrims 5) 0 5) 5)
        (initialState (samplePrims 5) (scanBounds (samplePrims 5) 0 5)) =
      recurse (fallbackEnv Layout.triangle1 2) 0 Mode.RECURSE_SEQUENTIAL
        (rootRecord (scanBounds (samplePrims 5) 0 5) 5)
        (initialState (samplePrims 5) (scanBounds (samplePrims 5) 0 5)) ∧
    ∀ c ∈ (expandLoop (fallbackEnv Layout.triangle1 2) Mode.RECURSE_SEQUENTIAL
        (rootRecord (scanBounds (samplePrims 5) 0 5) 5).depth (BVH4.N - 1)
        [rootRecord (scanBounds (samplePrims 5) 0 5) 5]
        (initialState (samplePrims 5) (scanBounds (samplePrims 5) 0 5)).prims).1,
      c.size < (rootRecord (scanBounds (samplePrims 5) 0 5) 5).size :=
  ⟨(recurse_sequential_terminates (fallbackEnv Layout.triangle1 2) 0 5
      (rootRecord (scanBounds (samplePrims 5) 0 5) 5)
      (initialState (samplePrims 5) (scanBounds (samplePrims 5) 0 5))).2.2.1 40 (by decide),
   (recurse_sequential_terminates (fallbackEnv Layout.triangle1 2) 0 5
      (rootRecord (scanBounds (samplePrims 5) 0 5) 5)
      (initialState (samplePrims 5) (scanBounds (samplePrims 5) 0 5))).2.2.2.2.2.2.2
      (fallbackEnv_splitsWithinRange Layout.triangle1 2 5 (by norm_num))
      (fallbackEnv_splitsNonEmpty Layout.triangle1 2 5 (by norm_num) (by norm_num))
      (by decide) ⟨by decide, by decide⟩ (by decide)⟩

/-! ## The expansion loop on exit -/

/-- The search loop ends with `bestChild == -1` only if every child is a leaf
or has an area that is not greater than `neg_inf`. -/
theorem bestStep_fold_none (env : Env) (cs : List BuildRecord) :
    (cs.enum.foldl (bestStep env) (none, neg_inf)).1 = none →
    (cs.enum.foldl (bestStep env) (none, neg_inf)).2 = neg_inf ∧
    ∀ c ∈ cs, c.size ≤ env.minLeafSize ∨ areaGt (sceneArea env c) neg_inf = false := by
  induction cs using List.reverseRecOn with
  | nil => intro _; simp
  | append_singleton l c ih =>
    rw [List.enum_append, List.foldl_append, List.enumFrom_singleton, List.foldl_cons,
      List.foldl_nil]
    generalize l.enum.foldl (bestStep env) (none, neg_inf) = acc at ih ⊢
    intro h
    have hold : ∀ c' ∈ l ++ [c], acc.1 = none →
        (c.size ≤ env.minLeafSize ∨ areaGt (sceneArea env c) neg_inf = false) →
        c'.size ≤ env.minLeafSize ∨ areaGt (sceneArea env c') neg_inf = false := by
      intro c' hc' hn hcc
      rcases List.mem_append.1 hc' with hc' | hc'
      · exact (ih hn).2 c' hc'
      · rw [List.mem_singleton] at hc'; subst hc'; exact hcc
    unfold bestStep at h ⊢
    simp only at h ⊢
    by_cases hs : c.size ≤ env.minLeafSize
    · rw [if_pos hs] at h ⊢
      exact ⟨(ih h).1, fun c' hc' => hold c' hc' h (Or.inl hs)⟩
    · rw [if_neg hs] at h ⊢
      cases ha : sceneArea env c with
      | none =>
        rw [ha] at h
        simp only at h ⊢
        exact ⟨(ih h).1, fun c' hc' => hold c' hc' h (Or.inr (by rw [ha]; rfl))⟩
      | some x =>
        rw [ha] at h
        simp only at h ⊢
        by_cases hlt : acc.2 < x
        · rw [if_pos hlt] at h; simp at h
        · rw [if_neg hlt] at h ⊢
          refine ⟨(ih h).1, fun c' hc' => hold c' hc' h (Or.inr ?_)⟩
          rw [ha, ← (ih h).1]
          simp [areaGt, hlt]

theorem findBestChild_none_imp (env : Env) (cs : List BuildRecord)
    (h : findBestChild env cs = none) :
    ∀ c ∈ cs, c.size ≤ env.minLeafSize ∨ areaGt (sceneArea env c) neg_inf = false :=
  (bestStep_fold_none env cs h).2

/-- The expansion loop stops early only when the search finds no child. -/
theorem expandLoop_exit (env : Env) (mode : Mode) (d : Nat) :
    ∀ k cs P, (expandLoop env mode d k cs P).1.length = cs.length + k ∨
      findBestChild env (expandLoop env mode d k cs P).1 = none := by
  intro k
  induction k with
  | zero => intro cs P; left; simp [expandLoop_zero]
  | succ k ih =>
    intro cs P
    rw [expandLoop_succ]
    cases hb : findBestChild env cs with
    | none => right; simpa using hb
    | some j =>
      simp only
      rcases ih (placeChildren cs j
            ((split env mode P (cs.getD j BuildRecord.blank)).2.1.initDepth (d + 1))
            ((split env mode P (cs.getD j BuildRecord.blank)).2.2.initDepth (d + 1)))
          (split env mode P (cs.getD j BuildRecord.blank)).1 with h | h
      · left; rw [h, placeChildren_length]; omega
      · right; exact h

/-- Every index at which the expansion loop touches `children[]` is below
`BVH4::N`. -/
theorem expandAccesses_lt (env : Env) (mode : Mode) (d : Nat) :
    ∀ k cs P, cs.length + k ≤ BVH4.N → ∀ i ∈ expandAccesses env mode d k cs P, i < BVH4.N := by
  intro k
  induction k with
  | zero => intro cs P _ i hi; simp [expandAccesses] at hi
  | succ k ih =>
    intro cs P hk i hi
    unfold expandAccesses at hi
    cases hb : findBestChild env cs with
    | none =>
      rw [hb] at hi
      simp only [List.mem_range] at hi
      omega
    | some j =>
      rw [hb] at hi
      simp only [List.mem_append, List.mem_range, List.mem_cons, List.mem_singleton,
        List.not_mem_nil, or_false] at hi
      have hj := findBestChild_lt env cs j hb
      rcases hi with (hi | hi) | hi
      · omega
      · rcases hi with rfl | rfl | rfl | rfl | rfl <;> omega
      · exact ih _ _ (by rw [placeChildren_length]; omega) i hi

/-- C27 as the code has it. For a record that passes the early leaf test of
`recurse` (`depth < maxBuildDepth`, `size > minLeafSize`) and whose bounds
have an area greater than `neg_inf`, the expansion loop makes at least one
split: on exit `2 ≤ numChildren ≤ 4`, so `recurse` does not take the branch
`numChildren == 1` and goes on to the children loop; `numChildren < 4` on
exit only if every child has at most `minLeafSize` primitives or an area that
is not greater than `neg_inf` (NaN included); and every index at which the
loop reads or writes `children[]`, the initial `children[0] = current`
included, is below 4. -/
theorem expansion_loop_postcondition (env : Env) (mode : Mode) (cur : BuildRecord)
    (P : List PrimRef) (a : Flt) (hd : cur.depth < env.maxBuildDepth)
    (hs : env.minLeafSize < cur.size) (ha : sceneArea env cur = some a) (hlt : neg_inf < a) :
    2 ≤ (expandLoop env mode cur.depth (BVH4.N - 1) [cur] P).1.length ∧
    (expandLoop env mode cur.depth (BVH4.N - 1) [cur] P).1.length ≤ 4 ∧
    (∀ threadID fuel st, st.prims = P →
      recurseF env threadID (fuel + 1) mode cur st =
        forChildren (fun i c s =>
          recurse_continue env (fun m r s1 => recurseF env threadID fuel m r s1) mode threadID
            { c with parent := Slot.child st.nodes.length i }
            (s.setBounds st.nodes.length i c)) 0
          (expandLoop env mode cur.depth (BVH4.N - 1) [cur] P).1
          (({ st with prims := (expandLoop env mode cur.depth (BVH4.N - 1) [cur] P).2 } :
            State).allocNode.2.store cur.parent (encodeNode st.nodes.length))) ∧
    ((expandLoop env mode cur.depth (BVH4.N - 1) [cur] P).1.length < 4 →
      ∀ c ∈ (expandLoop env mode cur.depth (BVH4.N - 1) [cur] P).1,
        c.size ≤ env.minLeafSize ∨ areaGt (sceneArea env c) neg_inf = false) ∧
    ∀ i ∈ 0 :: expandAccesses env mode cur.depth (BVH4.N - 1) [cur] P, i < 4 := by
  obtain ⟨j, hj⟩ := findBestChild_isSome env [cur]
    (fun c hc _ => by
      rw [List.mem_singleton] at hc; subst hc; exact ⟨a, ha, hlt⟩)
    cur (List.mem_singleton_self cur) hs
  have h2 : 2 ≤ (expandLoop env mode cur.depth (BVH4.N - 1) [cur] P).1.length := by
    rw [show BVH4.N - 1 = 2 + 1 from rfl, expandLoop_succ, hj]
    simp only
    have := (expandLoop_length_ge env mode cur.depth 2
      (placeChildren [cur] j
        ((split env mode P ([cur].getD j BuildRecord.blank)).2.1.initDepth (cur.depth + 1))
        ((split env mode P ([cur].getD j BuildRecord.blank)).2.2.initDepth (cur.depth + 1)))
      (split env mode P ([cur].getD j BuildRecord.blank)).1).1
    rw [placeChildren_length] at this
    simpa using this
  have h4 := expandLoop_length_le env mode cur.depth (BVH4.N - 1) [cur] P
  rw [List.length_singleton] at h4
  have hN : BVH4.N = 4 := rfl
  refine ⟨h2, by omega, ?_, ?_, ?_⟩
  · intro threadID fuel st hP
    subst hP
    rw [recurseF_unfold]
    simp only
    rw [if_neg (by omega), if_neg (by omega)]
  · intro hlt4 c hc
    rcases expandLoop_exit env mode cur.depth (BVH4.N - 1) [cur] P with h | h
    · rw [List.length_singleton] at h
      have hN : BVH4.N = 4 := rfl
      omega
    · exact findBestChild_none_imp env _ h c hc
  · intro i hi
    rcases List.mem_cons.1 hi with rfl | hi
    · omega
    · exact expandAccesses_lt env mode cur.depth (BVH4.N - 1) [cur] P (by simp [BVH4.N]) i hi

theorem expansion_loop_postcondition_witness :
    (rootRecord (scanBounds (samplePrims 5) 0 5) 5).depth <
      (fallbackEnv Layout.triangle1 2).maxBuildDepth ∧
    (fallbackEnv Layout.triangle1 2).minLeafSize <
      (rootRecord (scanBounds (samplePrims 5) 0 5) 5).size ∧
    sceneArea (fallbackEnv Layout.triangle1 2) (rootRecord (scanBounds (samplePrims 5) 0 5) 5) =
      some 1 ∧
    neg_inf < (1 : Flt) ∧
    2 ≤ (expandLoop (fallbackEnv Layout.triangle1 2) Mode.RECURSE_SEQUENTIAL
      (rootRecord (scanBounds (samplePrims 5) 0 5) 5).depth (BVH4.N - 1)
      [rootRecord (scanBounds (samplePrims 5) 0 5) 5] (samplePrims 5)).1.length :=
  ⟨by decide, by decide, rfl, by decide,
   (expansion_loop_postcondition (fallbackEnv Layout.triangle1 2) Mode.RECURSE_SEQUENTIAL
      (rootRecord (scanBounds (samplePrims 5) 0 5) 5) (samplePrims 5) 1
      (by decide) (by decide) rfl (by decide)).1⟩

/-- C27 as stated fails: six primitives in a plane, `minLeafSize = 2`. The
root record `[0, 6)` passes the early leaf test and its box has the area 1;
the first split yields `[0, 3)` and `[3, 6)`, whose boxes are flat and have
an area that is not a number; the search then finds no child and the loop
exits with `numChildren = 2 < 4` although both children have 3 primitives,
more than `minLeafSize`. -/
theorem expansion_stops_with_large_children :
    (rootRecord (scanBounds flatPrims 0 6) 6).depth < (flatEnv Layout.triangle1 2).maxBuildDepth ∧
    (flatEnv Layout.triangle1 2).minLeafSize < (rootRecord (scanBounds flatPrims 0 6) 6).size ∧
    sceneArea (flatEnv Layout.triangle1 2) (rootRecord (scanBounds flatPrims 0 6) 6) = some 1 ∧
    (expandLoop (flatEnv Layout.triangle1 2) Mode.RECURSE_SEQUENTIAL 1 (BVH4.N - 1)
        [rootRecord (scanBounds flatPrims 0 6) 6] flatPrims).1.map
        (fun c => (c.begin, c.end_, c.size, sceneArea (flatEnv Layout.triangle1 2) c)) =
      [(0, 3, 3, none), (3, 6, 3, none)] ∧
    ¬ ((expandLoop (flatEnv Layout.triangle1 2) Mode.RECURSE_SEQUENTIAL 1 (BVH4.N - 1)
          [rootRecord (scanBounds flatPrims 0 6) 6] flatPrims).1.length < 4 →
        ∀ c ∈ (expandLoop (flatEnv Layout.triangle1 2) Mode.RECURSE_SEQUENTIAL 1 (BVH4.N - 1)
          [rootRecord (scanBounds flatPrims 0 6) 6] flatPrims).1,
          c.size ≤ (flatEnv Layout.triangle1 2).minLeafSize) := by
  decide

/-! ## The lane budget of the leaf emitters -/

theorem leafSizesOK_of_leafCalls (env : Env) (s s' : State) (h : s'.leafCalls = s.leafCalls)
    (hs : s.leafSizesOK env) : s'.leafSizesOK env := by
  unfold State.leafSizesOK at *
  rw [h]; exact hs

/-- `createLeaf` only emits leaves of at most `minLeafSize` primitives,
however it ends. -/
theorem createLeafF_leafSizes (env : Env) : ∀ fuel cur st, st.leafSizesOK env →
    (createLeafF env fuel cur st).state.leafSizesOK env := by
  intro fuel
  induction fuel with
  | zero => intro cur st h; exact h
  | succ fuel ih =>
    intro cur st h
    rw [createLeafF_unfold]
    by_cases hd : cur.depth > env.maxBuildDepthLeaf
    · rw [if_pos hd]; exact h
    · rw [if_neg hd]
      by_cases hs : cur.size ≤ env.minLeafSize
      · rw [if_pos hs]
        intro c hc
        simp only [Outcome.state, createSmallLeaf_leafCalls, List.mem_append,
          List.mem_singleton] at hc
        rcases hc with hc | rfl
        · exact h c hc
        · exact ⟨hs, by simp [leafPrims]⟩
      · rw [if_neg hs]
        have := forChildren_state_inv (fun i c s =>
            createLeafF env fuel
              { c with parent := Slot.child st.allocNode.1 i, depth := cur.depth + 1 }
              (s.setBounds st.allocNode.1 i c)) (fun s => s.leafSizesOK env)
          (fun i c s hs' => ih _ _ (leafSizesOK_of_leafCalls env s _ (by simp) hs'))
          [(splitFallback st.prims (splitFallback st.prims cur).1).1,
           (splitFallback st.prims (splitFallback st.prims cur).1).2,
           (splitFallback st.prims (splitFallback st.prims cur).2).1,
           (splitFallback st.prims (splitFallback st.prims cur).2).2] 0
          (st.allocNode.2.store cur.parent (encodeNode st.allocNode.1))
          (leafSizesOK_of_leafCalls env st _ (by simp) h)
        revert this
        cases forChildren (fun i c s =>
            createLeafF env fuel
              { c with parent := Slot.child st.allocNode.1 i, depth := cur.depth + 1 }
              (s.setBounds st.allocNode.1 i c)) 0
          [(splitFallback st.prims (splitFallback st.prims cur).1).1,
           (splitFallback st.prims (splitFallback st.prims cur).1).2,
           (splitFallback st.prims (splitFallback st.prims cur).2).1,
           (splitFallback st.prims (splitFallback st.prims cur).2).2]
          (st.allocNode.2.store cur.parent (encodeNode st.allocNode.1)) with
        | done s3 => intro h3; exact leafSizesOK_of_leafCalls env s3 _ (by simp [Outcome.state]) h3
        | fail e s3 => intro h3; exact h3

/-- `recurse`, in every mode and however it ends, only emits leaves of at
most `minLeafSize` primitives: the emitter is reached through `createLeaf`
only. -/
theorem recurseF_leafSizes (env : Env) (threadID : Nat) : ∀ fuel mode cur st,
    st.leafSizesOK env → (recurseF env threadID fuel mode cur st).state.leafSizesOK env := by
  intro fuel
  induction fuel with
  | zero => intro mode cur st h; exact h
  | succ fuel ih =>
    intro mode cur st h
    rw [recurseF_unfold]
    simp only
    split
    · exact createLeafF_leafSizes env _ _ _ h
    · split
      · exact createLeafF_leafSizes env _ _ _ (leafSizesOK_of_leafCalls env st _ rfl h)
      · apply forChildren_state_inv _ (fun s => s.leafSizesOK env)
        · intro i c s hs
          have hs' : (s.setBounds st.nodes.length i c).leafSizesOK env :=
            leafSizesOK_of_leafCalls env s _ (by simp) hs
          unfold recurse_continue
          split
          · exact leafSizesOK_of_leafCalls env _ _ (by simp [Outcome.state, State.heapPush]) hs'
          · split
            · split
              · rename_i st1 hpush
                exact leafSizesOK_of_leafCalls env _ _
                  (stackPush_leafCalls env _ _ _ _ hpush) hs'
              · exact ih _ _ _ hs'
            · exact ih _ _ _ hs'
        · exact leafSizesOK_of_leafCalls env st _ (by simp) h

theorem recurse_leafSizes (env : Env) (threadID : Nat) (mode : Mode) (cur : BuildRecord)
    (st : State) (h : st.leafSizesOK env) :
    (recurse env threadID mode cur st).state.leafSizesOK env :=
  recurseF_leafSizes env threadID _ mode cur st h

theorem stackPop_leafCalls (st st1 : State) (i : Nat) (r : BuildRecord)
    (h : st.stackPop i = some (r, st1)) : st1.leafCalls = st.leafCalls := by
  unfold State.stackPop at h
  split at h
  · cases h
  · cases h; rfl

theorem stealLoop_leafCalls (st : State) (t n : Nat) : ∀ k i r st1,
    (stealLoop st t n i k).2 = some (r, st1) → st1.leafCalls = st.leafCalls := by
  intro k
  induction k with
  | zero => intro i r st1 h; simp [stealLoop] at h
  | succ k ih =>
    intro i r st1 h
    unfold stealLoop at h
    split at h
    · rename_i x hx
      cases h
      exact stackPop_leafCalls st st1 _ r hx
    · exact ih _ _ _ h

theorem nextRecord_leafCalls (st st1 : State) (t n : Nat) (r : BuildRecord)
    (h : nextRecord st t n = some (r, st1)) : st1.leafCalls = st.leafCalls := by
  unfold nextRecord at h
  split at h
  · cases h; rfl
  · exact stealLoop_leafCalls st t n _ _ _ _ h

/-- The inner loop of `buildSubTrees` keeps the leaf sizes within
`minLeafSize`. -/
theorem drainStack_leafSizes (env : Env) (threadID : Nat) : ∀ fuel st, st.leafSizesOK env →
    (drainStack env threadID fuel st).state.leafSizesOK env := by
  intro fuel
  induction fuel with
  | zero => intro st h; exact h
  | succ fuel ih =>
    intro st h
    unfold drainStack
    cases hp : st.stackPop threadID with
    | none => exact h
    | some x =>
      obtain ⟨br, st1⟩ := x
      simp only
      have h1 := recurse_leafSizes env threadID Mode.RECURSE_PARALLEL br st1
        (leafSizesOK_of_leafCalls env st st1 (stackPop_leafCalls st st1 _ br hp) h)
      revert h1
      cases recurse env threadID Mode.RECURSE_PARALLEL br st1 with
      | done st2 => intro h1; exact ih st2 h1
      | fail e s => intro h1; exact h1

/-- `buildSubTrees` keeps the leaf sizes within `minLeafSize`. -/
theorem buildSubTrees_leafSizes (env : Env) (threadID numThreads : Nat) : ∀ fuel st,
    st.leafSizesOK env → (buildSubTrees env threadID numThreads fuel st).state.leafSizesOK env := by
  intro fuel
  induction fuel with
  | zero => intro st h; exact h
  | succ fuel ih =>
    intro st h
    unfold buildSubTrees
    cases hp : nextRecord st threadID numThreads with
    | none => exact h
    | some x =>
      obtain ⟨br, st1⟩ := x
      simp only
      have h1 := recurse_leafSizes env threadID Mode.RECURSE_PARALLEL br st1
        (leafSizesOK_of_leafCalls env st st1 (nextRecord_leafCalls st st1 _ _ br hp) h)
      revert h1
      cases recurse env threadID Mode.RECURSE_PARALLEL br st1 with
      | done st2 =>
        intro h1
        simp only
        have h2 := drainStack_leafSizes env threadID fuel st2 h1
        revert h2
        cases drainStack env threadID fuel st2 with
        | done st3 => intro h2; exact ih st3 h2
        | fail e s => intro h2; exact h2
      | fail e s => intro h1; exact h1

/-- The top-level loop of `build_parallel` keeps the leaf sizes within
`minLeafSize`. -/
theorem topLevelLoop_leafSizes (env : Env) (threadIndex threadCount : Nat) : ∀ fuel st,
    st.leafSizesOK env →
    (topLevelLoop env threadIndex threadCount fuel st).state.leafSizesOK env := by
  intro fuel
  induction fuel with
  | zero => intro st h; exact h
  | succ fuel ih =>
    intro st h
    unfold topLevelLoop
    split
    · cases hp : heapPop st.heap with
      | none => exact h
      | some x =>
        obtain ⟨br, rest⟩ := x
        simp only
        split
        · exact h
        · have h1 := recurse_leafSizes env threadIndex Mode.BUILD_TOP_LEVEL br
            ({ st with heap := rest } : State) h
          revert h1
          cases recurse env threadIndex Mode.BUILD_TOP_LEVEL br ({ st with heap := rest } : State) with
          | done st2 => intro h1; exact ih st2 h1
          | fail e s => intro h1; exact h1
    · exact h

/-- C28. Leaf emitters are only called within their lane budget. In every
build, sequential or parallel, in the top-level phase and in the subtree
phase, and however it ends, `createSmallLeaf` is only called on records of at
most `minLeafSize` primitives (it is reached from `createLeaf` only, behind
the test `current.size() <= minLeafSize`), so no leaf holds more than
`minLeafSize` primitives. With the `minLeafSize` that the constructor of the
layout bakes in, `items <= 4` holds in the `Triangle4`, `Triangle1v`,
`Triangle4v` and `Triangle4i` emitters and `items <= 8` in the `Triangle8`
emitter, and every lane index `i < items` written is below the lane count. -/
theorem leaf_emitters_within_lane_budget (env : Env) (h : Host) :
    (∀ threadID mode cur st, st.leafSizesOK env →
      (recurse env threadID mode cur st).state.leafSizesOK env) ∧
    (∀ cur st, st.leafSizesOK env → (createLeaf env cur st).state.leafSizesOK env) ∧
    (∀ threadIndex numPrimitives prims pinfo,
      (build_sequential env threadIndex numPrimitives prims pinfo).state.leafSizesOK env) ∧
    (∀ threadIndex threadCount numPrimitives prims pinfo fuel,
      (build_parallel_toplevel env threadIndex threadCount numPrimitives prims pinfo
        fuel).state.leafSizesOK env) ∧
    (∀ threadID numThreads fuel st, st.leafSizesOK env →
      (buildSubTrees env threadID numThreads fuel st).state.leafSizesOK env) ∧
    (∀ (scene : Scene) (mesh : TriangleMesh) (st : State),
      (env.minLeafSize = (env.layout.sceneBuilder h scene).minLeafSize ∨
        env.minLeafSize = (env.layout.meshBuilder h scene mesh).minLeafSize) →
      st.leafSizesOK env → ∀ c ∈ st.leafCalls,
        c.2.length ≤ env.minLeafSize ∧
        ((env.layout = Layout.triangle4 ∨ env.layout = Layout.triangle1v ∨
            env.layout = Layout.triangle4v ∨ env.layout = Layout.triangle4i) →
          c.1.size ≤ 4 ∧ ∀ i ∈ List.range c.1.size, i < 4) ∧
        (env.layout = Layout.triangle8 →
          c.1.size ≤ 8 ∧ ∀ i ∈ List.range c.1.size, i < 8)) := by
  refine ⟨fun threadID mode cur st hst => recurseF_leafSizes env threadID _ mode cur st hst,
    fun cur st hst => createLeafF_leafSizes env _ cur st hst,
    fun threadIndex numPrimitives prims pinfo =>
      recurseF_leafSizes env threadIndex _ _ _ _ (by simp [State.leafSizesOK, initialState]),
    fun threadIndex threadCount numPrimitives prims pinfo fuel =>
      topLevelLoop_leafSizes env threadIndex threadCount fuel _
        (by simp [State.leafSizesOK, initialState, State.heapPush]),
    fun threadID numThreads fuel st hst => buildSubTrees_leafSizes env threadID numThreads fuel st hst,
    ?_⟩
  intro scene mesh st hcfg hst c hc
  obtain ⟨h1, h2⟩ := hst c hc
  have hm : (env.layout = Layout.triangle8 → env.minLeafSize = 8) ∧
      ((env.layout = Layout.triangle4 ∨ env.layout = Layout.triangle1v ∨
          env.layout = Layout.triangle4v ∨ env.layout = Layout.triangle4i) →
        env.minLeafSize ≤ 4) := by
    rcases hcfg with hcfg | hcfg <;> rw [hcfg] <;> cases env.layout <;>
      simp [Layout.sceneBuilder, Layout.meshBuilder,
        BVH4BuilderFast.construct, BVH4Triangle1BuilderFast, BVH4Triangle4BuilderFast,
        BVH4Triangle8BuilderFast, BVH4Triangle1vBuilderFast, BVH4Triangle4vBuilderFast,
        BVH4Triangle4iBuilderFast, BVH4Triangle1MeshBuilderFast, BVH4Triangle4MeshBuilderFast,
        BVH4Triangle8MeshBuilderFast, BVH4Triangle1vMeshBuilderFast,
        BVH4Triangle4vMeshBuilderFast, BVH4Triangle4iMeshBuilderFast]
  refine ⟨by omega, ?_, ?_⟩
  · intro hl
    have := hm.2 hl
    exact ⟨by omega, fun i hi => by rw [List.mem_range] at hi; omega⟩
  · intro hl
    have := hm.1 hl
    exact ⟨by omega, fun i hi => by rw [List.mem_range] at hi; omega⟩

theorem leaf_emitters_within_lane_budget_witness :
    (fallbackEnv Layout.triangle4 4).minLeafSize =
      ((fallbackEnv Layout.triangle4 4).layout.sceneBuilder host64 []).minLeafSize ∧
    ∀ c ∈ (build_sequential (fallbackEnv Layout.triangle4 4) 0 9 (samplePrims 9)
        (scanBounds (samplePrims 9) 0 9)).state.leafCalls, c.1.size ≤ 4 :=
  ⟨rfl, fun c hc =>
    (((leaf_emitters_within_lane_budget (fallbackEnv Layout.triangle4 4) host64).2.2.2.2.2
      [] oneTriangleMesh _ (Or.inl rfl)
      ((leaf_emitters_within_lane_budget (fallbackEnv Layout.triangle4 4) host64).2.2.1
        0 9 (samplePrims 9) (scanBounds (samplePrims 9) 0 9)) c hc).2.1 (Or.inl rfl)).1⟩

/-! ## Parent slots are written once -/

theorem owned_nil (nodes : List Node) (lo : Nat)
    (h : ∀ k i, lo ≤ k → k < nodes.length →
      (nodes.getD k Node.clear).children.getD i NodeRef.empty = NodeRef.empty) :
    Owned nodes lo [] := by
  refine ⟨by simp, by simp, ?_⟩
  intro k i hk1 hk2 hne
  exact absurd (h k i hk1 hk2) hne

/-- `Owned` looks at the number of nodes and at their child pointers only. -/
theorem owned_congr (nodes nodes' : List Node) (lo : Nat) (ws : List (Slot × NodeRef))
    (hlen : nodes'.length = nodes.length)
    (hch : ∀ k, (nodes'.getD k Node.clear).children = (nodes.getD k Node.clear).children)
    (h : Owned nodes lo ws) : Owned nodes' lo ws := by
  obtain ⟨h1, h2, h3⟩ := h
  refine ⟨h1, ?_, ?_⟩
  · intro w hw
    obtain ⟨hne, k, i, hk, hlo, hlt, hv⟩ := h2 w hw
    exact ⟨hne, k, i, hk, hlo, by omega, by rw [hch]; exact hv⟩
  · intro k i hlo hlt hne
    exact h3 k i hlo (by omega) (by rw [← hch]; exact hne)

/-- One round of a children loop: the stores so far own the slots in use of
the node `node` and of the nodes after it; child `j` stores its pointer
through slot `j` of `node`, which was empty, and then through the slots of
the nodes it allocates; together they own the slots in use again. -/
theorem owned_step (N N1 : List Node) (node j : Nat) (ref : NodeRef)
    (ws ws1 : List (Slot × NodeRef))
    (hnode : node < N.length) (hlen : N.length ≤ N1.length)
    (hkeep : ∀ k, k < N.length → k ≠ node →
      (N1.getD k Node.clear).children = (N.getD k Node.clear).children)
    (hset : (N1.getD node Node.clear).children = (N.getD node Node.clear).children.set j ref)
    (hj : j < (N.getD node Node.clear).children.length)
    (hempty : (N.getD node Node.clear).children.getD j NodeRef.empty = NodeRef.empty)
    (href : ref ≠ NodeRef.empty)
    (h : Owned N node ws) (h1 : Owned N1 N.length ws1) :
    Owned N1 node (ws ++ (Slot.child node j, ref) :: ws1) := by
  obtain ⟨a1, a2, a3⟩ := h
  obtain ⟨b1, b2, b3⟩ := h1
  have hnotin : Slot.child node j ∉ ws.map Prod.fst := by
    intro hin
    rw [List.mem_map] at hin
    obtain ⟨w, hw, hw1⟩ := hin
    obtain ⟨hne, k, i, hk, _, _, hv⟩ := a2 w hw
    rw [hw1] at hk
    cases hk
    rw [hempty] at hv
    exact hne hv.symm
  refine ⟨?_, ?_, ?_⟩
  · rw [List.map_append, List.map_cons]
    rw [List.nodup_append]
    refine ⟨a1, ?_, ?_⟩
    · rw [List.nodup_cons]
      refine ⟨?_, b1⟩
      intro hin
      rw [List.mem_map] at hin
      obtain ⟨w, hw, hw1⟩ := hin
      obtain ⟨_, k, i, hk, hlo, _, _⟩ := b2 w hw
      rw [hw1] at hk
      cases hk
      omega
    · intro s hs1 hs2
      rcases List.mem_cons.1 hs2 with rfl | hs2
      · exact hnotin hs1
      · rw [List.mem_map] at hs1 hs2
        obtain ⟨w, hw, hw1⟩ := hs1
        obtain ⟨w', hw', hw1'⟩ := hs2
        obtain ⟨_, k, i, hk, _, hlt, _⟩ := a2 w hw
        obtain ⟨_, k', i', hk', hlo', _, _⟩ := b2 w' hw'
        rw [hw1] at hk
        rw [hw1', hk] at hk'
        cases hk'
        omega
  · intro w hw0
    rcases List.mem_append.1 hw0 with hw | hw
    · obtain ⟨hne, k, i, hk, hlo, hlt, hv⟩ := a2 w hw
      refine ⟨hne, k, i, hk, hlo, by omega, ?_⟩
      by_cases hkn : k = node
      · subst hkn
        have hij : i ≠ j := by
          intro hij
          subst hij
          apply hnotin
          rw [List.mem_map]
          exact ⟨w, hw, hk⟩
        rw [hset, List.getD_eq_getElem?_getD, getElem?_set_getD]
        rw [if_neg (by intro hc; exact hij hc.1.symm)]
        rw [← List.getD_eq_getElem?_getD]
        exact hv
      · rw [hkeep k hlt hkn]; exact hv
    · rcases List.mem_cons.1 hw with rfl | hw2
      · refine ⟨href, node, j, rfl, le_refl _, by omega, ?_⟩
        rw [hset, List.getD_eq_getElem?_getD, getElem?_set_getD, if_pos ⟨rfl, hj⟩]
      · obtain ⟨hne, k, i, hk, hlo, hlt, hv⟩ := b2 w hw2
        exact ⟨hne, k, i, hk, by omega, hlt, hv⟩
  · intro k i hlo hlt hne
    rw [List.map_append, List.map_cons, List.mem_append, List.mem_cons]
    by_cases hk : k < N.length
    · by_cases hkn : k = node
      · subst hkn
        by_cases hij : i = j
        · subst hij; right; left; rfl
        · left
          apply a3 k i hlo hk
          rw [hset, List.getD_eq_getElem?_getD, getElem?_set_getD] at hne
          rw [if_neg (by intro hc; exact hij hc.1.symm)] at hne
          rw [List.getD_eq_getElem?_getD]
          exact hne
      · left
        apply a3 k i hlo hk
        rw [← hkeep k hk hkn]; exact hne
    · right; right
      exact b3 k i (by omega) hlt hne

/-- Replacing the node in the middle of an arena and appending nodes leaves
the other nodes that existed alone. -/
theorem getD_replace_middle (base ex extra : List Node) (x y : Node) (k : Nat)
    (hk : k < (base ++ x :: ex).length) (hne : k ≠ base.length) :
    (base ++ y :: (ex ++ extra)).getD k Node.clear = (base ++ x :: ex).getD k Node.clear := by
  simp only [List.getD_eq_getElem?_getD]
  by_cases hlt : k < base.length
  · rw [List.getElem?_append_left hlt, List.getElem?_append_left hlt]
  · rw [List.getElem?_append_right (by omega), List.getElem?_append_right (by omega)]
    obtain ⟨m, hm⟩ : ∃ m, k - base.length = m + 1 := ⟨k - base.length - 1, by omega⟩
    rw [hm, List.getElem?_cons_succ, List.getElem?_cons_succ]
    simp only [List.length_append, List.length_cons] at hk
    rw [List.getElem?_append_left (by omega)]

theorem leafSlots_append (a b : List (Slot × NodeRef)) :
    leafSlots (a ++ b) = leafSlots a ++ leafSlots b := by
  simp [leafSlots, List.filterMap_append]

/-- The store log over a children loop: child `j` stores through slot `j` of
the node at index `node` and through the slots of the nodes it allocates. -/
theorem chain_writes (upd : Nat → BuildRecord → BuildRecord) (node : Nat)
    (hupd : ∀ k c, (upd k c).parent = Slot.child node k) (base : List Node)
    (hbase : base.length = node) (W : List (Slot × NodeRef))
    (L : List (BuildRecord × List PrimRef)) :
    ∀ cs j s s', childChain (fun r s s' => RootKept r s s' ∧ WritesOnce r s s') upd node j cs s s' →
      j + cs.length ≤ BVH4.N →
      ∀ nd ex ws new, s.nodes = base ++ nd :: ex → nd.filledUpTo j → s.writes = W ++ ws →
        Owned s.nodes node ws → s.leafCalls = L ++ new →
        leafSlots ws = new.map (fun c => c.1.parent) →
        ∃ nd' ex' ws' new', s'.nodes = base ++ nd' :: ex' ∧ nd'.filledUpTo (j + cs.length) ∧
          s'.writes = W ++ ws' ∧ Owned s'.nodes node ws' ∧ s'.root = s.root ∧
          s'.leafCalls = L ++ new' ∧ leafSlots ws' = new'.map (fun c => c.1.parent) := by
  intro cs
  induction cs with
  | nil =>
    intro j s s' h _ nd ex ws new hn hf hw ho hl hls
    simp only [childChain] at h
    subst h
    exact ⟨nd, ex, ws, new, hn, by simpa using hf, hw, ho, rfl, hl, hls⟩
  | cons c rest ih =>
    intro j s s' h hj nd ex ws new hn hf hw ho hl hls
    obtain ⟨s1, ⟨hroot, hc⟩, hrest⟩ := h
    simp only [List.length_cons] at hj
    have hsb : (s.setBounds node j c).nodes = base ++ (nd.set j c.geomBounds) :: ex := by
      simp only [State.setBounds, hn]
      rw [← hbase, getD_at_length, set_at_length]
    obtain ⟨ref, extra, ws1, new1, href, hnodes, hwrites, _, hown, hleaf, hlsl⟩ := hc (by
      rw [hupd]
      simp only [State.hasSlot, hsb, List.length_append, List.length_cons]
      omega)
    rw [hupd, hsb] at hnodes
    simp only [writeNodes] at hnodes
    rw [← hbase, getD_at_length, set_at_length] at hnodes
    rw [hupd] at hwrites hlsl
    simp only [setBounds_writes, setBounds_leafCalls, setBounds_nodes_length] at hwrites hleaf hown
    have hnd : (s.nodes.getD node Node.clear) = nd := by
      rw [hn, ← hbase, getD_at_length]
    have hnd1 : (s1.nodes.getD node Node.clear) = (nd.set j c.geomBounds).setChild j ref := by
      rw [hnodes, List.append_assoc, List.cons_append, ← hbase, getD_at_length]
    have hlen4 : nd.children.length = BVH4.N := hf.2.1
    have hown' : Owned s1.nodes node (ws ++ (Slot.child node j, ref) :: ws1) := by
      apply owned_step s.nodes s1.nodes node j ref ws ws1
      · rw [hn, ← hbase]; simp
      · rw [hnodes, hn]; simp
      · intro k hk hkn
        rw [hnodes, hn, List.append_assoc, List.cons_append]
        rw [getD_replace_middle base ex extra nd _ k (by rw [← hn]; exact hk)
          (by rw [hbase]; exact hkn)]
      · rw [hnd, hnd1]; rfl
      · rw [hnd, hlen4]; omega
      · rw [hnd]; exact (hf.2.2.2 j (le_refl _) (by omega)).1
      · exact href
      · exact ho
      · exact hown
    have := ih (j + 1) s1 s' hrest (by omega)
      ((nd.set j c.geomBounds).setChild j ref) (ex ++ extra)
      (ws ++ (Slot.child node j, ref) :: ws1) (new ++ new1)
      (by rw [hnodes]; simp)
      (filledUpTo_step nd j _ ref hf (by omega) href)
      (by rw [hwrites, hw, List.append_assoc])
      hown'
      (by rw [hleaf, hl, List.append_assoc])
      (by rw [leafSlots_append, hls, hlsl, List.map_append])
    obtain ⟨nd', ex', ws', new', h1, h2, h3, h4, h5, h6, h7⟩ := this
    refine ⟨nd', ex', ws', new', h1, ?_, h3, h4, ?_, h6, h7⟩
    · rw [List.length_cons, show j + (rest.length + 1) = j + 1 + rest.length by omega]
      exact h2
    · rw [h5, hroot (by rw [hupd]; simp)]
      rfl

/-- The store log after allocating a node for `cur`, publishing it through the
parent slot and running the children loop. -/
theorem writes_of_chain (cur : BuildRecord) (st st0 s' : State) (cs : List BuildRecord)
    (upd : Nat → BuildRecord → BuildRecord)
    (hupd : ∀ k c, (upd k c).parent = Slot.child st.nodes.length k)
    (h0 : st0.nodes = st.nodes ++ [Node.clear]) (h0w : st0.writes = st.writes)
    (h0l : st0.leafCalls = st.leafCalls) (h0r : st0.root = st.root)
    (hchain : childChain (fun r s s' => RootKept r s s' ∧ WritesOnce r s s') upd
      st.nodes.length 0 cs (st0.store cur.parent (encodeNode st.nodes.length)) s')
    (hlen : cs.length ≤ BVH4.N) (hs : st.hasSlot cur.parent) :
    ∃ nd ex ws new,
      s'.nodes = writeNodes st.nodes cur.parent (encodeNode st.nodes.length) ++ nd :: ex ∧
      nd.filledUpTo cs.length ∧
      s'.writes = st.writes ++ (cur.parent, encodeNode st.nodes.length) :: ws ∧
      Owned s'.nodes st.nodes.length ws ∧
      s'.root = (if cur.parent = Slot.root then encodeNode st.nodes.length else st.root) ∧
      s'.leafCalls = st.leafCalls ++ new ∧
      leafSlots ws = new.map (fun c => c.1.parent) := by
  have hstart : (st0.store cur.parent (encodeNode st.nodes.length)).nodes =
      writeNodes st.nodes cur.parent (encodeNode st.nodes.length) ++ Node.clear :: [] := by
    rw [store_nodes, h0, writeNodes_append _ _ _ _ ((hasSlot_iff st _).1 hs)]
  obtain ⟨nd, ex, ws, new, h1, h2, h3, h4, h5, h6, h7⟩ := chain_writes upd st.nodes.length hupd
    (writeNodes st.nodes cur.parent (encodeNode st.nodes.length)) (by simp)
    (st.writes ++ [(cur.parent, encodeNode st.nodes.length)]) st.leafCalls
    cs 0 _ s' hchain (by omega) Node.clear [] [] [] hstart clear_filledUpTo
    (by rw [store_writes, h0w]; simp)
    (by
      apply owned_nil
      intro k i hk1 hk2
      rw [hstart] at hk2 ⊢
      simp only [List.length_append, writeNodes_length, List.length_cons, List.length_nil] at hk2
      have hk : k = (writeNodes st.nodes cur.parent (encodeNode st.nodes.length)).length := by
        rw [writeNodes_length]; omega
      rw [hk, getD_at_length]
      by_cases hi : i < BVH4.N
      · exact (clear_filledUpTo.2.2.2 i (Nat.zero_le _) hi).1
      · simp only [List.getD_eq_getElem?_getD]
        rw [List.getElem?_eq_none (by rw [clear_filledUpTo.2.1]; omega)]
        rfl)
    (by rw [store_leafCalls, h0l]; simp)
    (by simp [leafSlots])
  rw [Nat.zero_add] at h2
  refine ⟨nd, ex, ws, new, h1, h2, ?_, h4, ?_, h6, h7⟩
  · rw [h3]; simp
  · rw [h5, store_root, h0r]

/-- `createLeaf` stores through the parent slot once and then through the
slots of the nodes it allocates, once each. -/
theorem createLeaf_writes_once (env : Env) (cur : BuildRecord) (st st' : State)
    (h : createLeaf env cur st = Outcome.done st') :
    RootKept cur st st' ∧ WritesOnce cur st st' := by
  refine ⟨createLeaf_root env cur st st' h, ?_⟩
  refine createLeaf_induct env (fun r s s' => RootKept r s s' ∧ WritesOnce r s s')
    ?_ ?_ cur st st' h |>.2
  · intro cur st _ hs
    refine ⟨createSmallLeaf_root env cur st, ?_⟩
    intro _
    refine ⟨encodeLeaf st.leaves.length (leafBlock env st.prims cur).2, [], [],
      [(cur, leafPrims st.prims cur)], by simp [encodeLeaf], by simp, ?_, ?_, ?_, by simp, ?_⟩
    · rw [createSmallLeaf_writes]
    · intro hp
      simp only [createSmallLeaf, store_root, hp, if_true]
    · apply owned_nil
      intro k i hk1 hk2
      simp only [createSmallLeaf_nodes, writeNodes_length] at hk2
      omega
    · simp [leafSlots, encodeLeaf]
  · intro cur st s' _ _ hchain
    have hroot : RootKept cur st (s'.compact st.nodes.length) := by
      intro hp
      have hc := childChain_imp _ RootKept _ _ _ _ _ _ (fun k c s1 s2 _ hP => hP.1) hchain
      have := chain_root _ st.nodes.length (fun k c => rfl) _ _ _ _ hc
      show s'.root = st.root
      rw [this, store_root, if_neg hp]
      rfl
    refine ⟨hroot, ?_⟩
    intro hs
    obtain ⟨nd, ex, ws, new, h1, h2, h3, h4, h5, h6, h7⟩ := writes_of_chain cur st
      st.allocNode.2 s' _ _ (fun k c => rfl) rfl rfl rfl rfl hchain
      (by simp [fallbackChildren, BVH4.N]) hs
    have hcomp : (s'.compact st.nodes.length).nodes = s'.nodes := by
      simp only [State.compact, h1]
      have hl : (writeNodes st.nodes cur.parent (encodeNode st.nodes.length)).length =
          st.nodes.length := by simp
      have e1 := getD_at_length (writeNodes st.nodes cur.parent (encodeNode st.nodes.length))
        nd Node.clear ex
      have e2 := set_at_length (writeNodes st.nodes cur.parent (encodeNode st.nodes.length))
        nd (BVH4.compact nd) ex
      rw [hl] at e1 e2
      rw [e1, e2, compact_of_filledUpTo nd _ (by simp [fallbackChildren, BVH4.N]) h2]
    refine ⟨encodeNode st.nodes.length, nd :: ex, ws, new, by simp [encodeNode], ?_, ?_, ?_, ?_,
      ?_, ?_⟩
    · rw [hcomp, h1]
    · rw [compact_writes, h3]
    · intro hp
      show s'.root = _
      rw [h5, if_pos hp]
    · rw [hcomp]; exact h4
    · rw [compact_leafCalls, h6]
    · rw [← h7]; simp [leafSlots, encodeNode]

/-- A sequential `recurse` call stores through the parent slot once and then
through the slots of the nodes it allocates, once each. -/
theorem recurse_writes_once (env : Env) (threadID : Nat) (cur : BuildRecord) (st st' : State)
    (h : recurse env threadID Mode.RECURSE_SEQUENTIAL cur st = Outcome.done st') :
    RootKept cur st st' ∧ WritesOnce cur st st' := by
  refine recurse_seq_induct env threadID (fun r s s' => RootKept r s s' ∧ WritesOnce r s s')
    ?_ ?_ cur st st' h
  · intro cur st st' hcl
    exact createLeaf_writes_once env cur st st' hcl
  · intro cur st st' _ _ hne hchain
    have hle := expandLoop_length_le env Mode.RECURSE_SEQUENTIAL cur.depth (BVH4.N - 1) [cur]
      st.prims
    simp only [List.length_singleton] at hle
    have hroot : RootKept cur st st' := by
      intro hp
      have hc := childChain_imp _ RootKept _ _ _ _ _ _ (fun k c s1 s2 _ hP => hP.1) hchain
      have := chain_root _ st.nodes.length (fun k c => rfl) _ _ _ _ hc
      rw [this, store_root, if_neg hp]
      rfl
    refine ⟨hroot, ?_⟩
    intro hs
    obtain ⟨nd, ex, ws, new, h1, h2, h3, h4, h5, h6, h7⟩ := writes_of_chain cur st
      ({ st with prims := (expandLoop env Mode.RECURSE_SEQUENTIAL cur.depth (BVH4.N - 1) [cur]
          st.prims).2 } : State).allocNode.2 st' _ _
      (fun k c => rfl) rfl rfl rfl rfl hchain (by simp only [BVH4.N] at hle ⊢; omega) hs
    refine ⟨encodeNode st.nodes.length, nd :: ex, ws, new, by simp [encodeNode], h1, h3, ?_, h4,
      h6, ?_⟩
    · intro hp
      rw [h5, if_pos hp]
    · rw [← h7]; simp [leafSlots, encodeNode]

/-- In a finished node the child slots in use are those below the number of
children. -/
theorem finished_slot_in_use (nd : Node) (h : nd.finished) (i : Nat) :
    nd.children.getD i NodeRef.empty ≠ NodeRef.empty ↔ i < nd.numChildren := by
  obtain ⟨k, _, hk, hf, _⟩ := h
  rw [numChildren_of_filledUpTo nd k hk hf]
  obtain ⟨_, h2, h3, h4⟩ := hf
  constructor
  · intro hne
    by_contra hik
    by_cases hi : i < BVH4.N
    · exact hne (h4 i (by omega) hi).1
    · apply hne
      simp only [List.getD_eq_getElem?_getD]
      rw [List.getElem?_eq_none (by omega)]
      rfl
  · intro hik
    exact h3 i hik

/-- C24. Parent slots are written exactly once. In a sequential build that
ends without error, the log of stores made through parent slots starts with
one store through `bvh.root`, which holds the pointer stored; no slot occurs
twice in the log; the child slots in the log are exactly the slots
`i < numChildren` of the allocated nodes, and no store is through a null
pointer; every pointer stored is an encoded leaf or an encoded node, and at
the end each slot holds the pointer stored through it; and the encoded leaves
are stored by the `createSmallLeaf` calls, each through the parent slot of
its record. Moreover every sequential `recurse` call that ends normally, on
a record whose parent is a slot of the memory, first stores through that
parent slot and after that only through slots of nodes allocated during the
call. -/
theorem parent_slots_written_once (env : Env) (threadIndex numPrimitives : Nat)
    (prims : List PrimRef) (pinfo : CentGeomBBox3fa) (st' : State)
    (h : build_sequential env threadIndex numPrimitives prims pinfo = Outcome.done st') :
    (∃ ref ws, st'.writes = (Slot.root, ref) :: ws ∧ st'.root = ref ∧
      ∀ w ∈ ws, ∃ k i, w.1 = Slot.child k i) ∧
    (st'.writes.map Prod.fst).Nodup ∧
    (∀ k i, Slot.child k i ∈ st'.writes.map Prod.fst ↔
      k < st'.nodes.length ∧ i < (st'.nodes.getD k Node.clear).numChildren) ∧
    Slot.null ∉ st'.writes.map Prod.fst ∧
    (∀ w ∈ st'.writes, (∃ p n, w.2 = encodeLeaf p n) ∨ ∃ k, w.2 = encodeNode k) ∧
    (∀ k i r, (Slot.child k i, r) ∈ st'.writes →
      (st'.nodes.getD k Node.clear).children.getD i NodeRef.empty = r) ∧
    leafSlots st'.writes = st'.leafCalls.map (fun c => c.1.parent) ∧
    (∀ threadID cur st st2,
      recurse env threadID Mode.RECURSE_SEQUENTIAL cur st = Outcome.done st2 →
      st.hasSlot cur.parent →
      ∃ ref ws, st2.writes = st.writes ++ (cur.parent, ref) :: ws ∧
        ∀ w ∈ ws, ∃ k i, w.1 = Slot.child k i ∧ st.nodes.length ≤ k ∧ k < st2.nodes.length) := by
  have hroot : (initialState prims pinfo).hasSlot (rootRecord pinfo numPrimitives).parent := by
    simp [rootRecord, State.hasSlot]
  obtain ⟨ref, extra, ws, new, href, hnodes, hwrites, hr, ⟨o1, o2, o3⟩, hleaf, hls⟩ :=
    (recurse_writes_once env threadIndex _ _ _ h).2 hroot
  obtain ⟨ref0, extra0, _, hnodes0, hfin⟩ := recurse_fills env threadIndex _ _ _ h hroot
  have hnodes' : st'.nodes = extra0 := by
    rw [hnodes0]; simp [rootRecord, initialState, writeNodes]
  have hfinished : ∀ k, k < st'.nodes.length → (st'.nodes.getD k Node.clear).finished := by
    intro k hk
    apply hfin
    rw [← hnodes']
    rw [List.getD_eq_getElem?_getD, List.getElem?_eq_getElem hk]
    exact List.getElem_mem _
  have hw : st'.writes = (Slot.root, ref) :: ws := by
    rw [hwrites]; simp [rootRecord, initialState]
  have hchild : ∀ w ∈ ws, ∃ k i, w.1 = Slot.child k i := by
    intro w hw'
    obtain ⟨_, k, i, hk, _⟩ := o2 w hw'
    exact ⟨k, i, hk⟩
  have hnotin : ∀ s, (∀ k i, s ≠ Slot.child k i) → s ∉ ws.map Prod.fst := by
    intro s hs hin
    rw [List.mem_map] at hin
    obtain ⟨w, hw', rfl⟩ := hin
    obtain ⟨k, i, hk⟩ := hchild w hw'
    exact hs k i hk
  refine ⟨⟨ref, ws, hw, hr rfl, hchild⟩, ?_, ?_, ?_, ?_, ?_, ?_, ?_⟩
  · rw [hw, List.map_cons, List.nodup_cons]
    exact ⟨hnotin _ (by intro k i; simp), o1⟩
  · intro k i
    rw [hw, List.map_cons, List.mem_cons]
    constructor
    · intro hin
      rcases hin with hin | hin
      · cases hin
      · rw [List.mem_map] at hin
        obtain ⟨w, hw', hw1⟩ := hin
        obtain ⟨hne, k', i', hk, _, hlt, hv⟩ := o2 w hw'
        rw [hw1] at hk
        cases hk
        refine ⟨hlt, ?_⟩
        rw [← finished_slot_in_use _ (hfinished k hlt), hv]
        exact hne
    · intro ⟨hk, hi⟩
      right
      apply o3 k i (Nat.zero_le _) hk
      rw [finished_slot_in_use _ (hfinished k hk)]
      exact hi
  · rw [hw, List.map_cons, List.mem_cons]
    intro hin
    rcases hin with hin | hin
    · cases hin
    · exact hnotin _ (by intro k i; simp) hin
  · intro w hw'
    have hne : w.2 ≠ NodeRef.empty := by
      rw [hw] at hw'
      rcases List.mem_cons.1 hw' with rfl | hw'
      · exact href
      · exact (o2 w hw').1
    cases hw2 : w.2 with
    | empty => exact absurd hw2 hne
    | node idx => exact Or.inr ⟨idx, rfl⟩
    | leaf p n => exact Or.inl ⟨p, n, rfl⟩
  · intro k i r hin
    rw [hw] at hin
    rcases List.mem_cons.1 hin with hin | hin
    · cases hin
    · obtain ⟨_, k', i', hk, _, _, hv⟩ := o2 _ hin
      cases hk
      exact hv
  · have hls' : leafSlots ((Slot.root, ref) :: ws) = new.map (fun c => c.1.parent) := hls
    rw [hw, hls', hleaf]
    simp [initialState]
  · intro threadID cur st st2 hrec hslot
    obtain ⟨ref2, extra2, ws2, new2, _, hn2, hw2, _, ⟨_, p2, _⟩, _, _⟩ :=
      (recurse_writes_once env threadID cur st st2 hrec).2 hslot
    refine ⟨ref2, ws2, hw2, ?_⟩
    intro w hw'
    obtain ⟨_, k, i, hk, hlo, hlt, _⟩ := p2 w hw'
    exact ⟨k, i, hk, hlo, hlt⟩

theorem parent_slots_written_once_witness :
    build_sequential (fallbackEnv Layout.triangle1 2) 0 5 (samplePrims 5)
        (scanBounds (samplePrims 5) 0 5) =
      Outcome.done (build_sequential (fallbackEnv Layout.triangle1 2) 0 5 (samplePrims 5)
        (scanBounds (samplePrims 5) 0 5)).state ∧
    (build_sequential (fallbackEnv Layout.triangle1 2) 0 5 (samplePrims 5)
        (scanBounds (samplePrims 5) 0 5)).state.writes.map Prod.fst =
      [Slot.root, Slot.child 0 0, Slot.child 0 1, Slot.child 0 2] ∧
    ((build_sequential (fallbackEnv Layout.triangle1 2) 0 5 (samplePrims 5)
        (scanBounds (samplePrims 5) 0 5)).state.writes.map Prod.fst).Nodup :=
  ⟨Outcome.eq_done_of_isDone _ (by decide), by decide,
   (parent_slots_written_once (fallbackEnv Layout.triangle1 2) 0 5 (samplePrims 5)
      (scanBounds (samplePrims 5) 0 5) _ (Outcome.eq_done_of_isDone _ (by decide))).2.1⟩

/-! ## The subtree phase run by one worker -/

theorem flatten_set_perm {α : Type} (l : List (List α)) (x : List α) :
    ∀ i, i < l.length → ((l.set i x).flatten).Perm (x ++ (l.set i []).flatten) := by
  induction l with
  | nil => intro i hi; simp at hi
  | cons a l ih =>
    intro i hi
    cases i with
    | zero => simp
    | succ i =>
      simp only [List.set_cons_succ, List.flatten_cons]
      have := ih i (by simpa using hi)
      refine (this.append_left a).trans ?_
      rw [← List.append_assoc, ← List.append_assoc]
      exact List.Perm.append_right _ List.perm_append_comm

theorem set_getD_self {α : Type} (l : List (List α)) : ∀ i, l.set i (l.getD i []) = l := by
  induction l with
  | nil => intro i; rfl
  | cons a l ih =>
    intro i
    cases i with
    | zero => rfl
    | succ i =>
      have := ih i
      simp only [List.getD_eq_getElem?_getD] at this
      simp [this]

theorem flatten_perm_getD {α : Type} (l : List (List α)) (i : Nat) (hi : i < l.length) :
    l.flatten.Perm (l.getD i [] ++ (l.set i []).flatten) := by
  have h := flatten_set_perm l (l.getD i []) i hi
  rwa [set_getD_self] at h

/-- Replacing the stack of thread `i` by `x ++ old`, `old` being what it was:
the records `x` join the waiting ones. -/
theorem flatten_set_push {α : Type} (l : List (List α)) (x : List α) (i : Nat)
    (hi : i < l.length) :
    ((l.set i (x ++ l.getD i [])).flatten).Perm (x ++ l.flatten) := by
  refine (flatten_set_perm l _ i hi).trans ?_
  rw [List.append_assoc]
  exact (flatten_perm_getD l i hi).symm.append_left x

/-- Taking the top record off the stack of thread `i`. -/
theorem flatten_set_pop {α : Type} (l : List (List α)) (r : α) (rest : List α) (i : Nat)
    (hi : i < l.length) (h : l.getD i [] = r :: rest) :
    l.flatten.Perm (r :: (l.set i rest).flatten) := by
  refine (flatten_perm_getD l i hi).trans ?_
  rw [h]
  exact ((flatten_set_perm l rest i hi).symm).cons r

theorem stackPush_pending (env : Env) (st st1 : State) (t : Nat) (r : BuildRecord)
    (ht : t < st.threadStack.length) (h : st.stackPush env t r = some st1) :
    st1.pending.Perm (r :: st.pending) ∧ st1.threadStack.length = st.threadStack.length ∧
    st1.prims = st.prims ∧ st1.leafCalls = st.leafCalls := by
  unfold State.stackPush at h
  simp only at h
  by_cases hlt : (st.threadStack.getD t []).length < env.stackSize
  · rw [if_pos hlt] at h
    cases h
    refine ⟨?_, by simp, rfl, rfl⟩
    unfold State.pending
    simp only
    have := flatten_set_push st.threadStack [r] t ht
    simp only [List.singleton_append] at this
    exact (this.append_left st.heap).trans List.perm_middle
  · rw [if_neg hlt] at h; cases h

theorem stackPop_pending (st st1 : State) (t : Nat) (r : BuildRecord)
    (h : st.stackPop t = some (r, st1)) :
    t < st.threadStack.length ∧ st.pending.Perm (r :: st1.pending) ∧
    st1.threadStack.length = st.threadStack.length ∧ st1.prims = st.prims ∧
    st1.leafCalls = st.leafCalls ∧ st1.heap = st.heap := by
  unfold State.stackPop at h
  split at h
  · cases h
  · rename_i r' rest hst
    cases h
    have ht : t < st.threadStack.length := by
      by_contra hge
      rw [List.getD_eq_getElem?_getD, List.getElem?_eq_none (by omega)] at hst
      simp at hst
    refine ⟨ht, ?_, by simp, rfl, rfl, rfl⟩
    unfold State.pending
    simp only
    exact ((flatten_set_pop st.threadStack r rest t ht hst).append_left st.heap).trans
      List.perm_middle

/-- `heap.pop` hands back one of the records of the heap and keeps the
others. -/
theorem heapPop_perm : ∀ (h : List BuildRecord) (m : BuildRecord) (rest : List BuildRecord),
    heapPop h = some (m, rest) → h.Perm (m :: rest) := by
  intro h
  induction h with
  | nil => intro m rest hp; simp [heapPop] at hp
  | cons r rs ih =>
    intro m rest hp
    unfold heapPop at hp
    cases hq : heapPop rs with
    | none =>
      rw [hq] at hp
      simp only [Option.some.injEq, Prod.mk.injEq] at hp
      obtain ⟨rfl, rfl⟩ := hp
      cases rs with
      | nil => exact List.Perm.refl _
      | cons a as =>
        unfold heapPop at hq
        cases hq' : heapPop as with
        | none => rw [hq'] at hq; simp at hq
        | some x =>
          rw [hq'] at hq
          obtain ⟨m', rest'⟩ := x
          simp only at hq
          split at hq <;> simp at hq
    | some x =>
      obtain ⟨m', rest'⟩ := x
      rw [hq] at hp
      simp only at hp
      have hperm := ih m' rest' hq
      split at hp
      · simp only [Option.some.injEq, Prod.mk.injEq] at hp
        obtain ⟨rfl, rfl⟩ := hp
        exact List.Perm.refl _
      · simp only [Option.some.injEq, Prod.mk.injEq] at hp
        obtain ⟨rfl, rfl⟩ := hp
        exact (hperm.cons r).trans (List.Perm.swap _ _ _)

theorem heapPop_none (h : List BuildRecord) (hp : heapPop h = none) : h = [] := by
  cases h with
  | nil => rfl
  | cons r rs =>
    unfold heapPop at hp
    cases hq : heapPop rs with
    | none => rw [hq] at hp; simp at hp
    | some x =>
      obtain ⟨m', rest'⟩ := x
      rw [hq] at hp
      simp only at hp
      split at hp <;> simp at hp

theorem one_le_workWeight (env : Env) (r : BuildRecord) : 1 ≤ workWeight env r :=
  Nat.one_le_pow _ _ (by norm_num)

/-- In the modes of the subtree phase the expansion loop uses the sequential
splitter. -/
theorem expandLoop_parallel (env : Env) (d : Nat) : ∀ k cs P,
    expandLoop env Mode.RECURSE_PARALLEL d k cs P =
      expandLoop env Mode.RECURSE_SEQUENTIAL d k cs P := by
  intro k
  induction k with
  | zero => intro cs P; rfl
  | succ k ih =>
    intro cs P
    rw [expandLoop_succ, expandLoop_succ]
    have hs : ∀ r, split env Mode.RECURSE_PARALLEL P r = split env Mode.RECURSE_SEQUENTIAL P r := by
      intro r; simp [split]
    cases findBestChild env cs with
    | none => rfl
    | some j => simp only [hs, ih]

/-- What every call of a children loop leaves alone, the loop leaves alone. -/
theorem chain_frame {α : Type} (f : State → α) (upd : Nat → BuildRecord → BuildRecord)
    (node : Nat) (hset : ∀ s i c, f (State.setBounds s node i c) = f s) :
    ∀ cs i s s', childChain (fun _ s s' => f s' = f s) upd node i cs s s' → f s' = f s := by
  intro cs
  induction cs with
  | nil =>
    intro i s s' h
    simp only [childChain] at h
    rw [h]
  | cons c rest ih =>
    intro i s s' h
    obtain ⟨s1, hc, hrest⟩ := h
    rw [ih (i + 1) s1 s' hrest, hc, hset]

theorem store_heap (st : State) (slot : Slot) (ref : NodeRef) :
    (st.store slot ref).heap = st.heap ∧ (st.store slot ref).threadStack = st.threadStack := by
  unfold State.store; cases slot <;> exact ⟨rfl, rfl⟩

theorem createSmallLeaf_heap (env : Env) (cur : BuildRecord) (st : State) :
    (createSmallLeaf env cur st).heap = st.heap ∧
    (createSmallLeaf env cur st).threadStack = st.threadStack := by
  unfold createSmallLeaf
  simp only
  exact ⟨(store_heap _ _ _).1, (store_heap _ _ _).2⟩

/-- `createLeaf` leaves the heap and the thread stacks alone. -/
theorem createLeaf_heap (env : Env) (cur : BuildRecord) (st st' : State)
    (h : createLeaf env cur st = Outcome.done st') :
    (st'.heap, st'.threadStack) = (st.heap, st.threadStack) := by
  refine createLeaf_induct env
    (fun _ s s' => (s'.heap, s'.threadStack) = (s.heap, s.threadStack)) ?_ ?_ cur st st' h
  · intro cur st _ _
    rw [(createSmallLeaf_heap env cur st).1, (createSmallLeaf_heap env cur st).2]
  · intro cur st s' _ _ hchain
    have := chain_frame (fun s => (s.heap, s.threadStack)) _ st.nodes.length
      (fun s i c => rfl) _ _ _ _ hchain
    simp only at this
    show (s'.heap, s'.threadStack) = _
    rw [this, (store_heap _ _ _).1, (store_heap _ _ _).2]
    rfl

/-- `createLeaf` in the subtree phase: nothing is pushed, and the record is
covered by leaves. -/
theorem createLeaf_subtree (env : Env) (n t : Nat) (hn : n + env.minLeafSize < 2 ^ 64)
    (cur : BuildRecord) (st st' : State) (h : createLeaf env cur st = Outcome.done st') :
    SubtreePost env n t 1 cur st st' := by
  intro _
  have hf := createLeaf_heap env cur st st' h
  simp only [Prod.mk.injEq] at hf
  refine ⟨by rw [hf.2], [], ?_, ?_, ?_, ?_⟩
  · unfold State.pending
    rw [hf.1, hf.2]
    exact List.Perm.refl _
  · simpa using one_le_workWeight env cur
  · intro _ p hp; simp at hp
  · intro hw hlen
    obtain ⟨hp, new, hl, hidx, hsnap⟩ := (createLeaf_covers env cur st st' h).2 hw
      (by have := hw.2; omega)
    exact ⟨new, hl, hp, by simpa using hidx, hsnap, by simp⟩

theorem setBounds_pending (st : State) (n i : Nat) (c : BuildRecord) :
    (st.setBounds n i c).pending = st.pending := rfl

/-- The subtree postcondition over a children loop whose children have
pairwise disjoint ranges: what the children push, taken together, weighs no
more than the children; and the new leaf calls and the records pushed cover
the children. -/
theorem chain_subtree (env : Env) (n t : Nat) (upd : Nat → BuildRecord → BuildRecord)
    (node : Nat)
    (hupd : ∀ i c, (upd i c).begin = c.begin ∧ (upd i c).end_ = c.end_ ∧
      (upd i c).depth = c.depth) :
    ∀ cs i s s', childChain (SubtreePost env n t 0) upd node i cs s s' →
      t < s.threadStack.length →
      s'.threadStack.length = s.threadStack.length ∧
      ∃ pushed, s'.pending.Perm (pushed ++ s.pending) ∧
        (pushed.map (workWeight env)).sum ≤ (cs.map (workWeight env)).sum ∧
        ((∀ c ∈ cs, c.depth ≤ env.maxBuildDepth) →
          ∀ p ∈ pushed, p.depth ≤ env.maxBuildDepth) ∧
        (s.prims.length = n → (∀ c ∈ cs, c.within n) →
          cs.Pairwise (fun a b => ∀ i, i ∈ a.indices → i ∉ b.indices) →
          ∃ new, s'.leafCalls = s.leafCalls ++ new ∧ s'.prims.Perm s.prims ∧
            (∀ i, (∀ c ∈ cs, ¬ (c.begin ≤ i ∧ i < c.end_)) →
              primAt s'.prims i = primAt s.prims i) ∧
            (new.flatMap (fun c => c.1.indices) ++ pushed.flatMap BuildRecord.indices).Perm
              (cs.flatMap BuildRecord.indices) ∧
            (∀ l ∈ new, l.2 = l.1.primsOf s'.prims ∧ l.1.begin ≤ l.1.end_ ∧
              ∃ c ∈ cs, c.begin ≤ l.1.begin ∧ l.1.end_ ≤ c.end_) ∧
            ∀ p ∈ pushed, p.begin ≤ p.end_ ∧ ∃ c ∈ cs, c.begin ≤ p.begin ∧ p.end_ ≤ c.end_) := by
  intro cs
  induction cs with
  | nil =>
    intro i s s' h _
    simp only [childChain] at h
    subst h
    refine ⟨rfl, [], by simp, by simp, by simp, ?_⟩
    intro _ _ _
    exact ⟨[], by simp, List.Perm.refl _, fun _ _ => rfl, by simp, by simp, by simp⟩
  | cons c rest ih =>
    intro i s s' h ht
    obtain ⟨s1, hc, hrest⟩ := h
    obtain ⟨hlen1, pushed1, hperm1, hw1, hdep1, hcov1⟩ := hc (by simpa using ht)
    have hlen1' : s1.threadStack.length = s.threadStack.length := hlen1
    obtain ⟨hlen2, pushed2, hperm2, hw2, hdep2, hcov2⟩ := ih (i + 1) s1 s' hrest (by omega)
    rw [setBounds_pending] at hperm1
    have hwc : workWeight env (upd i c) = workWeight env c := by
      unfold workWeight; rw [(hupd i c).2.2]
    refine ⟨by omega, pushed2 ++ pushed1, ?_, ?_, ?_, ?_⟩
    · refine hperm2.trans ?_
      rw [List.append_assoc]
      exact hperm1.append_left pushed2
    · simp only [List.map_append, List.sum_append, List.map_cons, List.sum_cons]
      rw [hwc] at hw1
      omega
    · intro hd p hpm
      rw [List.mem_append] at hpm
      rcases hpm with hpm | hpm
      · exact hdep2 (fun c' hc' => hd c' (List.mem_cons_of_mem _ hc')) p hpm
      · exact hdep1 (by rw [(hupd i c).2.2]; exact hd c (List.mem_cons_self _ _)) p hpm
    · intro hn hw hp
      have hwc' := hw c (List.mem_cons_self _ _)
      rw [List.pairwise_cons] at hp
      obtain ⟨new1, hl1, ⟨hp1, hframe1⟩, hidx1, hsnap1, hpush1⟩ := hcov1
        (by
          unfold BuildRecord.within at *
          rw [(hupd i c).1, (hupd i c).2.1]
          simpa [hn] using hwc')
        (by simpa using hn)
      rw [(hupd i c).1, (hupd i c).2.1] at hframe1 hsnap1 hpush1
      simp only [setBounds_prims, setBounds_leafCalls] at hp1 hframe1 hl1
      have hn1 : s1.prims.length = n := by rw [hp1.length_eq, hn]
      obtain ⟨new2, hl2, hp2, hframe2, hidx2, hsnap2, hpush2⟩ := hcov2 hn1
        (fun c' hc' => hw c' (List.mem_cons_of_mem _ hc')) hp.2
      have hci : (upd i c).indices = c.indices := by
        unfold BuildRecord.indices; rw [(hupd i c).1, (hupd i c).2.1]
      rw [hci] at hidx1
      refine ⟨new1 ++ new2, by rw [hl2, hl1, List.append_assoc], hp2.trans hp1, ?_, ?_, ?_, ?_⟩
      · intro j hj
        rw [hframe2 j (fun c' hc' => hj c' (List.mem_cons_of_mem _ hc'))]
        apply hframe1
        have := hj c (List.mem_cons_self _ _)
        omega
      · rw [List.flatMap_append, List.flatMap_append, List.flatMap_cons]
        have e1 : (new1.flatMap (fun c => c.1.indices) ++ new2.flatMap (fun c => c.1.indices) ++
            (pushed2.flatMap BuildRecord.indices ++ pushed1.flatMap BuildRecord.indices)).Perm
            ((new1.flatMap (fun c => c.1.indices) ++ pushed1.flatMap BuildRecord.indices) ++
              (new2.flatMap (fun c => c.1.indices) ++ pushed2.flatMap BuildRecord.indices)) := by
          rw [List.append_assoc, List.append_assoc]
          apply List.Perm.append_left
          rw [← List.append_assoc]
          exact List.perm_append_comm
        exact e1.trans (hidx1.append hidx2)
      · intro l hl
        rw [List.mem_append] at hl
        rcases hl with hl | hl
        · obtain ⟨hs, hb, hle, he⟩ := hsnap1 l hl
          refine ⟨?_, hle, c, List.mem_cons_self _ _, hb, he⟩
          rw [hs]
          apply primsOf_congr
          intro j hj1 hj2
          symm
          apply hframe2
          intro c' hc' hjc'
          exact hp.1 c' hc' j (by rw [mem_indices]; omega) (by rw [mem_indices]; exact hjc')
        · obtain ⟨hs, hle, c', hc', hb, he⟩ := hsnap2 l hl
          exact ⟨hs, hle, c', List.mem_cons_of_mem _ hc', hb, he⟩
      · intro p hpm
        rw [List.mem_append] at hpm
        rcases hpm with hpm | hpm
        · obtain ⟨hle, c', hc', hb, he⟩ := hpush2 p hpm
          exact ⟨hle, c', List.mem_cons_of_mem _ hc', hb, he⟩
        · obtain ⟨hb, hle, he⟩ := hpush1 p hpm
          exact ⟨hle, c, List.mem_cons_self _ _, hb, he⟩

theorem subtreePost_weaken (env : Env) (n t : Nat) (cur : BuildRecord) (st st' : State)
    (h : SubtreePost env n t 1 cur st st') : SubtreePost env n t 0 cur st st' := by
  intro ht
  obtain ⟨h1, pushed, h2, h3, h4⟩ := h ht
  exact ⟨h1, pushed, h2, by omega, h4⟩

theorem sum_map_const {α : Type} (f : α → Nat) (x : Nat) :
    ∀ (l : List α), (∀ a ∈ l, f a = x) → (l.map f).sum = l.length * x := by
  intro l
  induction l with
  | nil => intro _; simp
  | cons a l ih =>
    intro h
    rw [List.map_cons, List.sum_cons, h a (List.mem_cons_self _ _),
      ih (fun b hb => h b (List.mem_cons_of_mem _ hb)), List.length_cons]
    ring

/-- A child handed to `recurse_continue` in the subtree phase: pushed on the
stack of the thread, or processed by `recurse`. -/
theorem recurse_continue_subtree (env : Env) (n t : Nat)
    (recurse : Mode → BuildRecord → State → Outcome) (mode : Mode)
    (hm : mode ≠ Mode.BUILD_TOP_LEVEL)
    (hrec : ∀ m r s s', m ≠ Mode.BUILD_TOP_LEVEL → recurse m r s = Outcome.done s' →
      SubtreePost env n t 1 r s s')
    (r : BuildRecord) (s s' : State)
    (h : recurse_continue env recurse mode t r s = Outcome.done s') :
    SubtreePost env n t 0 r s s' := by
  unfold recurse_continue at h
  rw [if_neg hm] at h
  split at h
  · split at h
    · rename_i st1 hpush
      cases h
      intro ht
      obtain ⟨hp, hl, hprims, hleaf⟩ := stackPush_pending env s s' t r ht hpush
      refine ⟨hl, [r], by simpa using hp, by simp, ?_, ?_⟩
      · intro hd p hpm
        rw [List.mem_singleton] at hpm
        subst hpm
        exact hd
      intro hw _
      refine ⟨[], by simp [hleaf], by rw [hprims]; exact permWithin_refl _ _ _, by simp,
        by simp, ?_⟩
      intro p hpm
      rw [List.mem_singleton] at hpm
      subst hpm
      exact ⟨le_refl _, hw.1, le_refl _⟩
    · exact subtreePost_weaken env n t r s s' (hrec _ r s s' (by simp) h)
  · exact subtreePost_weaken env n t r s s' (hrec _ r s s' hm h)

theorem expandLoop_subtree_mode (env : Env) (mode : Mode) (hm : mode ≠ Mode.BUILD_TOP_LEVEL)
    (d k : Nat) (cs : List BuildRecord) (P : List PrimRef) :
    expandLoop env mode d k cs P = expandLoop env Mode.RECURSE_SEQUENTIAL d k cs P := by
  cases mode with
  | BUILD_TOP_LEVEL => exact absurd rfl hm
  | RECURSE_SEQUENTIAL => rfl
  | RECURSE_PARALLEL => exact expandLoop_parallel env d k cs P

/-- `recurse` in the subtree phase, in `RECURSE_PARALLEL` or
`RECURSE_SEQUENTIAL` mode: the records pushed weigh less than the record, and
together with the new leaf calls they cover it. -/
theorem recurseF_subtree (env : Env) (n t : Nat) (hsplit : SplitsWithinRange env n)
    (hn : n + env.minLeafSize < 2 ^ 64) :
    ∀ fuel mode cur st st', mode ≠ Mode.BUILD_TOP_LEVEL →
      recurseF env t fuel mode cur st = Outcome.done st' →
      SubtreePost env n t 1 cur st st' := by
  intro fuel
  induction fuel with
  | zero => intro mode cur st st' _ h; simp [recurseF] at h
  | succ fuel ih =>
    intro mode cur st st' hm h
    rw [recurseF_unfold] at h
    simp only at h
    by_cases hc : cur.depth ≥ env.maxBuildDepth ∨ cur.size ≤ env.minLeafSize
    · rw [if_pos hc] at h
      exact createLeaf_subtree env n t hn cur st st' h
    · rw [if_neg hc] at h
      by_cases h1 : (expandLoop env mode cur.depth (BVH4.N - 1) [cur] st.prims).1.length = 1
      · rw [if_pos h1] at h
        have := (expandLoop_length_ge env mode cur.depth (BVH4.N - 1) [cur]
          st.prims).2 (by simpa using h1)
        rw [this] at h
        exact createLeaf_subtree env n t hn cur st st' h
      · rw [if_neg h1] at h
        have hchain := forChildren_chain _ (SubtreePost env n t 0)
          (fun i c => { c with parent := Slot.child st.nodes.length i }) st.nodes.length
          (recurse_continue env (fun m r s1 => recurseF env t fuel m r s1) mode t)
          (fun i c s => rfl)
          (fun r s s' hr => recurse_continue_subtree env n t _ mode hm
            (fun m r s s' hm' hr' => ih m r s s' hm' hr') r s s' hr) _ _ _ _ h
        rw [expandLoop_subtree_mode env mode hm] at hchain h1
        intro ht
        obtain ⟨hlen, pushed, hperm, hw, hdep, hcov⟩ := chain_subtree env n t
          (fun i c => { c with parent := Slot.child st.nodes.length i }) st.nodes.length
          (fun i c => ⟨rfl, rfl, rfl⟩) _ _ _ _ hchain
          (by rw [(store_heap _ _ _).2]; exact ht)
        have hd := (expandLoop_depth env Mode.RECURSE_SEQUENTIAL cur st.prims).resolve_left
          (fun heq => h1 (by rw [heq]; rfl))
        have hle := expandLoop_length_le env Mode.RECURSE_SEQUENTIAL cur.depth (BVH4.N - 1) [cur]
          st.prims
        simp only [List.length_singleton] at hle
        have hN : BVH4.N = 4 := rfl
        refine ⟨by rw [hlen, (store_heap _ _ _).2]; rfl, pushed, ?_, ?_, ?_, ?_⟩
        · refine hperm.trans ?_
          unfold State.pending
          rw [(store_heap _ _ _).1, (store_heap _ _ _).2]
          exact List.Perm.refl _
        · have hsum := sum_map_const (workWeight env) (5 ^ (env.maxBuildDepth - (cur.depth + 1)))
            _ (fun c hc' => by unfold workWeight; rw [hd c hc'])
          rw [hsum] at hw
          have hx : 1 ≤ 5 ^ (env.maxBuildDepth - (cur.depth + 1)) :=
            Nat.one_le_pow _ _ (by norm_num)
          have hcur : workWeight env cur = 5 ^ (env.maxBuildDepth - (cur.depth + 1)) * 5 := by
            unfold workWeight
            rw [← pow_succ]
            congr 1
            omega
          rw [hcur]
          have hle4 : (expandLoop env Mode.RECURSE_SEQUENTIAL cur.depth (BVH4.N - 1) [cur]
              st.prims).1.length * 5 ^ (env.maxBuildDepth - (cur.depth + 1)) ≤
              4 * 5 ^ (env.maxBuildDepth - (cur.depth + 1)) :=
            Nat.mul_le_mul_right _ (by omega)
          omega
        · intro _
          exact hdep (fun c hc' => by rw [hd c hc']; omega)
        · intro hwi hlen'
          rw [hlen'] at hwi
          obtain ⟨hPW, hin, hidx⟩ := expandLoop_tiles env n hsplit cur st.prims hlen' hwi
          have hlen'' : (expandLoop env Mode.RECURSE_SEQUENTIAL cur.depth (BVH4.N - 1) [cur]
              st.prims).2.length = n := by rw [hPW.1.length_eq, hlen']
          obtain ⟨new, hl, hp, hframe, hidx', hsnap, hpush⟩ := hcov
            (by simpa using hlen'')
            (fun c hc' => by
              have := hin c hc'
              exact ⟨this.1, by have := hwi.2; omega⟩)
            (pairwise_disjoint_of_perm _ cur hidx)
          simp only [store_prims, allocNode_prims, store_leafCalls, allocNode_leafCalls]
            at hl hp hframe
          refine ⟨new, hl, ⟨hp.trans hPW.1, ?_⟩, hidx'.trans hidx, ?_, ?_⟩
          · intro i hi
            rw [hframe i (fun c hc' => by have := hin c hc'; omega)]
            exact hPW.2 i hi
          · intro l hl'
            obtain ⟨h1', h2', c, hc', h3', h4'⟩ := hsnap l hl'
            have := hin c hc'
            exact ⟨h1', by omega, h2', by omega⟩
          · intro p hp'
            obtain ⟨h2', c, hc', h3', h4'⟩ := hpush p hp'
            have := hin c hc'
            exact ⟨by omega, h2', by omega⟩

theorem recurse_subtree (env : Env) (n t : Nat) (hsplit : SplitsWithinRange env n)
    (hn : n + env.minLeafSize < 2 ^ 64) (cur : BuildRecord) (st st' : State)
    (h : recurse env t Mode.RECURSE_PARALLEL cur st = Outcome.done st') :
    SubtreePost env n t 1 cur st st' :=
  recurseF_subtree env n t hsplit hn _ _ cur st st' (by simp) h

/-- `createLeaf` ends normally on a range of an array of at most `2 ^ 32`
primitives that is small enough for the levels left below it. -/
theorem createLeaf_done_of_cap (env : Env) (cur : BuildRecord) (st : State)
    (hbe : cur.begin ≤ cur.end_) (he : cur.end_ ≤ 2 ^ 32) (hd : cur.depth ≤ env.maxBuildDepthLeaf)
    (hs : cur.end_ - cur.begin ≤ env.minLeafSize * 4 ^ (env.maxBuildDepthLeaf - cur.depth)) :
    ∃ st', createLeaf env cur st = Outcome.done st' := by
  have key := createLeafF_error env (env.maxBuildDepthLeaf + 1 - cur.depth + 1) cur st
    (by omega) hbe he
  have hno : ¬ depthLimitHit env cur.depth (cur.end_ - cur.begin) := by
    unfold depthLimitHit
    omega
  rcases key.2 with h | h
  · rw [error_eq_none_iff] at h
    exact ⟨_, Outcome.eq_done_of_isDone _ h⟩
  · exact absurd (key.1.1 h) hno

/-- A children loop ends normally when every call does, given an invariant
of the memory that the calls keep. -/
theorem forChildren_done_of (body : Nat → BuildRecord → State → Outcome) (I : State → Prop) :
    ∀ (cs : List BuildRecord) (i : Nat) (st : State),
      (∀ i c s, c ∈ cs → I s → ∃ s', body i c s = Outcome.done s' ∧ I s') → I st →
      ∃ st', forChildren body i cs st = Outcome.done st' ∧ I st' := by
  intro cs
  induction cs with
  | nil => intro i st _ h; exact ⟨st, rfl, h⟩
  | cons c cs ih =>
    intro i st hb h
    obtain ⟨s1, h1, hI1⟩ := hb i c st (List.mem_cons_self _ _) h
    obtain ⟨st', h2, hI2⟩ := ih (i + 1) s1
      (fun i c s hc hs => hb i c s (List.mem_cons_of_mem _ hc) hs) hI1
    exact ⟨st', by rw [forChildren_cons, h1]; exact h2, hI2⟩

/-- A child handed to `recurse_continue` in the subtree phase is dealt with
without error when `recurse` would deal with it without error. -/
theorem recurse_continue_done (env : Env) (t : Nat)
    (recurse : Mode → BuildRecord → State → Outcome) (mode : Mode)
    (hm : mode ≠ Mode.BUILD_TOP_LEVEL) (r : BuildRecord) (s : State) (I : State → Prop)
    (hpush : ∀ st1, s.stackPush env t r = some st1 → I st1)
    (hrec : ∀ m, m ≠ Mode.BUILD_TOP_LEVEL → ∃ s', recurse m r s = Outcome.done s' ∧ I s') :
    ∃ s', recurse_continue env recurse mode t r s = Outcome.done s' ∧ I s' := by
  unfold recurse_continue
  rw [if_neg hm]
  by_cases hp : mode = Mode.RECURSE_PARALLEL ∧ r.size > THRESHOLD_FOR_SUBTREE_RECURSION
  · rw [if_pos hp]
    cases hs : s.stackPush env t r with
    | none => exact hrec _ (by simp)
    | some st1 => exact ⟨st1, rfl, hpush st1 hs⟩
  · rw [if_neg hp]
    exact hrec _ hm

/-- In the subtree phase `recurse` ends normally on a range of an array that
is small enough for the levels between `maxBuildDepth` and
`maxBuildDepthLeaf`, at a depth of at most `maxBuildDepth`. -/
theorem recurseF_succeeds (env : Env) (n t : Nat) (hsplit : SplitsWithinRange env n)
    (hn : n + env.minLeafSize < 2 ^ 64) (hn32 : n ≤ 2 ^ 32)
    (hD : env.maxBuildDepth ≤ env.maxBuildDepthLeaf)
    (hcap : n ≤ env.minLeafSize * 4 ^ (env.maxBuildDepthLeaf - env.maxBuildDepth)) :
    ∀ fuel mode cur st, mode ≠ Mode.BUILD_TOP_LEVEL → env.maxBuildDepth - cur.depth < fuel →
      cur.depth ≤ env.maxBuildDepth → cur.within n → st.prims.length = n →
      t < st.threadStack.length →
      ∃ st', recurseF env t fuel mode cur st = Outcome.done st' := by
  have hleaf : ∀ (cur : BuildRecord) (st : State), cur.depth ≤ env.maxBuildDepth → cur.within n →
      ∃ st', createLeaf env cur st = Outcome.done st' := by
    intro cur st hd hw
    apply createLeaf_done_of_cap env cur st hw.1 (by have := hw.2; omega) (by omega)
    have hpow : 4 ^ (env.maxBuildDepthLeaf - env.maxBuildDepth) ≤
        4 ^ (env.maxBuildDepthLeaf - cur.depth) :=
      Nat.pow_le_pow_right (by norm_num) (by omega)
    have := Nat.mul_le_mul_left env.minLeafSize hpow
    have := hw.2
    omega
  intro fuel
  induction fuel with
  | zero => intro mode cur st _ h; omega
  | succ fuel ih =>
    intro mode cur st hm hf hd hw hlen ht
    rw [recurseF_unfold]
    simp only
    by_cases hc : cur.depth ≥ env.maxBuildDepth ∨ cur.size ≤ env.minLeafSize
    · rw [if_pos hc]
      exact hleaf cur st hd hw
    · rw [if_neg hc]
      by_cases h1 : (expandLoop env mode cur.depth (BVH4.N - 1) [cur] st.prims).1.length = 1
      · rw [if_pos h1]
        exact hleaf cur _ hd hw
      · rw [if_neg h1]
        rw [expandLoop_subtree_mode env mode hm] at h1 ⊢
        obtain ⟨hPW, hin, hidx⟩ := expandLoop_tiles env n hsplit cur st.prims hlen hw
        have hdc := (expandLoop_depth env Mode.RECURSE_SEQUENTIAL cur st.prims).resolve_left
          (fun heq => h1 (by rw [heq]; rfl))
        have key := forChildren_done_of
          (fun i c s =>
            recurse_continue env (fun m r s1 => recurseF env t fuel m r s1) mode t
              { c with parent := Slot.child st.nodes.length i }
              (s.setBounds st.nodes.length i c))
          (fun s => s.prims.length = n ∧ t < s.threadStack.length)
          (expandLoop env Mode.RECURSE_SEQUENTIAL cur.depth (BVH4.N - 1) [cur] st.prims).1 0
          ((({ st with prims := (expandLoop env Mode.RECURSE_SEQUENTIAL cur.depth (BVH4.N - 1)
              [cur] st.prims).2 } : State).allocNode.2).store cur.parent
            (encodeNode st.nodes.length))
          (by
            intro i c s hcm hI
            have hcw : c.within n := ⟨(hin c hcm).1, by have := (hin c hcm).2.2; have := hw.2; omega⟩
            have hcd : c.depth = cur.depth + 1 := hdc c hcm
            have hrec : ∀ m, m ≠ Mode.BUILD_TOP_LEVEL →
                ∃ s', recurseF env t fuel m { c with parent := Slot.child st.nodes.length i }
                    (s.setBounds st.nodes.length i c) = Outcome.done s' ∧
                  s'.prims.length = n ∧ t < s'.threadStack.length := by
              intro m hm'
              obtain ⟨s', hs'⟩ := ih m { c with parent := Slot.child st.nodes.length i }
                (s.setBounds st.nodes.length i c) hm' (by simp only; omega) (by simp only; omega)
                hcw (by simpa using hI.1) (by simpa using hI.2)
              obtain ⟨hl, pushed, _, _, _, hcov⟩ := recurseF_subtree env n t hsplit hn fuel m _ _ _
                hm' hs' (by simpa using hI.2)
              obtain ⟨new, _, hp, _⟩ := hcov (by simpa [hI.1] using hcw) (by simpa using hI.1)
              refine ⟨s', hs', ?_, ?_⟩
              · rw [hp.1.length_eq]; simpa using hI.1
              · rw [hl]; simpa using hI.2
            apply recurse_continue_done env t _ mode hm _ _
              (fun s => s.prims.length = n ∧ t < s.threadStack.length)
            · intro st1 hpush
              obtain ⟨_, hl, hprims, _⟩ := stackPush_pending env _ st1 t _
                (by simpa using hI.2) hpush
              constructor
              · rw [hprims]; simpa using hI.1
              · rw [hl]; simpa using hI.2
            · exact hrec)
          ⟨by simpa using hPW.1.length_eq.trans hlen, by rw [(store_heap _ _ _).2]; exact ht⟩
        obtain ⟨st', h', _⟩ := key
        exact ⟨st', h'⟩

theorem recurse_succeeds (env : Env) (n t : Nat) (hsplit : SplitsWithinRange env n)
    (hn : n + env.minLeafSize < 2 ^ 64) (hn32 : n ≤ 2 ^ 32)
    (hD : env.maxBuildDepth ≤ env.maxBuildDepthLeaf)
    (hcap : n ≤ env.minLeafSize * 4 ^ (env.maxBuildDepthLeaf - env.maxBuildDepth))
    (cur : BuildRecord) (st : State) (hd : cur.depth ≤ env.maxBuildDepth) (hw : cur.within n)
    (hlen : st.prims.length = n) (ht : t < st.threadStack.length) :
    ∃ st', recurse env t Mode.RECURSE_PARALLEL cur st = Outcome.done st' :=
  recurseF_succeeds env n t hsplit hn hn32 hD hcap _ _ cur st (by simp) (by omega) hd hw hlen ht

theorem work_of_perm (env : Env) (st : State) (l : List BuildRecord) (h : st.pending.Perm l) :
    st.work env = (l.map (workWeight env)).sum := by
  unfold State.work
  exact (h.map _).sum_eq

/-- One round of the subtree phase: a waiting record is taken and processed
in `RECURSE_PARALLEL` mode. The invariant is kept and the measure goes down;
and under the size cap the round ends normally. -/
theorem subtree_step (env : Env) (n t : Nat) (L0 : List (BuildRecord × List PrimRef))
    (I0 : List Nat) (P0 : List PrimRef) (hsplit : SplitsWithinRange env n)
    (hn : n + env.minLeafSize < 2 ^ 64) (hI0 : I0.Nodup) (st st1 : State) (br : BuildRecord)
    (hinv : SubtreeInv n t L0 I0 P0 st) (hpop : st.pending.Perm (br :: st1.pending))
    (hprims : st1.prims = st.prims) (hleaf : st1.leafCalls = st.leafCalls)
    (hlen : st1.threadStack.length = st.threadStack.length) :
    (∀ st2, recurse env t Mode.RECURSE_PARALLEL br st1 = Outcome.done st2 →
      SubtreeInv n t L0 I0 P0 st2 ∧ st2.work env + 1 ≤ st.work env ∧
      st2.threadStack.length = st.threadStack.length ∧
      ((∀ r ∈ st.pending, r.depth ≤ env.maxBuildDepth) →
        ∀ r ∈ st2.pending, r.depth ≤ env.maxBuildDepth)) ∧
    (n ≤ 2 ^ 32 → env.maxBuildDepth ≤ env.maxBuildDepthLeaf →
      n ≤ env.minLeafSize * 4 ^ (env.maxBuildDepthLeaf - env.maxBuildDepth) →
      (∀ r ∈ st.pending, r.depth ≤ env.maxBuildDepth) →
      ∃ st2, recurse env t Mode.RECURSE_PARALLEL br st1 = Outcome.done st2) := by
  obtain ⟨ht, hpl, hpp, hwithin, new, hl, hidx, hsnap⟩ := hinv
  have hbr : br ∈ st.pending := hpop.mem_iff.2 (List.mem_cons_self _ _)
  have hbrw := hwithin br hbr
  constructor
  · intro st2 hrec
    obtain ⟨hlen2, pushed, hperm2, hw2, hdep2, hcov2⟩ :=
      recurse_subtree env n t hsplit hn br st1 st2 hrec (by omega)
    obtain ⟨new2, hl2, hPW, hidx2, hsnap2, hpush2⟩ := hcov2
      (by rw [hprims, hpl]; exact hbrw) (by rw [hprims, hpl])
    rw [hprims] at hPW
    have hdisj : ∀ i, i ∈ new.flatMap (fun c => c.1.indices) →
        i ∉ st.pending.flatMap BuildRecord.indices := by
      have hnd := (hidx.nodup_iff).2 hI0
      rw [List.nodup_append] at hnd
      intro i hi1 hi2
      exact hnd.2.2 hi1 hi2
    refine ⟨⟨by omega, by rw [hPW.1.length_eq, hpl], hPW.1.trans hpp, ?_, new ++ new2, ?_, ?_, ?_⟩,
      ?_, by omega, ?_⟩
    · intro r hr
      rcases List.mem_append.1 (hperm2.mem_iff.1 hr) with hr | hr
      · obtain ⟨h1, h2, h3⟩ := hpush2 r hr
        exact ⟨h2, by have := hbrw.2; omega⟩
      · exact hwithin r (hpop.mem_iff.2 (List.mem_cons_of_mem _ hr))
    · rw [hl2, hleaf, hl, List.append_assoc]
    · have e1 : (st2.pending.flatMap BuildRecord.indices).Perm
          (pushed.flatMap BuildRecord.indices ++ st1.pending.flatMap BuildRecord.indices) := by
        rw [← List.flatMap_append]
        exact hperm2.flatMap_right _
      have e2 : (st.pending.flatMap BuildRecord.indices).Perm
          (br.indices ++ st1.pending.flatMap BuildRecord.indices) := by
        rw [← List.flatMap_cons]
        exact hpop.flatMap_right _
      rw [List.flatMap_append, List.append_assoc]
      refine List.Perm.trans ?_ hidx
      apply List.Perm.append_left
      refine List.Perm.trans ?_ e2.symm
      refine (e1.append_left _).trans ?_
      rw [← List.append_assoc]
      exact hidx2.append_right _
    · intro c hc
      rcases List.mem_append.1 hc with hc | hc
      · obtain ⟨hs, hbe, he⟩ := hsnap c hc
        refine ⟨?_, hbe, he⟩
        rw [hs]
        apply primsOf_congr
        intro i hi1 hi2
        symm
        apply hPW.2
        by_contra hcon
        apply hdisj i
        · rw [List.mem_flatMap]
          exact ⟨c, hc, by rw [mem_indices]; exact ⟨hi1, hi2⟩⟩
        · rw [List.mem_flatMap]
          exact ⟨br, hbr, by rw [mem_indices]; omega⟩
      · obtain ⟨hs, h1, h2, h3⟩ := hsnap2 c hc
        exact ⟨hs, h2, by have := hbrw.2; omega⟩
    · rw [work_of_perm env st _ hpop, work_of_perm env st2 _ hperm2]
      simp only [List.map_append, List.sum_append, List.map_cons, List.sum_cons]
      omega
    · intro hd r hr
      rcases List.mem_append.1 (hperm2.mem_iff.1 hr) with hr | hr
      · exact hdep2 (hd br hbr) r hr
      · exact hd r (hpop.mem_iff.2 (List.mem_cons_of_mem _ hr))
  · intro hn32 hD hcap hd
    exact recurse_succeeds env n t hsplit hn hn32 hD hcap br st1 (hd br hbr) hbrw
      (by rw [hprims, hpl]) (by omega)

theorem drainStack_none (env : Env) (t fuel : Nat) (st : State) (h : st.stackPop t = none) :
    drainStack env t (fuel + 1) st = Outcome.done st := by
  unfold drainStack
  rw [h]

theorem drainStack_done (env : Env) (t fuel : Nat) (st st1 st2 : State) (br : BuildRecord)
    (h : st.stackPop t = some (br, st1))
    (hr : recurse env t Mode.RECURSE_PARALLEL br st1 = Outcome.done st2) :
    drainStack env t (fuel + 1) st = drainStack env t fuel st2 := by
  rw [drainStack]
  simp only [h, hr]

theorem drainStack_fail (env : Env) (t fuel : Nat) (st st1 s : State) (br : BuildRecord) (e : Err)
    (h : st.stackPop t = some (br, st1))
    (hr : recurse env t Mode.RECURSE_PARALLEL br st1 = Outcome.fail e s) :
    drainStack env t (fuel + 1) st = Outcome.fail e s := by
  rw [drainStack]
  simp only [h, hr]

/-- The inner loop of `buildSubTrees`: it ends, normally or with the depth
limit error; when it ends normally the invariant holds, the measure has not
grown and the stack of the worker is empty; and under the size cap it ends
normally. -/
theorem drainStack_spec (env : Env) (n t : Nat) (L0 : List (BuildRecord × List PrimRef))
    (I0 : List Nat) (P0 : List PrimRef) (hsplit : SplitsWithinRange env n)
    (hn : n + env.minLeafSize < 2 ^ 64) (hI0 : I0.Nodup) :
    ∀ fuel st, SubtreeInv n t L0 I0 P0 st → st.work env < fuel →
      (drainStack env t fuel st).error ≠ some Err.outOfFuel ∧
      (∀ st', drainStack env t fuel st = Outcome.done st' →
        SubtreeInv n t L0 I0 P0 st' ∧ st'.work env ≤ st.work env ∧
        st'.threadStack.length = st.threadStack.length ∧ st'.stackOf t = [] ∧
        ((∀ r ∈ st.pending, r.depth ≤ env.maxBuildDepth) →
          ∀ r ∈ st'.pending, r.depth ≤ env.maxBuildDepth)) ∧
      (n ≤ 2 ^ 32 → env.maxBuildDepth ≤ env.maxBuildDepthLeaf →
        n ≤ env.minLeafSize * 4 ^ (env.maxBuildDepthLeaf - env.maxBuildDepth) →
        (∀ r ∈ st.pending, r.depth ≤ env.maxBuildDepth) →
        ∃ st', drainStack env t fuel st = Outcome.done st') := by
  intro fuel
  induction fuel with
  | zero => intro st _ h; omega
  | succ fuel ih =>
    intro st hinv hfuel
    cases hp : st.stackPop t with
    | none =>
      rw [drainStack_none env t fuel st hp]
      refine ⟨by simp [Outcome.error], ?_, fun _ _ _ _ => ⟨st, rfl⟩⟩
      intro st' h
      cases h
      exact ⟨hinv, le_refl _, rfl, (stackPop_eq_none st t).1 hp, fun hd => hd⟩
    | some x =>
      obtain ⟨br, st1⟩ := x
      obtain ⟨_, hpop, hlen, hprims, hleaf, _⟩ := stackPop_pending st st1 t br hp
      obtain ⟨step1, step2⟩ := subtree_step env n t L0 I0 P0 hsplit hn hI0 st st1 br hinv hpop
        hprims hleaf hlen
      cases hr : recurse env t Mode.RECURSE_PARALLEL br st1 with
      | done st2 =>
        rw [drainStack_done env t fuel st st1 st2 br hp hr]
        obtain ⟨inv2, hw2, hl2, hd2⟩ := step1 st2 hr
        obtain ⟨i1, i2, i3⟩ := ih st2 inv2 (by omega)
        refine ⟨i1, ?_, ?_⟩
        · intro st' h
          obtain ⟨a, b, c, d, e⟩ := i2 st' h
          exact ⟨a, by omega, by omega, d, fun hd => e (hd2 hd)⟩
        · intro h32 hD hcap hd
          exact i3 h32 hD hcap (hd2 hd)
      | fail e s =>
        rw [drainStack_fail env t fuel st st1 s br e hp hr]
        have hne := recurse_fuel env t Mode.RECURSE_PARALLEL br st1
        rw [hr] at hne
        refine ⟨hne, (fun st' h => by cases h), ?_⟩
        intro h32 hD hcap hd
        obtain ⟨st2, h2⟩ := step2 h32 hD hcap hd
        rw [hr] at h2
        cases h2

theorem nextRecord_some (st st1 : State) (t k : Nat) (br : BuildRecord)
    (h : nextRecord st t k = some (br, st1)) :
    st.pending.Perm (br :: st1.pending) ∧ st1.prims = st.prims ∧
    st1.leafCalls = st.leafCalls ∧ st1.threadStack.length = st.threadStack.length := by
  unfold nextRecord at h
  cases hh : heapPop st.heap with
  | some x =>
    obtain ⟨m, rest⟩ := x
    rw [hh] at h
    simp only [Option.some.injEq, Prod.mk.injEq] at h
    obtain ⟨rfl, rfl⟩ := h
    refine ⟨?_, rfl, rfl, rfl⟩
    unfold State.pending
    simp only
    exact (heapPop_perm _ _ _ hh).append_right _
  | none =>
    rw [hh] at h
    simp only at h
    unfold steal at h
    rcases stealLoop_spec st t k k 0 with ⟨h1, _, _⟩ | ⟨m, r, rest, _, _, _, h4, h5⟩
    · rw [h1] at h; cases h
    · rw [h5] at h
      have hpop := stackPop_cons st _ r rest h4
      simp only [Option.some.injEq, Prod.mk.injEq] at h
      obtain ⟨rfl, rfl⟩ := h
      obtain ⟨_, a, b, c, d, _⟩ := stackPop_pending st _ _ r hpop
      exact ⟨a, c, d, b⟩

theorem nextRecord_none (st : State) (t k : Nat) (h : nextRecord st t k = none) :
    st.heap = [] ∧ ∀ j, j < k → st.stackOf j = [] := by
  unfold nextRecord at h
  cases hh : heapPop st.heap with
  | some x =>
    obtain ⟨m, rest⟩ := x
    rw [hh] at h
    cases h
  | none =>
    rw [hh] at h
    simp only at h
    unfold steal at h
    refine ⟨heapPop_none _ hh, ?_⟩
    rcases stealLoop_spec st t k k 0 with ⟨_, _, h3⟩ | ⟨m, r, rest, _, _, _, _, h5⟩
    · intro j hj
      obtain ⟨a, ha, hja⟩ := probe_surjective t k j hj
      have := h3 a ha
      rwa [Nat.zero_add, hja] at this
    · rw [h5] at h; cases h

theorem buildSubTrees_none (env : Env) (t k fuel : Nat) (st : State)
    (h : nextRecord st t k = none) :
    buildSubTrees env t k (fuel + 1) st = Outcome.done st := by
  unfold buildSubTrees
  rw [h]

theorem buildSubTrees_done (env : Env) (t k fuel : Nat) (st st1 st2 : State) (br : BuildRecord)
    (h : nextRecord st t k = some (br, st1))
    (hr : recurse env t Mode.RECURSE_PARALLEL br st1 = Outcome.done st2) :
    buildSubTrees env t k (fuel + 1) st =
      match drainStack env t fuel st2 with
      | Outcome.done st3 => buildSubTrees env t k fuel st3
      | Outcome.fail e s => Outcome.fail e s := by
  rw [buildSubTrees]
  simp only [h, hr]

theorem buildSubTrees_fail (env : Env) (t k fuel : Nat) (st st1 s : State) (br : BuildRecord)
    (e : Err) (h : nextRecord st t k = some (br, st1))
    (hr : recurse env t Mode.RECURSE_PARALLEL br st1 = Outcome.fail e s) :
    buildSubTrees env t k (fuel + 1) st = Outcome.fail e s := by
  rw [buildSubTrees]
  simp only [h, hr]

/-- The outer loop of `buildSubTrees` run by one worker: it ends, normally or
with the depth limit error; when it ends normally the invariant holds and
neither the heap nor any stack holds a record; and under the size cap it
ends normally. -/
theorem buildSubTrees_spec (env : Env) (n t k : Nat) (L0 : List (BuildRecord × List PrimRef))
    (I0 : List Nat) (P0 : List PrimRef) (hsplit : SplitsWithinRange env n)
    (hn : n + env.minLeafSize < 2 ^ 64) (hI0 : I0.Nodup) :
    ∀ fuel st, SubtreeInv n t L0 I0 P0 st → st.work env < fuel →
      (buildSubTrees env t k fuel st).error ≠ some Err.outOfFuel ∧
      (∀ st', buildSubTrees env t k fuel st = Outcome.done st' →
        SubtreeInv n t L0 I0 P0 st' ∧ st'.threadStack.length = st.threadStack.length ∧
        st'.heap = [] ∧ ∀ j, j < k → st'.stackOf j = []) ∧
      (n ≤ 2 ^ 32 → env.maxBuildDepth ≤ env.maxBuildDepthLeaf →
        n ≤ env.minLeafSize * 4 ^ (env.maxBuildDepthLeaf - env.maxBuildDepth) →
        (∀ r ∈ st.pending, r.depth ≤ env.maxBuildDepth) →
        ∃ st', buildSubTrees env t k fuel st = Outcome.done st') := by
  intro fuel
  induction fuel with
  | zero => intro st _ h; omega
  | succ fuel ih =>
    intro st hinv hfuel
    cases hp : nextRecord st t k with
    | none =>
      rw [buildSubTrees_none env t k fuel st hp]
      refine ⟨by simp [Outcome.error], ?_, fun _ _ _ _ => ⟨st, rfl⟩⟩
      intro st' h
      cases h
      obtain ⟨h1, h2⟩ := nextRecord_none st t k hp
      exact ⟨hinv, rfl, h1, h2⟩
    | some x =>
      obtain ⟨br, st1⟩ := x
      obtain ⟨hpop, hprims, hleaf, hlen⟩ := nextRecord_some st st1 t k br hp
      obtain ⟨step1, step2⟩ := subtree_step env n t L0 I0 P0 hsplit hn hI0 st st1 br hinv hpop
        hprims hleaf hlen
      cases hr : recurse env t Mode.RECURSE_PARALLEL br st1 with
      | done st2 =>
        rw [buildSubTrees_done env t k fuel st st1 st2 br hp hr]
        obtain ⟨inv2, hw2, hl2, hd2⟩ := step1 st2 hr
        obtain ⟨d1, d2, d3⟩ := drainStack_spec env n t L0 I0 P0 hsplit hn hI0 fuel st2 inv2
          (by omega)
        cases hdr : drainStack env t fuel st2 with
        | done st3 =>
          simp only
          obtain ⟨inv3, hw3, hl3, _, hd3⟩ := d2 st3 hdr
          obtain ⟨i1, i2, i3⟩ := ih st3 inv3 (by omega)
          refine ⟨i1, ?_, ?_⟩
          · intro st' h
            obtain ⟨a, b, c, d⟩ := i2 st' h
            exact ⟨a, by omega, c, d⟩
          · intro h32 hD hcap hd
            exact i3 h32 hD hcap (hd3 (hd2 hd))
        | fail e s =>
          simp only
          rw [hdr] at d1
          refine ⟨d1, (fun st' h => by cases h), ?_⟩
          intro h32 hD hcap hd
          obtain ⟨st3, h3⟩ := d3 h32 hD hcap (hd2 hd)
          rw [hdr] at h3
          cases h3
      | fail e s =>
        rw [buildSubTrees_fail env t k fuel st st1 s br e hp hr]
        have hne := recurse_fuel env t Mode.RECURSE_PARALLEL br st1
        rw [hr] at hne
        refine ⟨hne, (fun st' h => by cases h), ?_⟩
        intro h32 hD hcap hd
        obtain ⟨st2, h2⟩ := step2 h32 hD hcap hd
        rw [hr] at h2
        cases h2

theorem pending_single (st : State) (h : st.threadStack = [[]]) : st.pending = st.heap := by
  unfold State.pending
  rw [h]
  simp

theorem stack_single (st : State) (hl : st.threadStack.length = 1) (h : st.stackOf 0 = []) :
    st.threadStack = [[]] := by
  unfold State.stackOf at h
  match hs : st.threadStack, hl with
  | [a], _ =>
    rw [hs] at h
    simp at h
    rw [h]

theorem pairwise_of_nodup_flatMap {α : Type} (f : α → List Nat) :
    ∀ l : List α, (l.flatMap f).Nodup → l.Pairwise (fun a b => ∀ i, i ∈ f a → i ∉ f b) := by
  intro l
  induction l with
  | nil => intro _; exact List.Pairwise.nil
  | cons a l ih =>
    intro h
    rw [List.flatMap_cons, List.nodup_append] at h
    obtain ⟨_, h2, h3⟩ := h
    refine List.Pairwise.cons ?_ (ih h2)
    intro b hb i hia hib
    exact h3 hia (List.mem_flatMap.2 ⟨b, hb, hib⟩)

theorem nodup_flatMap_of_pairwise {α : Type} (f : α → List Nat) (hf : ∀ a, (f a).Nodup) :
    ∀ l : List α, l.Pairwise (fun a b => ∀ i, i ∈ f a → i ∉ f b) → (l.flatMap f).Nodup := by
  intro l
  induction l with
  | nil => intro _; exact List.nodup_nil
  | cons a l ih =>
    intro h
    rw [List.pairwise_cons] at h
    rw [List.flatMap_cons, List.nodup_append]
    refine ⟨hf a, ih h.2, ?_⟩
    intro i hia hib
    obtain ⟨b, hb, hib⟩ := List.mem_flatMap.1 hib
    exact h.1 b hb i hia hib

/-- The subtree phase run by a single worker (`threadID = 0`,
`numThreads = 1`) from a heap of records on pairwise disjoint ranges of the
array of `n` primitives and one empty thread stack, with splitters that
split inside the range they are given: with fuel above the weight of the
heap the run ends, either normally or with the depth limit error of
`createLeaf`; whenever it ends normally the heap is empty, the thread stack
is empty, the primitive array is a permutation of the one at the start, and
the `createSmallLeaf` calls made are on well-formed pairwise disjoint ranges
whose indices, taken together, are exactly the indices of the records that
were on the heap, each call having read the primitives that the final array
holds in its range; and when the array is small enough for the leaf depth
(`n ≤ minLeafSize * 4 ^ (maxBuildDepthLeaf - maxBuildDepth)`, `n ≤ 2 ^ 32`)
and no heap record is deeper than `maxBuildDepth`, the run ends normally. -/
theorem buildSubTrees_single_worker_run (env : Env) (n fuel : Nat) (st : State)
    (hsplit : SplitsWithinRange env n) (hn : n + env.minLeafSize < 2 ^ 64)
    (hlen : st.prims.length = n) (hstack : st.threadStack = [[]])
    (hheap : ∀ r ∈ st.heap, r.within n)
    (hdisj : st.heap.Pairwise (fun a b => ∀ i, i ∈ a.indices → i ∉ b.indices))
    (hfuel : (st.heap.map (workWeight env)).sum < fuel) :
    ((∃ st', buildSubTrees env 0 1 fuel st = Outcome.done st') ∨
      ∃ st', buildSubTrees env 0 1 fuel st = Outcome.fail Err.depthLimit st') ∧
    (∀ st', buildSubTrees env 0 1 fuel st = Outcome.done st' →
      st'.heap = [] ∧ st'.threadStack = [[]] ∧ st'.prims.Perm st.prims ∧
      ∃ new, st'.leafCalls = st.leafCalls ++ new ∧
        (new.flatMap (fun c => c.1.indices)).Perm (st.heap.flatMap BuildRecord.indices) ∧
        new.Pairwise (fun a b => ∀ i, i ∈ a.1.indices → i ∉ b.1.indices) ∧
        ∀ c ∈ new, c.2 = c.1.primsOf st'.prims ∧ c.1.begin ≤ c.1.end_ ∧ c.1.end_ ≤ n) ∧
    (n ≤ 2 ^ 32 → env.maxBuildDepth ≤ env.maxBuildDepthLeaf →
      n ≤ env.minLeafSize * 4 ^ (env.maxBuildDepthLeaf - env.maxBuildDepth) →
      (∀ r ∈ st.heap, r.depth ≤ env.maxBuildDepth) →
      ∃ st', buildSubTrees env 0 1 fuel st = Outcome.done st') := by
  have hpend := pending_single st hstack
  have hI0 : (st.heap.flatMap BuildRecord.indices).Nodup :=
    nodup_flatMap_of_pairwise BuildRecord.indices
      (fun a => List.nodup_range' _ _) st.heap hdisj
  have hinv : SubtreeInv n 0 st.leafCalls (st.heap.flatMap BuildRecord.indices) st.prims st := by
    refine ⟨by rw [hstack]; decide, hlen, List.Perm.refl _, by rw [hpend]; exact hheap, [],
      by simp, by rw [hpend]; simp, by simp⟩
  have hwork : st.work env < fuel := by
    unfold State.work
    rw [hpend]
    exact hfuel
  obtain ⟨h1, h2, h3⟩ := buildSubTrees_spec env n 0 1 st.leafCalls
    (st.heap.flatMap BuildRecord.indices) st.prims hsplit hn hI0 fuel st hinv hwork
  refine ⟨done_or_depthLimit _ h1, ?_, ?_⟩
  · intro st' h
    obtain ⟨⟨_, _, hperm, _, new, hlc, hidx, hnew⟩, hl, hh, hs⟩ := h2 st' h
    have hst : st'.threadStack = [[]] :=
      stack_single st' (by rw [hl, hstack]; rfl) (hs 0 (by decide))
    have hp' : st'.pending = [] := by rw [pending_single st' hst, hh]
    rw [hp'] at hidx
    simp only [List.flatMap_nil, List.append_nil] at hidx
    refine ⟨hh, hst, hperm, new, hlc, hidx, ?_, hnew⟩
    exact pairwise_of_nodup_flatMap (fun c : BuildRecord × List PrimRef => c.1.indices) new
      (hidx.nodup_iff.2 hI0)
  · intro h32 hD hcap hd
    exact h3 h32 hD hcap (by rw [hpend]; exact hd)

/-- C25. The subtree phase run by a single worker drains all work. With
`numThreads = 1` (`threadID = 0`), one thread stack that is empty at the
start and bounded by `stackSize`, and a heap of records on pairwise disjoint
ranges of the array of `n ≤ 2 ^ 32` primitives, none deeper than
`maxBuildDepth` (the root record, or children pushed by `recurse` below
`maxBuildDepth`), with splitters that split inside the range they are given
and depth limits that leave room for the array
(`n ≤ minLeafSize * 4 ^ (maxBuildDepthLeaf - maxBuildDepth)`, as the limits
32 and 48 do): `buildSubTrees` finishes without error, with the heap empty
and the thread stack empty; the primitive array is a permutation of the one
at the start; and the `createSmallLeaf` calls it made are on well-formed,
pairwise disjoint ranges whose indices, taken together, are exactly the
indices of the records that were on the heap, each index once, each call
having read the primitives that the final array holds in its range. The
fuel of the embedding only has to exceed the weight of the heap. -/
theorem buildSubTrees_single_worker_drains (env : Env) (n fuel : Nat) (st : State)
    (hsplit : SplitsWithinRange env n) (hn : n + env.minLeafSize < 2 ^ 64)
    (h32 : n ≤ 2 ^ 32) (hD : env.maxBuildDepth ≤ env.maxBuildDepthLeaf)
    (hcap : n ≤ env.minLeafSize * 4 ^ (env.maxBuildDepthLeaf - env.maxBuildDepth))
    (hlen : st.prims.length = n) (hstack : st.threadStack = [[]])
    (hheap : ∀ r ∈ st.heap, r.within n)
    (hdepth : ∀ r ∈ st.heap, r.depth ≤ env.maxBuildDepth)
    (hdisj : st.heap.Pairwise (fun a b => ∀ i, i ∈ a.indices → i ∉ b.indices))
    (hfuel : (st.heap.map (workWeight env)).sum < fuel) :
    ∃ st', buildSubTrees env 0 1 fuel st = Outcome.done st' ∧
      st'.heap = [] ∧ st'.threadStack = [[]] ∧ st'.prims.Perm st.prims ∧
      ∃ new, st'.leafCalls = st.leafCalls ++ new ∧
        (new.flatMap (fun c => c.1.indices)).Perm (st.heap.flatMap BuildRecord.indices) ∧
        new.Pairwise (fun a b => ∀ i, i ∈ a.1.indices → i ∉ b.1.indices) ∧
        ∀ c ∈ new, c.2 = c.1.primsOf st'.prims ∧ c.1.begin ≤ c.1.end_ ∧ c.1.end_ ≤ n := by
  obtain ⟨_, h2, h3⟩ := buildSubTrees_single_worker_run env n fuel st hsplit hn hlen hstack
    hheap hdisj hfuel
  obtain ⟨st', h⟩ := h3 h32 hD hcap hdepth
  exact ⟨st', h, h2 st' h⟩

theorem buildSubTrees_single_worker_drains_witness :
    ∃ st', buildSubTrees (fallbackEnv Layout.triangle1 2) 0 1 (5 ^ 31 + 1)
        (build_parallel_toplevel (fallbackEnv Layout.triangle1 2) 0 1 6 (samplePrims 6)
          (scanBounds (samplePrims 6) 0 6) 1).state = Outcome.done st' ∧
      st'.heap = [] ∧ st'.threadStack = [[]] ∧
      st'.prims.Perm (build_parallel_toplevel (fallbackEnv Layout.triangle1 2) 0 1 6
        (samplePrims 6) (scanBounds (samplePrims 6) 0 6) 1).state.prims ∧
      ∃ new, st'.leafCalls = (build_parallel_toplevel (fallbackEnv Layout.triangle1 2) 0 1 6
          (samplePrims 6) (scanBounds (samplePrims 6) 0 6) 1).state.leafCalls ++ new ∧
        (new.flatMap (fun c => c.1.indices)).Perm
          ((build_parallel_toplevel (fallbackEnv Layout.triangle1 2) 0 1 6 (samplePrims 6)
            (scanBounds (samplePrims 6) 0 6) 1).state.heap.flatMap BuildRecord.indices) ∧
        new.Pairwise (fun a b => ∀ i, i ∈ a.1.indices → i ∉ b.1.indices) ∧
        ∀ c ∈ new, c.2 = c.1.primsOf st'.prims ∧ c.1.begin ≤ c.1.end_ ∧ c.1.end_ ≤ 6 :=
  buildSubTrees_single_worker_drains (fallbackEnv Layout.triangle1 2) 6 (5 ^ 31 + 1)
    (build_parallel_toplevel (fallbackEnv Layout.triangle1 2) 0 1 6 (samplePrims 6)
      (scanBounds (samplePrims 6) 0 6) 1).state
    (fallbackEnv_splitsWithinRange Layout.triangle1 2 6 (by decide)) (by decide) (by decide)
    (by decide) (by decide) (by decide) rfl (by unfold BuildRecord.within; decide) (by decide)
    (by decide) (by decide)

/-! ## Child slots in a parallel build -/

/-- C4. Branching factor and compaction fail in a parallel build. Nine
primitives under the `Triangle4` configuration (`minLeafSize = 4`) are built
by `build_parallel` with eight threads and median splits. The top-level loop
turns the root record into node 0 and pushes its children `[0,4)`, `[4,6)`
and `[6,9)` on the heap for the slots 0, 1 and 2; its next round pops `[0,4)`,
the largest record, and breaks on `br.size() <= minLeafSize` without pushing
it back, so that two records are left for `buildSubTrees`, which makes the
leaves of `[6,9)` and `[4,6)`. The build ends without error, and node 0 has an
empty slot 0 in front of the filled slots 1 and 2: its filled slots do not
come first and it is not its own compaction. The sequential build of the same
input fills the slots 0, 1 and 2 of the node. The parallel build of nine
triangles with one common box, which no binner can separate, leaves the same
node. -/
theorem build_parallel_leaves_first_slot_empty :
    (build_parallel_toplevel (fallbackEnv Layout.triangle4 4) 0 8 9 (samplePrims 9)
      (scanBounds (samplePrims 9) 0 9) 20).state.heap.map
        (fun r => (r.begin, r.end_, r.parent)) =
      [(4, 6, Slot.child 0 1), (6, 9, Slot.child 0 2)] ∧
    (build_parallel (fallbackEnv Layout.triangle4 4) 0 8 9 (samplePrims 9)
      (scanBounds (samplePrims 9) 0 9) 20).isDone = true ∧
    (build_parallel (fallbackEnv Layout.triangle4 4) 0 8 9 (samplePrims 9)
      (scanBounds (samplePrims 9) 0 9) 20).state.root = NodeRef.node 0 ∧
    (build_parallel (fallbackEnv Layout.triangle4 4) 0 8 9 (samplePrims 9)
      (scanBounds (samplePrims 9) 0 9) 20).state.nodes.map Node.children =
      [[NodeRef.empty, NodeRef.leaf 1 1, NodeRef.leaf 0 1, NodeRef.empty]] ∧
    (build_parallel (fallbackEnv Layout.triangle4 4) 0 8 9 (samplePrims 9)
      (scanBounds (samplePrims 9) 0 9) 20).state.leafCalls.map
        (fun c => (c.1.begin, c.1.end_, c.1.parent)) =
      [(6, 9, Slot.child 0 2), (4, 6, Slot.child 0 1)] ∧
    (∀ nd ∈ (build_parallel (fallbackEnv Layout.triangle4 4) 0 8 9 (samplePrims 9)
      (scanBounds (samplePrims 9) 0 9) 20).state.nodes, BVH4.compact nd ≠ nd) ∧
    (build_sequential (fallbackEnv Layout.triangle4 4) 0 9 (samplePrims 9)
      (scanBounds (samplePrims 9) 0 9)).state.nodes.map Node.children =
      [[NodeRef.leaf 0 1, NodeRef.leaf 1 1, NodeRef.leaf 2 1, NodeRef.empty]] ∧
    (build_parallel (fallbackEnv Layout.triangle4 4) 0 8 9 (stackedPrims 9)
      (scanBounds (stackedPrims 9) 0 9) 20).isDone = true ∧
    (build_parallel (fallbackEnv Layout.triangle4 4) 0 8 9 (stackedPrims 9)
      (scanBounds (stackedPrims 9) 0 9) 20).state.nodes.map Node.children =
      [[NodeRef.empty, NodeRef.leaf 1 1, NodeRef.leaf 0 1, NodeRef.empty]] := by
  decide

/-! ## Induction over a call in any mode -/

theorem recurse_continue_post (env : Env) (threadID : Nat)
    (recurse : Mode → BuildRecord → State → Outcome)
    (P : Mode → BuildRecord → State → State → Prop)
    (hrec : ∀ m r s s', recurse m r s = Outcome.done s' → P m r s s')
    (mode : Mode) (r : BuildRecord) (s s' : State)
    (h : recurse_continue env recurse mode threadID r s = Outcome.done s') :
    ContinuePost env threadID P mode r s s' := by
  unfold recurse_continue at h
  by_cases hm : mode = Mode.BUILD_TOP_LEVEL
  · rw [if_pos hm] at h
    cases h
    exact Or.inl ⟨hm, rfl⟩
  · rw [if_neg hm] at h
    by_cases hp : mode = Mode.RECURSE_PARALLEL ∧ r.size > THRESHOLD_FOR_SUBTREE_RECURSION
    · rw [if_pos hp] at h
      cases hs : s.stackPush env threadID r with
      | none =>
        rw [hs] at h
        exact Or.inr (Or.inr ⟨hm, Mode.RECURSE_SEQUENTIAL, by simp, hrec _ _ _ _ h⟩)
      | some s1 =>
        rw [hs] at h
        cases h
        exact Or.inr (Or.inl ⟨hp.1, hs⟩)
    · rw [if_neg hp] at h
      exact Or.inr (Or.inr ⟨hm, mode, hm, hrec _ _ _ _ h⟩)

/-- Induction over a `recurse` call in any mode that ends normally: a
property of (mode, record, memory before, memory after) that holds for every
`createLeaf` call that ends normally, and for an interior node whenever each
child was pushed or was processed by a call for which it holds, holds for the
call. -/
theorem recurseF_induct (env : Env) (threadID : Nat)
    (P : Mode → BuildRecord → State → State → Prop)
    (hcl : ∀ mode cur st st', createLeaf env cur st = Outcome.done st' → P mode cur st st')
    (hnode : ∀ mode cur st st', cur.depth < env.maxBuildDepth → ¬ cur.size ≤ env.minLeafSize →
      (expandLoop env mode cur.depth (BVH4.N - 1) [cur] st.prims).1.length ≠ 1 →
      childChain (ContinuePost env threadID P mode)
        (fun i c => { c with parent := Slot.child st.nodes.length i })
        st.nodes.length 0
        (expandLoop env mode cur.depth (BVH4.N - 1) [cur] st.prims).1
        ((({ st with prims := (expandLoop env mode cur.depth (BVH4.N - 1)
            [cur] st.prims).2 } : State).allocNode.2).store cur.parent
          (encodeNode st.nodes.length)) st' →
      P mode cur st st') :
    ∀ fuel mode cur st st',
      recurseF env threadID fuel mode cur st = Outcome.done st' → P mode cur st st' := by
  intro fuel
  induction fuel with
  | zero => intro mode cur st st' h; simp [recurseF] at h
  | succ fuel ih =>
    intro mode cur st st' h
    rw [recurseF_unfold] at h
    simp only at h
    by_cases hc : cur.depth ≥ env.maxBuildDepth ∨ cur.size ≤ env.minLeafSize
    · rw [if_pos hc] at h
      exact hcl _ _ _ _ h
    · rw [if_neg hc] at h
      by_cases h1 : (expandLoop env mode cur.depth (BVH4.N - 1) [cur] st.prims).1.length = 1
      · rw [if_pos h1] at h
        have := (expandLoop_length_ge env mode cur.depth (BVH4.N - 1) [cur]
          st.prims).2 (by simpa using h1)
        rw [this] at h
        exact hcl _ _ _ _ h
      · rw [if_neg h1] at h
        apply hnode mode cur st st' (by omega) (by tauto) h1
        exact forChildren_chain _ (ContinuePost env threadID P mode) _ st.nodes.length
          (recurse_continue env (fun m r s1 => recurseF env threadID fuel m r s1) mode threadID)
          (fun i c s => rfl)
          (fun r s s' hr => recurse_continue_post env threadID _ P
            (fun m r s s' hr' => ih m r s s' hr') mode r s s' hr) _ _ _ _ h

theorem recurse_induct (env : Env) (threadID : Nat)
    (P : Mode → BuildRecord → State → State → Prop)
    (hcl : ∀ mode cur st st', createLeaf env cur st = Outcome.done st' → P mode cur st st')
    (hnode : ∀ mode cur st st', cur.depth < env.maxBuildDepth → ¬ cur.size ≤ env.minLeafSize →
      (expandLoop env mode cur.depth (BVH4.N - 1) [cur] st.prims).1.length ≠ 1 →
      childChain (ContinuePost env threadID P mode)
        (fun i c => { c with parent := Slot.child st.nodes.length i })
        st.nodes.length 0
        (expandLoop env mode cur.depth (BVH4.N - 1) [cur] st.prims).1
        ((({ st with prims := (expandLoop env mode cur.depth (BVH4.N - 1)
            [cur] st.prims).2 } : State).allocNode.2).store cur.parent
          (encodeNode st.nodes.length)) st' →
      P mode cur st st')
    (mode : Mode) (cur : BuildRecord) (st st' : State)
    (h : recurse env threadID mode cur st = Outcome.done st') : P mode cur st st' :=
  recurseF_induct env threadID P hcl hnode _ mode cur st st' h

/-! ## Depth in every mode -/

theorem pendingOK_congr (s s' : State) (r : BuildRecord) (hw : s'.writes = s.writes)
    (hn : s'.nodes.length = s.nodes.length) : PendingOK s' r ↔ PendingOK s r := by
  unfold PendingOK nodesAbove
  rw [hw]
  cases r.parent <;> simp [State.hasSlot, hn]

/-- A record that satisfies `PendingOK` keeps doing so while the build goes
on. -/
theorem pendingOK_stable (env : Env) (s s' : State) (r : BuildRecord) (hp : s.published)
    (hpost : DepthPost env s s') (h : PendingOK s r) : PendingOK s' r :=
  ⟨hasSlot_mono s s' _ hpost.2.2.1 h.1, by
    rw [nodesAbove_stable s s' _ hp h.1 hpost.2.1]; exact h.2⟩

theorem mem_pending_heapPush (s : State) (r x : BuildRecord)
    (h : x ∈ (s.heapPush r).pending) : x ∈ s.pending ∨ x = r := by
  unfold State.pending State.heapPush at h
  simp only [List.mem_append, List.mem_singleton] at h
  unfold State.pending
  rw [List.mem_append]
  tauto

theorem mem_pending_stackPush (env : Env) (s s' : State) (t : Nat) (r x : BuildRecord)
    (h : s.stackPush env t r = some s') (hx : x ∈ s'.pending) : x ∈ s.pending ∨ x = r := by
  by_cases ht : t < s.threadStack.length
  · have := (stackPush_pending env s s' t r ht h).1.mem_iff.1 hx
    rw [List.mem_cons] at this
    tauto
  · unfold State.stackPush at h
    simp only at h
    split at h
    · cases h
      left
      unfold State.pending at hx ⊢
      simp only at hx
      rw [List.set_eq_of_length_le (by omega)] at hx
      exact hx
    · cases h

theorem stackPush_frame (env : Env) (s s' : State) (t : Nat) (r : BuildRecord)
    (h : s.stackPush env t r = some s') :
    s'.writes = s.writes ∧ s'.nodes = s.nodes ∧ s'.leafCalls = s.leafCalls ∧
    s'.prims = s.prims ∧ s'.setLog = s.setLog ∧ s'.heap = s.heap ∧ s'.root = s.root ∧
    s'.threadStack.length = s.threadStack.length := by
  unfold State.stackPush at h
  simp only at h
  split at h
  · cases h
    exact ⟨rfl, rfl, rfl, rfl, rfl, rfl, rfl, by simp⟩
  · cases h

theorem depthPost_of_frame (env : Env) (s s' : State) (hp : s.published)
    (hw : s'.writes = s.writes) (hn : s'.nodes.length = s.nodes.length)
    (hl : s'.leafCalls = s.leafCalls) : DepthPost env s s' := by
  refine ⟨?_, ⟨[], by simp [hw]⟩, by omega, [], by simp [hl], by simp⟩
  unfold State.published at *
  rw [hw, hn]
  exact hp

theorem createLeaf_depthP (env : Env) (cur : BuildRecord) (st st' : State)
    (h : createLeaf env cur st = Outcome.done st') : DepthInvP env cur st st' := by
  intro hp hs hd
  refine ⟨createLeaf_depth env cur st st' h hp hs hd, ?_⟩
  have hf := createLeaf_heap env cur st st' h
  simp only [Prod.mk.injEq] at hf
  intro r hr
  left
  unfold State.pending at hr ⊢
  rw [hf.1, hf.2] at hr
  exact hr

theorem continue_depthP (env : Env) (t : Nat) (mode : Mode) (r : BuildRecord) (s s' : State)
    (h : ContinuePost env t (fun _ => DepthInvP env) mode r s s') : DepthInvP env r s s' := by
  rcases h with ⟨_, rfl⟩ | ⟨_, hpush⟩ | ⟨_, m, _, hP⟩
  · intro hp hs hd
    have hpost := depthPost_of_frame env s (s.heapPush r) hp rfl rfl rfl
    refine ⟨hpost, ?_⟩
    intro x hx
    rcases mem_pending_heapPush s r x hx with hx | rfl
    · exact Or.inl hx
    · exact Or.inr (pendingOK_stable env s _ x hp hpost ⟨hs, hd⟩)
  · intro hp hs hd
    obtain ⟨f1, f2, f3, _⟩ := stackPush_frame env s s' t r hpush
    have hpost := depthPost_of_frame env s s' hp f1 (by rw [f2]) f3
    refine ⟨hpost, ?_⟩
    intro x hx
    rcases mem_pending_stackPush env s s' t r x hpush hx with hx | rfl
    · exact Or.inl hx
    · exact Or.inr (pendingOK_stable env s _ x hp hpost ⟨hs, hd⟩)
  · exact hP

/-- The depth invariant over a children loop in any mode. -/
theorem chain_depthP (env : Env) (upd : Nat → BuildRecord → BuildRecord) (node d : Nat) :
    ∀ cs i s s', childChain (DepthInvP env) upd node i cs s s' →
      (∀ k c, c ∈ cs → (upd k c).parent = Slot.child node k ∧ (upd k c).depth = d) →
      s.published → node < s.nodes.length → d = 1 + nodesAbove s (Slot.child node 0) →
      DepthPost env s s' ∧ ∀ r ∈ s'.pending, r ∈ s.pending ∨ PendingOK s' r := by
  intro cs
  induction cs with
  | nil =>
    intro i s s' h _ hp _ _
    simp only [childChain] at h
    subst h
    exact ⟨depthPost_refl env _ hp, fun r hr => Or.inl hr⟩
  | cons c rest ih =>
    intro i s s' h hupd hp hnode hd
    obtain ⟨s1, hc, hrest⟩ := h
    have hu := hupd i c (List.mem_cons_self _ _)
    obtain ⟨h1, hpend1⟩ := hc ((published_setBounds _ _ _ _).2 hp)
      (by rw [hu.1]; simpa [State.hasSlot] using hnode)
      (by rw [hu.1, hu.2, hd]; rfl)
    have h1' : DepthPost env s s1 := (depthPost_setBounds _ _ _ _ _ _).1 h1
    have hp1 := h1'.1
    obtain ⟨h2, hpend2⟩ := ih (i + 1) s1 s' hrest
      (fun k c' hc' => hupd k c' (List.mem_cons_of_mem _ hc')) hp1
      (by have := h1'.2.2.1; omega)
      (by rw [nodesAbove_stable s s1 _ hp (by simpa [State.hasSlot] using hnode) h1'.2.1]
          exact hd)
    refine ⟨depthPost_trans env s s1 s' h1' h2, ?_⟩
    intro r hr
    rcases hpend2 r hr with hr1 | hok
    · rcases hpend1 r hr1 with hr0 | hok
      · exact Or.inl hr0
      · exact Or.inr (pendingOK_stable env s1 s' r hp1 h2 hok)
    · exact Or.inr hok

/-- A `recurse` call in any mode keeps the depth invariant. -/
theorem recurse_depthP (env : Env) (threadID : Nat) (mode : Mode) (cur : BuildRecord)
    (st st' : State) (h : recurse env threadID mode cur st = Outcome.done st') :
    DepthInvP env cur st st' := by
  refine recurse_induct env threadID (fun _ => DepthInvP env) ?_ ?_ mode cur st st' h
  · intro _ cur st st' hcl
    exact createLeaf_depthP env cur st st' hcl
  · intro mode cur st st' _ _ hne hchain hp hs hdepth
    have hd := (expandLoop_depth env mode cur st.prims).resolve_left
      (fun heq => hne (by rw [heq]; rfl))
    obtain ⟨hp0, hlev⟩ := publish_node st
      ({ st with prims := (expandLoop env mode cur.depth (BVH4.N - 1) [cur]
          st.prims).2 } : State).allocNode.2 cur.parent hp (by simp) (by simp)
    have hchain' := childChain_imp _ (DepthInvP env) _ _ _ _ _ _
      (fun k c s1 s2 _ hP => continue_depthP env threadID mode _ s1 s2 hP) hchain
    obtain ⟨hpost, hpend⟩ := chain_depthP env _ st.nodes.length (cur.depth + 1) _ _ _ _ hchain'
      (fun k c hc => ⟨rfl, hd c hc⟩) hp0 (by simp) (by rw [hlev, hdepth]; omega)
    refine ⟨depthPost_of_node env st _ _ hpost
      ⟨[(cur.parent, encodeNode st.nodes.length)], by simp⟩ (by simp) (by simp), ?_⟩
    intro r hr
    rcases hpend r hr with hr0 | hok
    · left
      unfold State.pending at hr0 ⊢
      rw [(store_heap _ _ _).1, (store_heap _ _ _).2] at hr0
      exact hr0
    · exact Or.inr hok

/-! ## Invariants of the build drivers -/

theorem popped_heapPop (st : State) (br : BuildRecord) (rest : List BuildRecord)
    (h : heapPop st.heap = some (br, rest)) : Popped st br ({ st with heap := rest } : State) := by
  refine ⟨?_, rfl, rfl, rfl, rfl, rfl, rfl, rfl, rfl, rfl⟩
  unfold State.pending
  simp only
  exact (heapPop_perm _ _ _ h).append_right _

theorem popped_stackPop (st st1 : State) (t : Nat) (br : BuildRecord)
    (h : st.stackPop t = some (br, st1)) : Popped st br st1 := by
  obtain ⟨_, h1, h2, _⟩ := stackPop_pending st st1 t br h
  unfold State.stackPop at h
  split at h
  · cases h
  · cases h
    exact ⟨h1, h2, rfl, rfl, rfl, rfl, rfl, rfl, rfl, rfl⟩

theorem popped_nextRecord (st st1 : State) (t k : Nat) (br : BuildRecord)
    (h : nextRecord st t k = some (br, st1)) : Popped st br st1 := by
  unfold nextRecord at h
  cases hh : heapPop st.heap with
  | some x =>
    obtain ⟨m, rest⟩ := x
    rw [hh] at h
    simp only [Option.some.injEq, Prod.mk.injEq] at h
    obtain ⟨rfl, rfl⟩ := h
    exact popped_heapPop st _ _ hh
  | none =>
    rw [hh] at h
    simp only at h
    unfold steal at h
    rcases stealLoop_spec st t k k 0 with ⟨h1, _, _⟩ | ⟨m, r, rest, _, _, _, h4, h5⟩
    · rw [h1] at h; cases h
    · rw [h5] at h
      have hpop := stackPop_cons st _ r rest h4
      simp only [Option.some.injEq, Prod.mk.injEq] at h
      obtain ⟨rfl, rfl⟩ := h
      exact popped_stackPop st _ _ _ hpop

/-- `recurse` in any mode keeps the number of thread stacks. -/
theorem recurse_stackLength (env : Env) (threadID : Nat) (mode : Mode) (cur : BuildRecord)
    (st st' : State) (h : recurse env threadID mode cur st = Outcome.done st') :
    st'.threadStack.length = st.threadStack.length := by
  refine recurse_induct env threadID
    (fun _ _ s s' => s'.threadStack.length = s.threadStack.length) ?_ ?_ mode cur st st' h
  · intro _ cur st st' hcl
    have hf := createLeaf_heap env cur st st' hcl
    simp only [Prod.mk.injEq] at hf
    rw [hf.2]
  · intro mode cur st st' _ _ _ hchain
    have hchain' := childChain_imp _ (fun _ s s' => s'.threadStack.length = s.threadStack.length)
      _ _ _ _ _ _
      (fun k c s1 s2 _ hP => by
        rcases hP with ⟨_, rfl⟩ | ⟨_, hpush⟩ | ⟨_, m, _, hP⟩
        · rfl
        · exact (stackPush_frame env s1 s2 threadID _ hpush).2.2.2.2.2.2.2
        · exact hP) hchain
    have := chain_frame (fun s => s.threadStack.length) _ st.nodes.length
      (fun s i c => rfl) _ _ _ _ hchain'
    simp only at this
    rw [this, (store_heap _ _ _).2]
    rfl

theorem topLevelLoop_inv (env : Env) (I : State → Prop)
    (hdrop : ∀ st br st1, I st → Popped st br st1 → I st1)
    (hstep : ∀ t mode st br st1 st2, I st → Popped st br st1 →
      (mode = Mode.BUILD_TOP_LEVEL ∨ t < st.threadStack.length) →
      recurse env t mode br st1 = Outcome.done st2 → I st2)
    (threadIndex threadCount : Nat) :
    ∀ fuel st st', I st → topLevelLoop env threadIndex threadCount fuel st = Outcome.done st' →
      I st' ∧ st'.threadStack.length = st.threadStack.length := by
  intro fuel
  induction fuel with
  | zero => intro st st' _ h; simp [topLevelLoop] at h
  | succ fuel ih =>
    intro st st' hI h
    unfold topLevelLoop at h
    split at h
    · cases hp : heapPop st.heap with
      | none =>
        rw [hp] at h
        cases h
        exact ⟨hI, rfl⟩
      | some x =>
        obtain ⟨br, rest⟩ := x
        rw [hp] at h
        simp only at h
        have hpop := popped_heapPop st br rest hp
        split at h
        · cases h
          exact ⟨hdrop _ _ _ hI hpop, rfl⟩
        · cases hr : recurse env threadIndex Mode.BUILD_TOP_LEVEL br
              ({ st with heap := rest } : State) with
          | done st2 =>
            rw [hr] at h
            simp only at h
            obtain ⟨a, b⟩ := ih st2 st' (hstep _ _ _ _ _ _ hI hpop (Or.inl rfl) hr) h
            refine ⟨a, ?_⟩
            rw [b, recurse_stackLength env _ _ _ _ _ hr]
          | fail e s =>
            rw [hr] at h
            cases h
    · cases h
      exact ⟨hI, rfl⟩

theorem popped_of_take (st st1 : State) (t k : Nat) (br : BuildRecord)
    (h : nextRecord st t k = some (br, st1) ∨ st.stackPop t = some (br, st1)) :
    Popped st br st1 := by
  rcases h with h | h
  · exact popped_nextRecord st st1 t k br h
  · exact popped_stackPop st st1 t br h

theorem subtreeRun_inv (env : Env) (I : State → Prop)
    (hstep : ∀ t mode st br st1 st2, I st → Popped st br st1 →
      (mode = Mode.BUILD_TOP_LEVEL ∨ t < st.threadStack.length) →
      recurse env t mode br st1 = Outcome.done st2 → I st2)
    (k : Nat) (st st' : State) (hrun : SubtreeRun env k st st') :
    I st → k ≤ st.threadStack.length →
      I st' ∧ st'.threadStack.length = st.threadStack.length := by
  induction hrun with
  | refl st => intro hI _; exact ⟨hI, rfl⟩
  | step t br st st1 st2 st3 ht hpop hr _ ih =>
    intro hI hk
    have hp := popped_of_take st st1 t k br hpop
    have hl2 : st2.threadStack.length = st.threadStack.length := by
      rw [recurse_stackLength env _ _ _ _ _ hr, hp.2.1]
    obtain ⟨a, b⟩ := ih (hstep _ _ _ _ _ _ hI hp (Or.inr (by omega)) hr) (by omega)
    exact ⟨a, by omega⟩

/-- A run of `buildSubTrees` by one worker is a run of the subtree phase. -/
theorem subtreeRun_trans (env : Env) (k : Nat) (a b c : State) (h1 : SubtreeRun env k a b)
    (h2 : SubtreeRun env k b c) : SubtreeRun env k a c := by
  induction h1 with
  | refl st => exact h2
  | step t br st st1 st2 st3 ht hpop hr _ ih =>
    exact SubtreeRun.step t br st st1 st2 c ht hpop hr (ih h2)

theorem drainStack_run (env : Env) (t k : Nat) (ht : t < k) :
    ∀ fuel st st', drainStack env t fuel st = Outcome.done st' → SubtreeRun env k st st' := by
  intro fuel
  induction fuel with
  | zero => intro st st' h; simp [drainStack] at h
  | succ fuel ih =>
    intro st st' h
    cases hp : st.stackPop t with
    | none =>
      rw [drainStack_none env t fuel st hp] at h
      cases h
      exact SubtreeRun.refl _
    | some x =>
      obtain ⟨br, st1⟩ := x
      cases hr : recurse env t Mode.RECURSE_PARALLEL br st1 with
      | done st2 =>
        rw [drainStack_done env t fuel st st1 st2 br hp hr] at h
        exact SubtreeRun.step t br st st1 st2 st' ht (Or.inr hp) hr (ih st2 st' h)
      | fail e s =>
        rw [drainStack_fail env t fuel st st1 s br e hp hr] at h
        cases h

theorem buildSubTrees_run (env : Env) (t k : Nat) (ht : t < k) :
    ∀ fuel st st', buildSubTrees env t k fuel st = Outcome.done st' →
      SubtreeRun env k st st' := by
  intro fuel
  induction fuel with
  | zero => intro st st' h; simp [buildSubTrees] at h
  | succ fuel ih =>
    intro st st' h
    cases hp : nextRecord st t k with
    | none =>
      rw [buildSubTrees_none env t k fuel st hp] at h
      cases h
      exact SubtreeRun.refl _
    | some x =>
      obtain ⟨br, st1⟩ := x
      cases hr : recurse env t Mode.RECURSE_PARALLEL br st1 with
      | done st2 =>
        rw [buildSubTrees_done env t k fuel st st1 st2 br hp hr] at h
        cases hdr : drainStack env t fuel st2 with
        | done st3 =>
          rw [hdr] at h
          simp only at h
          exact SubtreeRun.step t br st st1 st2 st' ht (Or.inl hp) hr
            (subtreeRun_trans env k _ _ _ (drainStack_run env t k ht fuel st2 st3 hdr)
              (ih st3 st' h))
        | fail e s =>
          rw [hdr] at h
          cases h
      | fail e s =>
        rw [buildSubTrees_fail env t k fuel st st1 s br e hp hr] at h
        cases h

theorem dispatchSubTrees_run (env : Env) (k fuel : Nat) :
    ∀ ts st st', (∀ t ∈ ts, t < k) → dispatchSubTrees env k fuel ts st = Outcome.done st' →
      SubtreeRun env k st st' := by
  intro ts
  induction ts with
  | nil =>
    intro st st' _ h
    simp only [dispatchSubTrees] at h
    cases h
    exact SubtreeRun.refl _
  | cons t ts ih =>
    intro st st' hts h
    rw [dispatchSubTrees] at h
    cases hb : buildSubTrees env t k fuel st with
    | done st1 =>
      rw [hb] at h
      simp only at h
      exact subtreeRun_trans env k _ _ _
        (buildSubTrees_run env t k (hts t (List.mem_cons_self _ _)) fuel st st1 hb)
        (ih st1 st' (fun t' ht' => hts t' (List.mem_cons_of_mem _ ht')) h)
    | fail e s =>
      rw [hb] at h
      cases h

/-- A parallel build that ends normally is the top-level loop followed by a
run of the subtree phase. -/
theorem build_parallel_run (env : Env) (threadIndex threadCount numPrimitives : Nat)
    (prims : List PrimRef) (pinfo : CentGeomBBox3fa) (fuel : Nat) (st' : State)
    (h : build_parallel env threadIndex threadCount numPrimitives prims pinfo fuel =
      Outcome.done st') :
    ∃ st1, build_parallel_toplevel env threadIndex threadCount numPrimitives prims pinfo fuel =
        Outcome.done st1 ∧ SubtreeRun env threadCount st1 st' := by
  unfold build_parallel at h
  cases ht : build_parallel_toplevel env threadIndex threadCount numPrimitives prims pinfo fuel with
  | done st1 =>
    rw [ht] at h
    simp only at h
    exact ⟨st1, rfl, dispatchSubTrees_run env threadCount fuel _ _ _
      (fun t ht' => List.mem_range.1 ht') h⟩
  | fail e s =>
    rw [ht] at h
    cases h

/-! ## The depth bound in every build -/

theorem depthsOK_drop (env : Env) (st : State) (br : BuildRecord) (st1 : State)
    (h : st.depthsOK env) (hp : Popped st br st1) : st1.depthsOK env := by
  obtain ⟨hperm, _, _, hn, _, _, _, hl, hw, _⟩ := hp
  obtain ⟨h1, h2, h3⟩ := h
  have hc : ∀ r, PendingOK st1 r ↔ PendingOK st r :=
    fun r => pendingOK_congr st st1 r hw (by rw [hn])
  refine ⟨?_, ?_, ?_⟩
  · unfold State.published at *
    rw [hw, hn]
    exact h1
  · intro c hcm
    rw [hl] at hcm
    exact ⟨(h2 c hcm).1, (hc _).2 (h2 c hcm).2⟩
  · intro r hr
    exact (hc _).2 (h3 r (hperm.mem_iff.2 (List.mem_cons_of_mem _ hr)))

/-- Processing a record that waited keeps the depth invariant of the memory,
in every mode. -/
theorem depthsOK_recurse (env : Env) (t : Nat) (mode : Mode) (st : State) (br : BuildRecord)
    (st1 st2 : State) (h : st.depthsOK env) (hp : Popped st br st1)
    (hr : recurse env t mode br st1 = Outcome.done st2) : st2.depthsOK env := by
  have hbr : PendingOK st1 br :=
    (pendingOK_congr st st1 br hp.2.2.2.2.2.2.2.2.1 (by rw [hp.2.2.2.1])).2
      (h.2.2 br (hp.1.mem_iff.2 (List.mem_cons_self _ _)))
  obtain ⟨h1, h2, h3⟩ := depthsOK_drop env st br st1 h hp
  obtain ⟨hpost, hpend⟩ := recurse_depthP env t mode br st1 st2 hr h1 hbr.1 hbr.2
  refine ⟨hpost.1, ?_, ?_⟩
  · have hpost' := hpost
    obtain ⟨_, _, _, new, hl, hnew⟩ := hpost'
    intro c hc
    rw [hl, List.mem_append] at hc
    rcases hc with hc | hc
    · exact ⟨(h2 c hc).1, pendingOK_stable env st1 st2 _ h1 hpost (h2 c hc).2⟩
    · obtain ⟨a, b, d⟩ := hnew c hc
      exact ⟨a, b, d⟩
  · intro r hrm
    rcases hpend r hrm with hr1 | hok
    · exact pendingOK_stable env st1 st2 _ h1 hpost (h3 r hr1)
    · exact hok

theorem depthsOK_step (env : Env) (t : Nat) (mode : Mode) (st : State) (br : BuildRecord)
    (st1 st2 : State) (h : st.depthsOK env) (hp : Popped st br st1)
    (_ : mode = Mode.BUILD_TOP_LEVEL ∨ t < st.threadStack.length)
    (hr : recurse env t mode br st1 = Outcome.done st2) : st2.depthsOK env :=
  depthsOK_recurse env t mode st br st1 st2 h hp hr

theorem flatten_replicate_nil {α : Type} (k : Nat) :
    (List.replicate k ([] : List α)).flatten = [] := by
  induction k with
  | zero => rfl
  | succ k ih => simp [List.replicate_succ, ih]

/-- The memory from which the top-level loop of `build_parallel` starts. -/
theorem build_parallel_toplevel_eq (env : Env) (threadIndex threadCount numPrimitives : Nat)
    (prims : List PrimRef) (pinfo : CentGeomBBox3fa) (fuel : Nat) :
    build_parallel_toplevel env threadIndex threadCount numPrimitives prims pinfo fuel =
      topLevelLoop env threadIndex threadCount fuel
        ({ initialState prims pinfo with
            threadStack := List.replicate threadCount [],
            heap := [rootRecord pinfo numPrimitives] } : State) := rfl

theorem start_depthsOK (env : Env) (threadCount numPrimitives : Nat)
    (prims : List PrimRef) (pinfo : CentGeomBBox3fa) :
    ({ initialState prims pinfo with
        threadStack := List.replicate threadCount [],
        heap := [rootRecord pinfo numPrimitives] } : State).depthsOK env := by
  refine ⟨by simp [State.published, initialState, nodeSlots], by simp [initialState], ?_⟩
  intro r hr
  unfold State.pending at hr
  simp only [flatten_replicate_nil, List.append_nil, List.mem_singleton] at hr
  subst hr
  exact ⟨by simp [rootRecord, State.hasSlot], by simp [rootRecord, nodesAbove, slotLevel]⟩

/-- The depth invariant holds of the memory that a parallel build leaves,
whatever the order in which the workers take the records. -/
theorem parallel_depthsOK (env : Env) (threadIndex threadCount numPrimitives : Nat)
    (prims : List PrimRef) (pinfo : CentGeomBBox3fa) (fuel : Nat) (st1 st' : State)
    (h1 : build_parallel_toplevel env threadIndex threadCount numPrimitives prims pinfo fuel =
      Outcome.done st1) (h2 : SubtreeRun env threadCount st1 st') : st'.depthsOK env := by
  rw [build_parallel_toplevel_eq] at h1
  obtain ⟨hI1, hl1⟩ := topLevelLoop_inv env (fun s => s.depthsOK env)
    (depthsOK_drop env) (depthsOK_step env) threadIndex threadCount fuel _ st1
    (start_depthsOK env threadCount numPrimitives prims pinfo) h1
  exact (subtreeRun_inv env (fun s => s.depthsOK env) (depthsOK_step env) threadCount st1 st' h2
    hI1 (by rw [hl1]; simp)).1

theorem sequential_depthsOK (env : Env) (threadIndex numPrimitives : Nat)
    (prims : List PrimRef) (pinfo : CentGeomBBox3fa) (st' : State)
    (h : build_sequential env threadIndex numPrimitives prims pinfo = Outcome.done st') :
    st'.depthsOK env := by
  have h0 : ({ initialState prims pinfo with
      heap := [rootRecord pinfo numPrimitives] } : State).depthsOK env := by
    have := start_depthsOK env 0 numPrimitives prims pinfo
    simpa [initialState] using this
  refine depthsOK_recurse env threadIndex Mode.RECURSE_SEQUENTIAL _
    (rootRecord pinfo numPrimitives) (initialState prims pinfo) st' h0 ?_ h
  refine ⟨?_, rfl, rfl, rfl, rfl, rfl, rfl, rfl, rfl, rfl⟩
  simp [State.pending, initialState]

/-- C5. Depth bound. In every build that ends without error, sequential or
parallel, with the root record at depth 1 and published through `bvh.root`,
every record on which `createSmallLeaf` is called has depth at most
`maxBuildDepthLeaf`, and its depth is one more than the number of interior
nodes above it (the nodes created by `recurse` or `createLeaf` on the path
from the root to its parent slot), so every root-to-leaf path has length at
most `maxBuildDepthLeaf`. This holds for `build_sequential`; for
`build_parallel`, the top-level loop followed by `buildSubTrees` on each
thread; and for the top-level loop followed by any run of the subtree phase
in which the workers take the records in any order. Moreover `recurse`, in
every mode and however it ends, only adds `createSmallLeaf` calls on records
of depth at most `maxBuildDepthLeaf`. -/
theorem leaf_depth_bound (env : Env) :
    (∀ threadIndex numPrimitives prims pinfo st',
      build_sequential env threadIndex numPrimitives prims pinfo = Outcome.done st' →
      ∀ c ∈ st'.leafCalls, c.1.depth ≤ env.maxBuildDepthLeaf ∧
        c.1.depth = 1 + nodesAbove st' c.1.parent ∧
        1 + nodesAbove st' c.1.parent ≤ env.maxBuildDepthLeaf) ∧
    (∀ threadIndex threadCount numPrimitives prims pinfo fuel st',
      build_parallel env threadIndex threadCount numPrimitives prims pinfo fuel =
        Outcome.done st' →
      ∀ c ∈ st'.leafCalls, c.1.depth ≤ env.maxBuildDepthLeaf ∧
        c.1.depth = 1 + nodesAbove st' c.1.parent ∧
        1 + nodesAbove st' c.1.parent ≤ env.maxBuildDepthLeaf) ∧
    (∀ threadIndex threadCount numPrimitives prims pinfo fuel st1 st',
      build_parallel_toplevel env threadIndex threadCount numPrimitives prims pinfo fuel =
        Outcome.done st1 →
      SubtreeRun env threadCount st1 st' →
      ∀ c ∈ st'.leafCalls, c.1.depth ≤ env.maxBuildDepthLeaf ∧
        c.1.depth = 1 + nodesAbove st' c.1.parent ∧
        1 + nodesAbove st' c.1.parent ≤ env.maxBuildDepthLeaf) ∧
    (∀ threadID mode cur st, st.leafDepthsOK env →
      (recurse env threadID mode cur st).state.leafDepthsOK env) := by
  have key : ∀ st' : State, st'.depthsOK env →
      ∀ c ∈ st'.leafCalls, c.1.depth ≤ env.maxBuildDepthLeaf ∧
        c.1.depth = 1 + nodesAbove st' c.1.parent ∧
        1 + nodesAbove st' c.1.parent ≤ env.maxBuildDepthLeaf := by
    intro st' h c hc
    obtain ⟨a, _, d⟩ := h.2.1 c hc
    exact ⟨a, d, by omega⟩
  refine ⟨?_, ?_, ?_, ?_⟩
  · intro threadIndex numPrimitives prims pinfo st' h
    exact key st' (sequential_depthsOK env threadIndex numPrimitives prims pinfo st' h)
  · intro threadIndex threadCount numPrimitives prims pinfo fuel st' h
    obtain ⟨st1, h1, h2⟩ := build_parallel_run env threadIndex threadCount numPrimitives prims
      pinfo fuel st' h
    exact key st' (parallel_depthsOK env threadIndex threadCount numPrimitives prims pinfo fuel
      st1 st' h1 h2)
  · intro threadIndex threadCount numPrimitives prims pinfo fuel st1 st' h1 h2
    exact key st' (parallel_depthsOK env threadIndex threadCount numPrimitives prims pinfo fuel
      st1 st' h1 h2)
  · intro threadID mode cur st hst
    exact recurseF_leafDepths env threadID _ mode cur st hst

theorem leaf_depth_bound_witness :
    (build_sequential (fallbackEnv Layout.triangle1 2) 0 5 (samplePrims 5)
        (scanBounds (samplePrims 5) 0 5) =
      Outcome.done (build_sequential (fallbackEnv Layout.triangle1 2) 0 5 (samplePrims 5)
        (scanBounds (samplePrims 5) 0 5)).state ∧
    ∀ c ∈ (build_sequential (fallbackEnv Layout.triangle1 2) 0 5 (samplePrims 5)
        (scanBounds (samplePrims 5) 0 5)).state.leafCalls,
      c.1.depth ≤ (fallbackEnv Layout.triangle1 2).maxBuildDepthLeaf) ∧
    (build_parallel (fallbackEnv Layout.triangle1 2) 0 2 9 (samplePrims 9)
        (scanBounds (samplePrims 9) 0 9) 20 =
      Outcome.done (build_parallel (fallbackEnv Layout.triangle1 2) 0 2 9 (samplePrims 9)
        (scanBounds (samplePrims 9) 0 9) 20).state ∧
    (build_parallel (fallbackEnv Layout.triangle1 2) 0 2 9 (samplePrims 9)
        (scanBounds (samplePrims 9) 0 9) 20).state.leafCalls.length = 5 ∧
    ∀ c ∈ (build_parallel (fallbackEnv Layout.triangle1 2) 0 2 9 (samplePrims 9)
        (scanBounds (samplePrims 9) 0 9) 20).state.leafCalls,
      c.1.depth = 1 + nodesAbove (build_parallel (fallbackEnv Layout.triangle1 2) 0 2 9
        (samplePrims 9) (scanBounds (samplePrims 9) 0 9) 20).state c.1.parent) :=
  ⟨⟨Outcome.eq_done_of_isDone _ (by decide),
    fun c hc => ((leaf_depth_bound (fallbackEnv Layout.triangle1 2)).1 0 5 (samplePrims 5)
      (scanBounds (samplePrims 5) 0 5) _ (Outcome.eq_done_of_isDone _ (by decide)) c hc).1⟩,
   Outcome.eq_done_of_isDone _ (by decide), by decide,
    fun c hc => ((leaf_depth_bound (fallbackEnv Layout.triangle1 2)).2.1 0 2 9 (samplePrims 9)
      (scanBounds (samplePrims 9) 0 9) 20 _ (Outcome.eq_done_of_isDone _ (by decide)) c hc).2.1⟩

/-! ## Bounds in every mode -/

/-- The sequential splitter hypotheses give the hypothesis of every mode but
`BUILD_TOP_LEVEL`. -/
theorem splitsExactly_of_sequential (env : Env) (n : Nat) (hsplit : SplitsWithinRange env n)
    (hexact : SplitsWithExactBounds env n) (mode : Mode) (hm : mode ≠ Mode.BUILD_TOP_LEVEL) :
    SplitsExactly env mode n := by
  intro P r hP hw hsz
  have hs : split env mode P r = splitSequential env P r := by simp [split, hm]
  rw [hs]
  obtain ⟨h1, h2, h3, h4, h5, h6⟩ := hsplit P r hP hw hsz
  obtain ⟨e1, e2⟩ := hexact P r hP hw hsz
  exact ⟨h1, h2, h3, h4, h5, h6, e1, e2⟩

theorem apart_symm {a b : BuildRecord} (h : Apart a b) : Apart b a := by
  unfold Apart at *
  omega

/-- Records with well-formed ranges that have no index in common are apart. -/
theorem apart_of_disjoint (a b : BuildRecord) (ha : a.begin ≤ a.end_) (hb : b.begin ≤ b.end_)
    (h : ∀ i, i ∈ a.indices → i ∉ b.indices) : Apart a b := by
  unfold Apart
  by_contra hcon
  simp only [not_or, not_le] at hcon
  obtain ⟨h1, h2, h3, h4⟩ := hcon
  by_cases hab : a.begin ≤ b.begin
  · exact h b.begin (by rw [mem_indices]; omega) (by rw [mem_indices]; omega)
  · exact h a.begin (by rw [mem_indices]; omega) (by rw [mem_indices]; omega)

theorem pairwise_apart_of_perm (cs : List BuildRecord) (r : BuildRecord)
    (hwf : ∀ c ∈ cs, c.begin ≤ c.end_)
    (h : (cs.flatMap BuildRecord.indices).Perm r.indices) : cs.Pairwise Apart :=
  (pairwise_disjoint_of_perm cs r h).imp_of_mem
    (fun ha hb hab => apart_of_disjoint _ _ (hwf _ ha) (hwf _ hb) hab)

/-- After the expansion loop of `recurse` in any mode, with a splitter that
stays inside the range it is given and returns exact bounds: the array was
permuted inside the range of `cur`, the children are on well-formed ranges
inside it that have no index in common, and either no split was made or every
child carries the union of its range in the array the loop leaves. -/
theorem expandLoop_exactM (env : Env) (mode : Mode) (n : Nat)
    (hsplit : SplitsExactly env mode n)
    (cur : BuildRecord) (P0 : List PrimRef) (hlen : P0.length = n) (hw : cur.within n) :
    PermWithin cur.begin cur.end_ P0 (expandLoop env mode cur.depth (BVH4.N - 1) [cur] P0).2 ∧
    (∀ c ∈ (expandLoop env mode cur.depth (BVH4.N - 1) [cur] P0).1, InRange cur c) ∧
    (expandLoop env mode cur.depth (BVH4.N - 1) [cur] P0).1.Pairwise Apart ∧
    ((expandLoop env mode cur.depth (BVH4.N - 1) [cur] P0).1 = [cur] ∨
      ∀ c ∈ (expandLoop env mode cur.depth (BVH4.N - 1) [cur] P0).1,
        c.geomBounds = rangeUnion (expandLoop env mode cur.depth (BVH4.N - 1) [cur] P0).2
          c.begin c.end_) := by
  have key := expandLoop_induct env mode cur.depth
    (fun cs P => P.length = n ∧ PermWithin cur.begin cur.end_ P0 P ∧
      (∀ c ∈ cs, c.begin ≤ c.end_ ∧ cur.begin ≤ c.begin ∧ c.end_ ≤ cur.end_) ∧
      (cs.flatMap BuildRecord.indices).Perm cur.indices ∧
      (cs = [cur] ∨ ∀ c ∈ cs, c.geomBounds = rangeUnion P c.begin c.end_))
    (by
      intro cs P j hQ _ hj hsz hl
      obtain ⟨hPlen, hPW, hin, hidx, hcase⟩ := hQ
      have hmem := getD_mem cs j hj
      have hcj := hin _ hmem
      obtain ⟨h1, h2, h3, h4, h5, h6, e1, e2⟩ := hsplit P (cs.getD j BuildRecord.blank) hPlen
        ⟨hcj.1, by have := hw.2; omega⟩ hsz
      obtain ⟨rest, hp1, hp2⟩ := placeChildren_perm cs j
        ((split env mode P (cs.getD j BuildRecord.blank)).2.1.initDepth (cur.depth + 1))
        ((split env mode P (cs.getD j BuildRecord.blank)).2.2.initDepth (cur.depth + 1))
        hj hl
      have hpair := pairwise_disjoint_of_perm (cs.getD j BuildRecord.blank :: rest) cur
        ((hp1.flatMap_right _).symm.trans hidx)
      rw [List.pairwise_cons] at hpair
      refine ⟨by rw [h6.1.length_eq, hPlen],
        permWithin_trans hPW (permWithin_widen h6 hcj.2.1 hcj.2.2), ?_, ?_, Or.inr ?_⟩
      · intro c hc
        have hc' := hp2.mem_iff.1 hc
        simp only [List.mem_cons] at hc'
        rcases hc' with rfl | rfl | hc'
        · simp only [BuildRecord.initDepth]; omega
        · simp only [BuildRecord.initDepth]; omega
        · exact hin c (hp1.mem_iff.2 (List.mem_cons_of_mem _ hc'))
      · refine (hp2.flatMap_right _).trans
          (List.Perm.trans ?_ ((hp1.flatMap_right _).symm.trans hidx))
        simp only [List.flatMap_cons, ← List.append_assoc]
        apply List.Perm.append_right
        have : ((split env mode P (cs.getD j BuildRecord.blank)).2.1.initDepth
              (cur.depth + 1)).indices ++
            ((split env mode P (cs.getD j BuildRecord.blank)).2.2.initDepth
              (cur.depth + 1)).indices = (cs.getD j BuildRecord.blank).indices := by
          simp only [BuildRecord.indices, BuildRecord.initDepth]
          rw [h1, ← h2, h3]
          exact range'_glue _ _ _ h4 h5
        rw [this]
      · intro c hc
        have hc' := hp2.mem_iff.1 hc
        simp only [List.mem_cons] at hc'
        rcases hc' with rfl | rfl | hc'
        · exact e1
        · exact e2
        · rcases hcase with hcase | hcase
          · subst hcase
            have := hp1.length_eq
            simp only [List.length_cons, List.length_nil] at this
            have : rest = [] := List.eq_nil_of_length_eq_zero (by omega)
            subst this
            simp at hc'
          · rw [hcase c (hp1.mem_iff.2 (List.mem_cons_of_mem _ hc'))]
            symm
            apply rangeUnion_congr
            intro i hi1 hi2
            apply h6.2
            have := hpair.1 c hc' i
            simp only [mem_indices] at this
            by_contra hcon
            exact this (by omega) ⟨hi1, hi2⟩)
    (BVH4.N - 1) [cur] P0 (by simp [BVH4.N])
    ⟨hlen, permWithin_refl _ _ _, by
      intro c hc
      simp only [List.mem_singleton] at hc
      subst hc
      exact ⟨hw.1, le_refl _, le_refl _⟩, by simp, Or.inl rfl⟩
  refine ⟨key.2.1, ?_, pairwise_apart_of_perm _ cur (fun c hc => (key.2.2.1 c hc).1)
    key.2.2.2.1, key.2.2.2.2⟩
  intro c hc
  have := key.2.2.1 c hc
  exact ⟨this.2.1, this.1, this.2.2⟩

theorem stackPush_pending_any (env : Env) (s s' : State) (t : Nat) (r : BuildRecord)
    (h : s.stackPush env t r = some s') :
    ∃ x, s'.pending.Perm (x ++ s.pending) ∧ (x = [r] ∨ x = []) := by
  by_cases ht : t < s.threadStack.length
  · exact ⟨[r], by simpa using (stackPush_pending env s s' t r ht h).1, Or.inl rfl⟩
  · refine ⟨[], ?_, Or.inr rfl⟩
    unfold State.stackPush at h
    simp only at h
    split at h
    · cases h
      unfold State.pending
      simp only
      rw [List.set_eq_of_length_le (by omega)]
      exact List.Perm.refl _
    · cases h

theorem lam_of_apart_ranges (c c' p e : BuildRecord) (hA : Apart c c') (hp : InRange c p)
    (he : InRange c' e) : Lam p e := by
  unfold Apart at hA
  unfold InRange at hp he
  unfold Lam
  omega

theorem lam_of_apart_ranges' (c c' p e : BuildRecord) (hA : Apart c' c) (hp : InRange c p)
    (he : InRange c' e) : Lam p e :=
  lam_of_apart_ranges c c' p e (apart_symm hA) hp he

theorem apart_of_apart_ranges (c c' p l : BuildRecord) (hA : Apart c c') (hp : InRange c p)
    (hl : InRange c' l) : Apart p l := by
  unfold Apart at hA ⊢
  unfold InRange at hp hl
  omega

theorem lam_of_inRange (c p : BuildRecord) (hp : InRange c p) : Lam p c := by
  unfold InRange at hp
  unfold Lam
  omega

theorem apart_not_mem (c c' x : BuildRecord) (hA : Apart c c') (hx : InRange c x) (j : Nat)
    (h1 : x.begin ≤ j) (h2 : j < x.end_) : ¬ (c'.begin ≤ j ∧ j < c'.end_) := by
  unfold Apart at hA
  unfold InRange at hx
  omega

theorem inRange_trans {a b c : BuildRecord} (h1 : InRange a b) (h2 : InRange b c) :
    InRange a c := by
  unfold InRange at *
  omega

theorem inRange_self (c : BuildRecord) (h : c.begin ≤ c.end_) : InRange c c :=
  ⟨le_refl _, h, le_refl _⟩

/-- `createLeaf` pushes nothing, covers its record by leaves and stores exact
boxes, with no assumption on the splitter. -/
theorem createLeaf_exactPost (env : Env) (n : Nat) (hn : n + env.minLeafSize < 2 ^ 64)
    (cur : BuildRecord) (st st' : State) (h : createLeaf env cur st = Outcome.done st') :
    ExactPost n cur st st' := by
  intro hw hlen
  obtain ⟨hcov, hex⟩ := (createLeaf_exact env cur st st' h).2 (by rw [hlen]; exact hw)
    (by have := hw.2; omega)
  obtain ⟨hPW, leaves, hl, _, hsnap⟩ := hcov
  obtain ⟨log, hlog, hex'⟩ := hex
  have hf := createLeaf_heap env cur st st' h
  simp only [Prod.mk.injEq] at hf
  refine ⟨hPW, leaves, log, [], hl, hlog, ?_, ?_, ?_, by simp, List.Pairwise.nil⟩
  · unfold State.pending
    rw [hf.1, hf.2]
    exact List.Perm.refl _
  · intro l hlm
    obtain ⟨a, b, c, d⟩ := hsnap l hlm
    exact ⟨a, b, c, d⟩
  · intro e he
    obtain ⟨a, b, c, d⟩ := hex' e he
    exact ⟨⟨b, a, c⟩, d⟩

theorem continue_exactPost (env : Env) (t n : Nat) (mode : Mode) (r : BuildRecord)
    (s s' : State) (h : ContinuePost env t (fun _ => ExactPost n) mode r s s') :
    ExactPost n r s s' := by
  rcases h with ⟨_, rfl⟩ | ⟨_, hpush⟩ | ⟨_, m, _, hP⟩
  · intro hw _
    refine ⟨permWithin_refl _ _ _, [], [], [r], by simp [State.heapPush],
      by simp [State.heapPush], ?_, by simp, by simp, ?_, List.pairwise_singleton _ _⟩
    · unfold State.pending State.heapPush
      simp only [List.singleton_append]
      rw [List.append_assoc]
      exact List.perm_middle
    · intro p hp
      rw [List.mem_singleton] at hp
      subst hp
      exact ⟨inRange_self _ hw.1, by simp, by simp⟩
  · intro hw _
    obtain ⟨_, _, f3, f4, f5, _⟩ := stackPush_frame env s s' t r hpush
    obtain ⟨x, hx, hx'⟩ := stackPush_pending_any env s s' t r hpush
    refine ⟨by rw [f4]; exact permWithin_refl _ _ _, [], [], x, by simp [f3], by simp [f5], hx,
      by simp, by simp, ?_, ?_⟩
    · intro p hp
      rcases hx' with rfl | rfl
      · rw [List.mem_singleton] at hp
        subst hp
        exact ⟨inRange_self _ hw.1, by simp, by simp⟩
      · simp at hp
    · rcases hx' with rfl | rfl
      · exact List.pairwise_singleton _ _
      · exact List.Pairwise.nil
  · exact hP

/-- Exactness of the stored boxes over a children loop in any mode: the
children are on ranges of the array that have no index in common and carry
the unions of their ranges when the loop starts. -/
theorem chain_exactPost (n : Nat) (upd : Nat → BuildRecord → BuildRecord) (node : Nat)
    (hupd : ∀ i c, (upd i c).begin = c.begin ∧ (upd i c).end_ = c.end_) :
    ∀ cs i s s', childChain (ExactPost n) upd node i cs s s' →
      s.prims.length = n → (∀ c ∈ cs, c.within n) → cs.Pairwise Apart →
      (∀ c ∈ cs, c.geomBounds = rangeUnion s.prims c.begin c.end_) →
      s'.prims.Perm s.prims ∧
      (∀ j, (∀ c ∈ cs, ¬ (c.begin ≤ j ∧ j < c.end_)) → primAt s'.prims j = primAt s.prims j) ∧
      ∃ leaves log pushed,
        s'.leafCalls = s.leafCalls ++ leaves ∧ s'.setLog = s.setLog ++ log ∧
        s'.pending.Perm (pushed ++ s.pending) ∧
        (∀ l ∈ leaves, l.2 = l.1.primsOf s'.prims ∧ ∃ c ∈ cs, InRange c l.1) ∧
        (∀ e ∈ log, (∃ c ∈ cs, InRange c e.2.2) ∧
          e.2.2.geomBounds = rangeUnion s'.prims e.2.2.begin e.2.2.end_) ∧
        (∀ p ∈ pushed, (∃ c ∈ cs, InRange c p) ∧ (∀ e ∈ log, Lam p e.2.2) ∧
          ∀ l ∈ leaves, Apart p l.1) ∧
        pushed.Pairwise Apart := by
  intro cs
  induction cs with
  | nil =>
    intro i s s' h _ _ _ _
    simp only [childChain] at h
    subst h
    exact ⟨List.Perm.refl _, fun _ _ => rfl, [], [], [], by simp, by simp, by simp, by simp,
      by simp, by simp, List.Pairwise.nil⟩
  | cons c rest ih =>
    intro i s s' h hlen hw hp hex
    obtain ⟨s1, hc, hrest⟩ := h
    have hwc := hw c (List.mem_cons_self _ _)
    rw [List.pairwise_cons] at hp
    have hIR : ∀ x, InRange (upd i c) x → InRange c x := by
      intro x hx
      unfold InRange at *
      rw [(hupd i c).1, (hupd i c).2] at hx
      exact hx
    obtain ⟨hPW1, leaves1, log1, pushed1, hl1, hlog1, hpend1, hL1, hE1, hP1, hPP1⟩ := hc
      (by
        unfold BuildRecord.within at *
        rw [(hupd i c).1, (hupd i c).2]
        exact hwc)
      (by simpa using hlen)
    rw [(hupd i c).1, (hupd i c).2] at hPW1
    simp only [setBounds_prims] at hPW1
    simp only [setBounds_leafCalls] at hl1
    simp only [setBounds_setLog] at hlog1
    rw [setBounds_pending] at hpend1
    have hlen1 : s1.prims.length = n := by rw [hPW1.1.length_eq, hlen]
    have hframe1 : ∀ c' ∈ rest, ∀ j, c'.begin ≤ j → j < c'.end_ →
        primAt s1.prims j = primAt s.prims j := by
      intro c' hc' j h1 h2
      apply hPW1.2
      have := hp.1 c' hc'
      unfold Apart at this
      omega
    obtain ⟨hperm2, hframe2, leaves2, log2, pushed2, hl2, hlog2, hpend2, hL2, hE2, hP2, hPP2⟩ :=
      ih (i + 1) s1 s' hrest hlen1 (fun c' hc' => hw c' (List.mem_cons_of_mem _ hc')) hp.2
        (by
          intro c' hc'
          rw [hex c' (List.mem_cons_of_mem _ hc')]
          symm
          apply rangeUnion_congr
          exact hframe1 c' hc')
    have hframe2c : ∀ x, InRange c x → ∀ j, x.begin ≤ j → j < x.end_ →
        primAt s'.prims j = primAt s1.prims j := by
      intro x hx j h1 h2
      apply hframe2
      intro c' hc'
      exact apart_not_mem c c' x (hp.1 c' hc') hx j h1 h2
    have hcc : InRange c c := inRange_self c hwc.1
    refine ⟨hperm2.trans hPW1.1, ?_, leaves1 ++ leaves2, (node, i, c) :: log1 ++ log2,
      pushed2 ++ pushed1, by rw [hl2, hl1, List.append_assoc], by rw [hlog2, hlog1]; simp,
      ?_, ?_, ?_, ?_, ?_⟩
    · intro j hj
      rw [hframe2 j (fun c' hc' => hj c' (List.mem_cons_of_mem _ hc'))]
      apply hPW1.2
      have := hj c (List.mem_cons_self _ _)
      omega
    · refine hpend2.trans ?_
      rw [List.append_assoc]
      exact hpend1.append_left pushed2
    · intro l hl
      rw [List.mem_append] at hl
      rcases hl with hl | hl
      · obtain ⟨a, b⟩ := hL1 l hl
        refine ⟨?_, c, List.mem_cons_self _ _, hIR _ b⟩
        rw [a]
        apply primsOf_congr
        intro j h1 h2
        exact (hframe2c l.1 (hIR _ b) j h1 h2).symm
      · obtain ⟨a, c', hc', b⟩ := hL2 l hl
        exact ⟨a, c', List.mem_cons_of_mem _ hc', b⟩
    · intro e he
      simp only [List.cons_append, List.mem_cons, List.mem_append] at he
      rcases he with rfl | he | he
      · refine ⟨⟨c, List.mem_cons_self _ _, hcc⟩, ?_⟩
        simp only
        rw [rangeUnion_congr s'.prims s1.prims _ _ (hframe2c c hcc),
          rangeUnion_perm s.prims s1.prims _ _ hPW1 hwc.1 (by rw [hlen]; exact hwc.2)]
        exact hex c (List.mem_cons_self _ _)
      · obtain ⟨a, b⟩ := hE1 e he
        refine ⟨⟨c, List.mem_cons_self _ _, hIR _ a⟩, ?_⟩
        rw [b]
        symm
        exact rangeUnion_congr _ _ _ _ (hframe2c e.2.2 (hIR _ a))
      · obtain ⟨⟨c', hc', a⟩, b⟩ := hE2 e he
        exact ⟨⟨c', List.mem_cons_of_mem _ hc', a⟩, b⟩
    · intro p hpm
      rw [List.mem_append] at hpm
      rcases hpm with hpm | hpm
      · obtain ⟨⟨c', hc', a⟩, b, d⟩ := hP2 p hpm
        have hA := hp.1 c' hc'
        refine ⟨⟨c', List.mem_cons_of_mem _ hc', a⟩, ?_, ?_⟩
        · intro e he
          simp only [List.cons_append, List.mem_cons, List.mem_append] at he
          rcases he with rfl | he | he
          · exact lam_of_apart_ranges' c' c p c hA a hcc
          · exact lam_of_apart_ranges' c' c p e.2.2 hA a (hIR _ (hE1 e he).1)
          · exact b e he
        · intro l hl
          rw [List.mem_append] at hl
          rcases hl with hl | hl
          · exact apart_of_apart_ranges c' c p l.1 (apart_symm hA) a (hIR _ (hL1 l hl).2)
          · exact d l hl
      · obtain ⟨a, b, d⟩ := hP1 p hpm
        have a' := hIR _ a
        refine ⟨⟨c, List.mem_cons_self _ _, a'⟩, ?_, ?_⟩
        · intro e he
          simp only [List.cons_append, List.mem_cons, List.mem_append] at he
          rcases he with rfl | he | he
          · exact lam_of_inRange c p a'
          · exact b e he
          · obtain ⟨⟨c', hc', x⟩, _⟩ := hE2 e he
            exact lam_of_apart_ranges c c' p e.2.2 (hp.1 c' hc') a' x
        · intro l hl
          rw [List.mem_append] at hl
          rcases hl with hl | hl
          · exact d l hl
          · obtain ⟨_, c', hc', x⟩ := hL2 l hl
            exact apart_of_apart_ranges c c' p l.1 (hp.1 c' hc') a' x
    · rw [List.pairwise_append]
      refine ⟨hPP2, hPP1, ?_⟩
      intro p2 hp2 p1 hp1
      obtain ⟨⟨c', hc', a2⟩, _⟩ := hP2 p2 hp2
      have a1 := hIR _ (hP1 p1 hp1).1
      exact apart_of_apart_ranges c' c p2 p1 (apart_symm (hp.1 c' hc')) a2 a1

theorem store_pending (st : State) (slot : Slot) (ref : NodeRef) :
    (st.store slot ref).pending = st.pending := by
  unfold State.pending State.store
  cases slot <;> rfl

/-- A `recurse` call in any mode that ends normally leaves exact boxes: the
leaves it creates hold the primitives of their ranges, every box it stores is
the union of the range of its record in the array the call leaves, and the
records it pushes are on ranges of their own, below every box stored above
them. The splitter of the top level is needed for a call in
`BUILD_TOP_LEVEL` mode only. -/
theorem recurse_exactPost (env : Env) (threadID n : Nat)
    (hseq : ∀ m, m ≠ Mode.BUILD_TOP_LEVEL → SplitsExactly env m n)
    (hn : n + env.minLeafSize < 2 ^ 64)
    (mode : Mode) (cur : BuildRecord) (st st' : State)
    (h : recurse env threadID mode cur st = Outcome.done st')
    (htop : mode = Mode.BUILD_TOP_LEVEL → SplitsExactly env Mode.BUILD_TOP_LEVEL n) :
    ExactPost n cur st st' := by
  refine recurse_induct env threadID
    (fun mode cur st st' =>
      (mode = Mode.BUILD_TOP_LEVEL → SplitsExactly env Mode.BUILD_TOP_LEVEL n) →
      ExactPost n cur st st') ?_ ?_ mode cur st st' h htop
  · intro _ cur st st' hcl _
    exact createLeaf_exactPost env n hn cur st st' hcl
  · intro mode cur st st' _ _ hne hchain htop hw hlen
    have hsplit : SplitsExactly env mode n := by
      by_cases hm : mode = Mode.BUILD_TOP_LEVEL
      · rw [hm]
        exact htop hm
      · exact hseq mode hm
    obtain ⟨hPW, hin, hpair, hex⟩ := expandLoop_exactM env mode n hsplit cur st.prims hlen hw
    have hex' := hex.resolve_left (fun heq => hne (by rw [heq]; rfl))
    have hlen' : (expandLoop env mode cur.depth (BVH4.N - 1) [cur] st.prims).2.length = n := by
      rw [hPW.1.length_eq, hlen]
    have hchain' := childChain_imp _ (ExactPost n) _ _ _ _ _ _
      (fun k c a b _ hP => by
        refine continue_exactPost env threadID n mode _ a b ?_
        rcases hP with h1 | h2 | ⟨h3, m, hm, hP⟩
        · exact Or.inl h1
        · exact Or.inr (Or.inl h2)
        · exact Or.inr (Or.inr ⟨h3, m, hm, hP (fun hm' => absurd hm' hm)⟩)) hchain
    obtain ⟨hperm, hframe, leaves, log, pushed, hl, hlog, hpend, hL, hE, hP, hPP⟩ :=
      chain_exactPost n (fun i c => { c with parent := Slot.child st.nodes.length i })
        st.nodes.length (fun i c => ⟨rfl, rfl⟩) _ _ _ _ hchain'
        (by simpa using hlen')
        (fun c hc => by
          have := hin c hc
          unfold InRange at this
          unfold BuildRecord.within at *
          omega)
        hpair
        (by intro c hc; simp only [store_prims, allocNode_prims]; exact hex' c hc)
    simp only [store_prims, allocNode_prims] at hperm hframe
    rw [store_leafCalls] at hl
    rw [store_setLog] at hlog
    rw [store_pending] at hpend
    refine ⟨⟨hperm.trans hPW.1, ?_⟩, leaves, log, pushed, hl, hlog, hpend, ?_, ?_, ?_, hPP⟩
    · intro j hj
      rw [hframe j, hPW.2 j hj]
      intro c hc
      have := hin c hc
      unfold InRange at this
      omega
    · intro l hlm
      obtain ⟨a, c, hc, b⟩ := hL l hlm
      exact ⟨a, inRange_trans (hin c hc) b⟩
    · intro e he
      obtain ⟨⟨c, hc, a⟩, b⟩ := hE e he
      exact ⟨inRange_trans (hin c hc) a, b⟩
    · intro p hp
      obtain ⟨⟨c, hc, a⟩, b, d⟩ := hP p hp
      exact ⟨inRange_trans (hin c hc) a, b, d⟩

/-! ## The boxes that the nodes hold -/

theorem store_boxes (st : State) (slot : Slot) (ref : NodeRef) (k : Nat) :
    (st.store slot ref).boxes k = st.boxes k := by
  unfold State.boxes
  rw [store_nodes]
  cases slot with
  | child n i =>
    simp only [writeNodes, List.getD_eq_getElem?_getD, List.getElem?_set]
    by_cases hk : n = k
    · subst hk
      by_cases hn : n < st.nodes.length
      · simp [hn, Node.setChild]
      · rw [List.getElem?_eq_none (by omega)]
        simp [hn]
    · simp [hk]
  | root => rfl
  | null => rfl

theorem setBounds_boxes_ne (st : State) (n i : Nat) (c : BuildRecord) (k : Nat) (hk : k ≠ n) :
    (st.setBounds n i c).boxes k = st.boxes k := by
  unfold State.boxes State.setBounds
  simp only [List.getD_eq_getElem?_getD, List.getElem?_set]
  simp [Ne.symm hk]

theorem setBounds_boxes_eq (st : State) (n i : Nat) (c : BuildRecord)
    (hn : n < st.nodes.length) :
    (st.setBounds n i c).boxes n = (st.boxes n).set i c.geomBounds := by
  unfold State.boxes State.setBounds
  simp only [List.getD_eq_getElem?_getD, List.getElem?_set]
  simp [hn, Node.set]

theorem allocNode_boxes (st : State) (k : Nat) (hk : k < st.nodes.length) :
    st.allocNode.2.boxes k = st.boxes k := by
  unfold State.boxes State.allocNode
  simp only [List.getD_eq_getElem?_getD]
  rw [List.getElem?_append_left hk]

theorem allocNode_boxes_new (st : State) :
    st.allocNode.2.boxes st.nodes.length = List.replicate BVH4.N BBox3fa.empty := by
  unfold State.boxes State.allocNode
  simp only
  rw [show st.nodes ++ [Node.clear] = st.nodes ++ Node.clear :: [] from rfl, getD_at_length]
  rfl

theorem createSmallLeaf_boxes (env : Env) (cur : BuildRecord) (st : State) (k : Nat) :
    (createSmallLeaf env cur st).boxes k = st.boxes k := by
  have h := store_boxes ({ st with leafCalls := st.leafCalls ++ [(cur, leafPrims st.prims cur)] } :
    State) cur.parent (encodeLeaf st.leaves.length (leafBlock env st.prims cur).2) k
  exact h

theorem boxPost_of_frame (s s' : State) (h1 : s'.nodes = s.nodes) (h2 : s'.setLog = s.setLog) :
    BoxPost s s' := by
  refine ⟨by rw [h1], ?_, [], by simp [h2], by simp, ?_⟩
  · intro k _
    unfold State.boxes
    rw [h1]
  · intro k i a b
    rw [h1] at b
    omega

theorem compact_eq_self (s : State) (n : Nat)
    (h : s.nodes.set n (BVH4.compact (s.nodes.getD n Node.clear)) = s.nodes) :
    s.compact n = s := by
  unfold State.compact
  rw [h]

/-- The boxes over a children loop: child `j` is stored in slot `j` of the
node, the slots of the node that the loop has not reached keep their boxes,
and the calls below store into nodes allocated later. -/
theorem chain_boxes (upd : Nat → BuildRecord → BuildRecord) (node : Nat)
    (hupd : ∀ k c, (upd k c).parent = Slot.child node k) :
    ∀ cs j s s', childChain (fun r a b => a.hasSlot r.parent → BoxPost a b) upd node j cs s s' →
      node < s.nodes.length → (s.boxes node).length = BVH4.N → j + cs.length ≤ BVH4.N →
      s.nodes.length ≤ s'.nodes.length ∧
      (∀ k, k < s.nodes.length → k ≠ node → s'.boxes k = s.boxes k) ∧
      (s'.boxes node).length = BVH4.N ∧
      (∀ i, (i < j ∨ j + cs.length ≤ i) →
        (s'.boxes node).getD i BBox3fa.empty = (s.boxes node).getD i BBox3fa.empty) ∧
      ∃ log, s'.setLog = s.setLog ++ log ∧
        (∀ e ∈ log, ((e.1 = node ∧ j ≤ e.2.1 ∧ e.2.1 < j + cs.length) ∨
            (s.nodes.length ≤ e.1 ∧ e.1 < s'.nodes.length ∧ e.2.1 < BVH4.N)) ∧
          s'.boxAt e.1 e.2.1 = e.2.2.geomBounds) ∧
        (∀ i, j ≤ i → i < j + cs.length → ∃ c, (node, i, c) ∈ log) ∧
        (∀ k i, s.nodes.length ≤ k → k < s'.nodes.length → i < BVH4.N →
          (∃ c, (k, i, c) ∈ log) ∨ s'.boxAt k i = BBox3fa.empty) := by
  intro cs
  induction cs with
  | nil =>
    intro j s s' h _ hl _
    simp only [childChain] at h
    subst h
    refine ⟨le_refl _, fun _ _ _ => rfl, hl, fun _ _ => rfl, [], by simp, by simp, ?_, ?_⟩
    · intro i a b
      simp only [List.length_nil, Nat.add_zero] at b
      omega
    · intro k i a b
      omega
  | cons c rest ih =>
    intro j s s' h hnode hlen hj
    obtain ⟨s1, hc, hrest⟩ := h
    simp only [List.length_cons] at hj ⊢
    have hjN : j < BVH4.N := by omega
    have hsbn : (s.setBounds node j c).boxes node = (s.boxes node).set j c.geomBounds :=
      setBounds_boxes_eq s node j c hnode
    obtain ⟨hle1, hold1, log1, hlog1, hE1, hN1⟩ := hc (by
      rw [hupd]
      simpa [State.hasSlot] using hnode)
    simp only [setBounds_nodes_length] at hle1 hold1 hE1 hN1
    simp only [setBounds_setLog] at hlog1
    have hb1 : s1.boxes node = (s.boxes node).set j c.geomBounds := by
      rw [hold1 node hnode, hsbn]
    obtain ⟨hle2, hold2, hlen2, hget2, log2, hlog2, hE2, hC2, hN2⟩ :=
      ih (j + 1) s1 s' hrest (by omega) (by rw [hb1]; simpa using hlen) (by omega)
    have hat : ∀ k i, k < s1.nodes.length → k ≠ node → s'.boxAt k i = s1.boxAt k i := by
      intro k i a b
      unfold State.boxAt
      rw [hold2 k a b]
    refine ⟨by omega, ?_, hlen2, ?_, (node, j, c) :: log1 ++ log2, by rw [hlog2, hlog1]; simp,
      ?_, ?_, ?_⟩
    · intro k a b
      rw [hold2 k (by omega) b, hold1 k a, setBounds_boxes_ne _ _ _ _ _ b]
    · intro i hi
      rw [hget2 i (by omega), hb1]
      simp only [List.getD_eq_getElem?_getD, List.getElem?_set]
      have : j ≠ i := by omega
      simp [this]
    · intro e he
      simp only [List.cons_append, List.mem_cons, List.mem_append] at he
      rcases he with rfl | he | he
      · refine ⟨Or.inl ⟨rfl, by simp, by simp⟩, ?_⟩
        simp only
        unfold State.boxAt
        rw [hget2 j (by omega), hb1]
        simp only [List.getD_eq_getElem?_getD, List.getElem?_set]
        have : j < (s.boxes node).length := by omega
        simp [this]
      · obtain ⟨a, b, d, f⟩ := hE1 e he
        refine ⟨Or.inr ⟨a, by omega, d⟩, ?_⟩
        rw [hat e.1 e.2.1 b (by omega)]
        exact f
      · obtain ⟨a, f⟩ := hE2 e he
        refine ⟨?_, f⟩
        rcases a with ⟨a1, a2, a3⟩ | ⟨a1, a2, a3⟩
        · exact Or.inl ⟨a1, by omega, by omega⟩
        · exact Or.inr ⟨by omega, a2, a3⟩
    · intro i a b
      by_cases hij : i = j
      · subst hij
        exact ⟨c, by simp⟩
      · obtain ⟨c', hc'⟩ := hC2 i (by omega) (by omega)
        exact ⟨c', by simp [hc']⟩
    · intro k i a b hi
      by_cases hk : k < s1.nodes.length
      · rcases hN1 k i a hk hi with ⟨c', hc'⟩ | he
        · exact Or.inl ⟨c', by simp [hc']⟩
        · right
          rw [hat k i hk (by omega)]
          exact he
      · rcases hN2 k i (by omega) b hi with ⟨c', hc'⟩ | he
        · exact Or.inl ⟨c', by simp [hc']⟩
        · exact Or.inr he

/-- The boxes after allocating a node for a record, publishing it and running
the children loop. -/
theorem boxPost_of_chain (cur : BuildRecord) (st st0 s' : State) (cs : List BuildRecord)
    (upd : Nat → BuildRecord → BuildRecord)
    (hupd : ∀ k c, (upd k c).parent = Slot.child st.nodes.length k)
    (h0n : st0.nodes = st.nodes ++ [Node.clear]) (h0l : st0.setLog = st.setLog)
    (hchain : childChain (fun r a b => a.hasSlot r.parent → BoxPost a b) upd st.nodes.length 0 cs
      (st0.store cur.parent (encodeNode st.nodes.length)) s')
    (hlen : cs.length ≤ BVH4.N) : BoxPost st s' := by
  have hb0 : ∀ k, st0.boxes k = (st.allocNode.2).boxes k := by
    intro k
    unfold State.boxes
    rw [h0n]
    rfl
  obtain ⟨hle, hold, _, hget, log, hlog, hE, hC, hN⟩ := chain_boxes upd st.nodes.length hupd
    cs 0 _ s' hchain (by simp [h0n]) (by rw [store_boxes, hb0, allocNode_boxes_new]; simp)
    (by omega)
  simp only [store_nodes_length, h0n, List.length_append, List.length_singleton] at hle hold hE hN
  simp only [store_setLog, h0l] at hlog
  refine ⟨by omega, ?_, log, hlog, ?_, ?_⟩
  · intro k hk
    rw [hold k (by omega) (by omega), store_boxes, hb0, allocNode_boxes st k hk]
  · intro e he
    obtain ⟨a, f⟩ := hE e he
    rcases a with ⟨a1, a2, a3⟩ | ⟨a1, a2, a3⟩
    · exact ⟨by omega, by omega, by omega, f⟩
    · exact ⟨by omega, a2, a3, f⟩
  · intro k i a b hi
    by_cases hk : k = st.nodes.length
    · subst hk
      by_cases hic : i < cs.length
      · exact Or.inl (hC i (by omega) (by omega))
      · right
        unfold State.boxAt
        rw [hget i (Or.inr (by omega)), store_boxes, hb0, allocNode_boxes_new]
        simp [List.getD_eq_getElem?_getD, List.getElem?_replicate, hi]
    · exact hN k i (by omega) b hi

/-- `createLeaf` fills the parent slot, appends finished nodes, and the boxes
of its nodes are the boxes of its `node->set` calls. -/
theorem createLeaf_boxes (env : Env) (cur : BuildRecord) (st st' : State)
    (h : createLeaf env cur st = Outcome.done st') :
    FillsSlot cur st st' ∧ (st.hasSlot cur.parent → BoxPost st st') := by
  refine ⟨createLeaf_fills env cur st st' h, ?_⟩
  refine createLeaf_induct env (fun cur st st' => FillsSlot cur st st' ∧
    (st.hasSlot cur.parent → BoxPost st st')) ?_ ?_ cur st st' h |>.2
  · intro cur st _ _
    refine ⟨fun _ => ⟨encodeLeaf st.leaves.length (leafBlock env st.prims cur).2, [],
      by simp [encodeLeaf], by simp, by simp⟩, ?_⟩
    intro _
    refine ⟨by simp, fun k _ => createSmallLeaf_boxes env cur st k, [], by simp, by simp, ?_⟩
    intro k i a b
    simp only [createSmallLeaf_nodes_length] at b
    omega
  · intro cur st s' _ _ hchain
    have hfill : st.hasSlot cur.parent →
        ∃ nd ex, s'.nodes = writeNodes st.nodes cur.parent (encodeNode st.nodes.length) ++
          nd :: ex ∧ nd.finished ∧ ∀ e ∈ ex, e.finished := fun hs =>
      fills_of_chain cur st st.allocNode.2 s' _ _ (fun k c => rfl) rfl
        (childChain_imp _ _ _ _ _ _ _ _ (fun k c a b _ hP => hP.1) hchain)
        (by simp [fallbackChildren, BVH4.N]) hs
    have hid : st.hasSlot cur.parent → s'.compact st.nodes.length = s' := by
      intro hs
      obtain ⟨nd, ex, h1, h2, _⟩ := hfill hs
      apply compact_eq_self
      have hl : (writeNodes st.nodes cur.parent (encodeNode st.nodes.length)).length =
          st.nodes.length := by simp
      have e1 := getD_at_length (writeNodes st.nodes cur.parent (encodeNode st.nodes.length))
        nd Node.clear ex
      have e2 := set_at_length (writeNodes st.nodes cur.parent (encodeNode st.nodes.length))
        nd (BVH4.compact nd) ex
      rw [hl] at e1 e2
      obtain ⟨k, _, _, _, hc⟩ := h2
      rw [h1, e1, e2, hc]
    refine ⟨?_, ?_⟩
    · intro hs
      rw [hid hs]
      obtain ⟨nd, ex, h1, h2, h3⟩ := hfill hs
      refine ⟨encodeNode st.nodes.length, nd :: ex, by simp [encodeNode], h1, ?_⟩
      intro e he
      rcases List.mem_cons.1 he with rfl | he
      · exact h2
      · exact h3 e he
    · intro hs
      rw [hid hs]
      exact boxPost_of_chain cur st st.allocNode.2 s' _ _ (fun k c => rfl) rfl rfl
        (childChain_imp _ _ _ _ _ _ _ _ (fun k c a b _ hP => hP.2) hchain)
        (by simp [fallbackChildren, BVH4.N])

/-- In every mode, if the parent of the record is a slot of the memory, the
boxes of the nodes that a `recurse` call allocates are the boxes of its
`node->set` calls, and the nodes that existed keep their boxes. -/
theorem recurse_boxes (env : Env) (threadID : Nat) (mode : Mode) (cur : BuildRecord)
    (st st' : State) (h : recurse env threadID mode cur st = Outcome.done st') :
    st.hasSlot cur.parent → BoxPost st st' := by
  refine recurse_induct env threadID (fun _ cur st st' => st.hasSlot cur.parent → BoxPost st st')
    ?_ ?_ mode cur st st' h
  · intro _ cur st st' hcl
    exact (createLeaf_boxes env cur st st' hcl).2
  · intro mode cur st st' _ _ _ hchain _
    have hle := expandLoop_length_le env mode cur.depth (BVH4.N - 1) [cur] st.prims
    simp only [List.length_singleton] at hle
    refine boxPost_of_chain cur st
      ({ st with prims := (expandLoop env mode cur.depth (BVH4.N - 1) [cur]
          st.prims).2 } : State).allocNode.2 st' _ _ (fun k c => rfl) rfl rfl
      (childChain_imp _ _ _ _ _ _ _ _ (fun k c a b _ hP => ?_) hchain)
      (by simp only [BVH4.N] at hle ⊢; omega)
    intro hs
    rcases hP with ⟨_, rfl⟩ | ⟨_, hpush⟩ | ⟨_, m, _, hP⟩
    · exact boxPost_of_frame _ _ rfl rfl
    · obtain ⟨_, f2, _, _, f5, _⟩ := stackPush_frame env a b threadID _ hpush
      exact boxPost_of_frame _ _ f2 f5
    · exact hP hs

theorem boxesStored_step (st st' : State) (h : st.boxesStored) (hp : BoxPost st st') :
    st'.boxesStored := by
  obtain ⟨h1, h2⟩ := h
  obtain ⟨hle, hold, log, hlog, hE, hN⟩ := hp
  have hat : ∀ k i, k < st.nodes.length → st'.boxAt k i = st.boxAt k i := by
    intro k i hk
    unfold State.boxAt
    rw [hold k hk]
  refine ⟨?_, ?_⟩
  · intro e he
    rw [hlog, List.mem_append] at he
    rcases he with he | he
    · obtain ⟨a, b, c⟩ := h1 e he
      exact ⟨by omega, b, by rw [hat _ _ a]; exact c⟩
    · obtain ⟨_, b, c, d⟩ := hE e he
      exact ⟨b, c, d⟩
  · intro k i hk hi
    by_cases hk' : k < st.nodes.length
    · rcases h2 k i hk' hi with ⟨c, hc⟩ | he
      · exact Or.inl ⟨c, by rw [hlog]; exact List.mem_append_left _ hc⟩
      · exact Or.inr (by rw [hat _ _ hk']; exact he)
    · rcases hN k i (by omega) hk hi with ⟨c, hc⟩ | he
      · exact Or.inl ⟨c, by rw [hlog]; exact List.mem_append_right _ hc⟩
      · exact Or.inr he

/-! ## Induction over a call, with the calls on the children -/

theorem forChildren_chain_mem (body : Nat → BuildRecord → State → Outcome)
    (P : BuildRecord → State → State → Prop) (upd : Nat → BuildRecord → BuildRecord)
    (node : Nat) :
    ∀ cs i st st',
      (∀ i c s s', c ∈ cs → body i c s = Outcome.done s' →
        P (upd i c) (s.setBounds node i c) s') →
      forChildren body i cs st = Outcome.done st' → childChain P upd node i cs st st' := by
  intro cs
  induction cs with
  | nil => intro i st st' _ h; simp [forChildren] at h; simp [childChain, h]
  | cons c cs ih =>
    intro i st st' hP h
    rw [forChildren_done_cons] at h
    obtain ⟨s1, h1, h2⟩ := h
    exact ⟨s1, hP _ _ _ _ (List.mem_cons_self _ _) h1,
      ih _ _ _ (fun i c s s' hc => hP i c s s' (List.mem_cons_of_mem _ hc)) h2⟩

theorem continuePost_imp (env : Env) (threadID : Nat)
    (P Q : Mode → BuildRecord → State → State → Prop) (mode : Mode) (r : BuildRecord)
    (s s' : State) (hPQ : ∀ m, P m r s s' → Q m r s s')
    (h : ContinuePost env threadID P mode r s s') : ContinuePost env threadID Q mode r s s' := by
  rcases h with h1 | h2 | ⟨h3, m, hm, hP⟩
  · exact Or.inl h1
  · exact Or.inr (Or.inl h2)
  · exact Or.inr (Or.inr ⟨h3, m, hm, hPQ m hP⟩)

/-- Induction over a `createLeaf` call that ends normally, where the calls on
the four children are at hand. -/
theorem createLeaf_induct_eq (env : Env) (P : BuildRecord → State → State → Prop)
    (hleaf : ∀ cur st, cur.depth ≤ env.maxBuildDepthLeaf → cur.size ≤ env.minLeafSize →
      P cur st (createSmallLeaf env cur st))
    (hnode : ∀ cur st s',
      createLeaf env cur st = Outcome.done (s'.compact st.nodes.length) →
      cur.depth ≤ env.maxBuildDepthLeaf → ¬ cur.size ≤ env.minLeafSize →
      childChain (fun r a b => createLeaf env r a = Outcome.done b ∧ P r a b)
        (fun i c => { c with parent := Slot.child st.nodes.length i, depth := cur.depth + 1 })
        st.nodes.length 0 (fallbackChildren st.prims cur)
        (st.allocNode.2.store cur.parent (encodeNode st.nodes.length)) s' →
      P cur st (s'.compact st.nodes.length))
    (cur : BuildRecord) (st st' : State) (h : createLeaf env cur st = Outcome.done st') :
    P cur st st' := by
  have main : ∀ fuel cur st st', env.maxBuildDepthLeaf + 1 - cur.depth < fuel →
      createLeafF env fuel cur st = Outcome.done st' → P cur st st' := by
    intro fuel
    induction fuel with
    | zero => intro cur st st' hf _; omega
    | succ fuel ih =>
      intro cur st st' hf h
      have heq : createLeaf env cur st = Outcome.done st' := by
        unfold createLeaf
        rw [createLeafF_fuel_eq env _ (fuel + 1) cur st (by omega) hf]
        exact h
      rw [createLeafF_unfold] at h
      by_cases hd : cur.depth > env.maxBuildDepthLeaf
      · rw [if_pos hd] at h; simp at h
      · rw [if_neg hd] at h
        by_cases hs : cur.size ≤ env.minLeafSize
        · rw [if_pos hs] at h
          cases h
          exact hleaf cur st (by omega) hs
        · rw [if_neg hs] at h
          cases hfc : forChildren (fun i c s =>
              createLeafF env fuel
                { c with parent := Slot.child st.allocNode.1 i, depth := cur.depth + 1 }
                (s.setBounds st.allocNode.1 i c)) 0
              [(splitFallback st.prims (splitFallback st.prims cur).1).1,
               (splitFallback st.prims (splitFallback st.prims cur).1).2,
               (splitFallback st.prims (splitFallback st.prims cur).2).1,
               (splitFallback st.prims (splitFallback st.prims cur).2).2]
              (st.allocNode.2.store cur.parent (encodeNode st.allocNode.1)) with
          | done s3 =>
            rw [hfc] at h
            cases h
            apply hnode cur st s3 heq (by omega) hs
            refine forChildren_chain_mem _ _ _ st.nodes.length _ _ _ _ ?_ hfc
            intro i c s s' _ hb
            have hb' : createLeafF env fuel
                { c with parent := Slot.child st.nodes.length i, depth := cur.depth + 1 }
                (s.setBounds st.nodes.length i c) = Outcome.done s' := hb
            refine ⟨?_, ih _ _ _ (by simp only; omega) hb'⟩
            unfold createLeaf
            rw [createLeafF_fuel_eq env _ fuel _ _ (by simp only; omega) (by simp only; omega)]
            exact hb'
          | fail e s3 => rw [hfc] at h; simp at h
  exact main _ cur st st' (by omega) h

/-- Induction over a `recurse` call in any mode that ends normally, where the
calls on the children are at hand. -/
theorem recurse_induct_eq (env : Env) (threadID : Nat)
    (P : Mode → BuildRecord → State → State → Prop)
    (hcl : ∀ mode cur st st', createLeaf env cur st = Outcome.done st' → P mode cur st st')
    (hnode : ∀ mode cur st st', recurse env threadID mode cur st = Outcome.done st' →
      cur.depth < env.maxBuildDepth → ¬ cur.size ≤ env.minLeafSize →
      (expandLoop env mode cur.depth (BVH4.N - 1) [cur] st.prims).1.length ≠ 1 →
      childChain
        (ContinuePost env threadID
          (fun m r a b => recurse env threadID m r a = Outcome.done b ∧ P m r a b) mode)
        (fun i c => { c with parent := Slot.child st.nodes.length i })
        st.nodes.length 0
        (expandLoop env mode cur.depth (BVH4.N - 1) [cur] st.prims).1
        ((({ st with prims := (expandLoop env mode cur.depth (BVH4.N - 1)
            [cur] st.prims).2 } : State).allocNode.2).store cur.parent
          (encodeNode st.nodes.length)) st' →
      P mode cur st st')
    (mode : Mode) (cur : BuildRecord) (st st' : State)
    (h : recurse env threadID mode cur st = Outcome.done st') : P mode cur st st' := by
  have main : ∀ fuel mode cur st st', env.maxBuildDepth - cur.depth < fuel →
      recurseF env threadID fuel mode cur st = Outcome.done st' → P mode cur st st' := by
    intro fuel
    induction fuel with
    | zero => intro mode cur st st' hf _; omega
    | succ fuel ih =>
      intro mode cur st st' hf h
      have heq : recurse env threadID mode cur st = Outcome.done st' := by
        unfold recurse
        rw [recurseF_fuel_eq env threadID _ (fuel + 1) mode cur st (by omega) hf]
        exact h
      rw [recurseF_unfold] at h
      simp only at h
      by_cases hc : cur.depth ≥ env.maxBuildDepth ∨ cur.size ≤ env.minLeafSize
      · rw [if_pos hc] at h
        exact hcl _ _ _ _ h
      · rw [if_neg hc] at h
        by_cases h1 : (expandLoop env mode cur.depth (BVH4.N - 1) [cur] st.prims).1.length = 1
        · rw [if_pos h1] at h
          have := (expandLoop_length_ge env mode cur.depth (BVH4.N - 1) [cur]
            st.prims).2 (by simpa using h1)
          rw [this] at h
          exact hcl _ _ _ _ h
        · rw [if_neg h1] at h
          have hd := (expandLoop_depth env mode cur st.prims).resolve_left
            (fun heq' => h1 (by rw [heq']; rfl))
          apply hnode mode cur st st' heq (by omega) (by tauto) h1
          refine forChildren_chain_mem _ _ _ st.nodes.length _ _ _ _ ?_ h
          intro i c s s' hcm hb
          have hdc := hd c hcm
          have hpost := recurse_continue_post env threadID
            (fun m r s1 => recurseF env threadID fuel m r s1)
            (fun m r a b => r.depth = cur.depth + 1 →
              recurse env threadID m r a = Outcome.done b ∧ P m r a b)
            (fun m r a b hr hdr => by
              refine ⟨?_, ih m r a b (by omega) hr⟩
              unfold recurse
              rw [recurseF_fuel_eq env threadID _ fuel m r a (by omega) (by omega)]
              exact hr)
            mode _ _ _ hb
          exact continuePost_imp env threadID _ _ mode _ _ _ (fun m hm => hm hdc) hpost
  exact main _ mode cur st st' (by unfold recurse at h; omega) h

/-! ## The boxes along the tree -/

theorem anchored_mono (a b : State) (r : BuildRecord) (h : ∀ x ∈ a.setLog, x ∈ b.setLog)
    (ha : a.anchored r) : b.anchored r := by
  intro k i hp
  obtain ⟨c, hc, h1, h2⟩ := ha k i hp
  exact ⟨c, h _ hc, h1, h2⟩

/-- The tree over a children loop: each child is anchored when its call is
made, and the stores below are nested. -/
theorem chain_link (n : Nat) (R : BuildRecord → State → State → Prop)
    (hR : ∀ r a b, R r a b → ExactPost n r a b ∧ (a.hasSlot r.parent → BoxPost a b) ∧
      (LinkPre n r a → LinkPost a b))
    (upd : Nat → BuildRecord → BuildRecord) (node : Nat)
    (hupd : ∀ k c, (upd k c).parent = Slot.child node k ∧ (upd k c).begin = c.begin ∧
      (upd k c).end_ = c.end_) :
    ∀ cs j s s', childChain R upd node j cs s s' → s.prims.length = n →
      node < s.nodes.length → (∀ c ∈ cs, c.within n) →
      (∀ x ∈ s.setLog, x.1 < s.nodes.length) →
      s'.prims.length = n ∧ s.nodes.length ≤ s'.nodes.length ∧
      (∀ x ∈ s'.setLog, x.1 < s'.nodes.length) ∧
      (∀ x ∈ s.setLog, x ∈ s'.setLog) ∧
      (∀ x ∈ s'.setLog, x ∈ s.setLog ∨ x.1 = node ∨ s.nodes.length ≤ x.1) ∧
      (∀ l ∈ s'.leafCalls, l ∈ s.leafCalls ∨ s'.anchored l.1) ∧
      (∀ r ∈ s'.pending, r ∈ s.pending ∨ s'.anchored r) ∧
      (∀ w ∈ s'.writes, w ∈ s.writes ∨ NestedNew s s' w) ∧
      (∀ l ∈ s.leafCalls, l ∈ s'.leafCalls) ∧
      (∀ w ∈ s'.writes, w ∈ s.writes ∨
        ∀ a num, w.2 = NodeRef.leaf a num → ∃ l ∈ s'.leafCalls, l.1.parent = w.1) := by
  intro cs
  induction cs with
  | nil =>
    intro j s s' h hlen _ _ hLA
    simp only [childChain] at h
    subst h
    exact ⟨hlen, le_refl _, hLA, fun _ hx => hx, fun _ hx => Or.inl hx, fun _ hl => Or.inl hl,
      fun _ hr => Or.inl hr, fun _ hw => Or.inl hw, fun _ hl => hl, fun _ hw => Or.inl hw⟩
  | cons c rest ih =>
    intro j s s' h hlen hnode hw hLA
    obtain ⟨s1, hc, hrest⟩ := h
    obtain ⟨hu1, hu2, hu3⟩ := hupd j c
    have hwc := hw c (List.mem_cons_self _ _)
    have hpre : LinkPre n (upd j c) (s.setBounds node j c) := by
      refine ⟨?_, by simpa using hlen, ?_, ?_, ?_⟩
      · unfold BuildRecord.within at *
        rw [hu2, hu3]
        exact hwc
      · rw [hu1]
        simpa [State.hasSlot] using hnode
      · intro x hx
        simp only [setBounds_setLog, List.mem_append, List.mem_singleton,
          setBounds_nodes_length] at hx ⊢
        rcases hx with hx | rfl
        · exact hLA x hx
        · exact hnode
      · intro k i hp
        rw [hu1] at hp
        cases hp
        exact ⟨c, by simp, hu2.symm, hu3.symm⟩
    obtain ⟨hE, hB, hL⟩ := hR _ _ _ hc
    obtain ⟨hPW, leaves1, _, _, hleaves1, _⟩ := hE hpre.1 hpre.2.1
    obtain ⟨hle1, _, log1, hlog1, hE1, _⟩ := hB hpre.2.2.1
    obtain ⟨hL1, hL2, hL3, hL4⟩ := hL hpre
    simp only [setBounds_leafCalls] at hleaves1
    simp only [setBounds_writes] at hL4
    simp only [setBounds_nodes_length] at hle1 hE1
    simp only [setBounds_setLog] at hlog1
    simp only [setBounds_prims] at hPW
    simp only [setBounds_leafCalls] at hL1
    rw [setBounds_pending] at hL2
    simp only [setBounds_writes] at hL3
    have hlen1 : s1.prims.length = n := by rw [hPW.1.length_eq, hlen]
    have hLA1 : ∀ x ∈ s1.setLog, x.1 < s1.nodes.length := by
      intro x hx
      rw [hlog1] at hx
      simp only [List.mem_append, List.mem_singleton] at hx
      rcases hx with (hx | rfl) | hx
      · have := hLA x hx
        omega
      · simp only
        omega
      · exact (hE1 x hx).2.1
    obtain ⟨hlen', hle2, hLA', hsub2, hform2, hl2, hp2, hw2, hlm2, hw4⟩ :=
      ih (j + 1) s1 s' hrest hlen1 (by omega)
        (fun c' hc' => hw c' (List.mem_cons_of_mem _ hc')) hLA1
    have hsub1 : ∀ x ∈ s.setLog, x ∈ s1.setLog := by
      intro x hx
      rw [hlog1]
      simp [hx]
    have hsubb : ∀ x ∈ (s.setBounds node j c).setLog, x ∈ s1.setLog := by
      intro x hx
      rw [hlog1]
      exact List.mem_append_left _ hx
    have hform1 : ∀ x ∈ s1.setLog, x ∈ s.setLog ∨ x.1 = node ∨ s.nodes.length ≤ x.1 := by
      intro x hx
      rw [hlog1] at hx
      simp only [List.mem_append, List.mem_singleton] at hx
      rcases hx with (hx | rfl) | hx
      · exact Or.inl hx
      · exact Or.inr (Or.inl rfl)
      · exact Or.inr (Or.inr (hE1 x hx).1)
    refine ⟨hlen', by omega, hLA', fun x hx => hsub2 x (hsub1 x hx), ?_, ?_, ?_, ?_,
      fun l hl => hlm2 l (by rw [hleaves1]; exact List.mem_append_left _ hl), ?_⟩
    · intro x hx
      rcases hform2 x hx with h1 | h1 | h1
      · exact hform1 x h1
      · exact Or.inr (Or.inl h1)
      · exact Or.inr (Or.inr (by omega))
    · intro l hl
      rcases hl2 l hl with h1 | h1
      · rcases hL1 l h1 with h2 | h2
        · exact Or.inl h2
        · exact Or.inr (anchored_mono s1 s' _ hsub2 h2)
      · exact Or.inr h1
    · intro r hr
      rcases hp2 r hr with h1 | h1
      · rcases hL2 r h1 with h2 | h2
        · exact Or.inl h2
        · exact Or.inr (anchored_mono s1 s' _ hsub2 h2)
      · exact Or.inr h1
    · intro w hwm
      rcases hw2 w hwm with h1 | h1
      · rcases hL3 w h1 with h2 | h2
        · exact Or.inl h2
        · right
          intro m hm
          obtain ⟨a1, a2, a3⟩ := h2 m hm
          simp only [setBounds_nodes_length] at a1
          refine ⟨a1, by omega, ?_⟩
          intro k i hk
          obtain ⟨c0, hc0, hin⟩ := a3 k i hk
          refine ⟨c0, hsub2 _ hc0, ?_⟩
          intro x hx hxm
          rcases hform2 x hx with h3 | h3 | h3
          · exact hin x h3 hxm
          · omega
          · omega
      · right
        intro m hm
        obtain ⟨a1, a2, a3⟩ := h1 m hm
        exact ⟨by omega, a2, a3⟩
    · intro w hwm
      rcases hw4 w hwm with h1 | h1
      · rcases hL4 w h1 with h2 | h2
        · exact Or.inl h2
        · right
          intro a num hw'
          obtain ⟨l, hl, hpar⟩ := h2 a num hw'
          exact ⟨l, hlm2 l hl, hpar⟩
      · exact Or.inr h1

/-- The tree after allocating a node for a record, publishing it and running
the children loop. -/
theorem link_of_chain (n : Nat) (R : BuildRecord → State → State → Prop)
    (hR : ∀ r a b, R r a b → ExactPost n r a b ∧ (a.hasSlot r.parent → BoxPost a b) ∧
      (LinkPre n r a → LinkPost a b))
    (upd : Nat → BuildRecord → BuildRecord) (cur : BuildRecord) (st s0 s' : State)
    (cs : List BuildRecord)
    (hupd : ∀ k c, (upd k c).parent = Slot.child st.nodes.length k ∧
      (upd k c).begin = c.begin ∧ (upd k c).end_ = c.end_)
    (hchain : childChain R upd st.nodes.length 0 cs s0 s')
    (h0p : s0.prims.length = n) (h0n : s0.nodes.length = st.nodes.length + 1)
    (h0l : s0.setLog = st.setLog) (h0c : s0.leafCalls = st.leafCalls)
    (h0q : s0.pending = st.pending)
    (h0w : s0.writes = st.writes ++ [(cur.parent, encodeNode st.nodes.length)])
    (hcs : ∀ c ∈ cs, c.within n)
    (hin : ∀ x ∈ s'.setLog, x ∈ st.setLog ∨ InRange cur x.2.2)
    (hpre : LinkPre n cur st) : LinkPost st s' := by
  obtain ⟨_, _, _, hLA, hanch⟩ := hpre
  obtain ⟨_, hle, _, hsub, _, hl, hp, hw, _, hw4⟩ :=
    chain_link n R hR upd st.nodes.length hupd cs 0 s0 s'
    hchain h0p (by omega) hcs (by
      intro x hx
      rw [h0l] at hx
      have := hLA x hx
      omega)
  rw [h0l] at hsub
  rw [h0c] at hl
  rw [h0q] at hp
  refine ⟨hl, hp, ?_, ?_⟩
  rotate_left
  · intro w hwm
    rcases hw4 w hwm with h1 | h1
    · rw [h0w] at h1
      simp only [List.mem_append, List.mem_singleton] at h1
      rcases h1 with h1 | rfl
      · exact Or.inl h1
      · right
        intro a num hw'
        simp [encodeNode] at hw'
    · exact Or.inr h1
  intro w hwm
  rcases hw w hwm with h1 | h1
  · rw [h0w] at h1
    simp only [List.mem_append, List.mem_singleton] at h1
    rcases h1 with h1 | rfl
    · exact Or.inl h1
    · right
      intro m hm
      simp only [encodeNode, NodeRef.node.injEq] at hm
      subst hm
      refine ⟨le_refl _, by omega, ?_⟩
      intro k i hk
      obtain ⟨c0, hc0, hb, he⟩ := hanch k i hk
      refine ⟨c0, hsub _ hc0, ?_⟩
      intro x hx hxm
      rcases hin x hx with h2 | h2
      · have := hLA x h2
        omega
      · unfold InRange at *
        omega
  · right
    intro m hm
    obtain ⟨a1, a2, a3⟩ := h1 m hm
    exact ⟨by omega, a2, a3⟩

/-- After the children loop of `createLeaf` the node is its own compaction. -/
theorem compact_after_chain (cur : BuildRecord) (st s' : State) (cs : List BuildRecord)
    (upd : Nat → BuildRecord → BuildRecord)
    (hupd : ∀ k c, (upd k c).parent = Slot.child st.nodes.length k)
    (hchain : childChain FillsSlot upd st.nodes.length 0 cs
      (st.allocNode.2.store cur.parent (encodeNode st.nodes.length)) s')
    (hlen : 1 ≤ cs.length ∧ cs.length ≤ BVH4.N) (hs : st.hasSlot cur.parent) :
    s'.compact st.nodes.length = s' := by
  obtain ⟨nd, ex, h1, h2, _⟩ := fills_of_chain cur st st.allocNode.2 s' cs upd hupd rfl hchain
    hlen hs
  apply compact_eq_self
  have hl : (writeNodes st.nodes cur.parent (encodeNode st.nodes.length)).length =
      st.nodes.length := by simp
  have e1 := getD_at_length (writeNodes st.nodes cur.parent (encodeNode st.nodes.length))
    nd Node.clear ex
  have e2 := set_at_length (writeNodes st.nodes cur.parent (encodeNode st.nodes.length))
    nd (BVH4.compact nd) ex
  rw [hl] at e1 e2
  obtain ⟨k, _, _, _, hc⟩ := h2
  rw [h1, e1, e2, hc]

theorem linkPost_push (a b : State) (r : BuildRecord) (ha : a.anchored r)
    (hl : b.leafCalls = a.leafCalls) (hw : b.writes = a.writes) (hlog : b.setLog = a.setLog)
    (hp : ∀ x ∈ b.pending, x ∈ a.pending ∨ x = r) : LinkPost a b := by
  refine ⟨fun l h => Or.inl (by rw [hl] at h; exact h), ?_,
    fun w h => Or.inl (by rw [hw] at h; exact h),
    fun w h => Or.inl (by rw [hw] at h; exact h)⟩
  intro x hx
  rcases hp x hx with h1 | rfl
  · exact Or.inl h1
  · exact Or.inr (anchored_mono a b _ (fun y hy => by rw [hlog]; exact hy) ha)

/-- The tree that a `createLeaf` call builds: the records of its leaves are
anchored and its stores of encoded nodes are nested. -/
theorem createLeaf_link (env : Env) (n : Nat) (hn : n + env.minLeafSize < 2 ^ 64)
    (cur : BuildRecord) (st st' : State) (h : createLeaf env cur st = Outcome.done st') :
    LinkPre n cur st → LinkPost st st' := by
  refine createLeaf_induct_eq env (fun cur st st' => LinkPre n cur st → LinkPost st st')
    ?_ ?_ cur st st' h
  · intro cur st _ _ hpre
    obtain ⟨_, _, _, _, hanch⟩ := hpre
    refine ⟨?_, ?_, ?_, ?_⟩
    rotate_right
    · intro w hw
      rw [createSmallLeaf_writes, List.mem_append, List.mem_singleton] at hw
      rcases hw with hw | rfl
      · exact Or.inl hw
      · right
        intro a num _
        exact ⟨(cur, leafPrims st.prims cur), by simp, rfl⟩
    · intro l hl
      simp only [createSmallLeaf_leafCalls, List.mem_append, List.mem_singleton] at hl
      rcases hl with hl | rfl
      · exact Or.inl hl
      · exact Or.inr (anchored_mono st _ _ (fun x hx => by simpa using hx) hanch)
    · intro r hr
      left
      unfold State.pending at *
      rw [(createSmallLeaf_heap env cur st).1, (createSmallLeaf_heap env cur st).2] at hr
      exact hr
    · intro w hw
      rw [createSmallLeaf_writes, List.mem_append, List.mem_singleton] at hw
      rcases hw with hw | rfl
      · exact Or.inl hw
      · right
        intro m hm
        simp [encodeLeaf] at hm
  · intro cur st s' heq _ _ hchain hpre
    have hpre' := hpre
    obtain ⟨hw, hlen, hs, hLA, hanch⟩ := hpre'
    have hid : s'.compact st.nodes.length = s' :=
      compact_after_chain cur st s' _ _ (fun k c => rfl)
        (childChain_imp _ _ _ _ _ _ _ _ (fun k c a b _ hP => createLeaf_fills env _ a b hP.1)
          hchain)
        (by simp [fallbackChildren, BVH4.N]) hs
    rw [hid] at heq ⊢
    have hkids := childChain_forall _ _ _ _ _ _ _ hchain
    have hwf : ∀ c ∈ fallbackChildren st.prims cur,
        c.begin ≤ c.end_ ∨ 2 ^ 64 ≤ c.begin + env.minLeafSize := by
      intro c hc
      obtain ⟨k, s1, s2, hP⟩ := hkids c hc
      exact (createLeaf_exact env _ s1 s2 hP.1).1
    obtain ⟨htile, _⟩ := fallbackChildren_tile st.prims cur env.minLeafSize hw.1
      (by have := hw.2; omega) hwf
    obtain ⟨_, leaves, log, pushed, _, hlog, _, _, hE, _⟩ :=
      createLeaf_exactPost env n hn cur st s' heq hw hlen
    refine link_of_chain n _ ?_
      (fun i c => { c with parent := Slot.child st.nodes.length i, depth := cur.depth + 1 })
      cur st (st.allocNode.2.store cur.parent (encodeNode st.nodes.length)) s' _
      (fun k c => ⟨rfl, rfl, rfl⟩) hchain
      (by simpa using hlen) (by simp) (by simp) (by simp)
      (by rw [store_pending]; rfl) (by simp) ?_ ?_ hpre
    · intro r a b hR
      exact ⟨createLeaf_exactPost env n hn r a b hR.1, (createLeaf_boxes env r a b hR.1).2, hR.2⟩
    · intro c hc
      have := htile c hc
      exact ⟨this.1, by have := hw.2; omega⟩
    · intro x hx
      rw [hlog, List.mem_append] at hx
      rcases hx with hx | hx
      · exact Or.inl hx
      · exact Or.inr (hE x hx).1

/-- The tree that a `recurse` call in any mode builds: the records of its
leaves and the records it pushes are anchored, and its stores of encoded
nodes are nested. -/
theorem recurse_link (env : Env) (threadID n : Nat)
    (hseq : ∀ m, m ≠ Mode.BUILD_TOP_LEVEL → SplitsExactly env m n)
    (hn : n + env.minLeafSize < 2 ^ 64)
    (mode : Mode) (cur : BuildRecord) (st st' : State)
    (h : recurse env threadID mode cur st = Outcome.done st')
    (htop : mode = Mode.BUILD_TOP_LEVEL → SplitsExactly env Mode.BUILD_TOP_LEVEL n) :
    LinkPre n cur st → LinkPost st st' := by
  refine recurse_induct_eq env threadID
    (fun mode cur st st' =>
      (mode = Mode.BUILD_TOP_LEVEL → SplitsExactly env Mode.BUILD_TOP_LEVEL n) →
      LinkPre n cur st → LinkPost st st') ?_ ?_ mode cur st st' h htop
  · intro _ cur st st' hcl _
    exact createLeaf_link env n hn cur st st' hcl
  · intro mode cur st st' heq _ _ hne hchain htop hpre
    have hpre' := hpre
    obtain ⟨hw, hlen, hs, hLA, hanch⟩ := hpre'
    have hsplit : SplitsExactly env mode n := by
      by_cases hm : mode = Mode.BUILD_TOP_LEVEL
      · rw [hm]
        exact htop hm
      · exact hseq mode hm
    obtain ⟨hPW, hin, _, _⟩ := expandLoop_exactM env mode n hsplit cur st.prims hlen hw
    have hlen' : (expandLoop env mode cur.depth (BVH4.N - 1) [cur] st.prims).2.length = n := by
      rw [hPW.1.length_eq, hlen]
    obtain ⟨_, leaves, log, pushed, _, hlog, _, _, hE, _⟩ :=
      recurse_exactPost env threadID n hseq hn mode cur st st' heq htop hw hlen
    refine link_of_chain n _ ?_
      (fun i c => { c with parent := Slot.child st.nodes.length i })
      cur st ((({ st with prims := (expandLoop env mode cur.depth (BVH4.N - 1)
            [cur] st.prims).2 } : State).allocNode.2).store cur.parent
          (encodeNode st.nodes.length)) st' _
      (fun k c => ⟨rfl, rfl, rfl⟩) hchain
      (by simpa using hlen') (by simp) (by simp) (by simp)
      (by rw [store_pending]; rfl) (by simp) ?_ ?_ hpre
    · intro r a b hR
      refine ⟨?_, ?_, ?_⟩
      · refine continue_exactPost env threadID n mode r a b ?_
        rcases hR with h1 | h2 | ⟨h3, m, hm, hP⟩
        · exact Or.inl h1
        · exact Or.inr (Or.inl h2)
        · exact Or.inr (Or.inr ⟨h3, m, hm,
            recurse_exactPost env threadID n hseq hn m r a b hP.1 (fun hm' => absurd hm' hm)⟩)
      · intro hsl
        rcases hR with ⟨_, rfl⟩ | ⟨_, hpush⟩ | ⟨_, m, _, hP⟩
        · exact boxPost_of_frame _ _ rfl rfl
        · obtain ⟨_, f2, _, _, f5, _⟩ := stackPush_frame env a b threadID _ hpush
          exact boxPost_of_frame _ _ f2 f5
        · exact recurse_boxes env threadID m r a b hP.1 hsl
      · intro hp
        rcases hR with ⟨_, rfl⟩ | ⟨_, hpush⟩ | ⟨_, m, hm, hP⟩
        · refine linkPost_push a _ r hp.2.2.2.2 rfl rfl rfl ?_
          intro x hx
          unfold State.pending State.heapPush at hx
          simp only [List.mem_append, List.mem_singleton] at hx
          unfold State.pending
          rw [List.mem_append]
          tauto
        · obtain ⟨f1, _, f3, _, f5, _⟩ := stackPush_frame env a b threadID _ hpush
          obtain ⟨x, hx, hx'⟩ := stackPush_pending_any env a b threadID r hpush
          refine linkPost_push a b r hp.2.2.2.2 f3 f1 f5 ?_
          intro y hy
          have := hx.mem_iff.1 hy
          rw [List.mem_append] at this
          rcases hx' with rfl | rfl
          · simp only [List.mem_singleton] at this
            tauto
          · simp only [List.not_mem_nil, false_or] at this
            exact Or.inl this
        · exact hP.2 (fun hm' => absurd hm' hm) hp
    · intro c hc
      have := hin c hc
      unfold InRange at this
      unfold BuildRecord.within at *
      omega
    · intro x hx
      rw [hlog, List.mem_append] at hx
      rcases hx with hx | hx
      · exact Or.inl hx
      · exact Or.inr (hE x hx).1

/-! ## The pointers that the nodes hold -/

theorem getD_append_default {α : Type} (l : List α) (d : α) (k : Nat) :
    (l ++ [d]).getD k d = l.getD k d := by
  induction l generalizing k with
  | nil => cases k <;> simp
  | cons a l ih =>
    cases k with
    | zero => rfl
    | succ k => simpa using ih k

theorem allocNode_childAt (st : State) (k i : Nat) :
    st.allocNode.2.childAt k i = st.childAt k i := by
  unfold State.childAt State.allocNode
  simp only
  rw [getD_append_default]

theorem getD_set_eq {α : Type} (l : List α) (n k : Nat) (x d : α) :
    (l.set n x).getD k d = if n = k ∧ n < l.length then x else l.getD k d := by
  simp only [List.getD_eq_getElem?_getD, List.getElem?_set]
  by_cases h1 : n = k
  · subst h1
    by_cases h2 : n < l.length
    · simp [h2]
    · simp [h2, List.getElem?_eq_none (not_lt.1 h2)]
  · simp [h1]

theorem setBounds_childAt (st : State) (n j : Nat) (c : BuildRecord) (k i : Nat) :
    (st.setBounds n j c).childAt k i = st.childAt k i := by
  unfold State.childAt State.setBounds
  simp only
  rw [getD_set_eq]
  split
  · rename_i h
    rw [h.1]
    rfl
  · rfl

theorem store_childAt (st : State) (slot : Slot) (ref : NodeRef) (k i : Nat) :
    (st.store slot ref).childAt k i = st.childAt k i ∨
    (slot = Slot.child k i ∧ (st.store slot ref).childAt k i = ref) := by
  unfold State.childAt
  rw [store_nodes]
  cases slot with
  | child n j =>
    simp only [writeNodes]
    rw [getD_set_eq]
    split
    · rename_i h
      obtain ⟨h1, h2⟩ := h
      subst h1
      simp only [Node.setChild]
      rw [getD_set_eq]
      split
      · rename_i h3
        right
        exact ⟨by rw [h3.1], rfl⟩
      · exact Or.inl rfl
    · exact Or.inl rfl
  | root => exact Or.inl rfl
  | null => exact Or.inl rfl

theorem pointersWritten_store (st : State) (slot : Slot) (ref : NodeRef)
    (h : st.pointersWritten) : (st.store slot ref).pointersWritten := by
  intro k i
  rcases store_childAt st slot ref k i with he | ⟨hs, he⟩
  · rw [he]
    rcases h k i with h1 | h1
    · exact Or.inl h1
    · exact Or.inr (by simp [h1])
  · right
    rw [he, hs]
    simp

theorem pointersWritten_of_frame (a b : State) (hn : b.nodes = a.nodes)
    (hw : ∀ w ∈ a.writes, w ∈ b.writes) (h : a.pointersWritten) : b.pointersWritten := by
  intro k i
  have e : b.childAt k i = a.childAt k i := by
    unfold State.childAt
    rw [hn]
  rw [e]
  rcases h k i with h1 | h1
  · exact Or.inl h1
  · exact Or.inr (hw _ h1)

theorem pointersWritten_createSmallLeaf (env : Env) (cur : BuildRecord) (st : State)
    (h : st.pointersWritten) : (createSmallLeaf env cur st).pointersWritten := by
  have h1 : ({ st with
      leafCalls := st.leafCalls ++ [(cur, leafPrims st.prims cur)] } : State).pointersWritten := h
  have h2 := pointersWritten_store _ cur.parent
    (encodeLeaf st.leaves.length (leafBlock env st.prims cur).2) h1
  exact h2

theorem chain_ptr (R : BuildRecord → State → State → Prop)
    (hR : ∀ r a b, R r a b → a.hasSlot r.parent →
      a.nodes.length ≤ b.nodes.length ∧ (a.pointersWritten → b.pointersWritten))
    (upd : Nat → BuildRecord → BuildRecord) (node : Nat)
    (hupd : ∀ k c, (upd k c).parent = Slot.child node k) :
    ∀ cs j s s', childChain R upd node j cs s s' → node < s.nodes.length →
      s.pointersWritten → s'.pointersWritten := by
  intro cs
  induction cs with
  | nil =>
    intro j s s' h _ hp
    simp only [childChain] at h
    subst h
    exact hp
  | cons c rest ih =>
    intro j s s' h hnode hp
    obtain ⟨s1, hc, hrest⟩ := h
    obtain ⟨hle, hpw⟩ := hR _ _ _ hc (by
      rw [hupd]
      simpa [State.hasSlot] using hnode)
    simp only [setBounds_nodes_length] at hle
    refine ih (j + 1) s1 s' hrest (by omega) (hpw ?_)
    intro k i
    rw [setBounds_childAt]
    exact hp k i

/-- Every pointer in a node that `createLeaf` leaves was stored through its
slot. -/
theorem createLeaf_ptr (env : Env) (cur : BuildRecord) (st st' : State)
    (h : createLeaf env cur st = Outcome.done st') :
    st.hasSlot cur.parent → st.pointersWritten → st'.pointersWritten := by
  refine createLeaf_induct_eq env
    (fun cur st st' => st.hasSlot cur.parent → st.pointersWritten → st'.pointersWritten)
    ?_ ?_ cur st st' h
  · intro cur st _ _ _ hp
    exact pointersWritten_createSmallLeaf env cur st hp
  · intro cur st s' _ _ _ hchain hs hp
    have hid : s'.compact st.nodes.length = s' :=
      compact_after_chain cur st s' _ _ (fun k c => rfl)
        (childChain_imp _ _ _ _ _ _ _ _ (fun k c a b _ hP => createLeaf_fills env _ a b hP.1)
          hchain)
        (by simp [fallbackChildren, BVH4.N]) hs
    rw [hid]
    refine chain_ptr _ ?_
      (fun i c => { c with parent := Slot.child st.nodes.length i, depth := cur.depth + 1 })
      st.nodes.length (fun k c => rfl) _ 0 _ s' hchain (by simp) ?_
    · intro r a b hR hsl
      exact ⟨((createLeaf_boxes env r a b hR.1).2 hsl).1, hR.2 hsl⟩
    · apply pointersWritten_store
      intro k i
      rw [allocNode_childAt]
      exact hp k i

/-- Every pointer in a node that `recurse` leaves, in any mode, was stored
through its slot. -/
theorem recurse_ptr (env : Env) (threadID : Nat) (mode : Mode) (cur : BuildRecord)
    (st st' : State) (h : recurse env threadID mode cur st = Outcome.done st') :
    st.hasSlot cur.parent → st.pointersWritten → st'.pointersWritten := by
  refine recurse_induct_eq env threadID
    (fun _ cur st st' => st.hasSlot cur.parent → st.pointersWritten → st'.pointersWritten)
    ?_ ?_ mode cur st st' h
  · intro _ cur st st' hcl
    exact createLeaf_ptr env cur st st' hcl
  · intro mode cur st st' _ _ _ _ hchain hs hp
    refine chain_ptr _ ?_
      (fun i c => { c with parent := Slot.child st.nodes.length i })
      st.nodes.length (fun k c => rfl) _ 0 _ st' hchain (by simp) ?_
    · intro r a b hR hsl
      rcases hR with ⟨_, rfl⟩ | ⟨_, hpush⟩ | ⟨_, m, _, hP⟩
      · exact ⟨le_refl _, fun hp => pointersWritten_of_frame _ _ rfl (fun _ hw => hw) hp⟩
      · obtain ⟨f1, f2, _⟩ := stackPush_frame env a b threadID _ hpush
        exact ⟨by rw [f2], fun hp => pointersWritten_of_frame _ _ f2
          (fun _ hw => by rw [f1]; exact hw) hp⟩
      · exact ⟨(recurse_boxes env threadID m r a b hP.1 hsl).1, hP.2 hsl⟩
    · apply pointersWritten_store
      intro k i
      rw [allocNode_childAt]
      exact hp k i

/-! ## The bounds invariant of a build -/

theorem anchored_congr (a b : State) (r : BuildRecord) (h : b.setLog = a.setLog)
    (ha : a.anchored r) : b.anchored r :=
  anchored_mono a b r (fun x hx => by rw [h]; exact hx) ha

theorem boundsOK_drop (n : Nat) (st : State) (br : BuildRecord) (st1 : State)
    (h : st.boundsOK n) (hp : Popped st br st1) : st1.boundsOK n := by
  obtain ⟨hperm, _, hprims, hnodes, _, _, _, hleaf, hwrites, hlog⟩ := hp
  obtain ⟨h1, h2, h3, h4, h5, h6, h7, h8, h9⟩ := h
  have hmem : ∀ r ∈ st1.pending, r ∈ st.pending :=
    fun r hr => hperm.mem_iff.2 (List.mem_cons_of_mem _ hr)
  have hpw : (br :: st1.pending).Pairwise Apart :=
    (hperm.pairwise_iff (fun hab => apart_symm hab)).1 h3
  refine ⟨by rw [hprims]; exact h1, ?_, (List.pairwise_cons.1 hpw).2, ?_, ?_, ?_, ?_, ?_, ?_⟩
  rotate_right
  · rw [hwrites, hleaf]
    exact h9
  · intro r hr
    exact ⟨(h2 r (hmem r hr)).1, anchored_congr st st1 r hlog (h2 r (hmem r hr)).2⟩
  · intro l hl
    rw [hleaf] at hl
    obtain ⟨a, b, c, d⟩ := h4 l hl
    exact ⟨by rw [hprims]; exact a, b, anchored_congr st st1 _ hlog c,
      fun r hr => d r (hmem r hr)⟩
  · intro e he
    rw [hlog] at he
    obtain ⟨a, b, c⟩ := h5 e he
    exact ⟨a, by rw [hprims]; exact b, fun r hr => c r (hmem r hr)⟩
  · unfold State.boxesStored State.boxAt State.boxes at *
    rw [hlog, hnodes]
    exact h6
  · rw [hwrites, hlog, hnodes]
    exact h7
  · unfold State.pointersWritten State.childAt at *
    rw [hwrites, hnodes]
    exact h8

theorem lam_of_inRange_lam (br r e : BuildRecord) (h1 : InRange br r) (h2 : Lam br e) :
    Lam r e := by
  unfold InRange at h1
  unfold Lam at *
  omega

/-- Processing a record that waited keeps the bounds invariant of the memory,
in every mode. -/
theorem boundsOK_recurse (env : Env) (n : Nat)
    (hseq : ∀ m, m ≠ Mode.BUILD_TOP_LEVEL → SplitsExactly env m n)
    (hn : n + env.minLeafSize < 2 ^ 64)
    (t : Nat) (mode : Mode) (st : State) (br : BuildRecord) (st1 st2 : State)
    (htop : mode = Mode.BUILD_TOP_LEVEL → SplitsExactly env Mode.BUILD_TOP_LEVEL n)
    (hs : st.hasSlot br.parent) (h : st.boundsOK n) (hp : Popped st br st1)
    (hr : recurse env t mode br st1 = Outcome.done st2) : st2.boundsOK n := by
  have hbr : br ∈ st.pending := hp.1.mem_iff.2 (List.mem_cons_self _ _)
  have hpw : (br :: st1.pending).Pairwise Apart :=
    (hp.1.pairwise_iff (fun hab => apart_symm hab)).1 h.2.2.1
  have hbrA : ∀ r ∈ st1.pending, Apart br r := (List.pairwise_cons.1 hpw).1
  obtain ⟨hbw, hbanch⟩ := h.2.1 br hbr
  have hbl : ∀ l ∈ st.leafCalls, Apart br l.1 := fun l hl => (h.2.2.2.1 l hl).2.2.2 br hbr
  have hbe : ∀ e ∈ st.setLog, Lam br e.2.2 := fun e he => (h.2.2.2.2.1 e he).2.2 br hbr
  obtain ⟨h1, h2, h3, h4, h5, h6, h7, h8, h9⟩ := boundsOK_drop n st br st1 h hp
  have hs1 : st1.hasSlot br.parent := by
    have := hp.2.2.2.1
    cases hb : br.parent with
    | child k i =>
      rw [hb] at hs
      simp only [State.hasSlot] at hs ⊢
      rw [this]
      exact hs
    | root => trivial
    | null => trivial
  obtain ⟨hPW, leaves, log, pushed, hl, hlog, hpend, hL, hE, hP, hPP⟩ :=
    recurse_exactPost env t n hseq hn mode br st1 st2 hr htop hbw h1
  have hBP := recurse_boxes env t mode br st1 st2 hr hs1
  obtain ⟨hL1, hL2, hL3, hL4⟩ := recurse_link env t n hseq hn mode br st1 st2 hr
    htop ⟨hbw, h1, hs1, fun x hx => (h6.1 x hx).1,
      anchored_congr st st1 br hp.2.2.2.2.2.2.2.2.2 hbanch⟩
  have hPP8 := recurse_ptr env t mode br st1 st2 hr hs1 h8
  have hsub : ∀ x ∈ st1.setLog, x ∈ st2.setLog := by
    intro x hx
    rw [hlog]
    exact List.mem_append_left _ hx
  have hmemp : ∀ r ∈ st2.pending, r ∈ pushed ∨ r ∈ st1.pending := by
    intro r hr
    exact List.mem_append.1 (hpend.mem_iff.1 hr)
  have hframe : ∀ x : BuildRecord, Apart br x → ∀ i, x.begin ≤ i → i < x.end_ →
      primAt st2.prims i = primAt st1.prims i := by
    intro x hx i hi1 hi2
    apply hPW.2
    unfold Apart at hx
    omega
  have hlen2 : st2.prims.length = n := by rw [hPW.1.length_eq, h1]
  have hself : ∀ r : BuildRecord, r.within n → InRange r r := fun r hr => inRange_self r hr.1
  have hwin : ∀ r : BuildRecord, InRange br r → r.within n := by
    intro r hr
    unfold InRange at hr
    unfold BuildRecord.within at *
    omega
  refine ⟨hlen2, ?_, ?_, ?_, ?_, boxesStored_step st1 st2 h6 hBP, ?_, hPP8, ?_⟩
  rotate_right
  · intro w hw a num hwl
    rcases hL4 w hw with hw1 | hw1
    · obtain ⟨l, hlm, hpar⟩ := h9 w hw1 a num hwl
      exact ⟨l, by rw [hl]; exact List.mem_append_left _ hlm, hpar⟩
    · exact hw1 a num hwl
  · intro r hr
    constructor
    · rcases hmemp r hr with hr1 | hr1
      · exact hwin r (hP r hr1).1
      · exact (h2 r hr1).1
    · rcases hL2 r hr with hr1 | hr1
      · exact anchored_mono st1 st2 r hsub (h2 r hr1).2
      · exact hr1
  · refine (hpend.pairwise_iff (fun hab => apart_symm hab)).2 ?_
    rw [List.pairwise_append]
    refine ⟨hPP, h3, ?_⟩
    intro p hpm r hrm
    exact apart_of_apart_ranges br r p r (hbrA r hrm) (hP p hpm).1 (hself r (h2 r hrm).1)
  · intro l hlm
    have hanch : st2.anchored l.1 := by
      rcases hL1 l hlm with hl1 | hl1
      · exact anchored_mono st1 st2 _ hsub (h4 l hl1).2.2.1
      · exact hl1
    rw [hl, List.mem_append] at hlm
    rcases hlm with hlm | hlm
    · obtain ⟨a, b, _, d⟩ := h4 l hlm
      have hA : Apart br l.1 := hbl l (by rw [← hp.2.2.2.2.2.2.2.1]; exact hlm)
      refine ⟨?_, b, hanch, ?_⟩
      · rw [a]
        apply primsOf_congr
        intro i hi1 hi2
        exact (hframe l.1 hA i hi1 hi2).symm
      · intro r hr
        rcases hmemp r hr with hr1 | hr1
        · exact apart_of_apart_ranges br l.1 r l.1 hA (hP r hr1).1 (hself _ b)
        · exact d r hr1
    · obtain ⟨a, b⟩ := hL l hlm
      refine ⟨a, hwin _ b, hanch, ?_⟩
      intro r hr
      rcases hmemp r hr with hr1 | hr1
      · exact (hP r hr1).2.2 l hlm
      · exact apart_of_apart_ranges r br r l.1 (apart_symm (hbrA r hr1))
          (hself r (h2 r hr1).1) b
  · intro e hem
    rw [hlog, List.mem_append] at hem
    rcases hem with hem | hem
    · obtain ⟨a, b, c⟩ := h5 e hem
      have hLm : Lam br e.2.2 := hbe e (by rw [← hp.2.2.2.2.2.2.2.2.2]; exact hem)
      refine ⟨a, ?_, ?_⟩
      · rw [b]
        by_cases hin : e.2.2.begin ≤ br.begin ∧ br.end_ ≤ e.2.2.end_
        · exact (rangeUnion_perm st1.prims st2.prims _ _ (permWithin_widen hPW hin.1 hin.2)
            a.1 (by rw [h1]; exact a.2)).symm
        · apply rangeUnion_congr
          intro i hi1 hi2
          symm
          apply hPW.2
          unfold Lam at hLm
          omega
      · intro r hr
        rcases hmemp r hr with hr1 | hr1
        · exact lam_of_inRange_lam br r e.2.2 (hP r hr1).1 hLm
        · exact c r hr1
    · obtain ⟨a, b⟩ := hE e hem
      refine ⟨hwin _ a, b, ?_⟩
      intro r hr
      rcases hmemp r hr with hr1 | hr1
      · exact (hP r hr1).2.1 e hem
      · exact lam_of_apart_ranges r br r e.2.2 (apart_symm (hbrA r hr1))
          (hself r (h2 r hr1).1) a
  · intro w hw m hm
    obtain ⟨hle, _, logB, hlogB, hEB, _⟩ := hBP
    rcases hL3 w hw with hw1 | hw1
    · obtain ⟨a, b⟩ := h7 w hw1 m hm
      refine ⟨by omega, ?_⟩
      intro k i hk
      obtain ⟨c, hc, hin⟩ := b k i hk
      refine ⟨c, hsub _ hc, ?_⟩
      intro x hx hxm
      rw [hlogB, List.mem_append] at hx
      rcases hx with hx | hx
      · exact hin x hx hxm
      · have := (hEB x hx).1
        omega
    · obtain ⟨_, a, b⟩ := hw1 m hm
      exact ⟨a, b⟩

/-! ## Bounds soundness of a build -/

theorem mem_primsOf_contains (P : List PrimRef) (r c : BuildRecord) (p : PrimRef)
    (hp : p ∈ r.primsOf P) (h1 : c.begin ≤ r.begin) (h2 : r.end_ ≤ c.end_) :
    (rangeUnion P c.begin c.end_).contains p.bounds := by
  simp only [BuildRecord.primsOf, List.mem_map, mem_indices] at hp
  obtain ⟨i, hi, rfl⟩ := hp
  exact (contains_rangeUnion_iff _ _ _ _).1 (contains_refl _) i (by omega) (by omega)

/-- The bounds invariant gives bounds soundness. -/
theorem sound_of_boundsOK (n : Nat) (st : State) (h : st.boundsOK n) : st.boxesSound := by
  obtain ⟨_, _, _, h4, h5, ⟨h6a, h6b⟩, h7, h8, h9⟩ := h
  have hleaf : ∀ l ∈ st.leafCalls, ∀ k i, l.1.parent = Slot.child k i →
      ∀ p ∈ l.2, (st.boxAt k i).contains p.bounds := by
    intro l hl k i hpar p hp
    obtain ⟨a, _, c, _⟩ := h4 l hl
    obtain ⟨c0, hc0, hb, he⟩ := c k i hpar
    rw [(h6a _ hc0).2.2]
    simp only
    rw [(h5 _ hc0).2.1]
    simp only
    rw [a] at hp
    exact mem_primsOf_contains st.prims l.1 c0 p hp (by omega) (by omega)
  refine ⟨?_, h6b, hleaf, ?_, ?_⟩
  · intro e he
    obtain ⟨a, b, c⟩ := h6a e he
    obtain ⟨_, hex, _⟩ := h5 e he
    refine ⟨a, b, c, hex, ?_, ?_⟩
    · intro l hl h1 h2 p hp
      rw [hex]
      rw [(h4 l hl).1] at hp
      exact mem_primsOf_contains st.prims l.1 e.2.2 p hp h1 h2
    · intro e' he' h1 h2
      rw [hex, (h5 e' he').2.1]
      exact rangeUnion_mono _ _ _ _ _ h1 h2
  · intro k i a num hc
    rcases h8 k i with he | hw
    · rw [hc] at he
      cases he
    · rw [hc] at hw
      obtain ⟨l, hl, hpar⟩ := h9 _ hw a num rfl
      exact ⟨l, hl, hpar, hleaf l hl k i hpar⟩
  · intro k i m hc j hj
    rcases h8 k i with he | hw
    · rw [hc] at he
      cases he
    · rw [hc] at hw
      obtain ⟨hm, hnest⟩ := h7 _ hw m rfl
      obtain ⟨c0, hc0, hin⟩ := hnest k i rfl
      rw [(h6a _ hc0).2.2]
      simp only
      rcases h6b m j hm hj with ⟨c1, hc1⟩ | hemp
      · rw [(h6a _ hc1).2.2, (h5 _ hc0).2.1, (h5 _ hc1).2.1]
        simp only
        have := hin _ hc1 rfl
        unfold InRange at this
        exact rangeUnion_mono _ _ _ _ _ this.1 this.2.2
      · rw [hemp]
        exact contains_empty _

theorem clear_childAt (i : Nat) : Node.clear.children.getD i NodeRef.empty = NodeRef.empty := by
  simp only [Node.clear, List.getD_eq_getElem?_getD, List.getElem?_replicate]
  split <;> rfl

theorem start_boundsOK (threadCount numPrimitives : Nat)
    (prims : List PrimRef) (pinfo : CentGeomBBox3fa) (hlen : prims.length = numPrimitives) :
    ({ initialState prims pinfo with
        threadStack := List.replicate threadCount [],
        heap := [rootRecord pinfo numPrimitives] } : State).boundsOK numPrimitives := by
  have hpend : ({ initialState prims pinfo with
        threadStack := List.replicate threadCount [],
        heap := [rootRecord pinfo numPrimitives] } : State).pending =
      [rootRecord pinfo numPrimitives] := by
    unfold State.pending
    simp only [flatten_replicate_nil, List.append_nil]
  refine ⟨hlen, ?_, ?_, ?_, ?_, ⟨?_, ?_⟩, ?_, ?_, ?_⟩
  · intro r hr
    rw [hpend, List.mem_singleton] at hr
    subst hr
    refine ⟨⟨Nat.zero_le _, le_refl _⟩, ?_⟩
    intro k i hp
    simp [rootRecord] at hp
  · rw [hpend]
    exact List.pairwise_singleton _ _
  · intro l hl
    simp [initialState] at hl
  · intro e he
    simp [initialState] at he
  · intro e he
    simp [initialState] at he
  · intro k i hk
    simp [initialState] at hk
  · intro w hw
    simp [initialState] at hw
  · intro k i
    left
    have e : ({ initialState prims pinfo with
        threadStack := List.replicate threadCount [],
        heap := [rootRecord pinfo numPrimitives] } : State).childAt k i =
        Node.clear.children.getD i NodeRef.empty := by
      cases k <;> rfl
    rw [e]
    exact clear_childAt i
  · intro w hw
    simp [initialState] at hw

/-- The bounds invariant holds of the memory that a parallel build leaves,
whatever the order in which the workers take the records. -/
theorem parallel_boundsOK (env : Env) (n : Nat) (hsplit : ∀ m, SplitsExactly env m n)
    (hn : n + env.minLeafSize < 2 ^ 64) (threadIndex threadCount : Nat)
    (prims : List PrimRef) (pinfo : CentGeomBBox3fa) (fuel : Nat) (st1 st' : State)
    (hlen : prims.length = n)
    (h1 : build_parallel_toplevel env threadIndex threadCount n prims pinfo fuel =
      Outcome.done st1) (h2 : SubtreeRun env threadCount st1 st') : st'.boundsOK n := by
  rw [build_parallel_toplevel_eq] at h1
  have hdrop : ∀ st br st1, (st.depthsOK env ∧ st.boundsOK n) → Popped st br st1 →
      (st1.depthsOK env ∧ st1.boundsOK n) := fun st br st1 hI hp =>
    ⟨depthsOK_drop env st br st1 hI.1 hp, boundsOK_drop n st br st1 hI.2 hp⟩
  have hstep : ∀ t mode st br st1 st2, (st.depthsOK env ∧ st.boundsOK n) → Popped st br st1 →
      (mode = Mode.BUILD_TOP_LEVEL ∨ t < st.threadStack.length) →
      recurse env t mode br st1 = Outcome.done st2 →
      (st2.depthsOK env ∧ st2.boundsOK n) := fun t mode st br st1 st2 hI hp _ hr =>
    ⟨depthsOK_recurse env t mode st br st1 st2 hI.1 hp hr,
      boundsOK_recurse env n (fun m _ => hsplit m) hn t mode st br st1 st2 (fun _ => hsplit _)
        (hI.1.2.2 br (hp.1.mem_iff.2 (List.mem_cons_self _ _))).1 hI.2 hp hr⟩
  obtain ⟨hI1, hl1⟩ := topLevelLoop_inv env (fun s => s.depthsOK env ∧ s.boundsOK n)
    hdrop hstep threadIndex threadCount fuel _ st1
    ⟨start_depthsOK env threadCount n prims pinfo, start_boundsOK threadCount n prims pinfo hlen⟩
    h1
  exact (subtreeRun_inv env (fun s => s.depthsOK env ∧ s.boundsOK n) hstep threadCount st1 st'
    h2 hI1 (by rw [hl1]; simp)).1.2

theorem sequential_boundsOK (env : Env) (n : Nat)
    (hseq : ∀ m, m ≠ Mode.BUILD_TOP_LEVEL → SplitsExactly env m n)
    (hn : n + env.minLeafSize < 2 ^ 64) (threadIndex : Nat)
    (prims : List PrimRef) (pinfo : CentGeomBBox3fa) (st' : State) (hlen : prims.length = n)
    (h : build_sequential env threadIndex n prims pinfo = Outcome.done st') :
    st'.boundsOK n := by
  have h0 : ({ initialState prims pinfo with
      heap := [rootRecord pinfo n] } : State).boundsOK n := by
    have := start_boundsOK 0 n prims pinfo hlen
    simpa [initialState] using this
  refine boundsOK_recurse env n hseq hn threadIndex Mode.RECURSE_SEQUENTIAL _
    (rootRecord pinfo n) (initialState prims pinfo) st' (fun hm => by cases hm)
    (by simp [rootRecord, State.hasSlot]) h0 ?_ h
  refine ⟨?_, rfl, rfl, rfl, rfl, rfl, rfl, rfl, rfl, rfl⟩
  simp [State.pending, initialState]

/-- What a call leaves, from its exactness and the boxes of its nodes. -/
theorem sound_of_exactPost (n : Nat) (cur : BuildRecord) (st st' : State)
    (hE : ExactPost n cur st st') (hB : st.hasSlot cur.parent → BoxPost st st')
    (hw : cur.within n) (hlen : st.prims.length = n) :
    ∃ leaves log, st'.leafCalls = st.leafCalls ++ leaves ∧ st'.setLog = st.setLog ++ log ∧
      (∀ e ∈ log,
        e.2.2.geomBounds = rangeUnion st'.prims e.2.2.begin e.2.2.end_ ∧
        (∀ l ∈ leaves, e.2.2.begin ≤ l.1.begin → l.1.end_ ≤ e.2.2.end_ →
          ∀ p ∈ l.2, e.2.2.geomBounds.contains p.bounds) ∧
        (∀ e' ∈ log, e.2.2.begin ≤ e'.2.2.begin → e'.2.2.end_ ≤ e.2.2.end_ →
          e.2.2.geomBounds.contains e'.2.2.geomBounds)) ∧
      (st.hasSlot cur.parent → ∀ e ∈ log, e.1 < st'.nodes.length ∧ e.2.1 < BVH4.N ∧
        st'.boxAt e.1 e.2.1 = e.2.2.geomBounds) := by
  obtain ⟨_, leaves, log, _, hl, hlog, _, hL, hEx, _⟩ := hE hw hlen
  refine ⟨leaves, log, hl, hlog, ?_, ?_⟩
  · intro e he
    have hee := (hEx e he).2
    refine ⟨hee, ?_, ?_⟩
    · intro l hll h1 h2 p hp
      rw [hee]
      rw [(hL l hll).1] at hp
      exact mem_primsOf_contains st'.prims l.1 e.2.2 p hp h1 h2
    · intro e' he' h1 h2
      rw [hee, (hEx e' he').2]
      exact rangeUnion_mono _ _ _ _ _ h1 h2
  · intro hs e he
    obtain ⟨_, _, logB, hlogB, hEB, _⟩ := hB hs
    have : logB = log := List.append_cancel_left (hlogB.symm.trans hlog)
    subst this
    obtain ⟨_, a, b, c⟩ := hEB e he
    exact ⟨a, b, c⟩

theorem split_fallbackEnv (layout : Layout) (m : Nat) (mode : Mode) (P : List PrimRef)
    (r : BuildRecord) : split (fallbackEnv layout m) mode P r = (P, splitFallback P r) := by
  unfold split splitParallel splitSequential
  split <;> rfl

/-- The median fallback is an exact splitter in every mode. -/
theorem fallbackEnv_splitsExactly (layout : Layout) (m n : Nat) (hn : n ≤ 2 ^ 32) (mode : Mode) :
    SplitsExactly (fallbackEnv layout m) mode n := by
  intro P r hP hw hsz
  rw [split_fallbackEnv]
  obtain ⟨h1, h2, h3, h4, h5, h6⟩ := fallbackEnv_splitsWithinRange layout m n hn P r hP hw hsz
  obtain ⟨e1, e2⟩ := fallbackEnv_exactBounds layout m n P r hP hw hsz
  exact ⟨h1, h2, h3, h4, h5, h6, e1, e2⟩

/-- C3. Bounds soundness, in every mode and in every build. The splitter
hypotheses say that the binners (sequential, and parallel at top level), on a
well-formed record inside the array with more than `minLeafSize` primitives,
permute the array inside the range of the record only and return two
adjacent parts whose records satisfy the `PrimInfo` invariant (`geomBounds`
is the union of the boxes of `prims[begin..end)`).
(1) For a `recurse` call in any mode on a well-formed record inside the array
that ends without error: every box written by
`node->set(i, children[i].geomBounds)` during the call is the union of the
boxes of the primitives that the final array holds in the range of child
`i`; therefore it contains the box of every primitive read by every leaf of
the call whose range lies inside that range, and every box stored by the call
for a range inside that range; and, if the parent of the record is a slot of
the memory, each such call was on a slot `i < 4` of a node that holds the box
in that slot when the call returns.
(2) The same holds for every `createLeaf` call that ends without error, with
no assumption on the splitter.
(3), (4), (5) The memory that a sequential build, a parallel build, and the
top-level loop followed by any run of the subtree phase (the workers taking
the records in any order) leave satisfies `boxesSound`: every node holds in
each slot the box of the `node->set` call on that slot, or the empty box if
there was none; each box is the union of the boxes of the primitives of its
range; the box of a slot that holds a leaf contains the box of every
primitive of that leaf; and the box of a slot that holds a node contains
every box which that node holds. -/
theorem bounds_soundness (env : Env) :
    (∀ (threadID n : Nat) (mode : Mode) (cur : BuildRecord) (st st' : State),
      cur.within n → st.prims.length = n → n + env.minLeafSize < 2 ^ 64 →
      SplitsWithinRange env n → SplitsWithExactBounds env n →
      (mode = Mode.BUILD_TOP_LEVEL → SplitsExactly env Mode.BUILD_TOP_LEVEL n) →
      recurse env threadID mode cur st = Outcome.done st' →
      ∃ leaves log, st'.leafCalls = st.leafCalls ++ leaves ∧ st'.setLog = st.setLog ++ log ∧
        (∀ e ∈ log,
          e.2.2.geomBounds = rangeUnion st'.prims e.2.2.begin e.2.2.end_ ∧
          (∀ l ∈ leaves, e.2.2.begin ≤ l.1.begin → l.1.end_ ≤ e.2.2.end_ →
            ∀ p ∈ l.2, e.2.2.geomBounds.contains p.bounds) ∧
          (∀ e' ∈ log, e.2.2.begin ≤ e'.2.2.begin → e'.2.2.end_ ≤ e.2.2.end_ →
            e.2.2.geomBounds.contains e'.2.2.geomBounds)) ∧
        (st.hasSlot cur.parent → ∀ e ∈ log, e.1 < st'.nodes.length ∧ e.2.1 < BVH4.N ∧
          st'.boxAt e.1 e.2.1 = e.2.2.geomBounds)) ∧
    (∀ (cur : BuildRecord) (st st' : State),
      cur.within st.prims.length → cur.end_ + env.minLeafSize < 2 ^ 64 →
      createLeaf env cur st = Outcome.done st' →
      ∃ leaves log, st'.leafCalls = st.leafCalls ++ leaves ∧ st'.setLog = st.setLog ++ log ∧
        (∀ e ∈ log,
          e.2.2.geomBounds = rangeUnion st'.prims e.2.2.begin e.2.2.end_ ∧
          (∀ l ∈ leaves, e.2.2.begin ≤ l.1.begin → l.1.end_ ≤ e.2.2.end_ →
            ∀ p ∈ l.2, e.2.2.geomBounds.contains p.bounds) ∧
          (∀ e' ∈ log, e.2.2.begin ≤ e'.2.2.begin → e'.2.2.end_ ≤ e.2.2.end_ →
            e.2.2.geomBounds.contains e'.2.2.geomBounds)) ∧
        (st.hasSlot cur.parent → ∀ e ∈ log, e.1 < st'.nodes.length ∧ e.2.1 < BVH4.N ∧
          st'.boxAt e.1 e.2.1 = e.2.2.geomBounds)) ∧
    (∀ (threadIndex numPrimitives : Nat) (prims : List PrimRef) (pinfo : CentGeomBBox3fa)
      (st' : State),
      prims.length = numPrimitives → numPrimitives + env.minLeafSize < 2 ^ 64 →
      SplitsWithinRange env numPrimitives → SplitsWithExactBounds env numPrimitives →
      build_sequential env threadIndex numPrimitives prims pinfo = Outcome.done st' →
      st'.boxesSound) ∧
    (∀ (threadIndex threadCount numPrimitives : Nat) (prims : List PrimRef)
      (pinfo : CentGeomBBox3fa) (fuel : Nat) (st' : State),
      prims.length = numPrimitives → numPrimitives + env.minLeafSize < 2 ^ 64 →
      SplitsWithinRange env numPrimitives → SplitsWithExactBounds env numPrimitives →
      SplitsExactly env Mode.BUILD_TOP_LEVEL numPrimitives →
      build_parallel env threadIndex threadCount numPrimitives prims pinfo fuel =
        Outcome.done st' →
      st'.boxesSound) ∧
    (∀ (threadIndex threadCount numPrimitives : Nat) (prims : List PrimRef)
      (pinfo : CentGeomBBox3fa) (fuel : Nat) (st1 st' : State),
      prims.length = numPrimitives → numPrimitives + env.minLeafSize < 2 ^ 64 →
      SplitsWithinRange env numPrimitives → SplitsWithExactBounds env numPrimitives →
      SplitsExactly env Mode.BUILD_TOP_LEVEL numPrimitives →
      build_parallel_toplevel env threadIndex threadCount numPrimitives prims pinfo fuel =
        Outcome.done st1 →
      SubtreeRun env threadCount st1 st' →
      st'.boxesSound) := by
  have hall : ∀ n, SplitsWithinRange env n → SplitsWithExactBounds env n →
      SplitsExactly env Mode.BUILD_TOP_LEVEL n → ∀ m, SplitsExactly env m n := by
    intro n h1 h2 h3 m
    by_cases hm : m = Mode.BUILD_TOP_LEVEL
    · rw [hm]
      exact h3
    · exact splitsExactly_of_sequential env n h1 h2 m hm
  refine ⟨?_, ?_, ?_, ?_, ?_⟩
  · intro threadID n mode cur st st' hw hlen hn hs hx htop h
    exact sound_of_exactPost n cur st st'
      (recurse_exactPost env threadID n (splitsExactly_of_sequential env n hs hx) hn mode
        cur st st' h htop)
      (recurse_boxes env threadID mode cur st st' h) hw hlen
  · intro cur st st' hw hm h
    obtain ⟨hc, he⟩ := (createLeaf_exact env cur st st' h).2 hw hm
    obtain ⟨leaves, log, hl, hlog, hsound⟩ := sound_of_exact cur st st' hc he
    refine ⟨leaves, log, hl, hlog, hsound, ?_⟩
    intro hs e hel
    obtain ⟨_, _, logB, hlogB, hEB, _⟩ := (createLeaf_boxes env cur st st' h).2 hs
    have : logB = log := List.append_cancel_left (hlogB.symm.trans hlog)
    subst this
    obtain ⟨_, a, b, c⟩ := hEB e hel
    exact ⟨a, b, c⟩
  · intro threadIndex n prims pinfo st' hlen hn hs hx h
    exact sound_of_boundsOK n st'
      (sequential_boundsOK env n (splitsExactly_of_sequential env n hs hx) hn threadIndex
        prims pinfo st' hlen h)
  · intro threadIndex threadCount n prims pinfo fuel st' hlen hn hs hx ht h
    obtain ⟨st1, h1, h2⟩ := build_parallel_run env threadIndex threadCount n prims pinfo fuel
      st' h
    exact sound_of_boundsOK n st'
      (parallel_boundsOK env n (hall n hs hx ht) hn threadIndex threadCount prims pinfo fuel
        st1 st' hlen h1 h2)
  · intro threadIndex threadCount n prims pinfo fuel st1 st' hlen hn hs hx ht h1 h2
    exact sound_of_boundsOK n st'
      (parallel_boundsOK env n (hall n hs hx ht) hn threadIndex threadCount prims pinfo fuel
        st1 st' hlen h1 h2)

theorem bounds_soundness_witness :
    ((samplePrims 5).length = 5 ∧ 5 + (fallbackEnv Layout.triangle1 2).minLeafSize < 2 ^ 64 ∧
      SplitsWithinRange (fallbackEnv Layout.triangle1 2) 5 ∧
      SplitsWithExactBounds (fallbackEnv Layout.triangle1 2) 5 ∧
      build_sequential (fallbackEnv Layout.triangle1 2) 0 5 (samplePrims 5)
          (scanBounds (samplePrims 5) 0 5) =
        Outcome.done (build_sequential (fallbackEnv Layout.triangle1 2) 0 5 (samplePrims 5)
          (scanBounds (samplePrims 5) 0 5)).state ∧
      (build_sequential (fallbackEnv Layout.triangle1 2) 0 5 (samplePrims 5)
          (scanBounds (samplePrims 5) 0 5)).state.setLog.length = 3 ∧
      (build_sequential (fallbackEnv Layout.triangle1 2) 0 5 (samplePrims 5)
          (scanBounds (samplePrims 5) 0 5)).state.boxesSound) ∧
    ((samplePrims 9).length = 9 ∧ 9 + (fallbackEnv Layout.triangle1 2).minLeafSize < 2 ^ 64 ∧
      SplitsWithinRange (fallbackEnv Layout.triangle1 2) 9 ∧
      SplitsWithExactBounds (fallbackEnv Layout.triangle1 2) 9 ∧
      SplitsExactly (fallbackEnv Layout.triangle1 2) Mode.BUILD_TOP_LEVEL 9 ∧
      build_parallel (fallbackEnv Layout.triangle1 2) 0 2 9 (samplePrims 9)
          (scanBounds (samplePrims 9) 0 9) 20 =
        Outcome.done (build_parallel (fallbackEnv Layout.triangle1 2) 0 2 9 (samplePrims 9)
          (scanBounds (samplePrims 9) 0 9) 20).state ∧
      (build_parallel (fallbackEnv Layout.triangle1 2) 0 2 9 (samplePrims 9)
          (scanBounds (samplePrims 9) 0 9) 20).state.setLog.length = 6 ∧
      (build_parallel (fallbackEnv Layout.triangle1 2) 0 2 9 (samplePrims 9)
          (scanBounds (samplePrims 9) 0 9) 20).state.boxesSound) :=
  ⟨⟨by decide, by decide, fallbackEnv_splitsWithinRange Layout.triangle1 2 5 (by norm_num),
    fallbackEnv_exactBounds Layout.triangle1 2 5,
    Outcome.eq_done_of_isDone _ (by decide), by decide,
    (bounds_soundness (fallbackEnv Layout.triangle1 2)).2.2.1 0 5 (samplePrims 5)
      (scanBounds (samplePrims 5) 0 5) _ (by decide) (by decide)
      (fallbackEnv_splitsWithinRange Layout.triangle1 2 5 (by norm_num))
      (fallbackEnv_exactBounds Layout.triangle1 2 5)
      (Outcome.eq_done_of_isDone _ (by decide))⟩,
   ⟨by decide, by decide, fallbackEnv_splitsWithinRange Layout.triangle1 2 9 (by norm_num),
    fallbackEnv_exactBounds Layout.triangle1 2 9,
    fallbackEnv_splitsExactly Layout.triangle1 2 9 (by norm_num) Mode.BUILD_TOP_LEVEL,
    Outcome.eq_done_of_isDone _ (by decide), by decide,
    (bounds_soundness (fallbackEnv Layout.triangle1 2)).2.2.2.1 0 2 9 (samplePrims 9)
      (scanBounds (samplePrims 9) 0 9) 20 _ (by decide) (by decide)
      (fallbackEnv_splitsWithinRange Layout.triangle1 2 9 (by norm_num))
      (fallbackEnv_exactBounds Layout.triangle1 2 9)
      (fallbackEnv_splitsExactly Layout.triangle1 2 9 (by norm_num) Mode.BUILD_TOP_LEVEL)
      (Outcome.eq_done_of_isDone _ (by decide))⟩⟩

end embree
